import Mathlib

/-!
# The URL parsing state machine of `ada` (`src/parser.cpp`)

A shallow embedding of `ada::parser::parse_url_impl` instantiated at the split
record `ada::url`.  Byte strings are lists of characters, one character per
byte.  The main `while`/`switch` of the source is a step function on an
explicit machine state (`state`, `url`, `input_position`), iterated by `run`.

The helpers that `parser.cpp` calls but that live in other translation units
(`helpers`, `checkers`, `unicode`, the `url` record and its mutators) are
modelled from the specification; the percent-encode bitmaps and the host
parser (IDNA, IPv4, IPv6) are parameters of the development (`environment`).
-/

namespace ada

/-! ## Byte classifiers (`checkers`, `unicode`) -/

/-- Modelled from the spec: `checkers::is_alpha`, an ASCII letter. -/
def is_alpha (c : Char) : Bool :=
  (97 ≤ c.toNat && c.toNat ≤ 122) || (65 ≤ c.toNat && c.toNat ≤ 90)

/-- Modelled from the spec: `checkers::is_digit`, an ASCII digit. -/
def is_digit (c : Char) : Bool :=
  48 ≤ c.toNat && c.toNat ≤ 57

/-- Modelled from the spec: `unicode::is_alnum_plus`, alphanumeric or one of
`+`, `-`, `.` (declared in `unicode.h`). -/
def is_alnum_plus (c : Char) : Bool :=
  is_alpha c || is_digit c || c == '+' || c == '-' || c == '.'

/-- Modelled from the spec: `unicode::is_c0_control_or_space`, a byte in the
range U+0000 to U+0020 inclusive (declared in `unicode.h`). -/
def is_c0_control_or_space (c : Char) : Bool :=
  c.toNat ≤ 32

/-- Modelled from the spec: `unicode::is_ascii_tab_or_newline`, one of
U+0009, U+000A, U+000D (declared in `unicode.h`). -/
def is_ascii_tab_or_newline (c : Char) : Bool :=
  c == '\t' || c == '\n' || c == '\r'

/-- Modelled from the spec: `unicode::has_tabs_or_newline`, the scan for a
tab, line feed or carriage return (declared in `unicode.h`). -/
def has_tabs_or_newline (user_input : List Char) : Bool :=
  user_input.any is_ascii_tab_or_newline

/-- Modelled from the spec: `unicode::to_lower_ascii` on one byte. -/
def to_lower_ascii (c : Char) : Char :=
  if 65 ≤ c.toNat && c.toNat ≤ 90 then Char.ofNat (c.toNat + 32) else c

/-- The byte `s[i]`; the source only reads it for `i < s.size()`. -/
def char_at (s : List Char) (i : Nat) : Char :=
  s.getD i (Char.ofNat 0)

/-- Modelled from the spec: `std::string_view::find(c)`; `none` is `npos`. -/
def find (view : List Char) (c : Char) : Option Nat :=
  match view with
  | [] => none
  | x :: xs => if x == c then some 0 else (find xs c).map (fun i => i + 1)

/-- Modelled from the spec: `std::string::rfind(c)`; `none` is `npos`. -/
def rfind (view : List Char) (c : Char) : Option Nat :=
  match view with
  | [] => none
  | x :: xs =>
    match rfind xs c with
    | some i => some (i + 1)
    | none => if x == c then some 0 else none

/-- The index of the first byte of `view` that satisfies `p`, or the length of
`view` when there is none. -/
def find_first (p : Char → Bool) (view : List Char) : Nat :=
  match view with
  | [] => 0
  | x :: xs => if p x then 0 else find_first p xs + 1

/-! ## Percent encoding (`unicode`) -/

/-- An uppercase hexadecimal digit. -/
def hex_digit (n : Nat) : Char :=
  if n < 10 then Char.ofNat (48 + n) else Char.ofNat (55 + n)

/-- Modelled from the spec: `unicode::percent_encode(input, character_set)`
(declared in `unicode.h`): every byte whose bit is set in the character set
becomes `%HH` with uppercase hex digits, other bytes pass through. -/
def percent_encode (input : List Char) (character_set : Char → Bool) : List Char :=
  match input with
  | [] => []
  | c :: cs =>
    (if character_set c then
      ['%', hex_digit (c.toNat / 16 % 16), hex_digit (c.toNat % 16)]
    else [c]) ++ percent_encode cs character_set

/-- Modelled from the spec: the percent-encode bitmaps of `character_sets`,
which the parser takes from a header outside `src/`; each is the predicate
"this byte is encoded". -/
structure character_sets where
  C0_CONTROL_PERCENT_ENCODE : Char → Bool
  FRAGMENT_PERCENT_ENCODE : Char → Bool
  QUERY_PERCENT_ENCODE : Char → Bool
  SPECIAL_QUERY_PERCENT_ENCODE : Char → Bool
  PATH_PERCENT_ENCODE : Char → Bool
  USERINFO_PERCENT_ENCODE : Char → Bool

/-- The parameters of the development: the character sets, and the host parser
of section 4.2 of the specification (IPv6, opaque host, domain-to-ASCII, IPv4)
as a function from `is_not_special` and the host bytes to the serialized host,
`none` on failure. -/
structure environment where
  sets : character_sets
  host_parse : Bool → List Char → Option (List Char)

/-! ## Schemes (`scheme`) -/

/-- Modelled from the spec: `scheme::type`, the discriminant of the special
schemes. -/
inductive scheme_type where
  | HTTP
  | NOT_SPECIAL
  | HTTPS
  | WS
  | FTP
  | WSS
  | FILE
deriving DecidableEq, Repr

/-- Modelled from the spec: `scheme::get_scheme_type`, the lookup of a
lowercase scheme in the special schemes table. -/
def get_scheme_type (scheme : List Char) : scheme_type :=
  if scheme = ['h', 't', 't', 'p'] then scheme_type.HTTP
  else if scheme = ['h', 't', 't', 'p', 's'] then scheme_type.HTTPS
  else if scheme = ['w', 's'] then scheme_type.WS
  else if scheme = ['f', 't', 'p'] then scheme_type.FTP
  else if scheme = ['w', 's', 's'] then scheme_type.WSS
  else if scheme = ['f', 'i', 'l', 'e'] then scheme_type.FILE
  else scheme_type.NOT_SPECIAL

/-- Modelled from the spec: the special schemes table (scheme to default
port); `0` stands for "no default port". -/
def get_special_port (type : scheme_type) : Nat :=
  match type with
  | scheme_type.HTTP => 80
  | scheme_type.HTTPS => 443
  | scheme_type.WS => 80
  | scheme_type.FTP => 21
  | scheme_type.WSS => 443
  | scheme_type.FILE => 0
  | scheme_type.NOT_SPECIAL => 0

/-! ## The URL record (`url`) -/

/-- Modelled from the spec: the split record `ada::url` of section 3.  The
path is the serialized pathname, the host the serialized host. -/
structure url where
  is_valid : Bool := true
  has_opaque_path : Bool := false
  type : scheme_type := scheme_type.NOT_SPECIAL
  non_special_scheme : List Char := []
  username : List Char := []
  password : List Char := []
  host : Option (List Char) := none
  port : Option Nat := none
  path : List Char := []
  query : Option (List Char) := none
  hash : Option (List Char) := none
deriving DecidableEq, Repr

/-- Modelled from the spec: `url::is_special`. -/
def url.is_special (u : url) : Bool :=
  u.type != scheme_type.NOT_SPECIAL

/-- Modelled from the spec: `url::scheme_default_port`. -/
def url.scheme_default_port (u : url) : Nat :=
  get_special_port u.type

/-- Modelled from the spec: `url::get_protocol` without the colon, the scheme
of the record. -/
def url.get_scheme (u : url) : List Char :=
  match u.type with
  | scheme_type.HTTP => ['h', 't', 't', 'p']
  | scheme_type.HTTPS => ['h', 't', 't', 'p', 's']
  | scheme_type.WS => ['w', 's']
  | scheme_type.FTP => ['f', 't', 'p']
  | scheme_type.WSS => ['w', 's', 's']
  | scheme_type.FILE => ['f', 'i', 'l', 'e']
  | scheme_type.NOT_SPECIAL => u.non_special_scheme

/-- Modelled from the spec: `url::parse_scheme` without state override: the
scheme is lowercased and classified; a non-special scheme is stored.  It
always succeeds. -/
def url.parse_scheme (u : url) (input : List Char) : Bool × url :=
  let lowered := input.map to_lower_ascii
  let parsed_type := get_scheme_type lowered
  if parsed_type != scheme_type.NOT_SPECIAL then
    (true, { u with type := parsed_type })
  else
    (true, { u with type := parsed_type, non_special_scheme := lowered })

/-- Modelled from the spec: `url::copy_scheme`. -/
def url.copy_scheme (u : url) (other : url) : url :=
  { u with type := other.type, non_special_scheme := other.non_special_scheme }

/-- Modelled from the spec: `url::set_protocol_as_file`. -/
def url.set_protocol_as_file (u : url) : url :=
  { u with type := scheme_type.FILE }

/-- Modelled from the spec: `url::update_base_hostname`. -/
def url.update_base_hostname (u : url) (input : List Char) : url :=
  { u with host := some input }

/-- Modelled from the spec: `url::update_base_pathname`. -/
def url.update_base_pathname (u : url) (input : List Char) : url :=
  { u with path := input }

/-- Modelled from the spec: `url::update_base_search(input, set)`: the query
is the percent-encoding of the input with the given set. -/
def url.update_base_search (u : url) (input : List Char) (query_percent_encode_set : Char → Bool) :
    url :=
  { u with query := some (percent_encode input query_percent_encode_set) }

/-- Modelled from the spec: `url::update_unencoded_base_hash`: the fragment is
the percent-encoding of the input with the fragment set. -/
def url.update_unencoded_base_hash (u : url) (sets : character_sets) (input : List Char) : url :=
  { u with hash := some (percent_encode input sets.FRAGMENT_PERCENT_ENCODE) }

/-- Modelled from the spec: `url::clear_search`. -/
def url.clear_search (u : url) : url :=
  { u with query := none }

/-- Modelled from the spec: `url::clear_pathname`. -/
def url.clear_pathname (u : url) : url :=
  { u with path := [] }

/-- Modelled from the spec: `url::get_pathname`. -/
def url.get_pathname (u : url) : List Char :=
  u.path

/-- Modelled from the spec: `url::parse_host`: the host parser of the
environment is run with `is_not_special`; on success the host is stored, on
failure the record becomes invalid. -/
def url.parse_host (u : url) (env : environment) (input : List Char) : Bool × url :=
  match env.host_parse (!u.is_special) input with
  | some h => (true, { u with host := some h })
  | none => (false, { u with is_valid := false })

/-- The value of a run of ASCII digits, radix 10. -/
def digits_value (digits : List Char) : Nat :=
  digits.foldl (fun acc d => 10 * acc + (d.toNat - 48)) 0

/-- Modelled from the spec: `url::parse_port(view, check_trailing_content)`:
the longest prefix of ASCII digits is read; a value above 65535 is rejected;
with `check_trailing_content` the digits must be followed by the end of the
view, `/`, `?`, or `\` for a special scheme; the port is stored unless no
digit was read or the value is the default port of the scheme.  Returns the
number of bytes consumed. -/
def url.parse_port (u : url) (view : List Char) (check_trailing_content : Bool) : Nat × url :=
  let digits := view.takeWhile is_digit
  let parsed_port := digits_value digits
  if parsed_port > 65535 then
    (0, { u with is_valid := false })
  else
    let consumed := digits.length
    let u1 : url :=
      if check_trailing_content then
        { u with is_valid := u.is_valid &&
            (consumed == view.length || char_at view consumed == '/' ||
              char_at view consumed == '?' ||
              (u.is_special && char_at view consumed == '\\')) }
      else u
    if u1.is_valid then
      let default_port := u1.scheme_default_port
      let is_port_valid := (default_port == 0 && parsed_port == 0) || default_port != parsed_port
      (consumed, { u1 with port := if !digits.isEmpty && is_port_valid then some parsed_port
                                   else none })
    else
      (consumed, u1)

/-! ## Helpers (`helpers`, `checkers`) -/

/-- Modelled from the spec: `helpers::remove_ascii_tab_or_newline`, every tab,
line feed and carriage return is removed. -/
def remove_ascii_tab_or_newline (input : List Char) : List Char :=
  input.filter (fun c => !is_ascii_tab_or_newline c)

/-- Modelled from the spec: `helpers::trim_c0_whitespace`, leading and then
trailing C0-control-or-space bytes are removed. -/
def trim_c0_whitespace (input : List Char) : List Char :=
  ((input.dropWhile is_c0_control_or_space).reverse.dropWhile is_c0_control_or_space).reverse

/-- Modelled from the spec: `helpers::prune_hash`: the input is cut at its
first `#`; the result is the fragment (the bytes after that `#`), if any, and
the input without it. -/
def prune_hash (input : List Char) : Option (List Char) × List Char :=
  match find input '#' with
  | none => (none, input)
  | some location_of_first => (some (input.drop (location_of_first + 1)),
      input.take location_of_first)

/-- Modelled from the spec: `helpers::find_authority_delimiter_special`, the
position of the first of `@`, `/`, `\`, `?`, or the size of the view. -/
def find_authority_delimiter_special (view : List Char) : Nat :=
  find_first (fun c => c == '@' || c == '/' || c == '\\' || c == '?') view

/-- Modelled from the spec: `helpers::find_authority_delimiter`, the position
of the first of `@`, `/`, `?`, or the size of the view. -/
def find_authority_delimiter (view : List Char) : Nat :=
  find_first (fun c => c == '@' || c == '/' || c == '?') view

/-- The scan of `helpers::get_host_delimiter_location`: outside brackets it
stops at `:`, `/`, `?` (and `\` for a special scheme); a `[` jumps to the next
`]`, and an unclosed `[` runs to the end of the view. -/
def host_delimiter_scan (is_special : Bool) (view : List Char) (inside_brackets : Bool)
    (location : Nat) : Nat × Bool :=
  match view with
  | [] => (location, false)
  | c :: cs =>
    if inside_brackets then
      host_delimiter_scan is_special cs (c != ']') (location + 1)
    else if c == '[' then
      host_delimiter_scan is_special cs true (location + 1)
    else if c == ':' then (location, true)
    else if c == '/' || c == '?' || (is_special && c == '\\') then (location, false)
    else host_delimiter_scan is_special cs false (location + 1)

/-- Modelled from the spec: `helpers::get_host_delimiter_location`: the
location of the host delimiter (at most the size of the view) and whether it
is a colon outside brackets.  The source also cuts the view, passed by
reference, at that location; the state machine below does so itself. -/
def get_host_delimiter_location (is_special : Bool) (view : List Char) : Nat × Bool :=
  host_delimiter_scan is_special view false 0

/-- Modelled from the spec: `checkers::is_windows_drive_letter`: an ASCII
letter, then `:` or `|`, then the end or one of `/`, `\`, `?`, `#`. -/
def is_windows_drive_letter (input : List Char) : Bool :=
  input.length ≥ 2 &&
    (is_alpha (char_at input 0) && (char_at input 1 == ':' || char_at input 1 == '|')) &&
    (input.length == 2 || char_at input 2 == '/' || char_at input 2 == '\\' ||
      char_at input 2 == '?' || char_at input 2 == '#')

/-- Modelled from the spec: `checkers::is_normalized_windows_drive_letter`:
an ASCII letter followed by `:`. -/
def is_normalized_windows_drive_letter (input : List Char) : Bool :=
  input.length ≥ 2 && (is_alpha (char_at input 0) && char_at input 1 == ':')

/-- Modelled from the spec: `helpers::shorten_path(path, type)`: for `file`
a path that is a single normalized Windows drive letter segment is kept;
otherwise the last segment is dropped.  Returns whether the path changed. -/
def shorten_path (path : List Char) (type : scheme_type) : Bool × List Char :=
  if type == scheme_type.FILE && (find (path.drop 1) '/').isNone && !path.isEmpty &&
      is_normalized_windows_drive_letter (path.drop 1) then
    (false, path)
  else
    match rfind path '/' with
    | some last_delimiter => (true, path.take last_delimiter)
    | none => (false, path)

/-- ASCII case-insensitive match of `input` with the lowercase `pattern`. -/
def equals_ignore_case (input : List Char) (pattern : List Char) : Bool :=
  input.map to_lower_ascii == pattern

/-- Modelled from the spec: `unicode::is_double_dot_path_segment`: `..` or a
case-insensitive match of `.%2e`, `%2e.`, `%2e%2e` (declared in `unicode.h`). -/
def is_double_dot_path_segment (input : List Char) : Bool :=
  input == ['.', '.'] || equals_ignore_case input ['.', '%', '2', 'e'] ||
    equals_ignore_case input ['%', '2', 'e', '.'] ||
    equals_ignore_case input ['%', '2', 'e', '%', '2', 'e']

/-- Modelled from the spec: `unicode::is_single_dot_path_segment`: `.` or a
case-insensitive match of `%2e` (declared in `unicode.h`). -/
def is_single_dot_path_segment (input : List Char) : Bool :=
  input == ['.'] || equals_ignore_case input ['%', '2', 'e']

/-- One segment of `helpers::parse_prepared_path`: `path_view` is the segment,
`is_last` says that no separator follows it. -/
def parse_path_segment (sets : character_sets) (type : scheme_type) (path : List Char)
    (path_view : List Char) (is_last : Bool) : List Char :=
  let special := type != scheme_type.NOT_SPECIAL
  let path_buffer := percent_encode path_view sets.PATH_PERCENT_ENCODE
  if is_double_dot_path_segment path_buffer then
    let shortened := shorten_path path type
    if (shortened.1 || special) && is_last then shortened.2 ++ ['/'] else shortened.2
  else if is_single_dot_path_segment path_buffer && is_last then
    path ++ ['/']
  else if !is_single_dot_path_segment path_buffer then
    if type == scheme_type.FILE && path.isEmpty && is_windows_drive_letter path_buffer then
      path ++ ['/', char_at path_buffer 0, ':'] ++ path_buffer.drop 2
    else
      path ++ ['/'] ++ path_buffer
  else path

/-- The segment loop of `helpers::parse_prepared_path`: `segment` collects the
bytes of the current segment up to the next `/` (or `\` for a special
scheme). -/
def parse_prepared_path_loop (sets : character_sets) (type : scheme_type) (input : List Char)
    (segment : List Char) (path : List Char) : List Char :=
  match input with
  | [] => parse_path_segment sets type path segment true
  | c :: cs =>
    if c == '/' || (type != scheme_type.NOT_SPECIAL && c == '\\') then
      parse_prepared_path_loop sets type cs [] (parse_path_segment sets type path segment false)
    else
      parse_prepared_path_loop sets type cs (segment ++ [c]) path

/-- Modelled from the spec: `helpers::parse_prepared_path(view, type, path)`:
the view is split on `/` (also `\` when the scheme is special); a single-dot
segment is dropped, a double-dot segment shortens the path, any other segment
is percent-encoded with the path set and appended; a trailing empty segment
yields a trailing `/`.  Returns the new path. -/
def parse_prepared_path (sets : character_sets) (input : List Char) (type : scheme_type)
    (path : List Char) : List Char :=
  parse_prepared_path_loop sets type input [] path

/-! ## The state machine (`parser::parse_url_impl`) -/

/-- The states of the parser (`ada::state`), those that `parse_url_impl`
handles. -/
inductive state where
  | SCHEME_START
  | SCHEME
  | NO_SCHEME
  | AUTHORITY
  | SPECIAL_RELATIVE_OR_AUTHORITY
  | PATH_OR_AUTHORITY
  | RELATIVE_SCHEME
  | RELATIVE_SLASH
  | SPECIAL_AUTHORITY_SLASHES
  | SPECIAL_AUTHORITY_IGNORE_SLASHES
  | QUERY
  | HOST
  | OPAQUE_PATH
  | PORT
  | PATH_START
  | PATH
  | FILE_SLASH
  | FILE_HOST
  | FILE
deriving DecidableEq, Repr

/-- What is fixed during one run of `parse_url_impl`: the environment, the
template parameter `store_values`, the base, the cleaned input without its
fragment (`url_data`) and the fragment split off by `prune_hash`. -/
structure context where
  env : environment
  store_values : Bool
  base_url : Option url
  url_data : List Char
  fragment : Option (List Char)

/-- The local `input_size`. -/
def context.input_size (c : context) : Nat :=
  c.url_data.length

/-- The variables of the main loop. -/
structure machine where
  state : state
  url : url
  input_position : Nat
deriving DecidableEq, Repr

/-- The result of one pass through the `switch`: the function returned `u`,
or the loop goes on with new variables, or the pass has no defined result (a
null base is dereferenced, or an inner loop exceeds its iteration bound). -/
inductive outcome where
  | returned (u : url)
  | next (m : machine)
  | undefined
deriving DecidableEq, Repr

/-- The fragment attachment `if (fragment.has_value())
url.update_unencoded_base_hash(*fragment)`. -/
def attach_fragment (c : context) (u : url) : url :=
  match c.fragment with
  | some fragment => u.update_unencoded_base_hash c.env.sets fragment
  | none => u

/-- The same under `if constexpr (store_values)`. -/
def store_fragment (c : context) (u : url) : url :=
  if c.store_values then attach_fragment c u else u

/-- The position after the `while` loop that advances `input_position` while
it is not at the end and `p (url_data[input_position])` holds. -/
def skip_while (p : Char → Bool) (url_data : List Char) (input_position : Nat) : Nat :=
  input_position + ((url_data.drop input_position).takeWhile p).length

/-- The case `state::SCHEME_START`. -/
def state_SCHEME_START (c : context) (m : machine) : outcome :=
  if m.input_position != c.input_size && is_alpha (char_at c.url_data m.input_position) then
    outcome.next { m with state := state.SCHEME, input_position := m.input_position + 1 }
  else
    outcome.next { m with state := state.NO_SCHEME }

/-- The case `state::SCHEME`. -/
def state_SCHEME (c : context) (m : machine) : outcome :=
  let input_position := skip_while is_alnum_plus c.url_data m.input_position
  if input_position != c.input_size && char_at c.url_data input_position == ':' then
    let parsed := m.url.parse_scheme (c.url_data.take input_position)
    if !parsed.1 then outcome.returned parsed.2
    else
      let url := parsed.2
      if url.type == scheme_type.FILE then
        outcome.next ⟨state.FILE, url, input_position + 1⟩
      else if url.is_special && c.base_url.isSome &&
          (c.base_url.map (fun b => b.type)) == some url.type then
        outcome.next ⟨state.SPECIAL_RELATIVE_OR_AUTHORITY, url, input_position + 1⟩
      else if url.is_special then
        outcome.next ⟨state.SPECIAL_AUTHORITY_SLASHES, url, input_position + 1⟩
      else if input_position + 1 < c.input_size &&
          char_at c.url_data (input_position + 1) == '/' then
        outcome.next ⟨state.PATH_OR_AUTHORITY, url, input_position + 1 + 1⟩
      else
        outcome.next ⟨state.OPAQUE_PATH, url, input_position + 1⟩
  else
    outcome.next ⟨state.NO_SCHEME, m.url, 0⟩

/-- The case `state::NO_SCHEME`. -/
def state_NO_SCHEME (c : context) (m : machine) : outcome :=
  match c.base_url with
  | none => outcome.returned { m.url with is_valid := false }
  | some base_url =>
    if base_url.has_opaque_path && !c.fragment.isSome then
      outcome.returned { m.url with is_valid := false }
    else if base_url.has_opaque_path && c.fragment.isSome &&
        m.input_position == c.input_size then
      let url := m.url.copy_scheme base_url
      let url := { url with has_opaque_path := base_url.has_opaque_path }
      let url := { url with path := base_url.path, query := base_url.query }
      outcome.returned (attach_fragment c url)
    else if base_url.type != scheme_type.FILE then
      outcome.next { m with state := state.RELATIVE_SCHEME }
    else
      outcome.next { m with state := state.FILE }

/-- The delimiter search at the head of the `do ... while (true)` loop of the
case `state::AUTHORITY`. -/
def authority_delimiter (is_special : Bool) (view : List Char) : Nat :=
  if is_special then find_authority_delimiter_special view
  else find_authority_delimiter view

/-- The first half of the branch "c is U+0040 (@)" of the case
`state::AUTHORITY`: if an `@` was seen before, `%40` is appended to the
password (if a `:` was seen) or to the username. -/
def authority_prepend_at (url : url) (at_sign_seen : Bool) (password_token_seen : Bool) :
    ada.url :=
  if at_sign_seen then
    if password_token_seen then { url with password := url.password ++ ['%', '4', '0'] }
    else { url with username := url.username ++ ['%', '4', '0'] }
  else url

/-- The second half of the branch "c is U+0040 (@)" of the case
`state::AUTHORITY`: the scanned view is split on its first `:`, unless one was
seen before, and appended percent-encoded to the username and the password. -/
def authority_append_view (c : context) (url : url) (authority_view : List Char)
    (password_token_seen : Bool) : ada.url :=
  if !password_token_seen then
    if c.store_values then
      match find authority_view ':' with
      | none =>
        { url with username := url.username ++
            percent_encode authority_view c.env.sets.USERINFO_PERCENT_ENCODE }
      | some password_token_location =>
        { url with
            username := url.username ++
              percent_encode (authority_view.take password_token_location)
                c.env.sets.USERINFO_PERCENT_ENCODE,
            password := url.password ++
              percent_encode (authority_view.drop (password_token_location + 1))
                c.env.sets.USERINFO_PERCENT_ENCODE }
    else url
  else if c.store_values then
    { url with password := url.password ++
        percent_encode authority_view c.env.sets.USERINFO_PERCENT_ENCODE }
  else url

/-- The `do ... while (true)` loop of the case `state::AUTHORITY`; `fuel`
bounds the number of iterations. -/
def authority_loop (c : context) (fuel : Nat) (url : url) (input_position : Nat)
    (at_sign_seen : Bool) (password_token_seen : Bool) : outcome :=
  match fuel with
  | 0 => outcome.undefined
  | fuel + 1 =>
    let view := c.url_data.drop input_position
    let location := authority_delimiter url.is_special view
    let authority_view := view.take location
    let end_of_authority := input_position + authority_view.length
    if end_of_authority != c.input_size && char_at c.url_data end_of_authority == '@' then
      let url1 := authority_prepend_at url at_sign_seen password_token_seen
      let password_token_seen1 :=
        if !password_token_seen then (find authority_view ':').isSome
        else password_token_seen
      let url2 := authority_append_view c url1 authority_view password_token_seen
      if end_of_authority == c.input_size then
        outcome.returned (store_fragment c url2)
      else
        authority_loop c fuel url2 (end_of_authority + 1) true password_token_seen1
    else if end_of_authority == c.input_size || char_at c.url_data end_of_authority == '/' ||
        char_at c.url_data end_of_authority == '?' ||
        (url.is_special && char_at c.url_data end_of_authority == '\\') then
      if at_sign_seen && authority_view.isEmpty then
        outcome.returned { url with is_valid := false }
      else
        outcome.next ⟨state.HOST, url, input_position⟩
    else if end_of_authority == c.input_size then
      outcome.returned (store_fragment c url)
    else
      authority_loop c fuel url (end_of_authority + 1) at_sign_seen password_token_seen

/-- The case `state::AUTHORITY`.  Every iteration of its loop moves
`input_position` forward, so `input_size + 1` iterations are enough. -/
def state_AUTHORITY (c : context) (m : machine) : outcome :=
  if (find (c.url_data.drop m.input_position) '@').isNone then
    outcome.next { m with state := state.HOST }
  else
    authority_loop c (c.input_size + 1) m.url m.input_position false false

/-- The case `state::SPECIAL_RELATIVE_OR_AUTHORITY`. -/
def state_SPECIAL_RELATIVE_OR_AUTHORITY (c : context) (m : machine) : outcome :=
  if (c.url_data.drop m.input_position).take 2 == ['/', '/'] then
    outcome.next ⟨state.SPECIAL_AUTHORITY_IGNORE_SLASHES, m.url, m.input_position + 2⟩
  else
    outcome.next { m with state := state.RELATIVE_SCHEME }

/-- The case `state::PATH_OR_AUTHORITY`. -/
def state_PATH_OR_AUTHORITY (c : context) (m : machine) : outcome :=
  if m.input_position != c.input_size && char_at c.url_data m.input_position == '/' then
    outcome.next ⟨state.AUTHORITY, m.url, m.input_position + 1⟩
  else
    outcome.next { m with state := state.PATH }

/-- The case `state::RELATIVE_SCHEME`. -/
def state_RELATIVE_SCHEME (c : context) (m : machine) : outcome :=
  match c.base_url with
  | none => outcome.undefined
  | some base_url =>
    let url := m.url.copy_scheme base_url
    if m.input_position != c.input_size && char_at c.url_data m.input_position == '/' then
      outcome.next ⟨state.RELATIVE_SLASH, url, m.input_position + 1⟩
    else if url.is_special && m.input_position != c.input_size &&
        char_at c.url_data m.input_position == '\\' then
      outcome.next ⟨state.RELATIVE_SLASH, url, m.input_position + 1⟩
    else
      let url : ada.url :=
        { url with
            username := base_url.username, password := base_url.password,
            host := base_url.host, port := base_url.port,
            has_opaque_path := base_url.has_opaque_path,
            path := base_url.path, query := base_url.query }
      let url := { url with has_opaque_path := base_url.has_opaque_path }
      if m.input_position != c.input_size && char_at c.url_data m.input_position == '?' then
        outcome.next ⟨state.QUERY, url, m.input_position + 1⟩
      else if m.input_position != c.input_size then
        let url := url.clear_search
        let url := { url with path := (shorten_path url.path url.type).2 }
        outcome.next ⟨state.PATH, url, m.input_position⟩
      else
        outcome.next ⟨state.RELATIVE_SCHEME, url, m.input_position + 1⟩

/-- The case `state::RELATIVE_SLASH`. -/
def state_RELATIVE_SLASH (c : context) (m : machine) : outcome :=
  match c.base_url with
  | none => outcome.undefined
  | some base_url =>
    if m.url.is_special && m.input_position != c.input_size &&
        (char_at c.url_data m.input_position == '/' ||
          char_at c.url_data m.input_position == '\\') then
      outcome.next ⟨state.SPECIAL_AUTHORITY_IGNORE_SLASHES, m.url, m.input_position + 1⟩
    else if m.input_position != c.input_size && char_at c.url_data m.input_position == '/' then
      outcome.next ⟨state.AUTHORITY, m.url, m.input_position + 1⟩
    else
      let url : ada.url :=
        { m.url with
            username := base_url.username, password := base_url.password,
            host := base_url.host, port := base_url.port }
      outcome.next ⟨state.PATH, url, m.input_position⟩

/-- The case `state::SPECIAL_AUTHORITY_IGNORE_SLASHES`. -/
def state_SPECIAL_AUTHORITY_IGNORE_SLASHES (c : context) (m : machine) : outcome :=
  let input_position :=
    skip_while (fun ch => ch == '/' || ch == '\\') c.url_data m.input_position
  outcome.next ⟨state.AUTHORITY, m.url, input_position⟩

/-- The case `state::SPECIAL_AUTHORITY_SLASHES`, which falls through to
`state::SPECIAL_AUTHORITY_IGNORE_SLASHES`. -/
def state_SPECIAL_AUTHORITY_SLASHES (c : context) (m : machine) : outcome :=
  let input_position :=
    if (c.url_data.drop m.input_position).take 2 == ['/', '/'] then m.input_position + 2
    else m.input_position
  state_SPECIAL_AUTHORITY_IGNORE_SLASHES c { m with input_position := input_position }

/-- The case `state::QUERY`. -/
def state_QUERY (c : context) (m : machine) : outcome :=
  if c.store_values then
    let query_percent_encode_set :=
      if m.url.is_special then c.env.sets.SPECIAL_QUERY_PERCENT_ENCODE
      else c.env.sets.QUERY_PERCENT_ENCODE
    let url := m.url.update_base_search (c.url_data.drop m.input_position)
      query_percent_encode_set
    outcome.returned (attach_fragment c url)
  else
    outcome.returned m.url

/-- The case `state::HOST`. -/
def state_HOST (c : context) (m : machine) : outcome :=
  let host_view := c.url_data.drop m.input_position
  let located := get_host_delimiter_location m.url.is_special host_view
  let host_view := host_view.take located.1
  let input_position := m.input_position + located.1
  if located.2 then
    let parsed := m.url.parse_host c.env host_view
    if !parsed.1 then outcome.returned parsed.2
    else outcome.next ⟨state.PORT, parsed.2, input_position + 1⟩
  else
    if host_view.isEmpty && m.url.is_special then
      outcome.returned { m.url with is_valid := false }
    else if host_view.isEmpty then
      outcome.next ⟨state.PATH_START, m.url.update_base_hostname [], input_position⟩
    else
      let parsed := m.url.parse_host c.env host_view
      if !parsed.1 then outcome.returned parsed.2
      else outcome.next ⟨state.PATH_START, parsed.2, input_position⟩

/-- The case `state::OPAQUE_PATH`. -/
def state_OPAQUE_PATH (c : context) (m : machine) : outcome :=
  let view := c.url_data.drop m.input_position
  match find view '?' with
  | some location =>
    let url := { m.url with has_opaque_path := true }
    let url := url.update_base_pathname
      (percent_encode (view.take location) c.env.sets.C0_CONTROL_PERCENT_ENCODE)
    outcome.next ⟨state.QUERY, url, m.input_position + (location + 1)⟩
  | none =>
    let url := { m.url with has_opaque_path := true }
    let url := url.update_base_pathname
      (percent_encode view c.env.sets.C0_CONTROL_PERCENT_ENCODE)
    outcome.next ⟨m.state, url, c.input_size + 1⟩

/-- The case `state::PATH_START`. -/
def state_PATH_START (c : context) (m : machine) : outcome :=
  if m.url.is_special then
    if m.input_position == c.input_size then
      if c.store_values then
        outcome.returned (attach_fragment c (m.url.update_base_pathname ['/']))
      else outcome.returned m.url
    else if char_at c.url_data m.input_position != '/' &&
        char_at c.url_data m.input_position != '\\' then
      outcome.next ⟨state.PATH, m.url, m.input_position⟩
    else
      outcome.next ⟨state.PATH, m.url, m.input_position + 1⟩
  else if m.input_position != c.input_size && char_at c.url_data m.input_position == '?' then
    outcome.next ⟨state.QUERY, m.url, m.input_position + 1⟩
  else if m.input_position != c.input_size then
    if char_at c.url_data m.input_position != '/' then
      outcome.next ⟨state.PATH, m.url, m.input_position⟩
    else
      outcome.next ⟨state.PATH, m.url, m.input_position + 1⟩
  else
    outcome.next ⟨m.state, m.url, m.input_position + 1⟩

/-- The case `state::PORT`, which falls through to `state::PATH_START`. -/
def state_PORT (c : context) (m : machine) : outcome :=
  let port_view := c.url_data.drop m.input_position
  let parsed := m.url.parse_port port_view true
  if !parsed.2.is_valid then outcome.returned parsed.2
  else state_PATH_START c ⟨state.PATH_START, parsed.2, m.input_position + parsed.1⟩

/-- The case `state::PATH`. -/
def state_PATH (c : context) (m : machine) : outcome :=
  let view := c.url_data.drop m.input_position
  match find view '?' with
  | some locofquestionmark =>
    let url : ada.url :=
      if c.store_values then
        { m.url with
            path := parse_prepared_path c.env.sets (view.take locofquestionmark) m.url.type
              m.url.path }
      else m.url
    outcome.next ⟨state.QUERY, url, m.input_position + (locofquestionmark + 1)⟩
  | none =>
    let url : ada.url :=
      if c.store_values then
        { m.url with path := parse_prepared_path c.env.sets view m.url.type m.url.path }
      else m.url
    outcome.next ⟨m.state, url, c.input_size + 1⟩

/-- The case `state::FILE_SLASH`. -/
def state_FILE_SLASH (c : context) (m : machine) : outcome :=
  if m.input_position != c.input_size &&
      (char_at c.url_data m.input_position == '/' ||
        char_at c.url_data m.input_position == '\\') then
    outcome.next ⟨state.FILE_HOST, m.url, m.input_position + 1⟩
  else
    let url : ada.url :=
      match c.base_url with
      | none => m.url
      | some base_url =>
        if base_url.type == scheme_type.FILE then
          let url := { m.url with host := base_url.host }
          if !base_url.get_pathname.isEmpty then
            if !is_windows_drive_letter (c.url_data.drop m.input_position) then
              let first_base_url_path := base_url.get_pathname.drop 1
              let first_base_url_path :=
                match find first_base_url_path '/' with
                | some loc => first_base_url_path.take loc
                | none => first_base_url_path
              if is_normalized_windows_drive_letter first_base_url_path then
                { url with path := url.path ++ ['/'] ++ first_base_url_path }
              else url
            else url
          else url
        else m.url
    outcome.next ⟨state.PATH, url, m.input_position⟩

/-- The case `state::FILE_HOST`. -/
def state_FILE_HOST (c : context) (m : machine) : outcome :=
  let view := c.url_data.drop m.input_position
  let location := find_first (fun ch => ch == '/' || ch == '\\' || ch == '?') view
  let file_host_buffer := view.take location
  if is_windows_drive_letter file_host_buffer then
    outcome.next { m with state := state.PATH }
  else if file_host_buffer.isEmpty then
    outcome.next ⟨state.PATH_START, { m.url with host := some [] }, m.input_position⟩
  else
    let consumed_bytes := file_host_buffer.length
    let parsed := m.url.parse_host c.env file_host_buffer
    if !parsed.1 then outcome.returned parsed.2
    else
      let url := parsed.2
      let url : ada.url :=
        if url.host == some ['l', 'o', 'c', 'a', 'l', 'h', 'o', 's', 't'] then
          { url with host := some [] }
        else url
      outcome.next ⟨state.PATH_START, url, m.input_position + consumed_bytes⟩

/-- The case `state::FILE`. -/
def state_FILE (c : context) (m : machine) : outcome :=
  let file_view := c.url_data.drop m.input_position
  let url := m.url.set_protocol_as_file
  let url : ada.url := { url with host := some [] }
  if m.input_position != c.input_size &&
      (char_at c.url_data m.input_position == '/' ||
        char_at c.url_data m.input_position == '\\') then
    outcome.next ⟨state.FILE_SLASH, url, m.input_position + 1⟩
  else
    match c.base_url with
    | none => outcome.next ⟨state.PATH, url, m.input_position⟩
    | some base_url =>
      if base_url.type == scheme_type.FILE then
        let url : ada.url :=
          { url with host := base_url.host, path := base_url.path, query := base_url.query }
        let url := { url with has_opaque_path := base_url.has_opaque_path }
        if m.input_position != c.input_size &&
            char_at c.url_data m.input_position == '?' then
          outcome.next ⟨state.QUERY, url, m.input_position + 1⟩
        else if m.input_position != c.input_size then
          let url := url.clear_search
          let url : ada.url :=
            if !is_windows_drive_letter file_view then
              { url with path := (shorten_path url.path url.type).2 }
            else
              { url.clear_pathname with has_opaque_path := true }
          outcome.next ⟨state.PATH, url, m.input_position⟩
        else
          outcome.next ⟨state.FILE, url, m.input_position + 1⟩
      else
        outcome.next ⟨state.PATH, url, m.input_position⟩

/-- One pass through the `switch (state)` of the main loop. -/
def step (c : context) (m : machine) : outcome :=
  match m.state with
  | state.SCHEME_START => state_SCHEME_START c m
  | state.SCHEME => state_SCHEME c m
  | state.NO_SCHEME => state_NO_SCHEME c m
  | state.AUTHORITY => state_AUTHORITY c m
  | state.SPECIAL_RELATIVE_OR_AUTHORITY => state_SPECIAL_RELATIVE_OR_AUTHORITY c m
  | state.PATH_OR_AUTHORITY => state_PATH_OR_AUTHORITY c m
  | state.RELATIVE_SCHEME => state_RELATIVE_SCHEME c m
  | state.RELATIVE_SLASH => state_RELATIVE_SLASH c m
  | state.SPECIAL_AUTHORITY_SLASHES => state_SPECIAL_AUTHORITY_SLASHES c m
  | state.SPECIAL_AUTHORITY_IGNORE_SLASHES => state_SPECIAL_AUTHORITY_IGNORE_SLASHES c m
  | state.QUERY => state_QUERY c m
  | state.HOST => state_HOST c m
  | state.OPAQUE_PATH => state_OPAQUE_PATH c m
  | state.PORT => state_PORT c m
  | state.PATH_START => state_PATH_START c m
  | state.PATH => state_PATH c m
  | state.FILE_SLASH => state_FILE_SLASH c m
  | state.FILE_HOST => state_FILE_HOST c m
  | state.FILE => state_FILE c m

/-- The main loop `while (input_position <= input_size)`, followed by the
fragment attachment after it; `fuel` bounds the number of passes and `none`
stands for a run without a defined result. -/
def run (c : context) (fuel : Nat) (m : machine) : Option url :=
  match fuel with
  | 0 => none
  | fuel + 1 =>
    if m.input_position ≤ c.input_size then
      match step c m with
      | outcome.returned u => some u
      | outcome.next m1 => run c fuel m1
      | outcome.undefined => none
    else
      some (store_fragment c m.url)

/-- The number of passes the model allows the main loop; the state graph of
the source has no cycle and fewer states than this. -/
def loop_bound : Nat := 24

/-- The function `parse_url_impl<url, store_values>(user_input, base_url)`;
`none` stands for a run without a defined result. -/
def parse_url_impl (env : environment) (store_values : Bool) (user_input : List Char)
    (base_url : Option url) : Option url :=
  let url : url := {}
  let url : ada.url :=
    if user_input.length > 4294967295 then { url with is_valid := false } else url
  let url : ada.url :=
    match base_url with
    | some b => { url with is_valid := url.is_valid && b.is_valid }
    | none => url
  if !url.is_valid then some url
  else
    let url_data :=
      if has_tabs_or_newline user_input then remove_ascii_tab_or_newline user_input
      else user_input
    let url_data := trim_c0_whitespace url_data
    let pruned := prune_hash url_data
    run ⟨env, store_values, base_url, pruned.2, pruned.1⟩ loop_bound
      ⟨state.SCHEME_START, url, 0⟩

/-- The function `parse_url<url>(user_input, base_url)`. -/
def parse_url (env : environment) (user_input : List Char) (base_url : Option url) :
    Option url :=
  parse_url_impl env true user_input base_url

/-! ## A sample environment

The theorems below hold for every environment.  To evaluate the parser on
concrete inputs the character sets are instantiated with those of the WHATWG
URL Standard and the host parser with the ASCII-only stand-in that section 9
of the specification allows for tests. -/

/-- The C0 control percent-encode set: C0 controls and bytes above U+007E. -/
def sample_c0_control_set (c : Char) : Bool :=
  c.toNat < 32 || c.toNat > 126

/-- The fragment percent-encode set: the C0 control set and space, double
quote, less-than, greater-than, grave accent. -/
def sample_fragment_set (c : Char) : Bool :=
  sample_c0_control_set c || c.toNat == 32 || c.toNat == 34 || c.toNat == 60 ||
    c.toNat == 62 || c.toNat == 96

/-- The query percent-encode set: the C0 control set and space, double quote,
number sign, less-than, greater-than. -/
def sample_query_set (c : Char) : Bool :=
  sample_c0_control_set c || c.toNat == 32 || c.toNat == 34 || c.toNat == 35 ||
    c.toNat == 60 || c.toNat == 62

/-- The special-query percent-encode set: the query set and the single
quote. -/
def sample_special_query_set (c : Char) : Bool :=
  sample_query_set c || c.toNat == 39

/-- The path percent-encode set: the query set and question mark, circumflex,
grave accent, left and right curly bracket. -/
def sample_path_set (c : Char) : Bool :=
  sample_query_set c || c.toNat == 63 || c.toNat == 94 || c.toNat == 96 ||
    c.toNat == 123 || c.toNat == 125

/-- The userinfo percent-encode set: the path set and slash, colon,
semicolon, equals sign, at sign, left square bracket, backslash, right square
bracket, vertical bar. -/
def sample_userinfo_set (c : Char) : Bool :=
  sample_path_set c || c.toNat == 47 || c.toNat == 58 || c.toNat == 59 || c.toNat == 61 ||
    c.toNat == 64 || c.toNat == 91 || c.toNat == 92 || c.toNat == 93 || c.toNat == 124

/-- The character sets of the sample environment. -/
def sample_sets : character_sets :=
  ⟨sample_c0_control_set, sample_fragment_set, sample_query_set, sample_special_query_set,
    sample_path_set, sample_userinfo_set⟩

/-- The host parser of the sample environment: the empty host is rejected;
the host of a special scheme is lowercased, any other host is kept. -/
def sample_parse_host (is_not_special : Bool) (input : List Char) : Option (List Char) :=
  if input.isEmpty then none
  else if is_not_special then some input
  else some (input.map to_lower_ascii)

/-- The sample environment. -/
def sample_env : environment :=
  ⟨sample_sets, sample_parse_host⟩

/-! ## The URL pattern constructor (`parse_url_pattern_impl`) -/

/-- Modelled from the spec: the typed errors of pattern compilation
(section 7). -/
inductive errors where
  | type_error
  | compile_error
deriving DecidableEq, Repr

/-- The record `url_pattern_init`, with the members `parse_url_pattern_impl`
reads and writes. -/
structure url_pattern_init where
  protocol : Option (List Char) := none
  username : Option (List Char) := none
  password : Option (List Char) := none
  hostname : Option (List Char) := none
  port : Option (List Char) := none
  pathname : Option (List Char) := none
  search : Option (List Char) := none
  hash : Option (List Char) := none
  base_url : Option (List Char) := none
deriving DecidableEq, Repr

/-- The record `url_pattern_options`. -/
structure url_pattern_options where
  ignore_case : Bool := false
deriving DecidableEq, Repr

/-- Modelled from the spec: the options of the component compiler
(section 4.7), `{delimiter_code_point, prefix_code_point, ignore_case}`. -/
structure url_pattern_compile_component_options where
  delimiter_code_point : Option Char := none
  prefix_code_point : Option Char := none
  ignore_case : Bool := false
deriving DecidableEq, Repr

/-- The canonicalizer handed to `url_pattern_component::compile`: the
functions `url_pattern_helpers::canonicalize_*` that the source names. -/
inductive canonicalizer where
  | canonicalize_protocol
  | canonicalize_username
  | canonicalize_password
  | canonicalize_hostname
  | canonicalize_ipv6_hostname
  | canonicalize_port
  | canonicalize_pathname
  | canonicalize_opaque_pathname
  | canonicalize_search
  | canonicalize_hash
deriving DecidableEq, Repr

/-- The record `url_pattern`, over the type of a compiled component. -/
structure url_pattern (component : Type) where
  protocol_component : component
  username_component : component
  password_component : component
  hostname_component : component
  port_component : component
  pathname_component : component
  search_component : component
  hash_component : component

/-- The argument `std::variant<std::string_view, url_pattern_init> input`. -/
inductive pattern_input where
  | string (s : List Char)
  | init (i : url_pattern_init)

/-- What `parse_url_pattern_impl` calls and does not define: the
constructor-string parser, `url_pattern_init::process` (with the type
`"pattern"`), the component compiler, the helpers `is_ipv6_address` and
`protocol_component_matches_special_scheme`, the lookups `scheme::is_special`
and `scheme::get_special_port`, and the three constants of
`url_pattern_compile_component_options`. -/
structure pattern_environment (component : Type) where
  constructor_string_parse : List Char → Except errors url_pattern_init
  process : url_pattern_init → Except errors url_pattern_init
  compile : List Char → canonicalizer → url_pattern_compile_component_options →
    Except errors component
  is_ipv6_address : List Char → Bool
  protocol_component_matches_special_scheme : component → Bool
  is_special : List Char → Bool
  get_special_port : List Char → Nat
  DEFAULT : url_pattern_compile_component_options
  HOSTNAME : url_pattern_compile_component_options
  PATHNAME : url_pattern_compile_component_options

/-- The call `std::optional::value()`; the source makes it on members that
hold a value. -/
def value (x : Option (List Char)) : List Char :=
  x.getD []

/-- The call `std::to_string` on an unsigned number. -/
def to_string (n : Nat) : List Char :=
  (Nat.repr n).toList

/-- The first part of `parse_url_pattern_impl`: the init record taken from
the input, or the error returned before it is processed. -/
def pattern_init {component : Type} (env : pattern_environment component)
    (input : pattern_input) (base_url : Option (List Char)) :
    Except errors url_pattern_init :=
  match input with
  | pattern_input.string s =>
    match env.constructor_string_parse s with
    | Except.error e => Except.error e
    | Except.ok init =>
      if base_url.isNone && init.protocol.isNone then Except.error errors.type_error
      else
        match base_url with
        | some b => Except.ok { init with base_url := some b }
        | none => Except.ok init
  | pattern_input.init i =>
    if base_url.isSome then Except.error errors.type_error
    else Except.ok i

/-- The eight statements `if (!processed_init->X) processed_init->X = "*"`. -/
def wildcard_defaults (processed_init : url_pattern_init) : url_pattern_init :=
  { processed_init with
    protocol := if processed_init.protocol.isNone then some ['*'] else processed_init.protocol
    username := if processed_init.username.isNone then some ['*'] else processed_init.username
    password := if processed_init.password.isNone then some ['*'] else processed_init.password
    hostname := if processed_init.hostname.isNone then some ['*'] else processed_init.hostname
    port := if processed_init.port.isNone then some ['*'] else processed_init.port
    pathname := if processed_init.pathname.isNone then some ['*'] else processed_init.pathname
    search := if processed_init.search.isNone then some ['*'] else processed_init.search
    hash := if processed_init.hash.isNone then some ['*'] else processed_init.hash }

/-- A copy of the options `base`, with `ignore_case` taken from `options`
when there are options: the statements
`if (options) compile_options.ignore_case = options->ignore_case`. -/
def copy_ignore_case (base : url_pattern_compile_component_options)
    (options : Option url_pattern_options) : url_pattern_compile_component_options :=
  match options with
  | some o => { base with ignore_case := o.ignore_case }
  | none => base

/-- The default port statement of `parse_url_pattern_impl`: when the protocol
is special and the trimmed port is the decimal text of its special port, the
port is cleared. -/
def clear_default_port {component : Type} (env : pattern_environment component)
    (processed_init : url_pattern_init) : url_pattern_init :=
  if env.is_special (value processed_init.protocol) then
    let port := trim_c0_whitespace (value processed_init.port)
    if to_string (env.get_special_port (value processed_init.protocol)) == port then
      { processed_init with port := some [] }
    else processed_init
  else processed_init

/-- The last part of `parse_url_pattern_impl`: the eight components are
compiled in order from the processed init; the first failure is returned. -/
def compile_components {component : Type} (env : pattern_environment component)
    (processed_init : url_pattern_init) (options : Option url_pattern_options) :
    Except errors (url_pattern component) :=
  match env.compile (value processed_init.protocol) canonicalizer.canonicalize_protocol
      env.DEFAULT with
  | Except.error e => Except.error e
  | Except.ok protocol_component =>
  match env.compile (value processed_init.username) canonicalizer.canonicalize_username
      env.DEFAULT with
  | Except.error e => Except.error e
  | Except.ok username_component =>
  match env.compile (value processed_init.password) canonicalizer.canonicalize_password
      env.DEFAULT with
  | Except.error e => Except.error e
  | Except.ok password_component =>
  match (if env.is_ipv6_address (value processed_init.hostname) then
      env.compile (value processed_init.hostname) canonicalizer.canonicalize_ipv6_hostname
        env.DEFAULT
    else
      env.compile (value processed_init.hostname) canonicalizer.canonicalize_hostname
        env.HOSTNAME) with
  | Except.error e => Except.error e
  | Except.ok hostname_component =>
  match env.compile (value processed_init.port) canonicalizer.canonicalize_port
      env.DEFAULT with
  | Except.error e => Except.error e
  | Except.ok port_component =>
  let compile_options := copy_ignore_case env.DEFAULT options
  match (if env.protocol_component_matches_special_scheme protocol_component then
      let path_compile_options := copy_ignore_case env.PATHNAME options
      env.compile (value processed_init.pathname) canonicalizer.canonicalize_pathname
        path_compile_options
    else
      env.compile (value processed_init.pathname) canonicalizer.canonicalize_opaque_pathname
        compile_options) with
  | Except.error e => Except.error e
  | Except.ok pathname_component =>
  match env.compile (value processed_init.search) canonicalizer.canonicalize_search
      compile_options with
  | Except.error e => Except.error e
  | Except.ok search_component =>
  match env.compile (value processed_init.hash) canonicalizer.canonicalize_hash
      compile_options with
  | Except.error e => Except.error e
  | Except.ok hash_component =>
  Except.ok ⟨protocol_component, username_component, password_component, hostname_component,
    port_component, pathname_component, search_component, hash_component⟩

/-- The function `parse_url_pattern_impl(input, base_url, options)`. -/
def parse_url_pattern_impl {component : Type} (env : pattern_environment component)
    (input : pattern_input) (base_url : Option (List Char))
    (options : Option url_pattern_options) : Except errors (url_pattern component) :=
  match pattern_init env input base_url with
  | Except.error e => Except.error e
  | Except.ok init =>
    match env.process init with
    | Except.error e => Except.error e
    | Except.ok processed_init =>
      compile_components env (clear_default_port env (wildcard_defaults processed_init)) options

/-- A compiled component of the sample environment: the record of what it
was compiled from. -/
structure sample_component where
  pattern : List Char
  canon : canonicalizer
  options : url_pattern_compile_component_options
deriving DecidableEq, Repr

/-- A sample constructor-string parser: the empty string is an error, a
string with a `:` is cut there into a protocol and a pathname, any other
string is a pathname. -/
def sample_constructor_string_parse (input : List Char) : Except errors url_pattern_init :=
  if input.isEmpty then Except.error errors.type_error
  else
    match find input ':' with
    | some i => Except.ok { protocol := some (input.take i), pathname := some (input.drop (i + 1)) }
    | none => Except.ok { pathname := some input }

/-- A sample component compiler: a pattern that is a lone `(` is a compile
error, any other one is recorded with its canonicalizer and options. -/
def sample_compile (input : List Char) (canon : canonicalizer)
    (options : url_pattern_compile_component_options) : Except errors sample_component :=
  if input = ['('] then Except.error errors.compile_error
  else Except.ok ⟨input, canon, options⟩

/-- A sample pattern environment: the special schemes and their ports are
those of the special schemes table, a hostname that begins with `[` is an IPv6
address, processing an init leaves it as it is, and the options are those of
the specification (prefix and delimiter `/` for a pathname, delimiter `.` for
a hostname, none otherwise). -/
def sample_pattern_env : pattern_environment sample_component where
  constructor_string_parse := sample_constructor_string_parse
  process := fun init => Except.ok init
  compile := sample_compile
  is_ipv6_address := fun input => 2 ≤ input.length && char_at input 0 == '['
  protocol_component_matches_special_scheme := fun c =>
    c.pattern = ['*'] || get_scheme_type c.pattern != scheme_type.NOT_SPECIAL
  is_special := fun s => get_scheme_type s != scheme_type.NOT_SPECIAL
  get_special_port := fun s => get_special_port (get_scheme_type s)
  DEFAULT := {}
  HOSTNAME := { delimiter_code_point := some '.' }
  PATHNAME := { delimiter_code_point := some '/', prefix_code_point := some '/' }

/-! ## The accesses of `parse_url_impl` to its input -/

/-- An access of `parse_url_impl` to its input: an indexed read
`url_data[k]`, or a call `url_data.substr(p)` or `url_data.substr(p, n)`. -/
inductive access where
  | index (k : Nat)
  | substr (p : Nat)
deriving DecidableEq, Repr

/-- An indexed read is in bounds below `input_size`; a `substr` is in bounds
up to `input_size`. -/
def access.in_bounds (a : access) (input_size : Nat) : Bool :=
  match a with
  | access.index k => decide (k < input_size)
  | access.substr p => decide (p ≤ input_size)

/-- The read `url_data[input_position]` behind the test
`input_position != input_size` (also in the form of a return on
`input_position == input_size` before it, as in `PATH_START`). -/
def guarded_read (c : context) (input_position : Nat) : List access :=
  if input_position != c.input_size then [access.index input_position] else []

/-- The reads of a loop `while ((input_position != input_size) &&
p(url_data[input_position])) input_position++`: every position the loop steps
over, and the position where it stops unless that is `input_size`. -/
def scan_accesses (c : context) (p : Char → Bool) (input_position : Nat) : List access :=
  let stop := skip_while p c.url_data input_position
  (List.range' input_position (stop - input_position)).map access.index ++ guarded_read c stop

/-- The accesses of the case `state::SCHEME_START`. -/
def accesses_SCHEME_START (c : context) (m : machine) : List access :=
  guarded_read c m.input_position

/-- The accesses of the case `state::SCHEME`: the scan of the scheme, the test
for `:`, the `substr(0, input_position)` handed to `parse_scheme`, and, for a
scheme that is not special, the read of `url_data[input_position + 1]` behind
`input_position + 1 < input_size`. -/
def accesses_SCHEME (c : context) (m : machine) : List access :=
  let input_position := skip_while is_alnum_plus c.url_data m.input_position
  scan_accesses c is_alnum_plus m.input_position ++ guarded_read c input_position ++
    (if input_position != c.input_size && char_at c.url_data input_position == ':' then
      let parsed := m.url.parse_scheme (c.url_data.take input_position)
      access.substr 0 ::
        (if !parsed.1 then []
        else
          let url := parsed.2
          if url.type == scheme_type.FILE then []
          else if url.is_special && c.base_url.isSome &&
              (c.base_url.map (fun b => b.type)) == some url.type then []
          else if url.is_special then []
          else if input_position + 1 < c.input_size then [access.index (input_position + 1)]
          else [])
    else [])

/-- The accesses of the `do ... while (true)` loop of the case
`state::AUTHORITY`: in each iteration `url_data.substr(input_position)` and
the reads of `url_data[end_of_authority]` behind
`end_of_authority != input_size` and `end_of_authority == input_size ||`. -/
def authority_accesses (c : context) (fuel : Nat) (is_special : Bool) (input_position : Nat) :
    List access :=
  match fuel with
  | 0 => []
  | fuel + 1 =>
    let view := c.url_data.drop input_position
    let location := authority_delimiter is_special view
    let authority_view := view.take location
    let end_of_authority := input_position + authority_view.length
    access.substr input_position :: (guarded_read c end_of_authority ++
      (if end_of_authority != c.input_size && char_at c.url_data end_of_authority == '@' then
        if end_of_authority == c.input_size then []
        else authority_accesses c fuel is_special (end_of_authority + 1)
      else
        guarded_read c end_of_authority ++
        (if end_of_authority == c.input_size || char_at c.url_data end_of_authority == '/' ||
            char_at c.url_data end_of_authority == '?' ||
            (is_special && char_at c.url_data end_of_authority == '\\') then []
        else if end_of_authority == c.input_size then []
        else authority_accesses c fuel is_special (end_of_authority + 1))))

/-- The accesses of the case `state::AUTHORITY`; the search
`url_data.find('@', input_position)` before the loop is neither an indexed
read nor a `substr`. -/
def accesses_AUTHORITY (c : context) (m : machine) : List access :=
  if (find (c.url_data.drop m.input_position) '@').isNone then []
  else authority_accesses c (c.input_size + 1) m.url.is_special m.input_position

/-- The accesses of the case `state::SPECIAL_AUTHORITY_IGNORE_SLASHES`. -/
def accesses_SPECIAL_AUTHORITY_IGNORE_SLASHES (c : context) (m : machine) : List access :=
  scan_accesses c (fun ch => ch == '/' || ch == '\\') m.input_position

/-- The accesses of the case `state::SPECIAL_AUTHORITY_SLASHES`, which falls
through to `state::SPECIAL_AUTHORITY_IGNORE_SLASHES`. -/
def accesses_SPECIAL_AUTHORITY_SLASHES (c : context) (m : machine) : List access :=
  let input_position :=
    if (c.url_data.drop m.input_position).take 2 == ['/', '/'] then m.input_position + 2
    else m.input_position
  access.substr m.input_position ::
    accesses_SPECIAL_AUTHORITY_IGNORE_SLASHES c { m with input_position := input_position }

/-- The accesses of the case `state::PATH_START`: in the special branch the
read comes after the return on `input_position == input_size`; in the other
branch every read is behind `input_position != input_size`. -/
def accesses_PATH_START (c : context) (m : machine) : List access :=
  guarded_read c m.input_position

/-- The accesses of the case `state::PORT`, which falls through to
`state::PATH_START` with the cursor moved by what `parse_port` consumed. -/
def accesses_PORT (c : context) (m : machine) : List access :=
  let port_view := c.url_data.drop m.input_position
  let parsed := m.url.parse_port port_view true
  access.substr m.input_position ::
    (if !parsed.2.is_valid then []
    else accesses_PATH_START c ⟨state.PATH_START, parsed.2, m.input_position + parsed.1⟩)

/-- The accesses of the case `state::FILE_SLASH`. -/
def accesses_FILE_SLASH (c : context) (m : machine) : List access :=
  guarded_read c m.input_position ++
    (if m.input_position != c.input_size &&
        (char_at c.url_data m.input_position == '/' ||
          char_at c.url_data m.input_position == '\\') then []
    else
      match c.base_url with
      | none => []
      | some base_url =>
        if base_url.type == scheme_type.FILE then
          if !base_url.get_pathname.isEmpty then [access.substr m.input_position] else []
        else [])

/-- The accesses to `url_data` that one pass through the `switch (state)` of
the main loop makes. -/
def accesses (c : context) (m : machine) : List access :=
  match m.state with
  | state.SCHEME_START => accesses_SCHEME_START c m
  | state.SCHEME => accesses_SCHEME c m
  | state.NO_SCHEME => []
  | state.AUTHORITY => accesses_AUTHORITY c m
  | state.SPECIAL_RELATIVE_OR_AUTHORITY => [access.substr m.input_position]
  | state.PATH_OR_AUTHORITY => guarded_read c m.input_position
  | state.RELATIVE_SCHEME => guarded_read c m.input_position
  | state.RELATIVE_SLASH => guarded_read c m.input_position
  | state.SPECIAL_AUTHORITY_SLASHES => accesses_SPECIAL_AUTHORITY_SLASHES c m
  | state.SPECIAL_AUTHORITY_IGNORE_SLASHES => accesses_SPECIAL_AUTHORITY_IGNORE_SLASHES c m
  | state.QUERY => if c.store_values then [access.substr m.input_position] else []
  | state.HOST => [access.substr m.input_position]
  | state.OPAQUE_PATH => [access.substr m.input_position]
  | state.PORT => accesses_PORT c m
  | state.PATH_START => accesses_PATH_START c m
  | state.PATH => [access.substr m.input_position]
  | state.FILE_SLASH => accesses_FILE_SLASH c m
  | state.FILE_HOST => [access.substr m.input_position]
  | state.FILE => access.substr m.input_position :: guarded_read c m.input_position

/-! ## Definitions used to state the properties -/

/-- A bound on the number of passes of the main loop that start in a state. -/
def state.rank (s : state) : Nat :=
  match s with
  | state.QUERY => 1
  | state.PATH => 2
  | state.OPAQUE_PATH => 2
  | state.PATH_START => 3
  | state.PORT => 4
  | state.FILE_HOST => 4
  | state.HOST => 5
  | state.FILE_SLASH => 5
  | state.AUTHORITY => 6
  | state.FILE => 6
  | state.SPECIAL_AUTHORITY_IGNORE_SLASHES => 7
  | state.PATH_OR_AUTHORITY => 7
  | state.SPECIAL_AUTHORITY_SLASHES => 8
  | state.RELATIVE_SLASH => 8
  | state.RELATIVE_SCHEME => 9
  | state.SPECIAL_RELATIVE_OR_AUTHORITY => 10
  | state.NO_SCHEME => 10
  | state.SCHEME => 11
  | state.SCHEME_START => 12

/-- The cleaning of an input: tabs and newlines removed, then leading and
trailing C0-control-or-space bytes trimmed. -/
def clean (input : List Char) : List Char :=
  trim_c0_whitespace (remove_ascii_tab_or_newline input)

/-- The cleaning of what follows a prefix that is kept: tabs and newlines
removed, then trailing C0-control-or-space bytes trimmed. -/
def clean_tail (input : List Char) : List Char :=
  (remove_ascii_tab_or_newline input).rdropWhile is_c0_control_or_space

/-- A prefix that cleaning keeps as it is: no tab or newline, and neither its
first nor its last byte is a C0 control or space. -/
def solid (a : List Char) : Prop :=
  has_tabs_or_newline a = false ∧ ∃ x y mid, a = x :: mid ∧ a.getLast? = some y ∧
    is_c0_control_or_space x = false ∧ is_c0_control_or_space y = false

/-- The initial value of the local `url`. -/
def initial_url : url := {}

/-- The cursor `p` is inside the input and `rest` is what remains to read. -/
def at_rest (c : context) (p : Nat) (rest : List Char) : Prop :=
  p ≤ c.input_size ∧ c.url_data.drop p = rest

/-- A scheme as the `SCHEME_START` and `SCHEME` states accept it: an ASCII
letter followed by alphanumeric, `+`, `-` or `.` bytes. -/
def valid_scheme (S : List Char) : Prop :=
  ∃ a S1, S = a :: S1 ∧ is_alpha a = true ∧ ∀ x ∈ S1, is_alnum_plus x = true

/-- A byte that is `/` or `\`. -/
def is_slash (x : Char) : Bool :=
  x == '/' || x == '\\'

/-- The bytes at which the authority scan of a scheme stops, `@` apart. -/
def is_authority_end (is_special : Bool) (x : Char) : Bool :=
  x == '/' || x == '?' || (is_special && x == '\\')

/-- The fragment that a successful parse attaches. -/
def expected_hash (c : context) : Option (List Char) :=
  c.fragment.map (fun f => percent_encode f c.env.sets.FRAGMENT_PERCENT_ENCODE)

/-- The context in which `parse_url_impl` runs its main loop on an input. -/
def parse_context (env : environment) (store_values : Bool) (input : List Char)
    (base : Option url) : context :=
  ⟨env, store_values, base, (prune_hash (clean input)).2, (prune_hash (clean input)).1⟩

/-- The fragment of a cleaned input in the words of the specification: the
text after its first `#`, if it contains one. -/
def fragment_text (cleaned : List Char) : Option (List Char) :=
  if '#' ∈ cleaned then some ((cleaned.dropWhile (fun x => x != '#')).drop 1) else none

/-- The authority text `A` of the specification: what is left to read, up to
the first `/`, `?` (or `\` when the scheme is special) or the end. -/
def authority_text (is_special : Bool) (rest : List Char) : List Char :=
  rest.takeWhile (fun x => !is_authority_end is_special x)

/-- The text before the first `:` of the credentials. -/
def before_colon (C : List Char) : List Char :=
  C.takeWhile (fun x => x != ':')

/-- The text after the first `:` of the credentials, empty if there is no
`:`. -/
def after_colon (C : List Char) : List Char :=
  (C.dropWhile (fun x => x != ':')).drop 1

/-- The record after credentials `C` are consumed by a loop whose flags are
`at_sign_seen` and `password_token_seen`: with a `:` seen before, everything
goes to the password; otherwise `C` is split on its first `:`. -/
def with_credentials (c : context) (u : url) (at_sign_seen password_token_seen : Bool)
    (C : List Char) : url :=
  if password_token_seen then
    { u with password := u.password ++ (if at_sign_seen then ['%', '4', '0'] else []) ++
        percent_encode C c.env.sets.USERINFO_PERCENT_ENCODE }
  else
    { u with
        username := u.username ++ (if at_sign_seen then ['%', '4', '0'] else []) ++
          percent_encode (before_colon C) c.env.sets.USERINFO_PERCENT_ENCODE,
        password := u.password ++
          percent_encode (after_colon C) c.env.sets.USERINFO_PERCENT_ENCODE }

/-- The machine after `n` passes of the main loop, each of which goes on;
`none` if one of them returns or the loop is left before. -/
def advance (c : context) (n : Nat) (m : machine) : Option machine :=
  match n with
  | 0 => some m
  | n + 1 =>
    if m.input_position ≤ c.input_size then
      match step c m with
      | outcome.next m1 => advance c n m1
      | _ => none
    else none

/-- The states from which the authority state can still be reached, and the
authority state itself. -/
def state.before_host (s : state) : Bool :=
  match s with
  | state.SCHEME_START => true
  | state.SCHEME => true
  | state.NO_SCHEME => true
  | state.SPECIAL_RELATIVE_OR_AUTHORITY => true
  | state.PATH_OR_AUTHORITY => true
  | state.RELATIVE_SCHEME => true
  | state.RELATIVE_SLASH => true
  | state.SPECIAL_AUTHORITY_SLASHES => true
  | state.SPECIAL_AUTHORITY_IGNORE_SLASHES => true
  | state.AUTHORITY => true
  | _ => false

/-- The states that follow the authority state. -/
def state.after_authority (s : state) : Bool :=
  match s with
  | state.HOST => true
  | state.PORT => true
  | state.PATH_START => true
  | state.PATH => true
  | state.QUERY => true
  | _ => false

/-- The default port of a scheme in the words of the specification: the
special schemes table, in which `file` and the schemes that are not special
have none. -/
def default_port (t : scheme_type) : Option Nat :=
  match t with
  | scheme_type.FTP => some 21
  | scheme_type.HTTP => some 80
  | scheme_type.HTTPS => some 443
  | scheme_type.WS => some 80
  | scheme_type.WSS => some 443
  | scheme_type.FILE => none
  | scheme_type.NOT_SPECIAL => none

/-- The states that follow the port state. -/
def state.after_port (s : state) : Bool :=
  match s with
  | state.PATH_START => true
  | state.PATH => true
  | state.QUERY => true
  | _ => false

/-- A base record as the parser takes it: valid, and, for `file`, without
credentials and port (invariant 5 of section 3 of the specification). -/
def valid_base (b : url) : Prop :=
  b.is_valid = true ∧
    (b.type = scheme_type.FILE → b.username = [] ∧ b.password = [] ∧ b.port = none)

/-- The record of `http://h/p?y=2#z`, the base of scenario S3. -/
def sample_base : url :=
  ⟨true, false, scheme_type.HTTP, [], [], [], some ['h'], none, ['/', 'p'],
    some ['y', '=', '2'], some ['z']⟩

/-- The states whose pass reads the input only from the cursor on. -/
def state.shiftable (s : state) : Bool :=
  match s with
  | state.SCHEME_START => false
  | state.SCHEME => false
  | _ => true

/-- The states from which the base is not read any more. -/
def state.base_free (s : state) : Bool :=
  match s with
  | state.AUTHORITY => true
  | state.HOST => true
  | state.PORT => true
  | state.PATH_START => true
  | state.PATH => true
  | state.QUERY => true
  | state.OPAQUE_PATH => true
  | state.FILE_HOST => true
  | state.SPECIAL_AUTHORITY_IGNORE_SLASHES => true
  | state.SPECIAL_AUTHORITY_SLASHES => true
  | state.PATH_OR_AUTHORITY => true
  | _ => false

/-- The outcome with the cursor moved `k` bytes to the right. -/
def outcome.shift (o : outcome) (k : Nat) : outcome :=
  match o with
  | outcome.next m => outcome.next ⟨m.state, m.url, m.input_position + k⟩
  | outcome.returned u => outcome.returned u
  | outcome.undefined => outcome.undefined

/-- The second context reads the input of the first without a prefix. -/
def context.suffix_of (c2 c1 : context) (pre : List Char) : Prop :=
  c1.url_data = pre ++ c2.url_data ∧ c1.env = c2.env ∧ c1.store_values = c2.store_values ∧
    c1.fragment = c2.fragment

/-- The scheme of a base record is well formed: a special scheme is kept in
the discriminant alone; a scheme that is not special is stored lowercase, is a
scheme as the parser accepts it, and is not the name of a special scheme. -/
def scheme_well_formed (b : url) : Prop :=
  (b.type ≠ scheme_type.NOT_SPECIAL → b.non_special_scheme = []) ∧
  (b.type = scheme_type.NOT_SPECIAL → valid_scheme b.non_special_scheme ∧
    b.non_special_scheme.map to_lower_ascii = b.non_special_scheme ∧
    get_scheme_type b.non_special_scheme = scheme_type.NOT_SPECIAL)

/-- The record of `https://a.b/c`, the base of scenario S2. -/
def sample_base_https : url :=
  ⟨true, false, scheme_type.HTTPS, [], [], [], some ['a', '.', 'b'], none, ['/', 'c'], none,
    none⟩

/-- A byte that may stand in a host without brackets, credentials or port. -/
def is_plain_host_byte (x : Char) : Bool :=
  !is_c0_control_or_space x && x != '#' && x != '@' && x != '/' && x != '?' && x != '\\' &&
    x != ':' && x != '['

/-- A byte that separates the segments of a path for a scheme type. -/
def is_path_separator (type : scheme_type) (x : Char) : Bool :=
  x == '/' || (type != scheme_type.NOT_SPECIAL && x == '\\')

/-- A byte that may stand between the brackets of a host. -/
def is_bracketed_host_byte (x : Char) : Bool :=
  !is_ascii_tab_or_newline x && x != '#' && x != '@' && x != '/' && x != '?' && x != '\\' &&
    x != ']'

/-- A host as it is written in an input, without credentials and port: a
non-empty run of plain host bytes, or a bracketed host. -/
def is_host_text (H : List Char) : Prop :=
  (H ≠ [] ∧ ∀ x ∈ H, is_plain_host_byte x = true) ∨
    ∃ inner, H = '[' :: inner ++ [']'] ∧ ∀ x ∈ inner, is_bracketed_host_byte x = true

/-- The text begins with a scheme and its colon: an ASCII letter, then zero or
more alphanumeric, `+`, `-` or `.` bytes, then `:`. -/
def begins_with_scheme (D : List Char) : Bool :=
  match D with
  | [] => false
  | a :: r => is_alpha a && (r.dropWhile is_alnum_plus).head? == some ':'

/-- The record of `mailto:a`, a base with an opaque path. -/
def sample_base_opaque : url :=
  ⟨true, true, scheme_type.NOT_SPECIAL, ['m', 'a', 'i', 'l', 't', 'o'], [], [], none, none, ['a'],
    none, none⟩

/-- The record with which the file host state is entered from `file://`. -/
def file_host_entry : url :=
  { initial_url with type := scheme_type.FILE, host := some [] }

/-- Invariant 2 of the data model on a record: if the scheme is special then
the host is present, and it is not empty unless the scheme is `file`. -/
def host_ok (u : url) : Prop :=
  u.type ≠ scheme_type.NOT_SPECIAL →
    u.host ≠ none ∧ (u.type ≠ scheme_type.FILE → u.host ≠ some [])

/-- What the main loop keeps on the way to a record that satisfies invariant
2: after the host is settled the record satisfies it; before, the cursor is
inside the input and the states that will copy the host of the base or keep
the empty file host know the scheme type. -/
def host_invariant (c : context) (m : machine) : Prop :=
  match m.state with
  | state.FILE_SLASH => m.url.type = scheme_type.FILE ∧ m.url.host ≠ none
  | state.FILE_HOST => m.url.type = scheme_type.FILE ∧ m.url.host ≠ none
  | state.PORT => host_ok m.url
  | state.PATH_START => host_ok m.url
  | state.PATH => host_ok m.url
  | state.QUERY => host_ok m.url
  | state.OPAQUE_PATH => host_ok m.url
  | state.PATH_OR_AUTHORITY =>
    m.input_position ≤ c.input_size ∧ m.url.type = scheme_type.NOT_SPECIAL
  | state.RELATIVE_SLASH =>
    m.input_position ≤ c.input_size ∧ ∃ b, c.base_url = some b ∧ m.url.type = b.type
  | state.RELATIVE_SCHEME => m.input_position ≤ c.input_size ∨ host_ok m.url
  | state.FILE => m.input_position ≤ c.input_size ∨ host_ok m.url
  | _ => m.input_position ≤ c.input_size

/-- The host parser stores no empty host. -/
def host_parse_nonempty (env : environment) : Prop :=
  ∀ b v h, env.host_parse b v = some h → h ≠ []

/-- A base that satisfies invariant 2 and whose path is not opaque when its
scheme is special. -/
def base_host_ok (base : Option url) : Prop :=
  ∀ b, base = some b → host_ok b ∧ (b.type ≠ scheme_type.NOT_SPECIAL → b.has_opaque_path = false)

/-- The record of `file:///`. -/
def sample_base_file : url :=
  ⟨true, false, scheme_type.FILE, [], [], [], some [], none, ['/'], none, none⟩

/-- The record that `C|/x` parses to against the base `file:///`: a `file`
record whose path is flagged opaque by the drive-letter branch of the file
state. -/
def sample_base_drive : url :=
  ⟨true, true, scheme_type.FILE, [], [], [], some [], none, ['/', 'C', ':', '/', 'x'], none, none⟩

/-- Invariant 5 of the data model on a record: no username, no password and
no port. -/
def credentials_absent (u : url) : Prop :=
  u.username = [] ∧ u.password = [] ∧ u.port = none

/-- What the main loop keeps on the way to a `file` record without
credentials and port: the states before the scheme is known and the file
states hold a record without them; the states of the authority, the port and
the relative references are never entered with the scheme `file`. -/
def file_invariant (c : context) (m : machine) : Prop :=
  match m.state with
  | state.SCHEME_START => credentials_absent m.url ∧ m.url.type ≠ scheme_type.FILE
  | state.SCHEME => credentials_absent m.url ∧ m.url.type ≠ scheme_type.FILE
  | state.NO_SCHEME => credentials_absent m.url ∧ m.url.type ≠ scheme_type.FILE
  | state.FILE => credentials_absent m.url
  | state.FILE_SLASH => credentials_absent m.url
  | state.FILE_HOST => credentials_absent m.url
  | state.PATH_START => m.url.type = scheme_type.FILE → credentials_absent m.url
  | state.PATH => m.url.type = scheme_type.FILE → credentials_absent m.url
  | state.QUERY => m.url.type = scheme_type.FILE → credentials_absent m.url
  | state.OPAQUE_PATH => m.url.type = scheme_type.FILE → credentials_absent m.url
  | state.SPECIAL_RELATIVE_OR_AUTHORITY =>
    m.url.type ≠ scheme_type.FILE ∧ ∀ b, c.base_url = some b → b.type ≠ scheme_type.FILE
  | state.RELATIVE_SCHEME =>
    m.url.type ≠ scheme_type.FILE ∧ ∀ b, c.base_url = some b → b.type ≠ scheme_type.FILE
  | _ => m.url.type ≠ scheme_type.FILE

/-- What the main loop keeps, with no base, on the way to a `file` record
whose path is not opaque: only the opaque-path state sets the flag, and it is
entered with a scheme that is not special. -/
def opaque_invariant (m : machine) : Prop :=
  match m.state with
  | state.OPAQUE_PATH => m.url.type = scheme_type.NOT_SPECIAL
  | state.QUERY => m.url.type = scheme_type.FILE → m.url.has_opaque_path = false
  | _ => m.url.has_opaque_path = false

/-- Modelled from the spec: the serialization `get_href` of a record (section
6, "Serialization"), whose code is not among the sources: the scheme and `:`;
then, if the record has an authority (a host, or the scheme `file`), `//`, the
userinfo followed by `@` when there are credentials, the host, and `:` and the
port when there is one; then the path; then `?` and the query and `#` and the
fragment when they are present. -/
def href (u : url) : List Char :=
  u.get_scheme ++ [':'] ++
    (if u.host.isSome || u.type == scheme_type.FILE then
      ['/', '/'] ++
        (if !u.username.isEmpty || !u.password.isEmpty then
          u.username ++ (if !u.password.isEmpty then ':' :: u.password else []) ++ ['@']
         else []) ++
        u.host.getD [] ++
        (match u.port with
         | some p => ':' :: (Nat.repr p).toList
         | none => [])
     else []) ++
    u.path ++
    (match u.query with
     | some q => '?' :: q
     | none => []) ++
    (match u.hash with
     | some f => '#' :: f
     | none => [])

/-- Modelled from the spec: `unicode::is_ascii_hex_digit`, the bytes `0-9`,
`A-F` and `a-f`. -/
def is_ascii_hex_digit (c : Char) : Bool :=
  (48 ≤ c.toNat && c.toNat ≤ 57) || (65 ≤ c.toNat && c.toNat ≤ 70) ||
    (97 ≤ c.toNat && c.toNat ≤ 102)

/-- Modelled from the spec: `unicode::convert_hex_to_binary`, the value of a
hex digit. -/
def convert_hex_to_binary (c : Char) : Nat :=
  if c.toNat ≤ 57 then c.toNat - 48
  else if c.toNat ≤ 70 then c.toNat - 55
  else c.toNat - 87

/-- Modelled from the spec: the decoding part of `unicode::percent_decode`
(section 4.1): each `%HH` with two valid hex digits becomes one byte,
otherwise the `%` is kept literally. -/
def percent_decode_from (input : List Char) : List Char :=
  match input with
  | [] => []
  | [c] => [c]
  | [c, a] => c :: percent_decode_from [a]
  | c :: a :: b :: tail =>
    if c = '%' && is_ascii_hex_digit a && is_ascii_hex_digit b then
      Char.ofNat (convert_hex_to_binary a * 16 + convert_hex_to_binary b) ::
        percent_decode_from tail
    else c :: percent_decode_from (a :: b :: tail)

/-- Modelled from the spec: `unicode::percent_decode(input, first_percent)`
(section 4.1): bytes before `first_percent` are copied verbatim, the rest is
decoded.  `none` is `npos`: the input has no `%` and is copied. -/
def percent_decode (input : List Char) (first_percent : Option Nat) : List Char :=
  match first_percent with
  | none => input
  | some first_percent =>
    input.take first_percent ++ percent_decode_from (input.drop first_percent)

/-- The character set with every byte marked for encoding. -/
def set_all : Char → Bool := fun _ => true

/-- The pattern string a component is compiled from, in the words of the
specification: `*` when the processed init has no value for the component,
and the value otherwise. -/
def pattern_source (member : Option (List Char)) : List Char :=
  match member with
  | none => ['*']
  | some v => v

/-- The pattern string the port component is compiled from, in the words of
the specification: the empty string when the protocol is special and the
trimmed port is the decimal text of its default port, and the port pattern
otherwise. -/
def port_source {component : Type} (env : pattern_environment component)
    (processed_init : url_pattern_init) : List Char :=
  if env.is_special (pattern_source processed_init.protocol) = true ∧
      to_string (env.get_special_port (pattern_source processed_init.protocol)) =
        trim_c0_whitespace (pattern_source processed_init.port) then []
  else pattern_source processed_init.port

/-- A base that does not enter the dispatch of the state `SCHEME` for a scheme
of type `t`: there is no base, or `t` is not special, or the base has another
scheme type. -/
def base_foreign (base : Option url) (t : scheme_type) : Prop :=
  t = scheme_type.NOT_SPECIAL ∨ ∀ b, base = some b → b.type ≠ t

/-- The states that dereference the base are reached only with a base. -/
def base_present (c : context) (s : state) : Prop :=
  c.base_url = none →
    s ≠ state.RELATIVE_SCHEME ∧ s ≠ state.RELATIVE_SLASH ∧
      s ≠ state.SPECIAL_RELATIVE_OR_AUTHORITY

/-- Two records that the control flow of the parser cannot tell apart: the
same validity and the same scheme type. -/
def same_control (u1 u2 : url) : Prop :=
  u1.is_valid = u2.is_valid ∧ u1.type = u2.type

/-- Two outcomes of a pass that agree on what the main loop does next. -/
def outcome.agrees (o1 o2 : outcome) : Prop :=
  match o1, o2 with
  | outcome.returned u1, outcome.returned u2 => same_control u1 u2
  | outcome.next m1, outcome.next m2 =>
    m1.state = m2.state ∧ m1.input_position = m2.input_position ∧ same_control m1.url m2.url
  | outcome.undefined, outcome.undefined => True
  | _, _ => False

/-- Two contexts of the same parse that differ at most in `store_values`. -/
def context.same_input (c1 c2 : context) : Prop :=
  c1.env = c2.env ∧ c1.base_url = c2.base_url ∧ c1.url_data = c2.url_data ∧
    c1.fragment = c2.fragment

/-- The first segment of a pathname: what follows its leading `/`, up to the
next `/`. -/
def first_path_segment (path : List Char) : List Char :=
  (path.drop 1).takeWhile (fun x => x != '/')

/-- The path that `FILE_SLASH` starts from, in the words of the
specification: if the tail is not a Windows drive letter and the first path
segment of the base is a normalized Windows drive letter, that segment after a
`/`; otherwise nothing. -/
def inherited_drive (base_path tail : List Char) : List Char :=
  if is_windows_drive_letter tail = false ∧
      is_normalized_windows_drive_letter (first_path_segment base_path) = true then
    '/' :: first_path_segment base_path
  else []

/-- The record of `file:///D:/b`. -/
def sample_base_letter : url :=
  ⟨true, false, scheme_type.FILE, [], [], [], some [], none, ['/', 'D', ':', '/', 'b'], none,
    none⟩

/-- A host parser that rejects a host with the forbidden code point `@` and
otherwise does what the sample one does. -/
def strict_parse_host (is_not_special : Bool) (input : List Char) : Option (List Char) :=
  if input.contains '@' then none else sample_parse_host is_not_special input

/-- The sample environment with the host parser that rejects `@`. -/
def strict_env : environment :=
  ⟨sample_sets, strict_parse_host⟩


/-! # Theorems -/

/-! ## Termination of the main loop -/

theorem char_at_eq_headD (s : List Char) (i : Nat) :
    char_at s i = (s.drop i).headD (Char.ofNat 0) := by
  induction s generalizing i with
  | nil => simp [char_at]
  | cons x xs ih =>
    cases i with
    | zero => simp [char_at]
    | succ n => simp [char_at]

theorem run_succ (c : context) (fuel : Nat) (m : machine) :
    run c (fuel + 1) m =
      if m.input_position ≤ c.input_size then
        match step c m with
        | outcome.returned u => some u
        | outcome.next m1 => run c fuel m1
        | outcome.undefined => none
      else some (store_fragment c m.url) := rfl

theorem authority_loop_continue (c : context) (fuel : Nat) (u : url) (p : Nat) (a b : Bool)
    (m1 : machine) (h : authority_loop c fuel u p a b = outcome.next m1) :
    m1.state = state.HOST := by
  induction fuel generalizing u p a b with
  | zero => simp [authority_loop] at h
  | succ n ih =>
    unfold authority_loop at h
    simp only [] at h
    split_ifs at h <;> first
      | exact ih _ _ _ _ h
      | (cases h; rfl)

theorem step_rank (c : context) (m m1 : machine) (h : step c m = outcome.next m1) :
    m1.state.rank < m.state.rank ∨ (m1.state = m.state ∧ c.input_size < m1.input_position) := by
  obtain ⟨st, u, p⟩ := m
  cases st <;> simp only [step] at h
  case AUTHORITY =>
    unfold state_AUTHORITY at h
    split_ifs at h
    · cases h; simp [state.rank]
    · rw [authority_loop_continue c _ _ _ _ _ _ h]; simp [state.rank]
  case PORT =>
    unfold state_PORT state_PATH_START at h
    simp only [] at h
    split_ifs at h <;> cases h <;> simp [state.rank]
  all_goals
    simp only [state_SCHEME_START, state_SCHEME, state_NO_SCHEME, state_SPECIAL_RELATIVE_OR_AUTHORITY,
      state_PATH_OR_AUTHORITY, state_RELATIVE_SCHEME, state_RELATIVE_SLASH,
      state_SPECIAL_AUTHORITY_SLASHES, state_SPECIAL_AUTHORITY_IGNORE_SLASHES, state_QUERY,
      state_HOST, state_OPAQUE_PATH, state_PATH_START, state_PATH, state_FILE_SLASH,
      state_FILE_HOST, state_FILE] at h
    repeat' split at h
    all_goals cases h
    all_goals simp [state.rank]
    all_goals simp_all

/-- Any two amounts of fuel above the rank of the state give the same run. -/
theorem run_fuel_irrelevant (c : context) (f1 f2 : Nat) (m : machine)
    (h1 : m.state.rank < f1) (h2 : m.state.rank < f2) : run c f1 m = run c f2 m := by
  induction f1 generalizing f2 m with
  | zero => omega
  | succ n ih =>
    cases f2 with
    | zero => omega
    | succ k =>
      rw [run_succ, run_succ]
      split_ifs with hp
      · cases hs : step c m with
        | returned u => rfl
        | undefined => rfl
        | next m1 =>
          simp only []
          rcases step_rank c m m1 hs with hr | ⟨he, hsz⟩
          · exact ih k m1 (by omega) (by omega)
          · have hn : 1 ≤ n := by
              have : 1 ≤ m.state.rank := by cases m.state <;> simp [state.rank]
              omega
            have hk : 1 ≤ k := by
              have : 1 ≤ m.state.rank := by cases m.state <;> simp [state.rank]
              omega
            obtain ⟨n1, rfl⟩ : ∃ n1, n = n1 + 1 := ⟨n - 1, by omega⟩
            obtain ⟨k1, rfl⟩ : ∃ k1, k = k1 + 1 := ⟨k - 1, by omega⟩
            rw [run_succ, run_succ]
            have : ¬ m1.input_position ≤ c.input_size := by omega
            simp [this]
      · rfl

theorem state_rank_le (s : state) : s.rank ≤ 12 := by
  cases s <;> simp [state.rank]

/-- The main loop returns: with fuel above the rank of the state the run has
a result unless a pass is undefined. -/
theorem run_loop_bound (c : context) (f : Nat) (m : machine) (h : m.state.rank < f) :
    run c f m = run c loop_bound m :=
  run_fuel_irrelevant c f loop_bound m h (by have := state_rank_le m.state; simp [loop_bound]; omega)

/-! ## Cleaning, searching and the cursor -/

theorem remove_of_not_has (x : List Char) (h : has_tabs_or_newline x = false) :
    remove_ascii_tab_or_newline x = x := by
  unfold remove_ascii_tab_or_newline has_tabs_or_newline at *
  rw [List.filter_eq_self]
  intro a ha
  have := (List.any_eq_false.1 h) a ha
  simpa using this

theorem cleaning_eq_clean (x : List Char) :
    trim_c0_whitespace (if has_tabs_or_newline x then remove_ascii_tab_or_newline x else x)
      = clean x := by
  unfold clean
  split_ifs with h
  · rfl
  · rw [remove_of_not_has x (by simpa using h)]

theorem trim_eq (x : List Char) :
    trim_c0_whitespace x = (x.dropWhile is_c0_control_or_space).rdropWhile is_c0_control_or_space :=
  rfl

theorem remove_append (a b : List Char) :
    remove_ascii_tab_or_newline (a ++ b) =
      remove_ascii_tab_or_newline a ++ remove_ascii_tab_or_newline b := by
  simp [remove_ascii_tab_or_newline]

theorem rdropWhile_append_of_last (p : Char → Bool) (a t : List Char) (ha : a ≠ [])
    (hl : p (a.getLast ha) = false) : (a ++ t).rdropWhile p = a ++ t.rdropWhile p := by
  induction t using List.reverseRecOn with
  | nil =>
    simp only [List.append_nil, List.rdropWhile_nil]
    rw [List.rdropWhile_eq_self_iff]
    intro _
    simp [hl]
  | append_singleton t x ih =>
    rw [← List.append_assoc]
    by_cases hx : p x = true
    · rw [List.rdropWhile_concat_pos _ _ _ hx, List.rdropWhile_concat_pos _ _ _ hx, ih]
    · rw [List.rdropWhile_concat_neg _ _ _ hx, List.rdropWhile_concat_neg _ _ _ hx,
        List.append_assoc]

theorem clean_append_solid (a t : List Char) (h : solid a) :
    clean (a ++ t) = a ++ clean_tail t := by
  obtain ⟨h1, x, y, mid, hx, hy, hx0, hy0⟩ := h
  unfold clean clean_tail
  rw [remove_append, remove_of_not_has a h1, trim_eq]
  have hd : (a ++ remove_ascii_tab_or_newline t).dropWhile is_c0_control_or_space
      = a ++ remove_ascii_tab_or_newline t := by
    subst hx
    simp [List.dropWhile, hx0]
  rw [hd]
  have hne : a ≠ [] := by subst hx; simp
  apply rdropWhile_append_of_last _ _ _ hne
  rw [List.getLast?_eq_getLast _ hne] at hy
  cases hy
  exact hy0

theorem find_cons (x : Char) (xs : List Char) (c : Char) :
    find (x :: xs) c = if x == c then some 0 else (find xs c).map (fun i => i + 1) := rfl

theorem find_eq_none_iff (v : List Char) (c : Char) : find v c = none ↔ c ∉ v := by
  induction v with
  | nil => simp [find]
  | cons x xs ih =>
    unfold find
    by_cases h : x = c
    · simp [h]
    · have h2 : ¬ c = x := fun e => h e.symm
      simp [h, h2, ih]

theorem find_append_of_not_mem (a t : List Char) (c : Char) (h : c ∉ a) :
    find (a ++ t) c = (find t c).map (fun i => i + a.length) := by
  induction a with
  | nil => simp
  | cons x xs ih =>
    have hx : ¬ x = c := fun e => h (by simp [e])
    have hxs : c ∉ xs := fun e => h (by simp [e])
    rw [List.cons_append, find_cons, ih hxs, Option.map_map]
    simp only [hx, beq_iff_eq, if_false]
    congr 1

theorem find_cons_self (c : Char) (t : List Char) : find (c :: t) c = some 0 := by
  simp [find]

theorem find_append_cons (a t : List Char) (c : Char) (h : c ∉ a) :
    find (a ++ c :: t) c = some a.length := by
  rw [find_append_of_not_mem a _ c h, find_cons_self]; simp

theorem find_some_split (v : List Char) (c : Char) (i : Nat) (h : find v c = some i) :
    v = v.take i ++ c :: v.drop (i + 1) ∧ c ∉ v.take i ∧ i < v.length := by
  induction v generalizing i with
  | nil => simp [find] at h
  | cons x xs ih =>
    unfold find at h
    by_cases hx : x = c
    · simp [hx] at h; subst h; simp [hx]
    · simp only [beq_iff_eq, hx, if_false, Option.map_eq_some'] at h
      obtain ⟨j, hj, rfl⟩ := h
      obtain ⟨h1, h2, h3⟩ := ih j hj
      refine ⟨?_, ?_, by simpa using h3⟩
      · simp only [List.take_succ_cons, List.drop_succ_cons, List.cons_append]
        rw [← h1]
      · simp only [List.take_succ_cons, List.mem_cons, not_or]
        exact ⟨fun e => hx e.symm, h2⟩

theorem prune_hash_append (a t : List Char) (h : '#' ∉ a) :
    prune_hash (a ++ t) = ((prune_hash t).1, a ++ (prune_hash t).2) := by
  unfold prune_hash
  rw [find_append_of_not_mem a t '#' h]
  cases hf : find t '#' with
  | none => simp
  | some i =>
    simp only [Option.map_some']
    have e1 : List.drop (i + a.length + 1) (a ++ t) = List.drop (i + 1) t := by
      have : i + a.length + 1 = a.length + (i + 1) := by omega
      rw [this, List.drop_append]
    have e2 : List.take (i + a.length) (a ++ t) = a ++ List.take i t := by
      have : i + a.length = a.length + i := by omega
      rw [this, List.take_append]
    simp [e1, e2]

theorem prune_hash_of_not_mem (t : List Char) (h : '#' ∉ t) : prune_hash t = (none, t) := by
  unfold prune_hash
  rw [(find_eq_none_iff t '#').2 h]

theorem parse_url_impl_run (env : environment) (sv : Bool) (input : List Char)
    (base : Option url) (hlen : input.length ≤ 4294967295)
    (hb : ∀ b, base = some b → b.is_valid = true) :
    parse_url_impl env sv input base =
      run ⟨env, sv, base, (prune_hash (clean input)).2, (prune_hash (clean input)).1⟩ loop_bound
        ⟨state.SCHEME_START, initial_url, 0⟩ := by
  unfold parse_url_impl
  have h1 : ¬ input.length > 4294967295 := by omega
  cases base with
  | none => simp [h1, cleaning_eq_clean, initial_url]
  | some b => simp [h1, hb b rfl, cleaning_eq_clean, initial_url]

theorem parse_url_impl_oversized (env : environment) (sv : Bool) (input : List Char)
    (base : Option url) (hlen : 4294967295 < input.length) :
    parse_url_impl env sv input base = some { initial_url with is_valid := false } := by
  unfold parse_url_impl
  cases base with
  | none => simp [hlen, initial_url]
  | some b => simp [hlen, initial_url]

theorem at_rest_length {c : context} {p : Nat} {rest : List Char} (h : at_rest c p rest) :
    p + rest.length = c.input_size := by
  obtain ⟨h1, h2⟩ := h
  subst h2
  simp [context.input_size] at *
  omega

theorem at_rest_ne {c : context} {p : Nat} {rest : List Char} (h : at_rest c p rest) :
    (p != c.input_size) = !rest.isEmpty := by
  have := at_rest_length h
  cases rest with
  | nil => simp at this; simp [this]
  | cons x r => simp at this; simp; omega

theorem at_rest_char {c : context} {p : Nat} {rest : List Char} (h : at_rest c p rest) :
    char_at c.url_data p = rest.headD (Char.ofNat 0) := by
  rw [char_at_eq_headD, h.2]

theorem at_rest_advance {c : context} {p : Nat} {a rest : List Char}
    (h : at_rest c p (a ++ rest)) : at_rest c (p + a.length) rest := by
  have hl := at_rest_length h
  obtain ⟨h1, h2⟩ := h
  refine ⟨by simp at hl; omega, ?_⟩
  rw [← List.drop_drop, h2]
  simp

theorem at_rest_zero (c : context) : at_rest c 0 c.url_data := by
  simp [at_rest]

/-! ## The states on a known remaining input -/

theorem step_SCHEME_START_alpha (c : context) (u : url) (p : Nat) (x : Char) (r : List Char)
    (h : at_rest c p (x :: r)) (hx : is_alpha x = true) :
    step c ⟨state.SCHEME_START, u, p⟩ = outcome.next ⟨state.SCHEME, u, p + 1⟩ := by
  simp [step, state_SCHEME_START, at_rest_ne h, at_rest_char h, hx]

theorem takeWhile_append_stop (p : Char → Bool) (mid rest : List Char)
    (hmid : ∀ x ∈ mid, p x = true) (hrest : ∀ x, rest.head? = some x → p x = false) :
    (mid ++ rest).takeWhile p = mid := by
  induction mid with
  | nil =>
    cases rest with
    | nil => simp
    | cons y r => simp [List.takeWhile, hrest y (by simp)]
  | cons x xs ih =>
    rw [List.cons_append, List.takeWhile_cons, hmid x (by simp), if_pos rfl,
      ih (fun y hy => hmid y (by simp [hy]))]

theorem skip_while_at (p : Char → Bool) (c : context) (q : Nat) (mid rest : List Char)
    (h : at_rest c q (mid ++ rest)) (hmid : ∀ x ∈ mid, p x = true)
    (hrest : ∀ x, rest.head? = some x → p x = false) :
    skip_while p c.url_data q = q + mid.length := by
  unfold skip_while
  rw [h.2, takeWhile_append_stop p mid rest hmid hrest]

theorem step_SCHEME_colon (c : context) (u : url) (a : Char) (S1 rest : List Char)
    (hd : c.url_data = a :: S1 ++ ':' :: rest) (hS : ∀ x ∈ S1, is_alnum_plus x = true) :
    step c ⟨state.SCHEME, u, 1⟩ =
      (let url := (u.parse_scheme (a :: S1)).2
       if url.type == scheme_type.FILE then
         outcome.next ⟨state.FILE, url, (a :: S1).length + 1⟩
       else if url.is_special && c.base_url.isSome &&
           (c.base_url.map (fun b => b.type)) == some url.type then
         outcome.next ⟨state.SPECIAL_RELATIVE_OR_AUTHORITY, url, (a :: S1).length + 1⟩
       else if url.is_special then
         outcome.next ⟨state.SPECIAL_AUTHORITY_SLASHES, url, (a :: S1).length + 1⟩
       else if rest.head? = some '/' then
         outcome.next ⟨state.PATH_OR_AUTHORITY, url, (a :: S1).length + 1 + 1⟩
       else
         outcome.next ⟨state.OPAQUE_PATH, url, (a :: S1).length + 1⟩) := by
  have h1 : at_rest c 1 (S1 ++ ':' :: rest) := by
    refine ⟨by simp [context.input_size, hd], by simp [hd]⟩
  have hsk : skip_while is_alnum_plus c.url_data 1 = 1 + S1.length :=
    skip_while_at _ c 1 S1 (':' :: rest) h1 hS (by intro x hx; simp at hx; subst hx; decide)
  have h2 : at_rest c (1 + S1.length) (':' :: rest) := at_rest_advance h1
  have h3 : at_rest c (1 + S1.length + [':'].length) rest := at_rest_advance (by simpa using h2)
  have htake : List.take (1 + S1.length) c.url_data = a :: S1 := by
    rw [hd]
    have : 1 + S1.length = (a :: S1).length := by simp; omega
    rw [this, List.take_left']
    rfl
  simp only [step, state_SCHEME, hsk, at_rest_ne h2, at_rest_char h2, htake]
  have hp : (u.parse_scheme (a :: S1)).1 = true := by
    unfold url.parse_scheme; simp only []; split_ifs <;> rfl
  have hlen : (a :: S1).length = 1 + S1.length := by simp; omega
  have hlt : (1 + S1.length + 1 < c.input_size) = !rest.isEmpty := by
    have := at_rest_length h3
    cases rest with
    | nil => simp at this ⊢; omega
    | cons y r => simp at this ⊢; omega
  have hch : char_at c.url_data (1 + S1.length + 1) = rest.headD (Char.ofNat 0) :=
    at_rest_char h3
  simp only [hp, hlen, hlt, hch]
  cases rest with
  | nil => simp
  | cons y r => simp

theorem step_SCHEME_START_scheme (c : context) (u : url) (a : Char) (S1 rest : List Char)
    (hd : c.url_data = a :: S1 ++ ':' :: rest) (ha : is_alpha a = true) :
    step c ⟨state.SCHEME_START, u, 0⟩ = outcome.next ⟨state.SCHEME, u, 1⟩ :=
  step_SCHEME_START_alpha c u 0 a (S1 ++ ':' :: rest) ⟨by simp, by simp [hd]⟩ ha

theorem state_IGNORE_SLASHES_at (c : context) (st : state) (u : url) (p : Nat) (sl t : List Char)
    (h : at_rest c p (sl ++ t)) (hsl : ∀ x ∈ sl, is_slash x = true)
    (ht : ∀ x, t.head? = some x → is_slash x = false) :
    state_SPECIAL_AUTHORITY_IGNORE_SLASHES c ⟨st, u, p⟩ =
      outcome.next ⟨state.AUTHORITY, u, p + sl.length⟩ := by
  have := skip_while_at is_slash c p sl t h hsl ht
  unfold is_slash at this
  simp [state_SPECIAL_AUTHORITY_IGNORE_SLASHES, this]

theorem step_IGNORE_SLASHES (c : context) (u : url) (p : Nat) (sl t : List Char)
    (h : at_rest c p (sl ++ t)) (hsl : ∀ x ∈ sl, is_slash x = true)
    (ht : ∀ x, t.head? = some x → is_slash x = false) :
    step c ⟨state.SPECIAL_AUTHORITY_IGNORE_SLASHES, u, p⟩ =
      outcome.next ⟨state.AUTHORITY, u, p + sl.length⟩ :=
  state_IGNORE_SLASHES_at c _ u p sl t h hsl ht

theorem step_SPECIAL_AUTHORITY_SLASHES (c : context) (u : url) (p : Nat) (sl t : List Char)
    (h : at_rest c p (sl ++ t)) (hsl : ∀ x ∈ sl, is_slash x = true)
    (ht : ∀ x, t.head? = some x → is_slash x = false) :
    step c ⟨state.SPECIAL_AUTHORITY_SLASHES, u, p⟩ =
      outcome.next ⟨state.AUTHORITY, u, p + sl.length⟩ := by
  simp only [step, state_SPECIAL_AUTHORITY_SLASHES, h.2]
  split_ifs with h2
  · -- the input starts with two slashes
    obtain ⟨sl2, rfl⟩ : ∃ sl2, sl = '/' :: '/' :: sl2 := by
      match sl, hsl, h2 with
      | [], _, h2 =>
        cases t with
        | nil => simp at h2
        | cons y r =>
          have := ht y (by simp)
          cases r <;> simp at h2
          simp [h2.1, is_slash] at this
      | [x], hsl, h2 =>
        cases t with
        | nil => simp at h2
        | cons y r =>
          have := ht y (by simp)
          simp at h2
          simp [h2.2, is_slash] at this
      | x :: y :: r, _, h2 =>
        simp at h2
        exact ⟨r, by rw [h2.1, h2.2]⟩
    have h3 : at_rest c (p + 2) (sl2 ++ t) :=
      at_rest_advance (a := ['/', '/']) (by simpa using h)
    rw [state_IGNORE_SLASHES_at c _ u (p + 2) sl2 t h3 (fun x hx => hsl x (by simp [hx])) ht]
    simp
    omega
  · exact state_IGNORE_SLASHES_at c _ u p sl t h hsl ht

theorem find_first_append (q : Char → Bool) (a t : List Char) (ha : ∀ x ∈ a, q x = false)
    (ht : t = [] ∨ ∃ x r, t = x :: r ∧ q x = true) : find_first q (a ++ t) = a.length := by
  induction a with
  | nil =>
    rcases ht with rfl | ⟨x, r, rfl, hx⟩
    · simp [find_first]
    · simp [find_first, hx]
  | cons y ys ih =>
    simp [find_first, ha y (by simp), ih (fun x hx => ha x (by simp [hx]))]

theorem authority_delimiter_append (sp : Bool) (a t : List Char)
    (ha : ∀ x ∈ a, x ≠ '@' ∧ is_authority_end sp x = false)
    (ht : t = [] ∨ ∃ x r, t = x :: r ∧ (x = '@' ∨ is_authority_end sp x = true)) :
    authority_delimiter sp (a ++ t) = a.length := by
  unfold authority_delimiter find_authority_delimiter_special find_authority_delimiter
  cases sp
  · simp only [Bool.false_eq_true, if_false]
    apply find_first_append
    · intro x hx
      have := ha x hx
      simp [is_authority_end] at this
      simp [this]
    · rcases ht with rfl | ⟨x, r, rfl, hx⟩
      · exact Or.inl rfl
      · refine Or.inr ⟨x, r, rfl, ?_⟩
        simp [is_authority_end] at hx
        simp
        tauto
  · simp only [if_true]
    apply find_first_append
    · intro x hx
      have := ha x hx
      simp [is_authority_end] at this
      simp [this]
    · rcases ht with rfl | ⟨x, r, rfl, hx⟩
      · exact Or.inl rfl
      · refine Or.inr ⟨x, r, rfl, ?_⟩
        simp [is_authority_end] at hx
        simp
        tauto

/-- Without credentials the authority state hands over to the host state at
the same position. -/
theorem step_AUTHORITY_plain (c : context) (u : url) (p : Nat) (a t : List Char)
    (h : at_rest c p (a ++ t))
    (ha : ∀ x ∈ a, x ≠ '@' ∧ is_authority_end u.is_special x = false)
    (ht : t = [] ∨ ∃ x r, t = x :: r ∧ is_authority_end u.is_special x = true) :
    step c ⟨state.AUTHORITY, u, p⟩ = outcome.next ⟨state.HOST, u, p⟩ := by
  simp only [step, state_AUTHORITY]
  split_ifs with hf
  · rfl
  · have hloc : authority_delimiter u.is_special (a ++ t) = a.length :=
      authority_delimiter_append _ a t ha (by
        rcases ht with rfl | ⟨x, r, rfl, hx⟩
        · exact Or.inl rfl
        · exact Or.inr ⟨x, r, rfl, Or.inr hx⟩)
    have h2 : at_rest c (p + a.length) t := at_rest_advance h
    unfold authority_loop
    simp only [h.2, hloc, List.take_left', at_rest_ne h2, at_rest_char h2]
    have hsz : (p + a.length == c.input_size) = t.isEmpty := by
      have := at_rest_length h2
      cases t with
      | nil => simp at this ⊢; omega
      | cons y r => simp at this ⊢; omega
    rw [hsz]
    rcases ht with rfl | ⟨x, r, rfl, hx⟩
    · simp
    · have hx2 : ¬ x = '@' := by
        intro e; subst e; cases hs : u.is_special <;> simp [is_authority_end, hs] at hx
      simp only [is_authority_end, Bool.or_eq_true, beq_iff_eq, Bool.and_eq_true] at hx
      simp [hx2, hx]

theorem host_delimiter_scan_plain (sp : Bool) (H t : List Char) (n : Nat)
    (hH : ∀ x ∈ H, x ≠ ':' ∧ x ≠ '[' ∧ is_authority_end sp x = false)
    (ht : t = [] ∨ ∃ x r, t = x :: r ∧ (x = ':' ∨ is_authority_end sp x = true)) :
    host_delimiter_scan sp (H ++ t) false n = (n + H.length, t.head? == some ':') := by
  induction H generalizing n with
  | nil =>
    rcases ht with rfl | ⟨x, r, rfl, hx | hx⟩
    · simp [host_delimiter_scan]
    · subst hx; simp [host_delimiter_scan]
    · have h1 : ¬ x = '[' := by
        intro e; subst e; cases sp <;> simp [is_authority_end] at hx
      by_cases h2 : x = ':'
      · subst h2; simp [host_delimiter_scan]
      · simp only [is_authority_end, Bool.or_eq_true, beq_iff_eq, Bool.and_eq_true] at hx
        simp [host_delimiter_scan, h1, h2, hx]
  | cons y ys ih =>
    obtain ⟨h1, h2, h3⟩ := hH y (by simp)
    simp only [is_authority_end, Bool.or_eq_false_iff, beq_eq_false_iff_ne, ne_eq,
      Bool.and_eq_false_imp] at h3
    have h4 : (sp && y == '\\') = false := by
      cases sp
      · rfl
      · simpa using h3.2
    have ih2 := ih (n + 1) (fun x hx => hH x (by simp [hx]))
    rw [List.cons_append, host_delimiter_scan]
    simp [h1, h2, h3.1.1, h3.1.2, h4, ih2]
    omega

/-- The host state on a host without brackets: it is cut at the first `:`,
`/`, `?` (or `\` for a special scheme). -/
theorem step_HOST_plain (c : context) (u : url) (p : Nat) (H t : List Char)
    (h : at_rest c p (H ++ t))
    (hH : ∀ x ∈ H, x ≠ ':' ∧ x ≠ '[' ∧ is_authority_end u.is_special x = false)
    (ht : t = [] ∨ ∃ x r, t = x :: r ∧ (x = ':' ∨ is_authority_end u.is_special x = true)) :
    step c ⟨state.HOST, u, p⟩ =
      (if t.head? = some ':' then
        (if !(u.parse_host c.env H).1 then outcome.returned (u.parse_host c.env H).2
         else outcome.next ⟨state.PORT, (u.parse_host c.env H).2, p + H.length + 1⟩)
      else if H.isEmpty && u.is_special then outcome.returned { u with is_valid := false }
      else if H.isEmpty then
        outcome.next ⟨state.PATH_START, u.update_base_hostname [], p + H.length⟩
      else if !(u.parse_host c.env H).1 then outcome.returned (u.parse_host c.env H).2
      else outcome.next ⟨state.PATH_START, (u.parse_host c.env H).2, p + H.length⟩) := by
  simp only [step, state_HOST, h.2, get_host_delimiter_location]
  rw [host_delimiter_scan_plain u.is_special H t 0 hH ht]
  simp only [Nat.zero_add, List.take_left', beq_iff_eq]

theorem run_next (c : context) (f : Nat) (m m1 : machine) (hp : m.input_position ≤ c.input_size)
    (h : step c m = outcome.next m1) : run c (f + 1) m = run c f m1 := by
  rw [run_succ, if_pos hp, h]

theorem run_returned (c : context) (f : Nat) (m : machine) (u : url)
    (hp : m.input_position ≤ c.input_size) (h : step c m = outcome.returned u) :
    run c (f + 1) m = some u := by
  rw [run_succ, if_pos hp, h]

theorem parse_scheme_type (u : url) (S : List Char) :
    (u.parse_scheme S).2.type = get_scheme_type (S.map to_lower_ascii) := by
  unfold url.parse_scheme
  simp only []
  split_ifs <;> rfl

/-- With no base, a special scheme other than `file` followed by a colon and a
run of slashes brings the machine to the authority state right after the
slashes. -/
theorem run_special_to_authority (c : context) (f : Nat) (a : Char) (S1 sl t : List Char)
    (hd : c.url_data = a :: S1 ++ ':' :: (sl ++ t)) (ha : is_alpha a = true)
    (hS : ∀ x ∈ S1, is_alnum_plus x = true) (hb : c.base_url = none)
    (hty : get_scheme_type ((a :: S1).map to_lower_ascii) ≠ scheme_type.NOT_SPECIAL)
    (hfile : get_scheme_type ((a :: S1).map to_lower_ascii) ≠ scheme_type.FILE)
    (hsl : ∀ x ∈ sl, is_slash x = true) (ht : ∀ x, t.head? = some x → is_slash x = false) :
    run c (f + 3) ⟨state.SCHEME_START, initial_url, 0⟩ =
      run c f ⟨state.AUTHORITY, (initial_url.parse_scheme (a :: S1)).2,
        (a :: S1).length + 1 + sl.length⟩ := by
  rw [run_next c (f + 2) _ _ (Nat.zero_le _)
    (step_SCHEME_START_scheme c initial_url a S1 (sl ++ t) hd ha)]
  have h1 : (1 : Nat) ≤ c.input_size := by simp [context.input_size, hd]
  have hst := step_SCHEME_colon c initial_url a S1 (sl ++ t) hd hS
  have hty2 := parse_scheme_type initial_url (a :: S1)
  simp only [hb, url.is_special, hty2] at hst
  simp only [beq_iff_eq, hfile, if_false, Option.isSome_none, Bool.and_false,
    Bool.false_eq_true, bne_iff_ne, ne_eq, hty, not_false_eq_true, if_true] at hst
  rw [run_next c (f + 1) _ _ h1 hst]
  have h2 : at_rest c ((a :: S1).length + 1) (sl ++ t) := by
    refine ⟨by simp [context.input_size, hd], ?_⟩
    rw [hd]
    have : (a :: S1).length + 1 = (a :: S1 ++ [':']).length := by simp
    rw [this]
    have : a :: S1 ++ ':' :: (sl ++ t) = (a :: S1 ++ [':']) ++ (sl ++ t) := by simp
    rw [this, List.drop_left]
  rw [run_next c f _ _ h2.1
    (step_SPECIAL_AUTHORITY_SLASHES c _ _ sl t h2 hsl ht)]

theorem authority_prepend_at_special (u : url) (a b : Bool) :
    (authority_prepend_at u a b).is_special = u.is_special := by
  unfold authority_prepend_at
  split_ifs <;> rfl

theorem authority_append_view_special (c : context) (u : url) (v : List Char) (b : Bool) :
    (authority_append_view c u v b).is_special = u.is_special := by
  unfold authority_append_view
  split_ifs
  · split <;> rfl
  · rfl
  · rfl
  · rfl

/-- One iteration of the authority loop on a chunk that ends with `@`. -/
theorem authority_loop_chunk (c : context) (fuel : Nat) (u : url) (p : Nat) (a b : Bool)
    (B t : List Char) (h : at_rest c p (B ++ '@' :: t))
    (hB : ∀ x ∈ B, x ≠ '@' ∧ is_authority_end u.is_special x = false) :
    authority_loop c (fuel + 1) u p a b =
      authority_loop c fuel (authority_append_view c (authority_prepend_at u a b) B b)
        (p + B.length + 1) true (if !b then (find B ':').isSome else b) := by
  have hloc : authority_delimiter u.is_special (B ++ '@' :: t) = B.length :=
    authority_delimiter_append _ B _ hB (Or.inr ⟨'@', t, rfl, Or.inl rfl⟩)
  have h2 : at_rest c (p + B.length) ('@' :: t) := at_rest_advance h
  have hsz : (p + B.length == c.input_size) = false := by
    have := at_rest_length h2
    simp at this ⊢; omega
  rw [authority_loop]
  simp only [h.2, hloc, List.take_left', at_rest_ne h2, at_rest_char h2, hsz]
  simp

/-- The iteration of the authority loop that follows an `@` and finds the end
of the authority at once fails. -/
theorem authority_loop_empty_after_at (c : context) (fuel : Nat) (u : url) (p : Nat) (b : Bool)
    (t : List Char) (h : at_rest c p t)
    (ht : t = [] ∨ ∃ x r, t = x :: r ∧ is_authority_end u.is_special x = true) :
    authority_loop c (fuel + 1) u p true b = outcome.returned { u with is_valid := false } := by
  have hloc : authority_delimiter u.is_special ([] ++ t) = 0 :=
    authority_delimiter_append _ [] t (by simp) (by
      rcases ht with rfl | ⟨x, r, rfl, hx⟩
      · exact Or.inl rfl
      · exact Or.inr ⟨x, r, rfl, Or.inr hx⟩)
  simp only [List.nil_append] at hloc
  have hsz : (p == c.input_size) = t.isEmpty := by
    have := at_rest_length h
    cases t with
    | nil => simp at this ⊢; omega
    | cons y r => simp at this ⊢; omega
  rw [authority_loop]
  simp only [h.2, hloc, List.take_zero, List.length_nil, Nat.add_zero, at_rest_ne h,
    at_rest_char h, hsz]
  rcases ht with rfl | ⟨x, r, rfl, hx⟩
  · simp
  · have hx2 : ¬ x = '@' := by
      intro e; subst e; cases hs : u.is_special <;> simp [is_authority_end, hs] at hx
    simp only [is_authority_end, Bool.or_eq_true, beq_iff_eq, Bool.and_eq_true] at hx
    simp [hx2, hx]

/-- Credentials that run up to the end of the authority make the loop fail. -/
theorem authority_loop_credentials_fail (c : context) (t : List Char) (n : Nat) :
    ∀ (A : List Char) (fuel : Nat) (u : url) (p : Nat) (a b : Bool), A.length ≤ n →
      A.length + 2 ≤ fuel → at_rest c p (A ++ '@' :: t) →
      (∀ x ∈ A, is_authority_end u.is_special x = false) →
      (t = [] ∨ ∃ x r, t = x :: r ∧ is_authority_end u.is_special x = true) →
      ∃ u1, authority_loop c fuel u p a b = outcome.returned u1 ∧ u1.is_valid = false := by
  induction n with
  | zero =>
    intro A fuel u p a b hn hf h hA ht
    have hA0 : A = [] := List.length_eq_zero.1 (by omega)
    subst hA0
    obtain ⟨f2, rfl⟩ : ∃ f2, fuel = f2 + 1 + 1 := ⟨fuel - 2, by simp at hf; omega⟩
    rw [authority_loop_chunk c (f2 + 1) u p a b [] t h (by simp)]
    have h2 : at_rest c (p + ([] : List Char).length + 1) t :=
      at_rest_advance (a := ['@']) (by simpa using h)
    rw [authority_loop_empty_after_at c f2 _ _ _ t h2 (by
      rw [authority_append_view_special, authority_prepend_at_special]; exact ht)]
    exact ⟨_, rfl, rfl⟩
  | succ n ih =>
    intro A fuel u p a b hn hf h hA ht
    obtain ⟨f2, rfl⟩ : ∃ f2, fuel = f2 + 1 + 1 := ⟨fuel - 2, by omega⟩
    cases hfa : find A '@' with
    | none =>
      have hno : '@' ∉ A := (find_eq_none_iff A '@').1 hfa
      rw [authority_loop_chunk c (f2 + 1) u p a b A t h
        (fun x hx => ⟨fun e => hno (e ▸ hx), hA x hx⟩)]
      have h2 : at_rest c (p + A.length + 1) t := by
        have : at_rest c (p + (A ++ [(Char.ofNat 64)]).length) t := at_rest_advance (by simpa using h)
        simpa [Nat.add_assoc] using this
      rw [authority_loop_empty_after_at c f2 _ _ _ t h2 (by
        rw [authority_append_view_special, authority_prepend_at_special]; exact ht)]
      exact ⟨_, rfl, rfl⟩
    | some i =>
      obtain ⟨hsplit, hnot, hi⟩ := find_some_split A '@' i hfa
      have h1 : at_rest c p (A.take i ++ '@' :: (A.drop (i + 1) ++ '@' :: t)) := by
        have : A ++ '@' :: t = A.take i ++ '@' :: (A.drop (i + 1) ++ '@' :: t) := by
          conv_lhs => rw [hsplit]
          simp
        rwa [this] at h
      rw [authority_loop_chunk c (f2 + 1) u p a b (A.take i) _ h1
        (fun x hx => ⟨fun e => hnot (e ▸ hx), hA x (List.mem_of_mem_take hx)⟩)]
      have h2 : at_rest c (p + (A.take i).length + 1) (A.drop (i + 1) ++ '@' :: t) := by
        have := at_rest_advance (a := A.take i ++ ['@']) (by simpa using h1)
        simpa [Nat.add_assoc] using this
      apply ih (A.drop (i + 1)) (f2 + 1) _ _ _ _ (by simp; omega) (by simp; omega) h2
      · intro x hx
        rw [authority_append_view_special, authority_prepend_at_special]
        exact hA x (List.mem_of_mem_drop hx)
      · rw [authority_append_view_special, authority_prepend_at_special]; exact ht

/-- C2 at the authority state: when what is left to read is credentials that
end with `@` and are followed by the end of the input, `/`, `?` (or `\` for a
special scheme), the pass through the authority state returns failure. -/
theorem step_AUTHORITY_credentials_fail (c : context) (u : url) (p : Nat) (A t : List Char)
    (h : at_rest c p (A ++ '@' :: t))
    (hA : ∀ x ∈ A, is_authority_end u.is_special x = false)
    (ht : t = [] ∨ ∃ x r, t = x :: r ∧ is_authority_end u.is_special x = true) :
    ∃ u1, step c ⟨state.AUTHORITY, u, p⟩ = outcome.returned u1 ∧ u1.is_valid = false := by
  simp only [step, state_AUTHORITY, h.2]
  have hf : ¬ (find (A ++ '@' :: t) '@').isNone = true := by
    simp only [Option.isNone_iff_eq_none, find_eq_none_iff]
    simp
  rw [if_neg hf]
  have := at_rest_length h
  exact authority_loop_credentials_fail c t A.length A _ u p false false (le_refl _)
    (by simp at this; omega) h hA ht

theorem step_PATH_OR_AUTHORITY_slash (c : context) (u : url) (p : Nat) (t : List Char)
    (h : at_rest c p ('/' :: t)) :
    step c ⟨state.PATH_OR_AUTHORITY, u, p⟩ = outcome.next ⟨state.AUTHORITY, u, p + 1⟩ := by
  simp [step, state_PATH_OR_AUTHORITY, at_rest_ne h, at_rest_char h]

theorem step_SPECIAL_RELATIVE_OR_AUTHORITY_slashes (c : context) (u : url) (p : Nat)
    (t : List Char) (h : at_rest c p ('/' :: '/' :: t)) :
    step c ⟨state.SPECIAL_RELATIVE_OR_AUTHORITY, u, p⟩ =
      outcome.next ⟨state.SPECIAL_AUTHORITY_IGNORE_SLASHES, u, p + 2⟩ := by
  simp [step, state_SPECIAL_RELATIVE_OR_AUTHORITY, h.2]

theorem at_rest_of_append (c : context) (pre rest : List Char) (h : c.url_data = pre ++ rest) :
    at_rest c pre.length rest :=
  ⟨by simp [context.input_size, h], by rw [h, List.drop_left]⟩

/-- A scheme other than `file` followed by `://` brings the machine to the
authority state right after the two slashes, whatever the base. -/
theorem run_to_authority (c : context) (a : Char) (S1 t : List Char)
    (hd : c.url_data = a :: S1 ++ ':' :: '/' :: '/' :: t) (ha : is_alpha a = true)
    (hS : ∀ x ∈ S1, is_alnum_plus x = true)
    (hfile : get_scheme_type ((a :: S1).map to_lower_ascii) ≠ scheme_type.FILE)
    (ht : get_scheme_type ((a :: S1).map to_lower_ascii) ≠ scheme_type.NOT_SPECIAL →
      ∀ x, t.head? = some x → is_slash x = false) :
    run c loop_bound ⟨state.SCHEME_START, initial_url, 0⟩ =
      run c loop_bound ⟨state.AUTHORITY, (initial_url.parse_scheme (a :: S1)).2,
        (a :: S1).length + 3⟩ := by
  have h1 : (1 : Nat) ≤ c.input_size := by simp [context.input_size, hd]
  have hty2 := parse_scheme_type initial_url (a :: S1)
  have hst := step_SCHEME_colon c initial_url a S1 ('/' :: '/' :: t) hd hS
  simp only [url.is_special, hty2, beq_iff_eq, hfile, if_false, List.head?_cons, if_true]
    at hst
  have hr1 : at_rest c ((a :: S1).length + 1) ('/' :: '/' :: t) := by
    have := at_rest_of_append c (a :: S1 ++ [':']) ('/' :: '/' :: t) (by simp [hd])
    simpa using this
  have hr2 : at_rest c ((a :: S1).length + 1 + 1) ('/' :: t) :=
    at_rest_advance (a := ['/']) (by simpa using hr1)
  have hr3 : at_rest c ((a :: S1).length + 1 + 2) t :=
    at_rest_advance (a := ['/', '/']) (by simpa using hr1)
  have hA : ∀ f, 6 < f → run c f ⟨state.AUTHORITY, (initial_url.parse_scheme (a :: S1)).2,
      (a :: S1).length + 3⟩ = run c loop_bound ⟨state.AUTHORITY,
      (initial_url.parse_scheme (a :: S1)).2, (a :: S1).length + 3⟩ :=
    fun f hf => run_loop_bound c f _ (by simpa [state.rank] using hf)
  conv_lhs => rw [show loop_bound = 23 + 1 from rfl]
  rw [run_next c 23 _ _ (Nat.zero_le _) (step_SCHEME_START_scheme c initial_url a S1 _ hd ha)]
  by_cases hsp : get_scheme_type ((a :: S1).map to_lower_ascii) = scheme_type.NOT_SPECIAL
  · simp only [hsp, bne_self_eq_false, Bool.false_and, Bool.false_eq_true, if_false] at hst
    rw [show (23 : Nat) = 21 + 1 + 1 from rfl, run_next c 22 _ _ h1 hst,
      run_next c 21 _ _ hr2.1 (step_PATH_OR_AUTHORITY_slash c _ _ t hr2)]
    exact hA 21 (by omega)
  · have hsp2 : (get_scheme_type ((a :: S1).map to_lower_ascii) != scheme_type.NOT_SPECIAL)
        = true := by simpa using hsp
    simp only [hsp2, Bool.true_and, if_true] at hst
    split_ifs at hst with hb
    · rw [show (23 : Nat) = 20 + 1 + 1 + 1 from rfl, run_next c 22 _ _ h1 hst,
        run_next c 21 _ _ hr1.1 (step_SPECIAL_RELATIVE_OR_AUTHORITY_slashes c _ _ t hr1),
        run_next c 20 _ _ hr3.1 (step_IGNORE_SLASHES c _ _ [] t (by simpa using hr3)
          (by simp) (ht hsp))]
      exact hA 20 (by omega)
    · rw [show (23 : Nat) = 21 + 1 + 1 from rfl, run_next c 22 _ _ h1 hst,
        run_next c 21 _ _ hr1.1 (step_SPECIAL_AUTHORITY_SLASHES c _ _ ['/', '/'] t
          (by simpa using hr1) (by decide) (ht hsp))]
      exact hA 21 (by omega)

/-! ## Invariants of the main loop -/

/-- An invariant of the main loop passes to the result: if `I` is kept by
every pass that goes on, and every way out of the loop from a machine that
satisfies `I` gives a record that satisfies `R`, then every result of a run
from a machine that satisfies `I` satisfies `R`. -/
theorem run_invariant (c : context) (I : machine → Prop) (R : url → Prop)
    (hnext : ∀ m m1, I m → m.input_position ≤ c.input_size → step c m = outcome.next m1 → I m1)
    (hret : ∀ m u, I m → m.input_position ≤ c.input_size → step c m = outcome.returned u → R u)
    (hexit : ∀ m, I m → c.input_size < m.input_position → R (store_fragment c m.url)) :
    ∀ (fuel : Nat) (m : machine) (u : url), I m → run c fuel m = some u → R u := by
  intro fuel
  induction fuel with
  | zero => intro m u _ h; simp [run] at h
  | succ n ih =>
    intro m u hI h
    rw [run_succ] at h
    split_ifs at h with hp
    · cases hs : step c m with
      | returned u1 =>
        rw [hs] at h
        simp only [Option.some.injEq] at h
        subst h
        exact hret m u1 hI hp hs
      | next m1 =>
        rw [hs] at h
        exact ih m1 u (hnext m m1 hI hp hs) h
      | undefined => rw [hs] at h; simp at h
    · simp only [Option.some.injEq] at h
      subst h
      exact hexit m hI (by omega)

theorem authority_prepend_at_hash (u : url) (a b : Bool) :
    (authority_prepend_at u a b).hash = u.hash := by
  unfold authority_prepend_at
  split_ifs <;> rfl

theorem authority_append_view_hash (c : context) (u : url) (v : List Char) (b : Bool) :
    (authority_append_view c u v b).hash = u.hash := by
  unfold authority_append_view
  split_ifs
  · split <;> rfl
  · rfl
  · rfl
  · rfl

theorem attach_fragment_hash (c : context) (u : url) (h : u.hash = none) :
    (attach_fragment c u).hash = expected_hash c := by
  unfold attach_fragment expected_hash
  cases c.fragment with
  | none => simpa using h
  | some f => rfl

theorem store_fragment_hash (c : context) (u : url) (hs : c.store_values = true)
    (h : u.hash = none) : (store_fragment c u).hash = expected_hash c := by
  unfold store_fragment
  rw [if_pos hs]
  exact attach_fragment_hash c u h

theorem authority_loop_hash (c : context) (fuel : Nat) :
    ∀ (u : url) (p : Nat) (a b : Bool), u.hash = none →
      (∀ m1, authority_loop c fuel u p a b = outcome.next m1 → m1.url.hash = none) ∧
      (∀ u1, c.store_values = true → authority_loop c fuel u p a b = outcome.returned u1 →
        u1.is_valid = true → u1.hash = expected_hash c) := by
  induction fuel with
  | zero => intro u p a b _; simp [authority_loop]
  | succ n ih =>
    intro u p a b hu
    rw [authority_loop]
    simp only []
    split_ifs <;> first
      | exact ih _ _ _ _ (by rw [authority_append_view_hash, authority_prepend_at_hash]; exact hu)
      | exact ih _ _ _ _ hu
      | (refine ⟨fun m1 h => ?_, fun u1 hs h hv => ?_⟩ <;> cases h <;> first
          | exact hu
          | (simp at hv; done)
          | exact store_fragment_hash c _ hs hu
          | exact store_fragment_hash c _ hs
              (by rw [authority_append_view_hash, authority_prepend_at_hash]; exact hu))

theorem parse_port_hash (u : url) (v : List Char) (t : Bool) :
    (u.parse_port v t).2.hash = u.hash := by
  unfold url.parse_port
  simp only []
  split_ifs <;> rfl

theorem parse_host_hash (u : url) (env : environment) (v : List Char) :
    (u.parse_host env v).2.hash = u.hash := by
  unfold url.parse_host
  split <;> rfl

theorem parse_host_fail (u : url) (env : environment) (v : List Char)
    (h : (u.parse_host env v).1 = false) : (u.parse_host env v).2.is_valid = false := by
  unfold url.parse_host at *
  split <;> simp_all

theorem parse_scheme_hash (u : url) (v : List Char) :
    (u.parse_scheme v).2.hash = u.hash := by
  unfold url.parse_scheme
  simp only []
  split_ifs <;> rfl

theorem parse_scheme_ok (u : url) (v : List Char) : (u.parse_scheme v).1 = true := by
  unfold url.parse_scheme
  simp only []
  split_ifs <;> rfl

theorem step_hash_next (c : context) (m m1 : machine) (h : step c m = outcome.next m1)
    (hm : m.url.hash = none) : m1.url.hash = none := by
  obtain ⟨st, u, p⟩ := m
  simp only at hm
  cases st <;> simp only [step] at h
  case AUTHORITY =>
    unfold state_AUTHORITY at h
    split_ifs at h
    · cases h; exact hm
    · exact (authority_loop_hash c _ u p false false hm).1 m1 h
  case PORT =>
    unfold state_PORT state_PATH_START at h
    simp only [] at h
    have := parse_port_hash u (List.drop p c.url_data) true
    split_ifs at h <;> cases h <;> simp_all
  case HOST =>
    unfold state_HOST at h
    simp only [] at h
    have := parse_host_hash u c.env
      (List.take (get_host_delimiter_location u.is_special (List.drop p c.url_data)).1
        (List.drop p c.url_data))
    split_ifs at h <;> cases h <;> simp_all [url.update_base_hostname]
  case SCHEME =>
    unfold state_SCHEME at h
    simp only [] at h
    have := parse_scheme_hash u
      (List.take (skip_while is_alnum_plus c.url_data p) c.url_data)
    split_ifs at h <;> cases h <;> simp_all
  case FILE_HOST =>
    unfold state_FILE_HOST at h
    simp only [] at h
    have := parse_host_hash u c.env (List.take (find_first
      (fun ch => ch == '/' || ch == '\\' || ch == '?') (List.drop p c.url_data))
      (List.drop p c.url_data))
    split_ifs at h <;> cases h <;> simp_all
  all_goals
    simp only [state_SCHEME_START, state_NO_SCHEME, state_SPECIAL_RELATIVE_OR_AUTHORITY,
      state_PATH_OR_AUTHORITY, state_RELATIVE_SCHEME, state_RELATIVE_SLASH,
      state_SPECIAL_AUTHORITY_SLASHES, state_SPECIAL_AUTHORITY_IGNORE_SLASHES, state_QUERY,
      state_OPAQUE_PATH, state_PATH_START, state_PATH, state_FILE_SLASH, state_FILE] at h
    repeat' split at h
    all_goals cases h
    all_goals simp_all [url.copy_scheme, url.clear_search, url.update_base_pathname,
      url.set_protocol_as_file, url.clear_pathname]

theorem step_hash_returned (c : context) (hs : c.store_values = true) (m : machine) (u1 : url)
    (h : step c m = outcome.returned u1) (hm : m.url.hash = none) (hv : u1.is_valid = true) :
    u1.hash = expected_hash c := by
  obtain ⟨st, u, p⟩ := m
  simp only at hm
  cases st <;> simp only [step] at h
  case AUTHORITY =>
    unfold state_AUTHORITY at h
    split_ifs at h
    exact (authority_loop_hash c _ u p false false hm).2 u1 hs h hv
  case PORT =>
    unfold state_PORT state_PATH_START at h
    simp only [hs] at h
    have := parse_port_hash u (List.drop p c.url_data) true
    split_ifs at h <;> cases h
    · simp_all
    · exact attach_fragment_hash c _ (by simpa [url.update_base_pathname] using this.trans hm)
  case HOST =>
    unfold state_HOST at h
    simp only [] at h
    have := parse_host_fail u c.env
      (List.take (get_host_delimiter_location u.is_special (List.drop p c.url_data)).1
        (List.drop p c.url_data))
    split_ifs at h <;> cases h <;> simp_all
  case SCHEME =>
    unfold state_SCHEME at h
    simp only [parse_scheme_ok, Bool.not_true, Bool.false_eq_true, if_false] at h
    split_ifs at h <;> cases h
  case FILE_HOST =>
    unfold state_FILE_HOST at h
    simp only [] at h
    have := parse_host_fail u c.env (List.take (find_first
      (fun ch => ch == '/' || ch == '\\' || ch == '?') (List.drop p c.url_data))
      (List.drop p c.url_data))
    split_ifs at h <;> cases h <;> simp_all
  case NO_SCHEME =>
    unfold state_NO_SCHEME at h
    repeat' split at h
    all_goals cases h
    all_goals first
      | (simp at hv; done)
      | exact attach_fragment_hash c _ (by simpa [url.copy_scheme] using hm)
  case QUERY =>
    unfold state_QUERY at h
    simp only [hs, if_true] at h
    cases h
    exact attach_fragment_hash c _ (by simpa [url.update_base_search] using hm)
  case PATH_START =>
    unfold state_PATH_START at h
    simp only [hs] at h
    split_ifs at h <;> cases h
    exact attach_fragment_hash c _ (by simpa [url.update_base_pathname] using hm)
  all_goals
    simp only [state_SCHEME_START, state_SPECIAL_RELATIVE_OR_AUTHORITY,
      state_PATH_OR_AUTHORITY, state_RELATIVE_SCHEME, state_RELATIVE_SLASH,
      state_SPECIAL_AUTHORITY_SLASHES, state_SPECIAL_AUTHORITY_IGNORE_SLASHES,
      state_OPAQUE_PATH, state_PATH, state_FILE_SLASH, state_FILE] at h
    repeat' split at h
    all_goals cases h

/-! ## The authority loop and the credentials -/

theorem percent_encode_append (x y : List Char) (s : Char → Bool) :
    percent_encode (x ++ y) s = percent_encode x s ++ percent_encode y s := by
  induction x with
  | nil => simp [percent_encode]
  | cons a r ih => simp [percent_encode, ih]

theorem percent_encode_at (s : Char → Bool) (h : s '@' = true) :
    percent_encode ['@'] s = ['%', '4', '0'] := by
  simp [percent_encode, h]
  decide

theorem find_none_colon (B : List Char) (h : find B ':' = none) :
    before_colon B = B ∧ after_colon B = [] := by
  have hno := (find_eq_none_iff B ':').1 h
  unfold before_colon after_colon
  have h1 : B.takeWhile (fun x => x != ':') = B := by
    rw [List.takeWhile_eq_self_iff]
    intro x hx
    have : x ≠ ':' := fun e => hno (e ▸ hx)
    simpa using this
  have h2 : B.dropWhile (fun x => x != ':') = [] := by
    rw [List.dropWhile_eq_nil_iff]
    intro x hx
    have : x ≠ ':' := fun e => hno (e ▸ hx)
    simpa using this
  simp [h1, h2]

theorem before_after_split (B R : List Char) (h : ':' ∉ B) :
    before_colon (B ++ ':' :: R) = B ∧ after_colon (B ++ ':' :: R) = R := by
  unfold before_colon after_colon
  induction B with
  | nil => simp
  | cons x r ih =>
    have hx : x ≠ ':' := fun e => h (by simp [e])
    have hr : ':' ∉ r := fun e => h (by simp [e])
    have hx2 : (x != ':') = true := by simpa using hx
    rw [List.cons_append, List.takeWhile_cons, List.dropWhile_cons, hx2]
    simp only [if_true]
    exact ⟨by rw [(ih hr).1], (ih hr).2⟩

theorem find_some_colon (B : List Char) (i : Nat) (h : find B ':' = some i) :
    before_colon B = B.take i ∧ after_colon B = B.drop (i + 1) := by
  obtain ⟨h1, h2, _⟩ := find_some_split B ':' i h
  have := before_after_split (B.take i) (B.drop (i + 1)) h2
  rw [← h1] at this
  exact this

theorem append_view_eq (c : context) (hs : c.store_values = true) (u : url) (a b : Bool)
    (B : List Char) :
    authority_append_view c (authority_prepend_at u a b) B b = with_credentials c u a b B := by
  unfold authority_append_view authority_prepend_at with_credentials
  cases b
  · simp only [Bool.not_false, if_true, hs, Bool.false_eq_true, if_false]
    cases hf : find B ':' with
    | none =>
      obtain ⟨h1, h2⟩ := find_none_colon B hf
      cases a <;> simp [h1, h2, percent_encode]
    | some i =>
      obtain ⟨h1, h2⟩ := find_some_colon B i hf
      cases a <;> simp [h1, h2]
  · simp only [Bool.not_true, Bool.false_eq_true, if_false, hs, if_true]
    cases a <;> simp

theorem rfind_cons (x : Char) (xs : List Char) (c : Char) :
    rfind (x :: xs) c =
      match rfind xs c with
      | some i => some (i + 1)
      | none => if x == c then some 0 else none := rfl

theorem rfind_eq_none_iff (v : List Char) (c : Char) : rfind v c = none ↔ c ∉ v := by
  induction v with
  | nil => simp [rfind]
  | cons x xs ih =>
    rw [rfind_cons]
    cases h : rfind xs c with
    | some i =>
      have : c ∈ xs := by
        by_contra hc
        rw [ih.2 hc] at h
        cases h
      simp [this]
    | none =>
      have := ih.1 h
      by_cases hx : x = c
      · simp [hx]
      · have h2 : ¬ c = x := fun e => hx e.symm
        simp [hx, this, h2]

theorem rfind_append_cons (B R : List Char) (c : Char) (h : c ∉ B) :
    rfind (B ++ c :: R) c =
      match rfind R c with
      | some i => some (B.length + 1 + i)
      | none => some B.length := by
  induction B with
  | nil =>
    rw [List.nil_append, rfind_cons]
    cases rfind R c with
    | some i => simp; omega
    | none => simp
  | cons x xs ih =>
    rw [List.cons_append, rfind_cons, ih (fun e => h (by simp [e]))]
    cases rfind R c with
    | some i => simp; omega
    | none => simp

theorem with_credentials_special (c : context) (u : url) (a b : Bool) (C : List Char) :
    (with_credentials c u a b C).is_special = u.is_special := by
  unfold with_credentials
  split_ifs <;> rfl

theorem with_credentials_append (c : context) (hat : c.env.sets.USERINFO_PERCENT_ENCODE '@' = true)
    (u : url) (a b : Bool) (B R : List Char) :
    with_credentials c (with_credentials c u a b B) true
        (if !b then (find B ':').isSome else b) R =
      with_credentials c u a b (B ++ '@' :: R) := by
  have e : ∀ X Y : List Char, percent_encode (X ++ '@' :: Y) c.env.sets.USERINFO_PERCENT_ENCODE =
      percent_encode X c.env.sets.USERINFO_PERCENT_ENCODE ++ ['%', '4', '0'] ++
        percent_encode Y c.env.sets.USERINFO_PERCENT_ENCODE := by
    intro X Y
    have : X ++ '@' :: Y = X ++ (['@'] ++ Y) := by simp
    rw [this, percent_encode_append, percent_encode_append, percent_encode_at _ hat]
    simp
  cases b
  · simp only [Bool.not_false, if_true]
    cases hf : find B ':' with
    | none =>
      have hno := (find_eq_none_iff B ':').1 hf
      obtain ⟨h1, h2⟩ := find_none_colon B hf
      have h3 : before_colon (B ++ '@' :: R) = B ++ '@' :: before_colon R := by
        unfold before_colon
        rw [List.takeWhile_append_of_pos]
        · simp [List.takeWhile]
        · intro x hx
          have : x ≠ ':' := fun e => hno (e ▸ hx)
          simpa using this
      have h4 : after_colon (B ++ '@' :: R) = after_colon R := by
        unfold after_colon
        rw [List.dropWhile_append_of_pos]
        · simp [List.dropWhile]
        · intro x hx
          have : x ≠ ':' := fun e => hno (e ▸ hx)
          simpa using this
      simp only [with_credentials, Option.isSome_none, Bool.false_eq_true, if_false, h1, h2, h3,
        h4, e, if_true]
      simp [percent_encode]
    | some i =>
      obtain ⟨hs1, hs2, _⟩ := find_some_split B ':' i hf
      have hb := before_after_split (B.take i) (B.drop (i + 1)) hs2
      rw [← hs1] at hb
      have hb2 := before_after_split (B.take i) (B.drop (i + 1) ++ '@' :: R) hs2
      have e2 : List.take i B ++ ':' :: (List.drop (i + 1) B ++ '@' :: R) = B ++ '@' :: R := by
        conv_rhs => rw [hs1]
        simp
      rw [e2] at hb2
      simp only [with_credentials, Option.isSome_some, if_true, Bool.false_eq_true, if_false,
        hb.1, hb.2, hb2.1, hb2.2, e]
      simp
  · simp only [Bool.not_true, Bool.false_eq_true, if_false, with_credentials, if_true, e]
    simp

/-- The iteration of the authority loop that finds no `@` before the end of
the authority. -/
theorem authority_loop_last (c : context) (fuel : Nat) (u : url) (p : Nat) (a b : Bool)
    (A t : List Char) (h : at_rest c p (A ++ t))
    (hA : ∀ x ∈ A, x ≠ '@' ∧ is_authority_end u.is_special x = false)
    (ht : t = [] ∨ ∃ x r, t = x :: r ∧ is_authority_end u.is_special x = true) :
    authority_loop c (fuel + 1) u p a b =
      if a && A.isEmpty then outcome.returned { u with is_valid := false }
      else outcome.next ⟨state.HOST, u, p⟩ := by
  have hloc : authority_delimiter u.is_special (A ++ t) = A.length :=
    authority_delimiter_append _ A t hA (by
      rcases ht with rfl | ⟨x, r, rfl, hx⟩
      · exact Or.inl rfl
      · exact Or.inr ⟨x, r, rfl, Or.inr hx⟩)
  have h2 : at_rest c (p + A.length) t := at_rest_advance h
  have hsz : (p + A.length == c.input_size) = t.isEmpty := by
    have := at_rest_length h2
    cases t with
    | nil => simp at this ⊢; omega
    | cons y r => simp at this ⊢; omega
  rw [authority_loop]
  simp only [h.2, hloc, List.take_left', at_rest_ne h2, at_rest_char h2, hsz]
  rcases ht with rfl | ⟨x, r, rfl, hx⟩
  · simp
  · have hx2 : ¬ x = '@' := by
      intro e; subst e; cases hs : u.is_special <;> simp [is_authority_end, hs] at hx
    simp only [is_authority_end, Bool.or_eq_true, beq_iff_eq, Bool.and_eq_true] at hx
    simp [hx2, hx]

/-- The authority loop computes the credentials in one shot: with `A` the
authority text, if `A` has no `@` the loop hands over to the host state (or
fails after an `@` on an empty text); otherwise the text up to the last `@` of
`A` is consumed as credentials and the host starts after that `@`, the loop
failing if nothing follows it. -/
theorem authority_loop_spec (c : context) (hs : c.store_values = true)
    (hat : c.env.sets.USERINFO_PERCENT_ENCODE '@' = true) (t : List Char) (n : Nat) :
    ∀ (A : List Char) (fuel : Nat) (u : url) (p : Nat) (a b : Bool), A.length ≤ n →
      A.length + 1 ≤ fuel → at_rest c p (A ++ t) →
      (∀ x ∈ A, is_authority_end u.is_special x = false) →
      (t = [] ∨ ∃ x r, t = x :: r ∧ is_authority_end u.is_special x = true) →
      authority_loop c fuel u p a b =
        match rfind A '@' with
        | none =>
          if a && A.isEmpty then outcome.returned { u with is_valid := false }
          else outcome.next ⟨state.HOST, u, p⟩
        | some i =>
          if i + 1 = A.length then
            outcome.returned { with_credentials c u a b (A.take i) with is_valid := false }
          else outcome.next ⟨state.HOST, with_credentials c u a b (A.take i), p + (i + 1)⟩ := by
  induction n with
  | zero =>
    intro A fuel u p a b hn hf h hA ht
    have hA0 : A = [] := List.length_eq_zero.1 (by omega)
    subst hA0
    obtain ⟨f2, rfl⟩ : ∃ f2, fuel = f2 + 1 := ⟨fuel - 1, by simp at hf; omega⟩
    rw [authority_loop_last c f2 u p a b [] t h (by simp) ht]
    simp [rfind]
  | succ n ih =>
    intro A fuel u p a b hn hf h hA ht
    obtain ⟨f2, rfl⟩ : ∃ f2, fuel = f2 + 1 := ⟨fuel - 1, by omega⟩
    cases hfa : find A '@' with
    | none =>
      have hno : '@' ∉ A := (find_eq_none_iff A '@').1 hfa
      rw [authority_loop_last c f2 u p a b A t h
        (fun x hx => ⟨fun e => hno (e ▸ hx), hA x hx⟩) ht, (rfind_eq_none_iff A '@').2 hno]
    | some j =>
      obtain ⟨hsplit, hnot, hj⟩ := find_some_split A '@' j hfa
      generalize hB : A.take j = B at hsplit hnot
      generalize hR : A.drop (j + 1) = R at hsplit
      have hBl : B.length = j := by rw [← hB]; simp; omega
      have hRl : R.length + j + 1 = A.length := by rw [← hR]; simp; omega
      have h1 : at_rest c p (B ++ '@' :: (R ++ t)) := by
        have : A ++ t = B ++ '@' :: (R ++ t) := by
          conv_lhs => rw [hsplit]
          simp
        rwa [this] at h
      have hAB : ∀ x ∈ B, is_authority_end u.is_special x = false :=
        fun x hx => hA x (by rw [hsplit]; simp [hx])
      have hAR : ∀ x ∈ R, is_authority_end u.is_special x = false :=
        fun x hx => hA x (by rw [hsplit]; simp [hx])
      rw [authority_loop_chunk c f2 u p a b B _ h1
        (fun x hx => ⟨fun e => hnot (e ▸ hx), hAB x hx⟩), append_view_eq c hs]
      have h2 : at_rest c (p + B.length + 1) (R ++ t) := by
        have : at_rest c (p + (B ++ ['@']).length) (R ++ t) :=
          at_rest_advance (by simpa using h1)
        simpa [Nat.add_assoc] using this
      rw [ih R f2 _ _ true _ (by omega) (by omega) h2
        (by rw [with_credentials_special]; exact hAR)
        (by rw [with_credentials_special]; exact ht)]
      conv_rhs => rw [hsplit, rfind_append_cons B R '@' hnot]
      cases hr : rfind R '@' with
      | none =>
        simp only [Bool.true_and, List.take_left']
        have e1 : (B.length + 1 = (B ++ '@' :: R).length) = (R.isEmpty = true) := by
          cases R <;> simp
        simp only [e1]
        split_ifs <;> simp [Nat.add_assoc]
      | some i =>
        simp only [with_credentials_append c hat]
        have e2 : List.take (B.length + 1 + i) (B ++ '@' :: R) = B ++ '@' :: List.take i R := by
          have : B ++ '@' :: R = (B ++ ['@']) ++ R := by simp
          rw [this, show B.length + 1 + i = (B ++ ['@']).length + i by simp, List.take_append]
          simp
        have e3 : (B.length + 1 + i + 1 = (B ++ '@' :: R).length) = (i + 1 = R.length) := by
          simp only [List.length_append, List.length_cons, eq_iff_iff]
          omega
        simp only [e2, e3]
        split_ifs
        · rfl
        · simp only [outcome.next.injEq, machine.mk.injEq, true_and]
          omega

theorem authority_text_split (sp : Bool) (rest : List Char) :
    ∃ t, rest = authority_text sp rest ++ t ∧
      (∀ x ∈ authority_text sp rest, is_authority_end sp x = false) ∧
      (t = [] ∨ ∃ x r, t = x :: r ∧ is_authority_end sp x = true) := by
  refine ⟨rest.dropWhile (fun x => !is_authority_end sp x), ?_, ?_, ?_⟩
  · exact (List.takeWhile_append_dropWhile _ _).symm
  · intro x hx
    have := List.mem_takeWhile_imp hx
    simpa using this
  · cases h : rest.dropWhile (fun x => !is_authority_end sp x) with
    | nil => exact Or.inl rfl
    | cons y r =>
      refine Or.inr ⟨y, r, rfl, ?_⟩
      have := List.head_dropWhile_not (fun x => !is_authority_end sp x) rest (by rw [h]; simp)
      simpa [h] using this

/-- The authority state computes the credentials in one shot. -/
theorem step_AUTHORITY_spec (c : context) (hs : c.store_values = true)
    (hat : c.env.sets.USERINFO_PERCENT_ENCODE '@' = true) (u : url) (p : Nat)
    (hp : p ≤ c.input_size) :
    step c ⟨state.AUTHORITY, u, p⟩ =
      match rfind (authority_text u.is_special (c.url_data.drop p)) '@' with
      | none => outcome.next ⟨state.HOST, u, p⟩
      | some i =>
        if i + 1 = (authority_text u.is_special (c.url_data.drop p)).length then
          outcome.returned { with_credentials c u false false
            ((authority_text u.is_special (c.url_data.drop p)).take i) with is_valid := false }
        else outcome.next ⟨state.HOST, with_credentials c u false false
          ((authority_text u.is_special (c.url_data.drop p)).take i), p + (i + 1)⟩ := by
  obtain ⟨t, h1, h2, h3⟩ := authority_text_split u.is_special (c.url_data.drop p)
  generalize authority_text u.is_special (c.url_data.drop p) = A at h1 h2 h3
  have hr : at_rest c p (A ++ t) := ⟨hp, h1⟩
  simp only [step, state_AUTHORITY]
  split_ifs with hf
  · have hno : '@' ∉ A := by
      rw [Option.isNone_iff_eq_none, find_eq_none_iff, h1] at hf
      exact fun e => hf (by simp [e])
    rw [(rfind_eq_none_iff A '@').2 hno]
  · have hl := at_rest_length hr
    rw [authority_loop_spec c hs hat t A.length A _ u p false false (le_refl _)
      (by simp at hl; omega) hr h2 h3]
    simp

theorem with_credentials_fresh (c : context) (u : url) (C : List Char)
    (h1 : u.username = []) (h2 : u.password = []) :
    (with_credentials c u false false C).username =
        percent_encode (before_colon C) c.env.sets.USERINFO_PERCENT_ENCODE ∧
      (with_credentials c u false false C).password =
        percent_encode (after_colon C) c.env.sets.USERINFO_PERCENT_ENCODE := by
  simp [with_credentials, h1, h2]

theorem run_of_advance (c : context) (n : Nat) :
    ∀ (m0 m : machine) (f : Nat) (u : url), advance c n m0 = some m → run c f m0 = some u →
      ∃ f1, run c f1 m = some u := by
  induction n with
  | zero =>
    intro m0 m f u h hr
    simp only [advance, Option.some.injEq] at h
    subst h
    exact ⟨f, hr⟩
  | succ n ih =>
    intro m0 m f u h hr
    rw [advance] at h
    split_ifs at h with hp
    cases hs : step c m0 with
    | returned u1 => rw [hs] at h; cases h
    | undefined => rw [hs] at h; cases h
    | next m1 =>
      rw [hs] at h
      cases f with
      | zero => simp [run] at hr
      | succ f =>
        rw [run_next c f m0 m1 hp hs] at hr
        exact ih m1 m f u h hr

theorem advance_invariant (c : context) (I : machine → Prop)
    (hnext : ∀ m m1, I m → m.input_position ≤ c.input_size → step c m = outcome.next m1 → I m1)
    (n : Nat) : ∀ (m0 m : machine), I m0 → advance c n m0 = some m → I m := by
  induction n with
  | zero =>
    intro m0 m hI h
    simp only [advance, Option.some.injEq] at h
    subst h
    exact hI
  | succ n ih =>
    intro m0 m hI h
    rw [advance] at h
    split_ifs at h with hp
    cases hs : step c m0 with
    | returned u1 => rw [hs] at h; cases h
    | undefined => rw [hs] at h; cases h
    | next m1 =>
      rw [hs] at h
      exact ih m1 m (hnext m0 m1 hI hp hs) h

theorem parse_scheme_credentials (u : url) (v : List Char) :
    (u.parse_scheme v).2.username = u.username ∧ (u.parse_scheme v).2.password = u.password := by
  unfold url.parse_scheme
  simp only []
  split_ifs <;> exact ⟨rfl, rfl⟩

theorem parse_host_credentials (u : url) (env : environment) (v : List Char) :
    (u.parse_host env v).2.username = u.username ∧
      (u.parse_host env v).2.password = u.password := by
  unfold url.parse_host
  split <;> exact ⟨rfl, rfl⟩

theorem parse_port_credentials (u : url) (v : List Char) (t : Bool) :
    (u.parse_port v t).2.username = u.username ∧ (u.parse_port v t).2.password = u.password := by
  unfold url.parse_port
  simp only []
  split_ifs <;> exact ⟨rfl, rfl⟩

theorem attach_fragment_credentials (c : context) (u : url) :
    (attach_fragment c u).username = u.username ∧
      (attach_fragment c u).password = u.password := by
  unfold attach_fragment
  split <;> exact ⟨rfl, rfl⟩

theorem store_fragment_credentials (c : context) (u : url) :
    (store_fragment c u).username = u.username ∧
      (store_fragment c u).password = u.password := by
  unfold store_fragment
  split_ifs
  · exact attach_fragment_credentials c u
  · exact ⟨rfl, rfl⟩

/-- A pass that leads to a state before the host state starts in such a state
and leaves the credentials alone, unless it moves the cursor past the end. -/
theorem step_before_host (c : context) (m m1 : machine) (h : step c m = outcome.next m1)
    (h1 : m1.state.before_host = true) :
    m.state.before_host = true ∧
      ((m1.url.username = m.url.username ∧ m1.url.password = m.url.password) ∨
        c.input_size < m1.input_position) := by
  obtain ⟨st, u, p⟩ := m
  cases st <;> simp only [step] at h
  case AUTHORITY =>
    unfold state_AUTHORITY at h
    split_ifs at h
    · cases h; simp [state.before_host] at h1
    · rw [authority_loop_continue c _ _ _ _ _ _ h] at h1
      simp [state.before_host] at h1
  case SCHEME =>
    unfold state_SCHEME at h
    simp only [parse_scheme_ok, Bool.not_true, Bool.false_eq_true, if_false] at h
    have := parse_scheme_credentials u
      (List.take (skip_while is_alnum_plus c.url_data p) c.url_data)
    split_ifs at h <;> cases h <;> simp_all [state.before_host]
  all_goals
    simp only [state_SCHEME_START, state_NO_SCHEME, state_SPECIAL_RELATIVE_OR_AUTHORITY,
      state_PATH_OR_AUTHORITY, state_RELATIVE_SCHEME, state_RELATIVE_SLASH,
      state_SPECIAL_AUTHORITY_SLASHES, state_SPECIAL_AUTHORITY_IGNORE_SLASHES, state_QUERY,
      state_HOST, state_PORT, state_OPAQUE_PATH, state_PATH_START, state_PATH, state_FILE_SLASH,
      state_FILE_HOST, state_FILE] at h
    repeat' split at h
    all_goals cases h
    all_goals simp_all [state.before_host, url.copy_scheme]

/-- The passes after the authority state leave the credentials alone. -/
theorem step_after_authority (c : context) (m : machine)
    (h0 : m.state.after_authority = true) :
    (∀ m1, step c m = outcome.next m1 → m1.state.after_authority = true ∧
      m1.url.username = m.url.username ∧ m1.url.password = m.url.password) ∧
    (∀ u1, step c m = outcome.returned u1 →
      u1.username = m.url.username ∧ u1.password = m.url.password) := by
  obtain ⟨st, u, p⟩ := m
  cases st <;> simp [state.after_authority] at h0
  case HOST =>
    have := parse_host_credentials u c.env
      (List.take (get_host_delimiter_location u.is_special (List.drop p c.url_data)).1
        (List.drop p c.url_data))
    constructor
    all_goals
      intro x h
      simp only [step, state_HOST] at h
      split_ifs at h <;> cases h <;>
        simp_all [state.after_authority, url.update_base_hostname]
  case PORT =>
    have := parse_port_credentials u (List.drop p c.url_data) true
    have h2 := attach_fragment_credentials c
      ((u.parse_port (List.drop p c.url_data) true).2.update_base_pathname ['/'])
    constructor
    all_goals
      intro x h
      simp only [step, state_PORT, state_PATH_START] at h
      split_ifs at h <;> cases h <;>
        simp_all [state.after_authority, url.update_base_pathname]
  case PATH_START =>
    have h2 := attach_fragment_credentials c (u.update_base_pathname ['/'])
    constructor
    all_goals
      intro x h
      simp only [step, state_PATH_START] at h
      split_ifs at h <;> cases h <;>
        simp_all [state.after_authority, url.update_base_pathname]
  case PATH =>
    constructor
    all_goals
      intro x h
      simp only [step, state_PATH] at h
      repeat' split at h
      all_goals cases h
      all_goals simp_all [state.after_authority]
  case QUERY =>
    have h2 := fun s => attach_fragment_credentials c
      (u.update_base_search (List.drop p c.url_data) s)
    constructor
    all_goals
      intro x h
      simp only [step, state_QUERY] at h
      split_ifs at h <;> cases h <;>
        simp_all [state.after_authority, url.update_base_search]

/-! ## Moving the cursor: runs on inputs with a common suffix -/

theorem suffix_size {c1 c2 : context} {pre : List Char} (h : c2.suffix_of c1 pre) :
    c1.input_size = c2.input_size + pre.length := by
  simp [context.input_size, h.1]; omega

theorem suffix_drop {c1 c2 : context} {pre : List Char} (h : c2.suffix_of c1 pre) (p : Nat) :
    c1.url_data.drop (p + pre.length) = c2.url_data.drop p := by
  rw [h.1, Nat.add_comm, List.drop_append]

theorem suffix_char {c1 c2 : context} {pre : List Char} (h : c2.suffix_of c1 pre) (p : Nat) :
    char_at c1.url_data (p + pre.length) = char_at c2.url_data p := by
  rw [char_at_eq_headD, char_at_eq_headD, suffix_drop h]

theorem suffix_ne {c1 c2 : context} {pre : List Char} (h : c2.suffix_of c1 pre) (p : Nat) :
    (p + pre.length != c1.input_size) = (p != c2.input_size) := by
  rw [suffix_size h, Bool.eq_iff_iff]
  simp only [bne_iff_ne, ne_eq]
  omega

theorem suffix_eq {c1 c2 : context} {pre : List Char} (h : c2.suffix_of c1 pre) (p : Nat) :
    (p + pre.length == c1.input_size) = (p == c2.input_size) := by
  rw [suffix_size h, Bool.eq_iff_iff]
  simp only [beq_iff_eq]
  omega

theorem suffix_skip {c1 c2 : context} {pre : List Char} (h : c2.suffix_of c1 pre)
    (q : Char → Bool) (p : Nat) :
    skip_while q c1.url_data (p + pre.length) = skip_while q c2.url_data p + pre.length := by
  unfold skip_while
  rw [suffix_drop h]
  omega

theorem suffix_attach {c1 c2 : context} {pre : List Char} (h : c2.suffix_of c1 pre) (u : url) :
    attach_fragment c1 u = attach_fragment c2 u := by
  unfold attach_fragment
  rw [h.2.2.2, h.2.1]

theorem suffix_store {c1 c2 : context} {pre : List Char} (h : c2.suffix_of c1 pre) (u : url) :
    store_fragment c1 u = store_fragment c2 u := by
  unfold store_fragment
  rw [suffix_attach h, h.2.2.1]

theorem suffix_append_view {c1 c2 : context} {pre : List Char} (h : c2.suffix_of c1 pre)
    (u : url) (v : List Char) (b : Bool) :
    authority_append_view c1 u v b = authority_append_view c2 u v b := by
  unfold authority_append_view
  rw [h.2.2.1, h.2.1]

theorem authority_loop_shift {c1 c2 : context} {pre : List Char} (h : c2.suffix_of c1 pre)
    (fuel : Nat) : ∀ (u : url) (p : Nat) (a b : Bool),
      authority_loop c1 fuel u (p + pre.length) a b =
        (authority_loop c2 fuel u p a b).shift pre.length := by
  induction fuel with
  | zero => intro u p a b; simp [authority_loop, outcome.shift]
  | succ n ih =>
    intro u p a b
    rw [authority_loop, authority_loop]
    simp only [suffix_drop h]
    have e : ∀ q k, q + pre.length + k = (q + k) + pre.length := by intro q k; omega
    simp only [e, suffix_ne h, suffix_char h, suffix_eq h, suffix_store h, suffix_append_view h]
    split_ifs <;> first
      | rfl
      | exact ih _ _ _ _

theorem authority_loop_fuel (c : context) (f1 : Nat) :
    ∀ (f2 : Nat) (u : url) (p : Nat) (a b : Bool), p ≤ c.input_size →
      c.input_size - p < f1 → c.input_size - p < f2 →
      authority_loop c f1 u p a b = authority_loop c f2 u p a b := by
  induction f1 with
  | zero => intro f2 u p a b _ h; omega
  | succ n ih =>
    intro f2 u p a b hp h1 h2
    obtain ⟨k, rfl⟩ : ∃ k, f2 = k + 1 := ⟨f2 - 1, by omega⟩
    rw [authority_loop, authority_loop]
    simp only []
    have hle : p + (List.take (authority_delimiter u.is_special (List.drop p c.url_data))
        (List.drop p c.url_data)).length ≤ c.input_size := by
      have : (List.take (authority_delimiter u.is_special (List.drop p c.url_data))
          (List.drop p c.url_data)).length ≤ (List.drop p c.url_data).length :=
        (List.take_prefix _ _).length_le
      simp only [List.length_drop, context.input_size] at this hp ⊢
      omega
    have hge : p ≤ p + (List.take (authority_delimiter u.is_special (List.drop p c.url_data))
        (List.drop p c.url_data)).length := Nat.le_add_right _ _
    generalize p + (List.take (authority_delimiter u.is_special (List.drop p c.url_data))
        (List.drop p c.url_data)).length = e at hle hge
    split_ifs with h3 h4 h5 h6 h7 h8 <;> first
      | rfl
      | (have hne : e ≠ c.input_size := by
           first
             | (simpa using h4)
             | (simpa using h8)
         apply ih
         · omega
         · omega
         · omega)

theorem suffix_env {c1 c2 : context} {pre : List Char} (h : c2.suffix_of c1 pre) :
    c1.env = c2.env := h.2.1

theorem suffix_sv {c1 c2 : context} {pre : List Char} (h : c2.suffix_of c1 pre) :
    c1.store_values = c2.store_values := h.2.2.1

theorem state_PATH_START_shift {c1 c2 : context} {pre : List Char} (h : c2.suffix_of c1 pre)
    (st : state) (u : url) (p : Nat) :
    state_PATH_START c1 ⟨st, u, p + pre.length⟩ =
      (state_PATH_START c2 ⟨st, u, p⟩).shift pre.length := by
  have e : ∀ q k, q + pre.length + k = (q + k) + pre.length := by intro q k; omega
  simp only [state_PATH_START, suffix_ne h, suffix_char h, suffix_eq h, suffix_attach h,
    suffix_sv h, e]
  split_ifs <;> rfl

/-- A pass that reads the input only from the cursor on does the same on an
input with a longer prefix, up to the position of the cursor. -/
theorem step_shift {c1 c2 : context} {pre : List Char} (h : c2.suffix_of c1 pre)
    (st : state) (u : url) (p : Nat) (hp : p ≤ c2.input_size) (hst : st.shiftable = true)
    (hb : st.base_free = true ∨ c1.base_url = c2.base_url) :
    step c1 ⟨st, u, p + pre.length⟩ = (step c2 ⟨st, u, p⟩).shift pre.length := by
  have e : ∀ q k, q + pre.length + k = (q + k) + pre.length := by intro q k; omega
  have hsz : c1.input_size + 1 = c2.input_size + 1 + pre.length := by
    rw [suffix_size h]; omega
  cases st <;> simp [state.shiftable] at hst
  case AUTHORITY =>
    simp only [step, state_AUTHORITY, suffix_drop h]
    split_ifs
    · rfl
    · rw [authority_loop_fuel c1 _ (c2.input_size + 1) u _ false false
        (by rw [suffix_size h]; omega) (by rw [suffix_size h]; omega)
        (by rw [suffix_size h]; omega), authority_loop_shift h]
  case PORT =>
    simp only [step, state_PORT, suffix_drop h]
    split_ifs
    · rfl
    · rw [e, state_PATH_START_shift h]
  case PATH_START => exact state_PATH_START_shift h _ u p
  case SPECIAL_AUTHORITY_SLASHES =>
    simp only [step, state_SPECIAL_AUTHORITY_SLASHES, state_SPECIAL_AUTHORITY_IGNORE_SLASHES,
      suffix_drop h]
    split_ifs
    · rw [e, suffix_skip h]; rfl
    · rw [suffix_skip h]; rfl
  case SPECIAL_AUTHORITY_IGNORE_SLASHES =>
    simp only [step, state_SPECIAL_AUTHORITY_IGNORE_SLASHES, suffix_skip h]
    rfl
  case HOST =>
    simp only [step, state_HOST, suffix_drop h, suffix_env h, e]
    split_ifs <;> rfl
  case QUERY =>
    simp only [step, state_QUERY, suffix_drop h, suffix_env h, suffix_sv h, suffix_attach h]
    split_ifs <;> rfl
  case OPAQUE_PATH =>
    simp only [step, state_OPAQUE_PATH, suffix_drop h, suffix_env h, hsz, e]
    split <;> rfl
  case PATH =>
    simp only [step, state_PATH, suffix_drop h, suffix_env h, suffix_sv h, hsz, e]
    split <;> rfl
  case PATH_OR_AUTHORITY =>
    simp only [step, state_PATH_OR_AUTHORITY, suffix_ne h, suffix_char h, e]
    split_ifs <;> rfl
  case FILE_HOST =>
    simp only [step, state_FILE_HOST, suffix_drop h, suffix_env h, e]
    split_ifs <;> rfl
  case SPECIAL_RELATIVE_OR_AUTHORITY =>
    simp only [step, state_SPECIAL_RELATIVE_OR_AUTHORITY, suffix_drop h, e]
    split_ifs <;> rfl
  all_goals
    have hb2 : c1.base_url = c2.base_url := by
      rcases hb with hb | hb
      · simp [state.base_free] at hb
      · exact hb
    simp only [step, state_NO_SCHEME, state_RELATIVE_SCHEME, state_RELATIVE_SLASH,
      state_FILE_SLASH, state_FILE, hb2, suffix_drop h, suffix_ne h, suffix_char h,
      suffix_eq h, suffix_attach h, h.2.2.2, e]
    repeat' split
    all_goals rfl

theorem step_shiftable (c : context) (m m1 : machine) (h : step c m = outcome.next m1)
    (hs : m.state.shiftable = true) :
    m1.state.shiftable = true ∧ (m.state.base_free = true → m1.state.base_free = true) := by
  obtain ⟨st, u, p⟩ := m
  cases st <;> simp [state.shiftable] at hs <;> simp only [step] at h
  case AUTHORITY =>
    unfold state_AUTHORITY at h
    split_ifs at h
    · cases h; simp [state.shiftable, state.base_free]
    · rw [authority_loop_continue c _ _ _ _ _ _ h]; simp [state.shiftable, state.base_free]
  case PORT =>
    unfold state_PORT state_PATH_START at h
    simp only [] at h
    split_ifs at h <;> cases h <;> simp [state.shiftable, state.base_free]
  all_goals
    simp only [state_NO_SCHEME, state_SPECIAL_RELATIVE_OR_AUTHORITY,
      state_PATH_OR_AUTHORITY, state_RELATIVE_SCHEME, state_RELATIVE_SLASH,
      state_SPECIAL_AUTHORITY_SLASHES, state_SPECIAL_AUTHORITY_IGNORE_SLASHES, state_QUERY,
      state_HOST, state_OPAQUE_PATH, state_PATH_START, state_PATH, state_FILE_SLASH,
      state_FILE_HOST, state_FILE] at h
    repeat' split at h
    all_goals cases h
    all_goals simp [state.shiftable, state.base_free]

/-- From a state that reads the input only from the cursor on, the run on an
input with a longer prefix is the run on the input without it. -/
theorem run_shift {c1 c2 : context} {pre : List Char} (h : c2.suffix_of c1 pre) (f : Nat) :
    ∀ (st : state) (u : url) (p : Nat), st.shiftable = true →
      (st.base_free = true ∨ c1.base_url = c2.base_url) →
      run c1 f ⟨st, u, p + pre.length⟩ = run c2 f ⟨st, u, p⟩ := by
  induction f with
  | zero => intro st u p _ _; rfl
  | succ n ih =>
    intro st u p hs hb
    rw [run_succ, run_succ]
    have hle : (p + pre.length ≤ c1.input_size) = (p ≤ c2.input_size) := by
      rw [suffix_size h]; simp
    simp only [hle]
    split_ifs with hp
    · rw [step_shift h st u p hp hs hb]
      cases hst : step c2 ⟨st, u, p⟩ with
      | returned u1 => rfl
      | undefined => rfl
      | next m1 =>
        obtain ⟨h1, h2⟩ := step_shiftable c2 _ m1 hst hs
        simp only [outcome.shift]
        exact ih m1.state m1.url m1.input_position h1 (by
          rcases hb with hb | hb
          · exact Or.inl (h2 hb)
          · exact Or.inr hb)
    · rw [suffix_store h]

/-! ## C1: a special scheme needs a host -/

theorem clean_tail_nil : clean_tail [] = [] := by
  simp [clean_tail, remove_ascii_tab_or_newline]

theorem clean_tail_cons (x : Char) (r : List Char) (h1 : is_ascii_tab_or_newline x = false)
    (h2 : is_c0_control_or_space x = false) : clean_tail (x :: r) = x :: clean_tail r := by
  unfold clean_tail
  have : remove_ascii_tab_or_newline (x :: r) = [x] ++ remove_ascii_tab_or_newline r := by
    simp [remove_ascii_tab_or_newline, h1]
  rw [this, rdropWhile_append_of_last _ [x] _ (by simp) (by simpa using h2)]
  rfl

theorem prune_hash_cons (x : Char) (r : List Char) (h : x ≠ '#') :
    prune_hash (x :: r) = ((prune_hash r).1, x :: (prune_hash r).2) := by
  have := prune_hash_append [x] r (by simp; exact fun e => h e.symm)
  simpa using this

theorem prune_hash_hash (r : List Char) : prune_hash ('#' :: r) = (some r, []) := by
  simp [prune_hash, find]

/-- What is left of a tail that is empty or begins with `?` or `#`, after
cleaning and after the fragment is split off, is empty or begins with `?`. -/
theorem pruned_tail_query (tail : List Char)
    (ht : tail = [] ∨ tail.head? = some '?' ∨ tail.head? = some '#') :
    (prune_hash (clean_tail tail)).2 = [] ∨
      ∃ r, (prune_hash (clean_tail tail)).2 = '?' :: r := by
  rcases ht with rfl | h | h
  · left; simp [clean_tail_nil, prune_hash, find]
  · right
    cases tail with
    | nil => simp at h
    | cons x r =>
      simp at h; subst h
      rw [clean_tail_cons _ _ (by decide) (by decide), prune_hash_cons _ _ (by decide)]
      exact ⟨_, rfl⟩
  · left
    cases tail with
    | nil => simp at h
    | cons x r =>
      simp at h; subst h
      rw [clean_tail_cons _ _ (by decide) (by decide), prune_hash_hash]

theorem tab_is_c0 (x : Char) (h : is_c0_control_or_space x = false) :
    is_ascii_tab_or_newline x = false := by
  by_contra hc
  simp only [is_ascii_tab_or_newline, Bool.not_eq_false, Bool.or_eq_true, beq_iff_eq] at hc
  rcases hc with (rfl | rfl) | rfl <;> simp [is_c0_control_or_space] at h

theorem solid_of_all (l : List Char) (hne : l ≠ [])
    (h : ∀ x ∈ l, is_c0_control_or_space x = false) : solid l := by
  refine ⟨?_, ?_⟩
  · simp only [has_tabs_or_newline, List.any_eq_false]
    intro x hx
    simpa using tab_is_c0 x (h x hx)
  · cases l with
    | nil => exact absurd rfl hne
    | cons x r =>
      refine ⟨x, (x :: r).getLast hne, r, rfl, List.getLast?_eq_getLast _ hne, h x (by simp),
        h _ (List.getLast_mem hne)⟩

theorem alpha_not_c0 (x : Char) (h : is_alpha x = true) : is_c0_control_or_space x = false := by
  simp [is_alpha, is_c0_control_or_space] at *
  omega

theorem alnum_plus_not_c0 (x : Char) (h : is_alnum_plus x = true) :
    is_c0_control_or_space x = false := by
  simp only [is_alnum_plus, Bool.or_eq_true, beq_iff_eq] at h
  rcases h with (((h | h) | rfl) | rfl) | rfl
  · exact alpha_not_c0 x h
  · simp [is_digit, is_c0_control_or_space] at *; omega
  · decide
  · decide
  · decide

theorem slash_not_c0 (x : Char) (h : is_slash x = true) : is_c0_control_or_space x = false := by
  simp only [is_slash, Bool.or_eq_true, beq_iff_eq] at h
  rcases h with rfl | rfl <;> decide

theorem alpha_ne_hash (x : Char) (h : is_alpha x = true) : x ≠ '#' := by
  rintro rfl; simp [is_alpha] at h

theorem alnum_plus_ne_hash (x : Char) (h : is_alnum_plus x = true) : x ≠ '#' := by
  rintro rfl; simp [is_alnum_plus, is_alpha, is_digit] at h

theorem slash_ne_hash (x : Char) (h : is_slash x = true) : x ≠ '#' := by
  rintro rfl; simp [is_slash] at h

theorem scheme_slashes_chars (a : Char) (S1 sl : List Char) (ha : is_alpha a = true)
    (hS : ∀ x ∈ S1, is_alnum_plus x = true) (hsl : ∀ x ∈ sl, is_slash x = true) :
    ∀ x ∈ a :: S1 ++ ':' :: sl, is_c0_control_or_space x = false ∧ x ≠ '#' := by
  intro x hx
  simp only [List.cons_append, List.mem_cons, List.mem_append] at hx
  rcases hx with rfl | hx | rfl | hx
  · exact ⟨alpha_not_c0 x ha, alpha_ne_hash x ha⟩
  · exact ⟨alnum_plus_not_c0 x (hS x hx), alnum_plus_ne_hash x (hS x hx)⟩
  · exact ⟨by decide, by decide⟩
  · exact ⟨slash_not_c0 x (hsl x hx), slash_ne_hash x (hsl x hx)⟩

theorem solid_scheme_slashes (a : Char) (S1 sl : List Char) (ha : is_alpha a = true)
    (hS : ∀ x ∈ S1, is_alnum_plus x = true) (hsl : ∀ x ∈ sl, is_slash x = true) :
    solid (a :: S1 ++ ':' :: sl) :=
  solid_of_all _ (by simp) (fun x hx => (scheme_slashes_chars a S1 sl ha hS hsl x hx).1)

/-- C1. Missing host on a special scheme is a parse failure: for each of the
schemes http, https, ws, wss, ftp, with no base, an input that is the scheme,
a colon, any run of `/` and `\`, and then nothing or a tail that begins with
`?` or with `#`, is parsed to a record with `is_valid = false`. -/
theorem missing_host_is_failure (env : environment) (S slashes tail : List Char)
    (hS : S = ['h', 't', 't', 'p'] ∨ S = ['h', 't', 't', 'p', 's'] ∨ S = ['w', 's'] ∨
      S = ['w', 's', 's'] ∨ S = ['f', 't', 'p'])
    (hsl : ∀ x ∈ slashes, x = '/' ∨ x = '\\')
    (ht : tail = [] ∨ tail.head? = some '?' ∨ tail.head? = some '#') :
    ∃ u, parse_url env (S ++ ':' :: slashes ++ tail) none = some u ∧ u.is_valid = false := by
  unfold parse_url
  by_cases hlen : 4294967295 < (S ++ ':' :: slashes ++ tail).length
  · exact ⟨_, parse_url_impl_oversized env true _ none hlen, rfl⟩
  · obtain ⟨a, S1, rfl, ha, hS1, hty, hfile⟩ : ∃ a S1, S = a :: S1 ∧ is_alpha a = true ∧
        (∀ x ∈ S1, is_alnum_plus x = true) ∧
        get_scheme_type ((a :: S1).map to_lower_ascii) ≠ scheme_type.NOT_SPECIAL ∧
        get_scheme_type ((a :: S1).map to_lower_ascii) ≠ scheme_type.FILE := by
      rcases hS with rfl | rfl | rfl | rfl | rfl <;>
        exact ⟨_, _, rfl, by decide, by decide, by decide, by decide⟩
    have hsl2 : ∀ x ∈ slashes, is_slash x = true := by
      intro x hx
      rcases hsl x hx with rfl | rfl <;> decide
    rw [parse_url_impl_run env true _ none (by omega) (by simp)]
    have e1 : a :: S1 ++ ':' :: slashes ++ tail = (a :: S1 ++ ':' :: slashes) ++ tail := by simp
    rw [e1, clean_append_solid _ _ (solid_scheme_slashes a S1 slashes ha hS1 hsl2),
      prune_hash_append _ _ (fun hm => (scheme_slashes_chars a S1 slashes ha hS1 hsl2 _ hm).2 rfl)]
    simp only []
    have ht3 := pruned_tail_query tail ht
    generalize (prune_hash (clean_tail tail)).2 = t3 at ht3
    generalize (prune_hash (clean_tail tail)).1 = frag
    have hts : ∀ x, t3.head? = some x → is_slash x = false := by
      intro x hx
      rcases ht3 with rfl | ⟨r, rfl⟩
      · simp at hx
      · simp at hx; subst hx; decide
    rw [show loop_bound = 21 + 3 from rfl,
      run_special_to_authority _ 21 a S1 slashes t3 (by simp) ha hS1 rfl hty hfile hsl2 hts]
    generalize hc : (⟨env, true, none, a :: S1 ++ ':' :: slashes ++ t3, frag⟩ : context) = c
    have hr : at_rest c ((a :: S1).length + 1 + slashes.length) t3 := by
      subst hc
      refine ⟨by simp [context.input_size]; omega, ?_⟩
      have e2 : (a :: S1).length + 1 + slashes.length = (a :: S1 ++ ':' :: slashes).length := by
        simp; omega
      have e3 : a :: S1 ++ ':' :: slashes ++ t3 = (a :: S1 ++ ':' :: slashes) ++ t3 := by simp
      show List.drop _ (a :: S1 ++ ':' :: slashes ++ t3) = t3
      rw [e2, e3, List.drop_left]
    generalize hu : (initial_url.parse_scheme (a :: S1)).2 = u
    have hsp : u.is_special = true := by
      rw [← hu, url.is_special, parse_scheme_type]
      simpa using hty
    have hend : t3 = [] ∨ ∃ x r, t3 = x :: r ∧ is_authority_end u.is_special x = true := by
      rcases ht3 with rfl | ⟨r, rfl⟩
      · exact Or.inl rfl
      · exact Or.inr ⟨_, r, rfl, by simp [is_authority_end]⟩
    rw [show (21 : Nat) = 19 + 1 + 1 from rfl,
      run_next c 20 _ _ hr.1 (step_AUTHORITY_plain c u _ [] t3 hr (by simp) hend)]
    have hh := step_HOST_plain c u _ [] t3 hr (by simp) (by
      rcases hend with h | ⟨x, r, h1, h2⟩
      · exact Or.inl h
      · exact Or.inr ⟨x, r, h1, Or.inr h2⟩)
    have hcolon : ¬ t3.head? = some ':' := by
      rcases ht3 with rfl | ⟨r, rfl⟩ <;> simp
    simp only [hcolon, if_false, List.isEmpty_nil, hsp, Bool.and_self, if_true] at hh
    exact ⟨_, run_returned c 19 _ _ hr.1 hh, rfl⟩

theorem missing_host_is_failure_witness :
    (∀ x ∈ ['/', '/'], x = '/' ∨ x = '\\') ∧
      ∃ u, parse_url sample_env (['h', 't', 't', 'p'] ++ ':' :: ['/', '/'] ++ ['?', 'x']) none
        = some u ∧ u.is_valid = false :=
  ⟨by decide, missing_host_is_failure sample_env ['h', 't', 't', 'p'] ['/', '/'] ['?', 'x']
    (Or.inl rfl) (by decide) (by decide)⟩

/-! ## C2: credentials without a host -/

theorem parse_url_impl_invalid_base (env : environment) (sv : Bool) (input : List Char)
    (b : url) (hb : b.is_valid = false) :
    ∃ u, parse_url_impl env sv input (some b) = some u ∧ u.is_valid = false := by
  unfold parse_url_impl
  simp only [hb, Bool.and_false]
  by_cases hl : input.length > 4294967295
  · simp [hl]
  · simp [hl]

theorem authority_end_not_c0 (sp : Bool) (x : Char) (h : is_authority_end sp x = true) :
    is_c0_control_or_space x = false ∧ x ≠ '#' := by
  simp only [is_authority_end, Bool.or_eq_true, beq_iff_eq, Bool.and_eq_true] at h
  rcases h with (rfl | rfl) | ⟨_, rfl⟩ <;> exact ⟨by decide, by decide⟩

/-- What is left of a tail that is empty or begins with a byte that ends the
authority, after cleaning and after the fragment is split off, is again empty
or begins with that byte. -/
theorem pruned_tail_end (sp : Bool) (tail : List Char)
    (ht : tail = [] ∨ ∃ x r, tail = x :: r ∧ is_authority_end sp x = true) :
    (prune_hash (clean_tail tail)).2 = [] ∨
      ∃ x r, (prune_hash (clean_tail tail)).2 = x :: r ∧ is_authority_end sp x = true := by
  rcases ht with rfl | ⟨x, r, rfl, hx⟩
  · left; simp [clean_tail_nil, prune_hash, find]
  · right
    obtain ⟨h1, h2⟩ := authority_end_not_c0 sp x hx
    rw [clean_tail_cons _ _ (tab_is_c0 x h1) h1, prune_hash_cons _ _ h2]
    exact ⟨x, _, rfl, hx⟩

theorem clean_tail_append_cons (A : List Char) (x : Char) (r : List Char)
    (hx : is_c0_control_or_space x = false) :
    clean_tail (A ++ x :: r) = remove_ascii_tab_or_newline A ++ x :: clean_tail r := by
  unfold clean_tail
  have e : remove_ascii_tab_or_newline (A ++ x :: r) =
      (remove_ascii_tab_or_newline A ++ [x]) ++ remove_ascii_tab_or_newline r := by
    rw [remove_append]
    have : remove_ascii_tab_or_newline (x :: r) = x :: remove_ascii_tab_or_newline r := by
      simp [remove_ascii_tab_or_newline, tab_is_c0 x hx]
    rw [this]; simp
  rw [e, rdropWhile_append_of_last _ _ _ (by simp) (by simpa using hx)]
  simp

theorem mem_remove (A : List Char) (x : Char) (h : x ∈ remove_ascii_tab_or_newline A) :
    x ∈ A := by
  unfold remove_ascii_tab_or_newline at h
  exact List.mem_of_mem_filter h

/-- The scheme `file` followed by `://` brings the machine to the file host
state right after the two slashes, whatever the base. -/
theorem run_scheme_file (c : context) (a : Char) (S1 t : List Char)
    (hd : c.url_data = a :: S1 ++ ':' :: '/' :: '/' :: t) (ha : is_alpha a = true)
    (hS : ∀ x ∈ S1, is_alnum_plus x = true)
    (hfile : get_scheme_type ((a :: S1).map to_lower_ascii) = scheme_type.FILE) :
    run c loop_bound ⟨state.SCHEME_START, initial_url, 0⟩ =
      run c loop_bound ⟨state.FILE_HOST,
        { ((initial_url.parse_scheme (a :: S1)).2).set_protocol_as_file with host := some [] },
        (a :: S1).length + 3⟩ := by
  have h1 : (1 : Nat) ≤ c.input_size := by simp [context.input_size, hd]
  have hty := parse_scheme_type initial_url (a :: S1)
  have hst := step_SCHEME_colon c initial_url a S1 ('/' :: '/' :: t) hd hS
  have hr1 : at_rest c ((a :: S1).length + 1) ('/' :: '/' :: t) := by
    have := at_rest_of_append c (a :: S1 ++ [':']) ('/' :: '/' :: t) (by simp [hd])
    simpa using this
  have hr2 : at_rest c ((a :: S1).length + 1 + 1) ('/' :: t) :=
    at_rest_advance (a := ['/']) (by simpa using hr1)
  conv_lhs => rw [show loop_bound = 23 + 1 from rfl]
  rw [run_next c 23 _ _ (Nat.zero_le _) (step_SCHEME_START_scheme c initial_url a S1 _ hd ha)]
  generalize (initial_url.parse_scheme (a :: S1)).2 = ps at *
  have hf : ps.type = scheme_type.FILE := by rw [hty, hfile]
  simp only [hf, beq_self_eq_true, if_true] at hst ⊢
  rw [show (23 : Nat) = 20 + 1 + 1 + 1 from rfl, run_next c 22 _ _ h1 hst,
    run_next c _ _ ⟨state.FILE_SLASH, { ps.set_protocol_as_file with host := some [] },
      (a :: S1).length + 1 + 1⟩ hr1.1 (by
      simp only [step, state_FILE, at_rest_ne hr1, at_rest_char hr1]
      simp),
    run_next c _ _ ⟨state.FILE_HOST, { ps.set_protocol_as_file with host := some [] },
      (a :: S1).length + 1 + 1 + 1⟩ hr2.1 (by
      simp only [step, state_FILE_SLASH, at_rest_ne hr2, at_rest_char hr2]
      simp)]
  exact run_loop_bound c 20 _ (by simp [state.rank])

/-- Credential chunks with their closing `@` are no Windows drive letter. -/
theorem credentials_not_drive_letter (A : List Char)
    (hA : ∀ x ∈ A, x ≠ '#' ∧ is_authority_end true x = false) :
    is_windows_drive_letter (A ++ ['@']) = false := by
  match A, hA with
  | [], _ => rfl
  | [x], _ => simp [is_windows_drive_letter, char_at]
  | x :: y :: [], _ => simp [is_windows_drive_letter, char_at]
  | x :: y :: z :: r, hA =>
    obtain ⟨h1, h2⟩ := hA z (by simp)
    simp only [is_authority_end, Bool.true_and, Bool.or_eq_false_iff, beq_eq_false_iff_ne,
      ne_eq] at h2
    simp [is_windows_drive_letter, char_at, h1, h2.1.1, h2.1.2, h2.2]

/-- The file host state, on credential chunks that end the authority, hands
them with their `@` to the host parser; when that one refuses them the parse
fails. -/
theorem step_FILE_HOST_credentials_fail (c : context) (u : url) (p : Nat) (A t : List Char)
    (h : at_rest c p (A ++ '@' :: t)) (hu : u.type = scheme_type.FILE)
    (hA : ∀ x ∈ A, x ≠ '#' ∧ is_authority_end true x = false)
    (ht : t = [] ∨ ∃ x r, t = x :: r ∧ is_authority_end true x = true)
    (hhost : c.env.host_parse false (A ++ ['@']) = none) :
    step c ⟨state.FILE_HOST, u, p⟩ = outcome.returned { u with is_valid := false } := by
  have hloc : find_first (fun ch => ch == '/' || ch == '\\' || ch == '?')
      ((A ++ ['@']) ++ t) = (A ++ ['@']).length :=
    find_first_append _ _ t (by
      intro x hx
      rcases List.mem_append.1 hx with hx | hx
      · have := (hA x hx).2
        simp only [is_authority_end, Bool.true_and, Bool.or_eq_false_iff] at this
        simp [this.1.1, this.1.2, this.2]
      · rw [List.mem_singleton.1 hx]; decide) (by
      rcases ht with rfl | ⟨x, r, rfl, hx⟩
      · exact Or.inl rfl
      · refine Or.inr ⟨x, r, rfl, ?_⟩
        simp only [is_authority_end, Bool.true_and, Bool.or_eq_true, beq_iff_eq] at hx ⊢
        tauto)
  have hv : c.url_data.drop p = (A ++ ['@']) ++ t := by rw [h.2]; simp
  have hne : (A ++ ['@']).isEmpty = false := by cases A <;> rfl
  have hsp : (!u.is_special) = false := by simp [url.is_special, hu]
  simp only [step, state_FILE_HOST, hv, hloc, List.take_left, credentials_not_drive_letter A hA,
    hne, url.parse_host, hsp, hhost, Bool.false_eq_true, if_false, Bool.not_false, if_true]

/-- C2. Credentials without a host are a parse failure: for every scheme,
special or not, and every base, an input `S://` followed by one or more
credential chunks that end with `@` (`A` followed by `@`, where `A` holds no
byte that ends the authority) and then by the end of the input, `/`, `?` (or
`\` when the scheme is special) is parsed to a record with `is_valid = false`.
For a scheme other than `file` the authority state finds the view empty after
the `@`.  For the scheme `file` the file host state hands the chunks with
their `@` to the host parser, a parameter here, and the failure is that of the
host parser, given that it rejects a host that holds the forbidden code point
`@`. -/
theorem credentials_without_host (env : environment) (base : Option url)
    (S A tail : List Char) (hS : valid_scheme S)
    (hhost : get_scheme_type (S.map to_lower_ascii) = scheme_type.FILE →
      ∀ v, '@' ∈ v → env.host_parse false v = none)
    (hA : ∀ x ∈ A, x ≠ '#' ∧
      is_authority_end (get_scheme_type (S.map to_lower_ascii) != scheme_type.NOT_SPECIAL) x
        = false)
    (ht : tail = [] ∨ ∃ x r, tail = x :: r ∧
      is_authority_end (get_scheme_type (S.map to_lower_ascii) != scheme_type.NOT_SPECIAL) x
        = true) :
    ∃ u, parse_url env (S ++ ':' :: '/' :: '/' :: (A ++ '@' :: tail)) base = some u ∧
      u.is_valid = false := by
  unfold parse_url
  by_cases hlen : 4294967295 < (S ++ ':' :: '/' :: '/' :: (A ++ '@' :: tail)).length
  · exact ⟨_, parse_url_impl_oversized env true _ base hlen, rfl⟩
  by_cases hb : ∃ b, base = some b ∧ b.is_valid = false
  · obtain ⟨b, rfl, hb⟩ := hb
    exact parse_url_impl_invalid_base env true _ b hb
  obtain ⟨a, S1, rfl, ha, hS1⟩ := hS
  have hchars := scheme_slashes_chars a S1 ['/', '/'] ha hS1 (by decide)
  rw [parse_url_impl_run env true _ base (by omega) (by
    intro b hb2
    by_contra hv
    exact hb ⟨b, hb2, by simpa using hv⟩)]
  have e1 : a :: S1 ++ ':' :: '/' :: '/' :: (A ++ '@' :: tail) =
      (a :: S1 ++ ':' :: ['/', '/']) ++ (A ++ '@' :: tail) := by simp
  rw [e1, clean_append_solid _ _ (solid_scheme_slashes a S1 _ ha hS1 (by decide)),
    clean_tail_append_cons A '@' tail (by decide)]
  have e2 : (a :: S1 ++ ':' :: ['/', '/']) ++
      (remove_ascii_tab_or_newline A ++ '@' :: clean_tail tail) =
      ((a :: S1 ++ ':' :: ['/', '/']) ++ (remove_ascii_tab_or_newline A ++ ['@'])) ++
        clean_tail tail := by simp
  rw [e2, prune_hash_append _ _ (by
    intro hm
    rcases List.mem_append.1 hm with hm | hm
    · exact (hchars _ hm).2 rfl
    · rcases List.mem_append.1 hm with hm | hm
      · exact (hA _ (mem_remove A _ hm)).1 rfl
      · simp at hm)]
  simp only []
  have ht3 := pruned_tail_end _ tail ht
  generalize (prune_hash (clean_tail tail)).2 = t3 at ht3
  generalize (prune_hash (clean_tail tail)).1 = frag
  generalize hA2 : remove_ascii_tab_or_newline A = A2
  have hA4 : ∀ x ∈ A2, x ≠ '#' ∧ is_authority_end
      (get_scheme_type ((a :: S1).map to_lower_ascii) != scheme_type.NOT_SPECIAL) x = false := by
    intro x hx
    exact hA x (mem_remove A x (hA2 ▸ hx))
  have hA3 : ∀ x ∈ A2, is_authority_end
      (get_scheme_type ((a :: S1).map to_lower_ascii) != scheme_type.NOT_SPECIAL) x = false :=
    fun x hx => (hA4 x hx).2
  generalize hc : (⟨env, true, base,
    (a :: S1 ++ ':' :: ['/', '/']) ++ (A2 ++ ['@']) ++ t3, frag⟩ : context) = c
  have hd : c.url_data = a :: S1 ++ ':' :: '/' :: '/' :: (A2 ++ '@' :: t3) := by
    subst hc; simp
  have hr : at_rest c ((a :: S1).length + 3) (A2 ++ '@' :: t3) := by
    have := at_rest_of_append c (a :: S1 ++ ':' :: ['/', '/']) (A2 ++ '@' :: t3)
      (by rw [hd]; simp)
    simpa using this
  by_cases hfile : get_scheme_type ((a :: S1).map to_lower_ascii) = scheme_type.FILE
  · rw [run_scheme_file c a S1 (A2 ++ '@' :: t3) hd ha hS1 hfile]
    rw [hfile] at hA4 ht3
    have henv : c.env = env := by subst hc; rfl
    exact ⟨_, run_returned c 23 _ _ hr.1
      (step_FILE_HOST_credentials_fail c _ _ A2 t3 hr rfl hA4 ht3 (by
        rw [henv]
        exact hhost hfile _ (by simp))), rfl⟩
  rw [run_to_authority c a S1 (A2 ++ '@' :: t3) hd ha hS1 hfile (by
    intro hsp x hx
    have hsp2 : (get_scheme_type ((a :: S1).map to_lower_ascii) != scheme_type.NOT_SPECIAL)
        = true := by simpa using hsp
    have hxe : is_authority_end true x = false := by
      cases A2 with
      | nil => simp at hx; subst hx; decide
      | cons y r =>
        simp at hx; subst hx
        have := hA3 y (by simp)
        rwa [hsp2] at this
    simp only [is_authority_end, Bool.true_and, Bool.or_eq_false_iff] at hxe
    simp [is_slash, hxe.1.1, hxe.2])]
  generalize hu : (initial_url.parse_scheme (a :: S1)).2 = u
  have hsp : u.is_special =
      (get_scheme_type ((a :: S1).map to_lower_ascii) != scheme_type.NOT_SPECIAL) := by
    rw [← hu, url.is_special, parse_scheme_type]
  obtain ⟨u1, h1, h2⟩ := step_AUTHORITY_credentials_fail c u _ A2 t3 hr
    (by rw [hsp]; exact hA3) (by rw [hsp]; exact ht3)
  exact ⟨u1, run_returned c 23 _ _ hr.1 h1, h2⟩

theorem credentials_without_host_witness :
    (valid_scheme ['h', 't', 't', 'p'] ∧
      ∃ u, parse_url sample_env (['h', 't', 't', 'p'] ++ ':' :: '/' :: '/' ::
        (['u', 's', 'e', 'r'] ++ '@' :: ['/', 'x'])) none = some u ∧ u.is_valid = false) ∧
    (valid_scheme ['f', 'i', 'l', 'e'] ∧
      (∀ v, '@' ∈ v → strict_env.host_parse false v = none) ∧
      ∃ u, parse_url strict_env (['f', 'i', 'l', 'e'] ++ ':' :: '/' :: '/' ::
        (['u'] ++ '@' :: ['/', 'x'])) none = some u ∧ u.is_valid = false) :=
  ⟨⟨⟨'h', ['t', 't', 'p'], rfl, by decide, by decide⟩,
      credentials_without_host sample_env none ['h', 't', 't', 'p'] ['u', 's', 'e', 'r']
        ['/', 'x'] ⟨'h', ['t', 't', 'p'], rfl, by decide, by decide⟩
        (fun h => absurd h (by decide)) (by decide) (Or.inr ⟨'/', ['x'], rfl, by decide⟩)⟩,
    ⟨'f', ['i', 'l', 'e'], rfl, by decide, by decide⟩,
    fun v hv => by simp [strict_env, strict_parse_host, hv],
    credentials_without_host strict_env none ['f', 'i', 'l', 'e'] ['u'] ['/', 'x']
      ⟨'f', ['i', 'l', 'e'], rfl, by decide, by decide⟩
      (fun _ v hv => by simp [strict_env, strict_parse_host, hv]) (by decide)
      (Or.inr ⟨'/', ['x'], rfl, by decide⟩)⟩

/-! ## C3: the userinfo -/

theorem parse_url_valid_run (env : environment) (input : List Char) (base : Option url)
    (u : url) (h : parse_url env input base = some u) (hv : u.is_valid = true) :
    run (parse_context env true input base) loop_bound ⟨state.SCHEME_START, initial_url, 0⟩
      = some u := by
  unfold parse_url at h
  by_cases hlen : 4294967295 < input.length
  · rw [parse_url_impl_oversized env true _ base hlen] at h
    cases h; simp at hv
  by_cases hb : ∃ b, base = some b ∧ b.is_valid = false
  · obtain ⟨b, rfl, hb⟩ := hb
    obtain ⟨u1, h1, h2⟩ := parse_url_impl_invalid_base env true input b hb
    rw [h1] at h; cases h; simp [hv] at h2
  rw [parse_url_impl_run env true _ base (by omega) (by
    intro b hb2
    by_contra hv2
    exact hb ⟨b, hb2, by simpa using hv2⟩)] at h
  exact h

/-- The credentials are still empty when the authority state is entered. -/
theorem credentials_empty_before_host (c : context) (n : Nat) (m : machine)
    (h : advance c n ⟨state.SCHEME_START, initial_url, 0⟩ = some m)
    (hs : m.state.before_host = true) (hp : m.input_position ≤ c.input_size) :
    m.url.username = [] ∧ m.url.password = [] := by
  have := advance_invariant c
    (fun m => m.state.before_host = true →
      (m.url.username = [] ∧ m.url.password = []) ∨ c.input_size < m.input_position)
    (fun m m1 hI hp hst hb => by
      obtain ⟨h1, h2⟩ := step_before_host c m m1 hst hb
      rcases h2 with ⟨h3, h4⟩ | h2
      · rcases hI h1 with ⟨h5, h6⟩ | h5
        · exact Or.inl ⟨h3.trans h5, h4.trans h6⟩
        · omega
      · exact Or.inr h2)
    n _ m (fun _ => Or.inl ⟨rfl, rfl⟩) h hs
  rcases this with h1 | h1
  · exact h1
  · omega

/-- The credentials of the result are those with which the host state is
entered. -/
theorem run_after_authority (c : context) (f : Nat) (m : machine) (u : url)
    (h0 : m.state.after_authority = true) (h : run c f m = some u) :
    u.username = m.url.username ∧ u.password = m.url.password :=
  run_invariant c
    (fun m1 => m1.state.after_authority = true ∧ m1.url.username = m.url.username ∧
      m1.url.password = m.url.password)
    (fun u1 => u1.username = m.url.username ∧ u1.password = m.url.password)
    (fun m1 m2 hI _ hst => by
      obtain ⟨h1, h2, h3⟩ := (step_after_authority c m1 hI.1).1 m2 hst
      exact ⟨h1, h2.trans hI.2.1, h3.trans hI.2.2⟩)
    (fun m1 u1 hI _ hst => by
      obtain ⟨h2, h3⟩ := (step_after_authority c m1 hI.1).2 u1 hst
      exact ⟨h2.trans hI.2.1, h3.trans hI.2.2⟩)
    (fun m1 hI _ => by
      obtain ⟨h2, h3⟩ := store_fragment_credentials c m1.url
      exact ⟨h2.trans hI.2.1, h3.trans hI.2.2⟩)
    f m u ⟨h0, rfl, rfl⟩ h

/-- C3. Userinfo equals a one-shot reference definition.  Take any input and
base whose parse succeeds and whose run executes the authority state, in the
machine `m`.  Let `A` be the authority text: what is left to read at `m`, up
to the first `/`, `?` (or `\` when the scheme is special) or the end.  If `A`
has no `@`, username and password are empty and the host state starts where
`A` starts.  Otherwise, with `i` the position of the last `@` of `A` and `C`
the text before it, the username is the percent-encoding (userinfo set) of
`C` before its first `:`, the password that of `C` after its first `:`, and
the host state starts right after that `@`.  The userinfo set is taken to
contain `@`. -/
theorem userinfo_reference (env : environment) (input : List Char) (base : Option url)
    (n : Nat) (m : machine) (u : url)
    (hat : env.sets.USERINFO_PERCENT_ENCODE '@' = true)
    (hreach : advance (parse_context env true input base) n
      ⟨state.SCHEME_START, initial_url, 0⟩ = some m)
    (hpos : m.input_position ≤ (parse_context env true input base).input_size)
    (hstate : m.state = state.AUTHORITY)
    (hparse : parse_url env input base = some u) (hvalid : u.is_valid = true) :
    match rfind (authority_text m.url.is_special
        ((parse_context env true input base).url_data.drop m.input_position)) '@' with
    | none =>
      u.username = [] ∧ u.password = [] ∧
        step (parse_context env true input base) m =
          outcome.next ⟨state.HOST, m.url, m.input_position⟩
    | some i =>
      u.username = percent_encode
          (before_colon ((authority_text m.url.is_special
            ((parse_context env true input base).url_data.drop m.input_position)).take i))
          env.sets.USERINFO_PERCENT_ENCODE ∧
        u.password = percent_encode
          (after_colon ((authority_text m.url.is_special
            ((parse_context env true input base).url_data.drop m.input_position)).take i))
          env.sets.USERINFO_PERCENT_ENCODE ∧
        ∃ u1, step (parse_context env true input base) m =
          outcome.next ⟨state.HOST, u1, m.input_position + (i + 1)⟩ := by
  generalize hc : parse_context env true input base = c at *
  have hsv : c.store_values = true := by rw [← hc]; rfl
  have henv : c.env = env := by rw [← hc]; rfl
  have hrun := parse_url_valid_run env input base u hparse hvalid
  rw [hc] at hrun
  obtain ⟨f1, hf1⟩ := run_of_advance c n _ m _ u hreach hrun
  obtain ⟨st, u0, p⟩ := m
  simp only at hstate hpos
  subst hstate
  obtain ⟨he1, he2⟩ := credentials_empty_before_host c n _ hreach rfl hpos
  simp only at he1 he2
  have hstep := step_AUTHORITY_spec c hsv (by rw [henv]; exact hat) u0 p hpos
  cases f1 with
  | zero => simp [run] at hf1
  | succ f1 =>
    rw [run_succ, if_pos hpos] at hf1
    simp only
    generalize authority_text u0.is_special (List.drop p c.url_data) = A at *
    cases hr : rfind A '@' with
    | none =>
      rw [hr] at hstep
      simp only at hstep
      rw [hstep] at hf1
      obtain ⟨h1, h2⟩ := run_after_authority c f1 ⟨state.HOST, u0, p⟩ u rfl hf1
      exact ⟨h1.trans he1, h2.trans he2, hstep⟩
    | some i =>
      rw [hr] at hstep
      simp only at hstep
      split_ifs at hstep with hi
      · rw [hstep] at hf1
        simp only [Option.some.injEq] at hf1
        subst hf1
        simp at hvalid
      · rw [hstep] at hf1
        obtain ⟨h1, h2⟩ := run_after_authority c f1
          ⟨state.HOST, with_credentials c u0 false false (A.take i), p + (i + 1)⟩ u rfl hf1
        obtain ⟨h3, h4⟩ := with_credentials_fresh c u0 (A.take i) he1 he2
        simp only at h1 h2
        rw [henv] at h3 h4
        exact ⟨h1.trans h3, h2.trans h4, _, hstep⟩

theorem userinfo_reference_witness :
    sample_env.sets.USERINFO_PERCENT_ENCODE '@' = true ∧
    parse_url sample_env
        ['h', 't', 't', 'p', ':', '/', '/', 'u', ':', 'p', '%', '4', '0', '@', '[', ':', ':',
          '1', ']', ':', '8', '/'] none =
      some { type := scheme_type.HTTP, username := ['u'], password := ['p', '%', '4', '0'],
             host := some ['[', ':', ':', '1', ']'], port := some 8, path := ['/'] } ∧
    (['u'] = percent_encode (before_colon ['u', ':', 'p', '%', '4', '0'])
        sample_env.sets.USERINFO_PERCENT_ENCODE ∧
      ['p', '%', '4', '0'] = percent_encode (after_colon ['u', ':', 'p', '%', '4', '0'])
        sample_env.sets.USERINFO_PERCENT_ENCODE ∧
      ∃ u1, step (parse_context sample_env true
          ['h', 't', 't', 'p', ':', '/', '/', 'u', ':', 'p', '%', '4', '0', '@', '[', ':', ':',
            '1', ']', ':', '8', '/'] none)
          ⟨state.AUTHORITY, { type := scheme_type.HTTP }, 7⟩ =
        outcome.next ⟨state.HOST, u1, 7 + (6 + 1)⟩) :=
  ⟨by decide, by decide,
    userinfo_reference sample_env
      ['h', 't', 't', 'p', ':', '/', '/', 'u', ':', 'p', '%', '4', '0', '@', '[', ':', ':',
        '1', ']', ':', '8', '/'] none 3 ⟨state.AUTHORITY, { type := scheme_type.HTTP }, 7⟩
      { type := scheme_type.HTTP, username := ['u'], password := ['p', '%', '4', '0'],
        host := some ['[', ':', ':', '1', ']'], port := some 8, path := ['/'] }
      (by decide) (by decide) (by decide) rfl (by decide) rfl⟩

/-! ## C4: the fragment -/

theorem prune_hash_fragment (x : List Char) : (prune_hash x).1 = fragment_text x := by
  induction x with
  | nil => simp [prune_hash, find, fragment_text]
  | cons y r ih =>
    by_cases hy : y = '#'
    · subst hy
      simp [prune_hash_hash, fragment_text]
    · rw [prune_hash_cons y r hy]
      simp only [ih, fragment_text, List.mem_cons]
      have : ¬ '#' = y := fun e => hy e.symm
      simp [this, hy]

/-- C4. Fragment attachment is the same on every successful exit: whenever
`parse_url` succeeds, the result has a fragment if and only if the cleaned
input contains `#`, and then it is the percent-encoding, with the fragment
set, of the text after the first `#`; the fragment of the base plays no
part. -/
theorem fragment_attachment (env : environment) (input : List Char) (base : Option url)
    (u : url) (h : parse_url env input base = some u) (hv : u.is_valid = true) :
    u.hash = (fragment_text (clean input)).map
      (fun f => percent_encode f env.sets.FRAGMENT_PERCENT_ENCODE) := by
  unfold parse_url at h
  by_cases hlen : 4294967295 < input.length
  · rw [parse_url_impl_oversized env true _ base hlen] at h
    cases h; simp at hv
  by_cases hb : ∃ b, base = some b ∧ b.is_valid = false
  · obtain ⟨b, rfl, hb⟩ := hb
    obtain ⟨u1, h1, h2⟩ := parse_url_impl_invalid_base env true input b hb
    rw [h1] at h; cases h; simp [hv] at h2
  rw [parse_url_impl_run env true _ base (by omega) (by
    intro b hb2
    by_contra hv2
    exact hb ⟨b, hb2, by simpa using hv2⟩)] at h
  have := run_invariant (parse_context env true input base) (fun m => m.url.hash = none)
    (fun u => u.is_valid = true → u.hash = expected_hash (parse_context env true input base))
    (fun m m1 hI _ hs => step_hash_next _ m m1 hs hI)
    (fun m u1 hI _ hs hv1 => step_hash_returned _ rfl m u1 hs hI hv1)
    (fun m hI _ _ => store_fragment_hash _ _ rfl hI)
    loop_bound ⟨state.SCHEME_START, initial_url, 0⟩ u rfl h hv
  rw [this, ← prune_hash_fragment]
  rfl

theorem fragment_attachment_witness :
    parse_url sample_env ['?', 'x', '#', 'a', ' ', 'b']
        (parse_url sample_env ['h', 't', 't', 'p', ':', '/', '/', 'h', '/', 'p', '#', 'z'] none)
      = some { type := scheme_type.HTTP, host := some ['h'], path := ['/', 'p'],
               query := some ['x'], hash := some ['a', '%', '2', '0', 'b'] } ∧
    ({ type := scheme_type.HTTP, host := some ['h'], path := ['/', 'p'],
       query := some ['x'], hash := some ['a', '%', '2', '0', 'b'] } : url).hash =
      (fragment_text (clean ['?', 'x', '#', 'a', ' ', 'b'])).map
        (fun f => percent_encode f sample_env.sets.FRAGMENT_PERCENT_ENCODE) :=
  ⟨by decide, fragment_attachment sample_env ['?', 'x', '#', 'a', ' ', 'b']
    (parse_url sample_env ['h', 't', 't', 'p', ':', '/', '/', 'h', '/', 'p', '#', 'z'] none)
    _ (by decide) (by decide)⟩

/-! ## C5: cleaning -/

theorem clean_eq (x : List Char) :
    clean x = ((remove_ascii_tab_or_newline x).dropWhile is_c0_control_or_space).rdropWhile
      is_c0_control_or_space := rfl

theorem remove_idem_of_subset (y x : List Char)
    (h : ∀ a ∈ y, a ∈ remove_ascii_tab_or_newline x) : remove_ascii_tab_or_newline y = y := by
  unfold remove_ascii_tab_or_newline at *
  rw [List.filter_eq_self]
  intro a ha
  exact (List.mem_filter.1 (h a ha)).2

theorem mem_clean (x : List Char) (a : Char) (h : a ∈ clean x) :
    a ∈ remove_ascii_tab_or_newline x := by
  rw [clean_eq] at h
  exact (List.dropWhile_sublist _).subset ((List.rdropWhile_prefix _ _).sublist.subset h)

theorem dropWhile_rdropWhile_fixed (p : Char → Bool) (z : List Char)
    (hz : z.dropWhile p = z) : (z.rdropWhile p).dropWhile p = z.rdropWhile p := by
  cases z with
  | nil => simp
  | cons h t =>
    have hh : p h = false := by
      by_contra hc
      simp only [Bool.not_eq_false] at hc
      rw [List.dropWhile_cons_of_pos hc] at hz
      have := List.length_le_of_sublist (List.dropWhile_sublist p (l := t))
      rw [hz] at this
      simp at this
    have := rdropWhile_append_of_last p [h] t (by simp) (by simpa using hh)
    simp only [List.singleton_append] at this
    rw [this, List.dropWhile_cons_of_neg (by simp [hh])]

/-- Cleaning is idempotent. -/
theorem clean_idempotent (x : List Char) : clean (clean x) = clean x := by
  have h1 : remove_ascii_tab_or_newline (clean x) = clean x :=
    remove_idem_of_subset _ x (mem_clean x)
  conv_lhs => rw [clean_eq, h1]
  rw [clean_eq, dropWhile_rdropWhile_fixed _ _ (List.dropWhile_idempotent _ _),
    List.rdropWhile_idempotent]

theorem clean_length_le (x : List Char) : (clean x).length ≤ x.length := by
  rw [clean_eq]
  calc _ ≤ ((remove_ascii_tab_or_newline x).dropWhile is_c0_control_or_space).length :=
        (List.rdropWhile_prefix _ _).length_le
    _ ≤ (remove_ascii_tab_or_newline x).length :=
        List.length_le_of_sublist (List.dropWhile_sublist _)
    _ ≤ x.length := by
        unfold remove_ascii_tab_or_newline
        exact List.length_filter_le _ _

theorem parse_url_impl_small (env : environment) (sv : Bool) (input : List Char)
    (base : Option url) (hlen : input.length ≤ 4294967295) :
    parse_url_impl env sv input base =
      if (match base with
          | some b => b.is_valid
          | none => true) = true then
        run (parse_context env sv input base) loop_bound ⟨state.SCHEME_START, initial_url, 0⟩
      else some { initial_url with is_valid := false } := by
  unfold parse_url_impl
  have h1 : ¬ input.length > 4294967295 := by omega
  cases base with
  | none => simp [h1, cleaning_eq_clean, initial_url, parse_context]
  | some b =>
    cases hb : b.is_valid <;> simp [h1, hb, cleaning_eq_clean, initial_url, parse_context]

/-- C5, amended. Input cleaning is transparent below the size limit: for every
input of at most 2^32 - 1 bytes and every base, parsing the input and parsing
the cleaned input give the same result; and cleaning is idempotent. -/
theorem cleaning_transparent (env : environment) (input : List Char) (base : Option url)
    (hlen : input.length ≤ 4294967295) :
    parse_url env input base = parse_url env (clean input) base ∧
      clean (clean input) = clean input := by
  refine ⟨?_, clean_idempotent input⟩
  unfold parse_url
  rw [parse_url_impl_small env true input base hlen,
    parse_url_impl_small env true (clean input) base
      (le_trans (clean_length_le input) hlen)]
  simp only [parse_context, clean_idempotent]

theorem cleaning_transparent_witness :
    [' ', '\t', 'h', 't', 't', 'p', ':', '/', '\n', '/', 'h', '/', ' '].length ≤ 4294967295 ∧
      (parse_url sample_env [' ', '\t', 'h', 't', 't', 'p', ':', '/', '\n', '/', 'h', '/', ' ']
          none =
        parse_url sample_env
          (clean [' ', '\t', 'h', 't', 't', 'p', ':', '/', '\n', '/', 'h', '/', ' ']) none ∧
      clean (clean [' ', '\t', 'h', 't', 't', 'p', ':', '/', '\n', '/', 'h', '/', ' ']) =
        clean [' ', '\t', 'h', 't', 't', 'p', ':', '/', '\n', '/', 'h', '/', ' ']) :=
  ⟨by decide, cleaning_transparent sample_env _ none (by decide)⟩


theorem dropWhile_replicate_space (n : Nat) (s : List Char) :
    (List.replicate n ' ' ++ s).dropWhile is_c0_control_or_space =
      s.dropWhile is_c0_control_or_space := by
  induction n with
  | zero => rw [List.replicate_zero, List.nil_append]
  | succ k ih =>
    rw [List.replicate_succ, List.cons_append, List.dropWhile_cons_of_pos (by decide), ih]

theorem clean_replicate_space (n : Nat) (s : List Char) (hs : solid s) :
    clean (List.replicate n ' ' ++ s) = s := by
  have hr : remove_ascii_tab_or_newline (List.replicate n ' ' ++ s) =
      List.replicate n ' ' ++ s := by
    rw [remove_append, remove_of_not_has s hs.1]
    congr 1
    unfold remove_ascii_tab_or_newline
    rw [List.filter_eq_self]
    intro a ha
    rw [List.eq_of_mem_replicate ha]
    decide
  rw [clean_eq, hr, dropWhile_replicate_space]
  have := clean_append_solid s [] hs
  rw [List.append_nil, clean_tail_nil, List.append_nil, clean_eq,
    remove_of_not_has s hs.1] at this
  exact this

theorem oversized_spaces_length : 4294967295 < (List.replicate 4294967296 ' ' ++ ['h', 't', 't', 'p', ':', '/', '/', 'h']).length := by
  rw [List.length_append, List.length_replicate]
  decide

/-- C5, as stated, fails above the size limit: an input of 2^32 spaces
followed by `http://h` is rejected for its size, while its cleaning, the 8
bytes `http://h`, parses to a valid record. -/
theorem cleaning_not_transparent_oversized :
    parse_url sample_env
        (List.replicate 4294967296 ' ' ++ ['h', 't', 't', 'p', ':', '/', '/', 'h']) none ≠
      parse_url sample_env
        (clean (List.replicate 4294967296 ' ' ++ ['h', 't', 't', 'p', ':', '/', '/', 'h']))
        none := by
  rw [clean_replicate_space 4294967296 ['h', 't', 't', 'p', ':', '/', '/', 'h']
    (solid_of_all ['h', 't', 't', 'p', ':', '/', '/', 'h'] (List.cons_ne_nil _ _) (by decide))]
  unfold parse_url
  rw [parse_url_impl_oversized sample_env true _ none oversized_spaces_length]
  decide

/-! ## C6: the default port -/

theorem attach_fragment_port (c : context) (u : url) :
    (attach_fragment c u).port = u.port ∧ (attach_fragment c u).type = u.type := by
  unfold attach_fragment
  split <;> exact ⟨rfl, rfl⟩

theorem store_fragment_port (c : context) (u : url) :
    (store_fragment c u).port = u.port ∧ (store_fragment c u).type = u.type := by
  unfold store_fragment
  split_ifs
  · exact attach_fragment_port c u
  · exact ⟨rfl, rfl⟩

/-- The passes after the port state leave the port and the scheme alone. -/
theorem step_after_port (c : context) (m : machine) (h0 : m.state.after_port = true) :
    (∀ m1, step c m = outcome.next m1 → m1.state.after_port = true ∧
      m1.url.port = m.url.port ∧ m1.url.type = m.url.type) ∧
    (∀ u1, step c m = outcome.returned u1 →
      u1.port = m.url.port ∧ u1.type = m.url.type) := by
  obtain ⟨st, u, p⟩ := m
  cases st <;> simp [state.after_port] at h0
  case PATH_START =>
    have h2 := attach_fragment_port c (u.update_base_pathname ['/'])
    constructor
    all_goals
      intro x h
      simp only [step, state_PATH_START] at h
      split_ifs at h <;> cases h <;>
        simp_all [state.after_port, url.update_base_pathname]
  case PATH =>
    constructor
    all_goals
      intro x h
      simp only [step, state_PATH] at h
      repeat' split at h
      all_goals cases h
      all_goals simp_all [state.after_port]
  case QUERY =>
    have h2 := fun s => attach_fragment_port c
      (u.update_base_search (List.drop p c.url_data) s)
    constructor
    all_goals
      intro x h
      simp only [step, state_QUERY] at h
      split_ifs at h <;> cases h <;>
        simp_all [state.after_port, url.update_base_search]

theorem run_after_port (c : context) (f : Nat) (m : machine) (u : url)
    (h0 : m.state.after_port = true) (h : run c f m = some u) :
    u.port = m.url.port ∧ u.type = m.url.type :=
  run_invariant c
    (fun m1 => m1.state.after_port = true ∧ m1.url.port = m.url.port ∧
      m1.url.type = m.url.type)
    (fun u1 => u1.port = m.url.port ∧ u1.type = m.url.type)
    (fun m1 m2 hI _ hst => by
      obtain ⟨h1, h2, h3⟩ := (step_after_port c m1 hI.1).1 m2 hst
      exact ⟨h1, h2.trans hI.2.1, h3.trans hI.2.2⟩)
    (fun m1 u1 hI _ hst => by
      obtain ⟨h2, h3⟩ := (step_after_port c m1 hI.1).2 u1 hst
      exact ⟨h2.trans hI.2.1, h3.trans hI.2.2⟩)
    (fun m1 hI _ => by
      obtain ⟨h2, h3⟩ := store_fragment_port c m1.url
      exact ⟨h2.trans hI.2.1, h3.trans hI.2.2⟩)
    f m u ⟨h0, rfl, rfl⟩ h

/-- What `parse_port` stores when it leaves the record valid. -/
theorem parse_port_valid (u : url) (v : List Char)
    (h : (u.parse_port v true).2.is_valid = true) :
    (u.parse_port v true).2.type = u.type ∧
    (u.parse_port v true).1 = (v.takeWhile is_digit).length ∧
    (u.parse_port v true).2.port =
      if !(v.takeWhile is_digit).isEmpty &&
          ((get_special_port u.type == 0 && digits_value (v.takeWhile is_digit) == 0) ||
            get_special_port u.type != digits_value (v.takeWhile is_digit)) then
        some (digits_value (v.takeWhile is_digit))
      else none := by
  unfold url.parse_port at h ⊢
  simp only [] at h ⊢
  split_ifs at h ⊢ <;> simp_all [url.scheme_default_port]

theorem port_absent_iff (t : scheme_type) (d : List Char) (hd : d ≠ []) :
    (if !d.isEmpty && ((get_special_port t == 0 && digits_value d == 0) ||
        get_special_port t != digits_value d) then some (digits_value d) else none) = none ↔
      default_port t = some (digits_value d) := by
  have hd2 : d.isEmpty = false := by cases d <;> simp at hd ⊢
  cases t <;> simp [hd2, get_special_port, default_port] <;> omega

theorem advance_add (c : context) (k j : Nat) :
    ∀ m, advance c (k + j) m = (advance c k m).bind (advance c j) := by
  induction k with
  | zero => intro m; simp [advance]
  | succ k ih =>
    intro m
    rw [show k + 1 + j = (k + j) + 1 by omega, advance, advance]
    split_ifs
    · cases step c m with
      | next m1 => exact ih m1
      | returned u => rfl
      | undefined => rfl
    · rfl

/-- C6, amended. Default port stripping: for every input and base whose parse
succeeds and in which a port is written, that is the port state is executed
and reads a non-empty run of digits, the port of the result is absent if and
only if the value of those digits is the default port of the scheme of the
result (ftp 21, http 80, https 443, ws 80, wss 443). -/
theorem default_port_stripping (env : environment) (input : List Char) (base : Option url)
    (n : Nat) (u0 : url) (p : Nat) (u : url)
    (hreach : advance (parse_context env true input base) n
      ⟨state.SCHEME_START, initial_url, 0⟩ = some ⟨state.PORT, u0, p⟩)
    (hpos : p ≤ (parse_context env true input base).input_size)
    (hdigits : ((parse_context env true input base).url_data.drop p).takeWhile is_digit ≠ [])
    (hparse : parse_url env input base = some u) (hvalid : u.is_valid = true) :
    u.port = none ↔
      default_port u.type = some (digits_value
        (((parse_context env true input base).url_data.drop p).takeWhile is_digit)) := by
  generalize hc : parse_context env true input base = c at *
  have hrun := parse_url_valid_run env input base u hparse hvalid
  rw [hc] at hrun
  obtain ⟨f1, hf1⟩ := run_of_advance c n _ _ _ u hreach hrun
  cases f1 with
  | zero => simp [run] at hf1
  | succ f1 =>
    rw [run_succ] at hf1
    simp only [hpos, if_true, step, state_PORT] at hf1
    have hlen_d : p + ((c.url_data.drop p).takeWhile is_digit).length ≤ c.input_size := by
      have : ((c.url_data.drop p).takeWhile is_digit).length ≤ (c.url_data.drop p).length :=
        (List.takeWhile_prefix _).length_le
      simp only [context.input_size, List.length_drop] at this hpos ⊢
      omega
    generalize hd : (c.url_data.drop p).takeWhile is_digit = d at *
    split_ifs at hf1 with hval
    · simp only [Option.some.injEq] at hf1
      subst hf1
      simp [hvalid] at hval
    · have hval2 : (u0.parse_port (List.drop p c.url_data) true).2.is_valid = true := by
        simpa using hval
      obtain ⟨h1, h2, h3⟩ := parse_port_valid u0 _ hval2
      rw [hd] at h2 h3
      have hle : p + (u0.parse_port (List.drop p c.url_data) true).1 ≤ c.input_size := by
        rw [h2]; exact hlen_d
      have hrun2 : run c (f1 + 1) ⟨state.PATH_START,
          (u0.parse_port (List.drop p c.url_data) true).2,
          p + (u0.parse_port (List.drop p c.url_data) true).1⟩ = some u := by
        rw [run_succ, if_pos hle]
        exact hf1
      obtain ⟨h4, h5⟩ := run_after_port c _ ⟨state.PATH_START,
          (u0.parse_port (List.drop p c.url_data) true).2,
          p + (u0.parse_port (List.drop p c.url_data) true).1⟩ u rfl hrun2
      simp only at h4 h5
      rw [h4, h3, h5, h1]
      exact port_absent_iff u0.type d hdigits

theorem default_port_stripping_witness :
    parse_url sample_env
        ['h', 't', 't', 'p', ':', '/', '/', 'E', 'X', 'A', 'M', 'P', 'L', 'E', '.', 'c', 'o',
          'm', ':', '8', '0', '/', 'P', 'a', 't', 'h'] none =
      some ⟨true, false, scheme_type.HTTP, [], [], [],
        some ['e', 'x', 'a', 'm', 'p', 'l', 'e', '.', 'c', 'o', 'm'], none,
        ['/', 'P', 'a', 't', 'h'], none, none⟩ ∧
    ((none : Option Nat) = none ↔
      default_port scheme_type.HTTP = some (digits_value ['8', '0'])) :=
  ⟨by decide,
    default_port_stripping sample_env
      ['h', 't', 't', 'p', ':', '/', '/', 'E', 'X', 'A', 'M', 'P', 'L', 'E', '.', 'c', 'o',
        'm', ':', '8', '0', '/', 'P', 'a', 't', 'h'] none 5
      ⟨true, false, scheme_type.HTTP, [], [], [],
        some ['e', 'x', 'a', 'm', 'p', 'l', 'e', '.', 'c', 'o', 'm'], none, [], none, none⟩ 19
      ⟨true, false, scheme_type.HTTP, [], [], [],
        some ['e', 'x', 'a', 'm', 'p', 'l', 'e', '.', 'c', 'o', 'm'], none,
        ['/', 'P', 'a', 't', 'h'], none, none⟩
      (by decide) (by decide) (by decide) (by decide) rfl⟩

/-- C6, as stated, fails when no port is written: `http://h/` parses to a valid
record whose port is absent, although its run never executes the port state
and the input has no `:` after its scheme. -/
theorem default_port_no_port_written :
    ∃ u, parse_url sample_env ['h', 't', 't', 'p', ':', '/', '/', 'h', '/'] none = some u ∧
      u.is_valid = true ∧ u.port = none ∧ ':' ∉ ['/', '/', 'h', '/'] ∧
      ∀ n, (advance (parse_context sample_env true ['h', 't', 't', 'p', ':', '/', '/', 'h', '/']
        none) n ⟨state.SCHEME_START, initial_url, 0⟩).map (fun m => m.state) ≠
          some state.PORT := by
  refine ⟨_, rfl, by decide, by decide, by decide, ?_⟩
  intro n
  rcases Nat.lt_or_ge n 8 with hn | hn
  · interval_cases n <;> decide
  · obtain ⟨j, rfl⟩ : ∃ j, n = 8 + j := ⟨n - 8, by omega⟩
    rw [advance_add]
    have : advance (parse_context sample_env true ['h', 't', 't', 'p', ':', '/', '/', 'h', '/']
        none) 8 ⟨state.SCHEME_START, initial_url, 0⟩ = none := by decide
    rw [this]
    simp

/-! ## C8: scheme-relative references -/

theorem get_scheme_lower (b : url) (h : scheme_well_formed b) :
    b.get_scheme.map to_lower_ascii = b.get_scheme ∧
      get_scheme_type b.get_scheme = b.type := by
  cases ht : b.type
  case NOT_SPECIAL =>
    have := h.2 ht
    simp only [url.get_scheme, ht]
    exact ⟨this.2.1, this.2.2⟩
  all_goals
    simp only [url.get_scheme, ht]
    exact ⟨by decide, by decide⟩

theorem get_scheme_valid (b : url) (h : scheme_well_formed b) : valid_scheme b.get_scheme := by
  cases ht : b.type
  case NOT_SPECIAL =>
    simp only [url.get_scheme, ht]
    exact (h.2 ht).1
  all_goals
    simp only [url.get_scheme, ht]
    exact ⟨_, _, rfl, by decide, by decide⟩

theorem parse_scheme_get_scheme (b : url) (h : scheme_well_formed b) :
    (initial_url.parse_scheme b.get_scheme).2 = initial_url.copy_scheme b := by
  obtain ⟨h1, h2⟩ := get_scheme_lower b h
  unfold url.parse_scheme
  simp only [h1, h2]
  by_cases ht : b.type = scheme_type.NOT_SPECIAL
  · simp [ht, url.copy_scheme, url.get_scheme]
  · simp [ht, url.copy_scheme, h.1 ht, initial_url]

/-- The run on `//` followed by `t`, with a base whose path is not opaque. -/
theorem run_scheme_relative (c : context) (base : url) (t : List Char)
    (hd : c.url_data = '/' :: '/' :: t) (hb : c.base_url = some base)
    (hop : base.has_opaque_path = false) :
    run c loop_bound ⟨state.SCHEME_START, initial_url, 0⟩ =
      if base.type = scheme_type.FILE then
        run c loop_bound ⟨state.FILE_HOST,
          { initial_url with type := scheme_type.FILE, host := some [] }, 2⟩
      else if base.type ≠ scheme_type.NOT_SPECIAL then
        run c loop_bound ⟨state.SPECIAL_AUTHORITY_IGNORE_SLASHES, initial_url.copy_scheme base, 2⟩
      else run c loop_bound ⟨state.AUTHORITY, initial_url.copy_scheme base, 2⟩ := by
  have h0 : at_rest c 0 ('/' :: '/' :: t) := ⟨Nat.zero_le _, by simp [hd]⟩
  have h1 : at_rest c 1 ('/' :: t) := by
    have : at_rest c (0 + ['/'].length) ('/' :: t) := at_rest_advance (by simpa using h0)
    simpa using this
  conv_lhs => rw [show loop_bound = 20 + 1 + 1 + 1 + 1 from rfl]
  rw [run_next c _ _ ⟨state.NO_SCHEME, initial_url, 0⟩ h0.1 (by
      simp [step, state_SCHEME_START, at_rest_ne h0, at_rest_char h0, is_alpha])]
  by_cases hf : base.type = scheme_type.FILE
  · rw [if_pos hf,
      run_next c _ _ ⟨state.FILE, initial_url, 0⟩ h0.1 (by
        simp [step, state_NO_SCHEME, hb, hop, hf]),
      run_next c _ _ ⟨state.FILE_SLASH,
        { initial_url with type := scheme_type.FILE, host := some [] }, 1⟩ h0.1 (by
        simp [step, state_FILE, at_rest_ne h0, at_rest_char h0, url.set_protocol_as_file]),
      run_next c _ _ ⟨state.FILE_HOST,
        { initial_url with type := scheme_type.FILE, host := some [] }, 2⟩ h1.1 (by
        simp [step, state_FILE_SLASH, at_rest_ne h1, at_rest_char h1])]
    exact run_loop_bound c 20 _ (by simp [state.rank])
  · rw [if_neg hf,
      run_next c _ _ ⟨state.RELATIVE_SCHEME, initial_url, 0⟩ h0.1 (by
        simp [step, state_NO_SCHEME, hb, hop, hf]),
      run_next c _ _ ⟨state.RELATIVE_SLASH, initial_url.copy_scheme base, 1⟩ h0.1 (by
        simp [step, state_RELATIVE_SCHEME, hb, at_rest_ne h0, at_rest_char h0])]
    by_cases hs : base.type = scheme_type.NOT_SPECIAL
    · rw [if_neg (by simpa using hs),
        run_next c _ _ ⟨state.AUTHORITY, initial_url.copy_scheme base, 2⟩ h1.1 (by
          simp [step, state_RELATIVE_SLASH, hb, at_rest_ne h1, at_rest_char h1,
            url.is_special, url.copy_scheme, hs])]
      exact run_loop_bound c 20 _ (by simp [state.rank])
    · rw [if_pos hs,
        run_next c _ _ ⟨state.SPECIAL_AUTHORITY_IGNORE_SLASHES,
          initial_url.copy_scheme base, 2⟩ h1.1 (by
          simp [step, state_RELATIVE_SLASH, hb, at_rest_ne h1, at_rest_char h1,
            url.is_special, url.copy_scheme, hs])]
      exact run_loop_bound c 20 _ (by simp [state.rank])

/-- The run on a scheme followed by `://` and `t`, with no base. -/
theorem run_scheme_absolute (c : context) (a : Char) (S1 t : List Char)
    (hd : c.url_data = a :: S1 ++ ':' :: '/' :: '/' :: t) (ha : is_alpha a = true)
    (hS : ∀ x ∈ S1, is_alnum_plus x = true) (hb : c.base_url = none) :
    run c loop_bound ⟨state.SCHEME_START, initial_url, 0⟩ =
      if (initial_url.parse_scheme (a :: S1)).2.type = scheme_type.FILE then
        run c loop_bound ⟨state.FILE_HOST,
          { ((initial_url.parse_scheme (a :: S1)).2).set_protocol_as_file with host := some [] },
          (a :: S1).length + 3⟩
      else if (initial_url.parse_scheme (a :: S1)).2.type ≠ scheme_type.NOT_SPECIAL then
        run c loop_bound ⟨state.SPECIAL_AUTHORITY_IGNORE_SLASHES,
          (initial_url.parse_scheme (a :: S1)).2, (a :: S1).length + 3⟩
      else run c loop_bound ⟨state.AUTHORITY, (initial_url.parse_scheme (a :: S1)).2,
        (a :: S1).length + 3⟩ := by
  have h1 : (1 : Nat) ≤ c.input_size := by simp [context.input_size, hd]
  have hst := step_SCHEME_colon c initial_url a S1 ('/' :: '/' :: t) hd hS
  simp only [hb, Option.isSome_none, Bool.and_false, Bool.false_eq_true, if_false,
    List.head?_cons, if_true] at hst
  have hr1 : at_rest c ((a :: S1).length + 1) ('/' :: '/' :: t) := by
    have := at_rest_of_append c (a :: S1 ++ [':']) ('/' :: '/' :: t) (by simp [hd])
    simpa using this
  have hr2 : at_rest c ((a :: S1).length + 1 + 1) ('/' :: t) :=
    at_rest_advance (a := ['/']) (by simpa using hr1)
  have hr3 : at_rest c ((a :: S1).length + 1 + 2) t :=
    at_rest_advance (a := ['/', '/']) (by simpa using hr1)
  conv_lhs => rw [show loop_bound = 23 + 1 from rfl]
  rw [run_next c 23 _ _ (Nat.zero_le _) (step_SCHEME_START_scheme c initial_url a S1 _ hd ha)]
  generalize (initial_url.parse_scheme (a :: S1)).2 = ps at *
  by_cases hf : ps.type = scheme_type.FILE
  · simp only [hf, beq_self_eq_true, if_true] at hst ⊢
    rw [show (23 : Nat) = 20 + 1 + 1 + 1 from rfl, run_next c 22 _ _ h1 hst,
      run_next c _ _ ⟨state.FILE_SLASH, { ps.set_protocol_as_file with host := some [] },
        (a :: S1).length + 1 + 1⟩ hr1.1 (by
        simp only [step, state_FILE, at_rest_ne hr1, at_rest_char hr1]
        simp),
      run_next c _ _ ⟨state.FILE_HOST, { ps.set_protocol_as_file with host := some [] },
        (a :: S1).length + 1 + 1 + 1⟩ hr2.1 (by
        simp only [step, state_FILE_SLASH, at_rest_ne hr2, at_rest_char hr2]
        simp)]
    exact run_loop_bound c 20 _ (by simp [state.rank])
  · have hf2 : (ps.type == scheme_type.FILE) = false := by simpa using hf
    simp only [hf2, Bool.false_eq_true, if_false, hf] at hst ⊢
    by_cases hs : ps.type = scheme_type.NOT_SPECIAL
    · simp only [url.is_special, hs, bne_self_eq_false, Bool.false_eq_true, if_false] at hst
      rw [if_neg (by simpa using hs), show (23 : Nat) = 21 + 1 + 1 from rfl,
        run_next c 22 _ _ h1 hst,
        run_next c 21 _ _ hr2.1 (step_PATH_OR_AUTHORITY_slash c _ _ t hr2)]
      exact run_loop_bound c 21 _ (by simp [state.rank])
    · have hs2 : ps.is_special = true := by simpa [url.is_special] using hs
      simp only [hs2, if_true, Bool.false_and, Bool.false_eq_true, if_false] at hst
      rw [if_pos hs, show (23 : Nat) = 22 + 1 from rfl, run_next c 22 _ _ h1 hst]
      have e1 : run c 22 ⟨state.SPECIAL_AUTHORITY_SLASHES, ps, (a :: S1).length + 1⟩ =
          run c 22 ⟨state.SPECIAL_AUTHORITY_IGNORE_SLASHES, ps, (a :: S1).length + 1 + 2⟩ := by
        rw [show (22 : Nat) = 21 + 1 from rfl, run_succ, run_succ, if_pos hr1.1, if_pos hr3.1]
        simp only [step, state_SPECIAL_AUTHORITY_SLASHES, hr1.2,
          state_SPECIAL_AUTHORITY_IGNORE_SLASHES]
        simp
      rw [e1]
      exact run_loop_bound c 22 _ (by simp [state.rank])

/-- C8, amended. Scheme-relative references take only the scheme from the
base: for every valid base with a path that is not opaque and every `rest`
such that the scheme of the base followed by `://` and `rest` is at most
2^32 - 1 bytes long, parsing `//` followed by `rest` against the base gives
the same result as parsing the scheme of the base, `://` and `rest` with no
base. -/
theorem scheme_relative_reference (env : environment) (base : url) (rest : List Char)
    (hv : base.is_valid = true) (hwf : scheme_well_formed base)
    (hop : base.has_opaque_path = false)
    (hlen : (base.get_scheme ++ ':' :: '/' :: '/' :: rest).length ≤ 4294967295) :
    parse_url env ('/' :: '/' :: rest) (some base) =
      parse_url env (base.get_scheme ++ ':' :: '/' :: '/' :: rest) none := by
  unfold parse_url
  obtain ⟨a, S1, hS, ha, hS1⟩ := get_scheme_valid base hwf
  have hps := parse_scheme_get_scheme base hwf
  have hty := (get_scheme_lower base hwf)
  rw [hS] at hlen hps hty ⊢
  rw [parse_url_impl_run env true _ (some base) (by simp at hlen ⊢; omega)
    (by intro b hb2; cases hb2; exact hv),
    parse_url_impl_run env true _ none hlen (by simp)]
  have hc1 : clean ('/' :: '/' :: rest) = '/' :: '/' :: clean_tail rest := by
    have := clean_append_solid ['/', '/'] rest (solid_of_all _ (by simp) (by decide))
    simpa using this
  have hc2 : clean (a :: S1 ++ ':' :: '/' :: '/' :: rest) =
      (a :: S1 ++ ':' :: ['/', '/']) ++ clean_tail rest := by
    have := clean_append_solid _ rest (solid_scheme_slashes a S1 ['/', '/'] ha hS1 (by decide))
    simpa using this
  have hchars := scheme_slashes_chars a S1 ['/', '/'] ha hS1 (by decide)
  rw [hc1, hc2, prune_hash_cons '/' _ (by decide), prune_hash_cons '/' _ (by decide),
    prune_hash_append _ _ (fun hm => (hchars _ hm).2 rfl)]
  simp only []
  generalize (prune_hash (clean_tail rest)).2 = t
  generalize (prune_hash (clean_tail rest)).1 = frag
  have hsuf1 : context.suffix_of ⟨env, true, none, t, frag⟩
      ⟨env, true, some base, '/' :: '/' :: t, frag⟩ ['/', '/'] := ⟨rfl, rfl, rfl, rfl⟩
  have hsuf2 : context.suffix_of ⟨env, true, none, t, frag⟩
      ⟨env, true, none, (a :: S1 ++ ':' :: ['/', '/']) ++ t, frag⟩ (a :: S1 ++ ':' :: ['/', '/']) :=
    ⟨rfl, rfl, rfl, rfl⟩
  have hl : (a :: S1).length + 3 = 0 + (a :: S1 ++ ':' :: ['/', '/']).length := by simp
  rw [run_scheme_relative _ base t rfl rfl hop,
    run_scheme_absolute _ a S1 t (by simp) ha hS1 rfl, hps]
  have hcs : (initial_url.copy_scheme base).type = base.type := rfl
  rw [hcs, hl]
  have h2 : (2 : Nat) = 0 + ['/', '/'].length := rfl
  by_cases hf : base.type = scheme_type.FILE
  · rw [if_pos hf, if_pos hf, h2, run_shift hsuf1 _ state.FILE_HOST _ 0 rfl (Or.inl rfl),
      run_shift hsuf2 _ state.FILE_HOST _ 0 rfl (Or.inl rfl)]
    congr 2
    simp [url.copy_scheme, url.set_protocol_as_file, initial_url, hwf.1 (by simp [hf])]
  · rw [if_neg hf, if_neg hf]
    by_cases hs : base.type = scheme_type.NOT_SPECIAL
    · rw [if_neg (by simpa using hs), if_neg (by simpa using hs), h2,
        run_shift hsuf1 _ state.AUTHORITY _ 0 rfl (Or.inl rfl),
        run_shift hsuf2 _ state.AUTHORITY _ 0 rfl (Or.inl rfl)]
    · rw [if_pos hs, if_pos hs, h2,
        run_shift hsuf1 _ state.SPECIAL_AUTHORITY_IGNORE_SLASHES _ 0 rfl (Or.inl rfl),
        run_shift hsuf2 _ state.SPECIAL_AUTHORITY_IGNORE_SLASHES _ 0 rfl (Or.inl rfl)]

theorem sample_base_https_parsed :
    parse_url sample_env ['h', 't', 't', 'p', 's', ':', '/', '/', 'a', '.', 'b', '/', 'c'] none =
      some sample_base_https := by
  decide

theorem scheme_relative_reference_witness :
    scheme_well_formed sample_base_https ∧
      parse_url sample_env ('/' :: '/' :: ['f', 'o', 'o', '/', 'b', 'a', 'r'])
          (some sample_base_https) =
        parse_url sample_env (sample_base_https.get_scheme ++
          ':' :: '/' :: '/' :: ['f', 'o', 'o', '/', 'b', 'a', 'r']) none :=
  ⟨⟨fun _ => rfl, fun h => absurd h (by decide)⟩,
    scheme_relative_reference sample_env sample_base_https ['f', 'o', 'o', '/', 'b', 'a', 'r']
      rfl ⟨fun _ => rfl, fun h => absurd h (by decide)⟩ rfl (by decide)⟩

theorem clean_tail_of_all (H : List Char) (h : ∀ x ∈ H, is_c0_control_or_space x = false) :
    clean_tail H = H := by
  induction H with
  | nil => exact clean_tail_nil
  | cons x r ih =>
    rw [clean_tail_cons x r (tab_is_c0 x (h x (by simp))) (h x (by simp)),
      ih (fun y hy => h y (by simp [hy]))]

theorem plain_host_byte (x : Char) (h : is_plain_host_byte x = true) :
    is_c0_control_or_space x = false ∧ x ≠ '#' ∧ x ≠ '@' ∧ x ≠ ':' ∧ x ≠ '[' ∧
      is_slash x = false ∧ ∀ sp, is_authority_end sp x = false := by
  simp only [is_plain_host_byte, Bool.and_eq_true, Bool.not_eq_true', bne_iff_ne, ne_eq] at h
  obtain ⟨⟨⟨⟨⟨⟨⟨h1, h2⟩, h3⟩, h4⟩, h5⟩, h6⟩, h7⟩, h8⟩ := h
  refine ⟨h1, h2, h3, h7, h8, by simp [is_slash, h4, h6], ?_⟩
  intro sp
  simp [is_authority_end, h4, h5, h6]

/-- The parse of `//` followed by a plain host, against a base with a special
scheme other than `file`: the result is valid when the host parser accepts
the host. -/
theorem parse_scheme_relative_host (env : environment) (base : url) (H h : List Char)
    (hv : base.is_valid = true) (hop : base.has_opaque_path = false)
    (hs : base.type ≠ scheme_type.NOT_SPECIAL) (hf : base.type ≠ scheme_type.FILE)
    (hlen : ('/' :: '/' :: H).length ≤ 4294967295) (hne : H ≠ [])
    (hH : ∀ x ∈ H, is_plain_host_byte x = true)
    (hhost : env.host_parse false H = some h) :
    ∃ u, parse_url env ('/' :: '/' :: H) (some base) = some u ∧ u.is_valid = true := by
  unfold parse_url
  rw [parse_url_impl_run env true _ (some base) hlen (by intro b hb2; cases hb2; exact hv)]
  have hc1 : clean ('/' :: '/' :: H) = '/' :: '/' :: H := by
    have := clean_append_solid ['/', '/'] H (solid_of_all _ (by simp) (by decide))
    rw [clean_tail_of_all H (fun x hx => (plain_host_byte x (hH x hx)).1)] at this
    simpa using this
  rw [hc1, prune_hash_of_not_mem _ (by
    simp only [List.mem_cons, not_or]
    exact ⟨by decide, by decide, fun hm => (plain_host_byte _ (hH _ hm)).2.1 rfl⟩)]
  simp only []
  generalize hc : (⟨env, true, some base, '/' :: '/' :: H, none⟩ : context) = c
  have hd : c.url_data = '/' :: '/' :: H := by rw [← hc]
  have hr : at_rest c 2 (H ++ []) := by
    have := at_rest_of_append c ['/', '/'] H (by simp [hd])
    simpa using this
  have hsp : (initial_url.copy_scheme base).is_special = true := by
    simpa [url.is_special, url.copy_scheme] using hs
  have hig : step c ⟨state.SPECIAL_AUTHORITY_IGNORE_SLASHES, initial_url.copy_scheme base, 2⟩ =
      outcome.next ⟨state.AUTHORITY, initial_url.copy_scheme base, 2⟩ := by
    have := step_IGNORE_SLASHES c (initial_url.copy_scheme base) 2 [] H (by simpa using hr)
      (by simp) (by
        intro x hx
        cases H with
        | nil => simp at hx
        | cons y r =>
          simp at hx; subst hx
          exact (plain_host_byte y (hH y (by simp))).2.2.2.2.2.1)
    simpa using this
  rw [run_scheme_relative c base H hd (by rw [← hc]) hop, if_neg hf, if_pos hs,
    show loop_bound = 20 + 1 + 1 + 1 + 1 from rfl,
    run_next c _ _ _ hr.1 hig,
    run_next c _ _ _ hr.1 (step_AUTHORITY_plain c _ _ H [] hr
      (fun x hx => ⟨(plain_host_byte x (hH x hx)).2.2.1,
        (plain_host_byte x (hH x hx)).2.2.2.2.2.2 _⟩) (Or.inl rfl))]
  have hh := step_HOST_plain c (initial_url.copy_scheme base) _ H [] hr
    (fun x hx => ⟨(plain_host_byte x (hH x hx)).2.2.2.1,
      (plain_host_byte x (hH x hx)).2.2.2.2.1, (plain_host_byte x (hH x hx)).2.2.2.2.2.2 _⟩)
    (Or.inl rfl)
  have hemp : H.isEmpty = false := by cases H <;> simp at hne ⊢
  have hph : (initial_url.copy_scheme base).parse_host c.env H =
      (true, { initial_url.copy_scheme base with host := some h }) := by
    unfold url.parse_host
    rw [hsp, ← hc]
    simp only [Bool.not_true, hhost]
  simp only [List.head?_nil, hemp, Bool.false_and, Bool.false_eq_true, if_false, hph,
    Bool.not_true, reduceCtorEq] at hh
  rw [run_next c _ _ _ hr.1 hh]
  have hr2 : at_rest c (2 + H.length) [] := at_rest_advance hr
  rw [run_returned c _ _ (attach_fragment c
      (url.update_base_pathname { initial_url.copy_scheme base with host := some h } ['/']))
      hr2.1 (by
        have hsv : c.store_values = true := by rw [← hc]
        have hsz : (2 + H.length == c.input_size) = true := by
          have := at_rest_length hr2
          simp at this ⊢; omega
        simp only [step, state_PATH_START, hsz, hsv, if_true]
        have : ({ initial_url.copy_scheme base with host := some h } : url).is_special = true :=
          hsp
        rw [this]; rfl)]
  refine ⟨_, rfl, ?_⟩
  unfold attach_fragment
  rw [← hc]
  rfl

theorem oversized_host_input_length :
    ('/' :: '/' :: 'h' :: List.replicate 4294967292 'a').length ≤ 4294967295 ∧
      4294967295 < (sample_base_https.get_scheme ++
        ':' :: '/' :: '/' :: 'h' :: List.replicate 4294967292 'a').length := by
  constructor
  · rw [List.length_cons, List.length_cons, List.length_cons, List.length_replicate]
  · rw [List.length_append, List.length_cons, List.length_cons, List.length_cons,
      List.length_cons, List.length_replicate]
    decide

/-- C8, as stated, fails at the size limit: `//h` followed by 4294967292 bytes
`a` is 2^32 - 1 bytes long and parses against the base `https://a.b/c` to a
valid record, while `https://h` followed by the same bytes exceeds the limit
and is rejected. -/
theorem scheme_relative_not_oversized :
    parse_url sample_env ('/' :: '/' :: 'h' :: List.replicate 4294967292 'a')
        (some sample_base_https) ≠
      parse_url sample_env (sample_base_https.get_scheme ++
        ':' :: '/' :: '/' :: 'h' :: List.replicate 4294967292 'a') none := by
  obtain ⟨u, h1, h2⟩ := parse_scheme_relative_host sample_env sample_base_https
    ('h' :: List.replicate 4294967292 'a')
    (('h' :: List.replicate 4294967292 'a').map to_lower_ascii) rfl rfl (by decide) (by decide)
    oversized_host_input_length.1 (List.cons_ne_nil _ _)
    (by
      intro x hx
      rcases List.mem_cons.1 hx with rfl | hx
      · decide
      · rw [List.eq_of_mem_replicate hx]; decide)
    rfl
  have h3 : parse_url sample_env (sample_base_https.get_scheme ++
      ':' :: '/' :: '/' :: 'h' :: List.replicate 4294967292 'a') none =
      some { initial_url with is_valid := false } :=
    parse_url_impl_oversized sample_env true _ none oversized_host_input_length.2
  rw [h1, h3]
  intro heq
  have := congrArg url.is_valid (Option.some.inj heq)
  rw [h2] at this
  exact Bool.noConfusion this

/-! ## C9: query-only references -/

theorem mem_clean_tail (x : List Char) (a : Char) (h : a ∈ clean_tail x) : a ∈ x := by
  unfold clean_tail at h
  exact mem_remove x a ((List.rdropWhile_prefix _ _).sublist.subset h)

theorem clean_tail_length_le (x : List Char) : (clean_tail x).length ≤ x.length := by
  unfold clean_tail
  calc _ ≤ (remove_ascii_tab_or_newline x).length := (List.rdropWhile_prefix _ _).length_le
    _ ≤ x.length := by
        unfold remove_ascii_tab_or_newline
        exact List.length_filter_le _ _

theorem run_query_only (env : environment) (base : url) (t : List Char)
    (hop : base.has_opaque_path = false) :
    run ⟨env, true, some base, '?' :: t, none⟩ loop_bound ⟨state.SCHEME_START, initial_url, 0⟩ =
      some (if base.type = scheme_type.FILE then
          { initial_url with
              type := scheme_type.FILE, host := base.host, path := base.path,
              query := some (percent_encode t env.sets.SPECIAL_QUERY_PERCENT_ENCODE) }
        else
          { base with
              is_valid := true, hash := none,
              query := some (percent_encode t
                (if base.is_special then env.sets.SPECIAL_QUERY_PERCENT_ENCODE
                 else env.sets.QUERY_PERCENT_ENCODE)) }) := by
  by_cases hf : base.type = scheme_type.FILE
  · simp [loop_bound, run, step, state_SCHEME_START, state_NO_SCHEME, state_FILE, state_QUERY,
      context.input_size, char_at, is_alpha, hop, hf, initial_url, url.set_protocol_as_file,
      url.update_base_search, attach_fragment, url.is_special]
  · simp [loop_bound, run, step, state_SCHEME_START, state_NO_SCHEME, state_RELATIVE_SCHEME,
      state_QUERY, context.input_size, char_at, is_alpha, hop, hf, initial_url,
      url.copy_scheme, url.update_base_search, attach_fragment, url.is_special]

theorem sample_base_parsed :
    parse_url sample_env
      ['h', 't', 't', 'p', ':', '/', '/', 'h', '/', 'p', '?', 'y', '=', '2', '#', 'z'] none =
      some sample_base := by
  decide

theorem solid_singleton (x : Char) (h : is_c0_control_or_space x = false) : solid [x] :=
  solid_of_all [x] (by simp) (by simpa using h)

/-- C9, amended. Query-only references replace exactly the query: for every
valid base with a path that is not opaque and every input `?` followed by `q`,
where `q` has no `#` and the input is at most 2^32 - 1 bytes long, `parse_url`
succeeds; the result has the scheme, username, password, host, port, path and
`has_opaque_path` of the base; its query is the percent-encoding (special-query
set if the scheme is special, else query set) of `q` cleaned, that is without
tabs and newlines and without trailing C0 controls and spaces; and it has no
fragment. -/
theorem query_only_reference (env : environment) (base : url) (q : List Char)
    (hb : valid_base base) (hop : base.has_opaque_path = false) (hq : '#' ∉ q)
    (hlen : q.length < 4294967295) :
    ∃ u, parse_url env ('?' :: q) (some base) = some u ∧ u.is_valid = true ∧
      u.type = base.type ∧ u.get_scheme = base.get_scheme ∧
      u.username = base.username ∧ u.password = base.password ∧ u.host = base.host ∧
      u.port = base.port ∧ u.path = base.path ∧ u.has_opaque_path = base.has_opaque_path ∧
      u.query = some (percent_encode (clean_tail q)
        (if base.is_special then env.sets.SPECIAL_QUERY_PERCENT_ENCODE
         else env.sets.QUERY_PERCENT_ENCODE)) ∧
      u.hash = none := by
  obtain ⟨hv, hfile⟩ := hb
  unfold parse_url
  rw [parse_url_impl_run env true _ (some base) (by simp; omega)
    (by intro b hb2; cases hb2; exact hv)]
  have hc : clean ('?' :: q) = '?' :: clean_tail q := by
    have := clean_append_solid ['?'] q (solid_singleton '?' (by decide))
    simpa using this
  have hp : prune_hash ('?' :: clean_tail q) = (none, '?' :: clean_tail q) :=
    prune_hash_of_not_mem _ (by
      simp only [List.mem_cons, not_or]
      exact ⟨by decide, fun h => hq (mem_clean_tail q _ h)⟩)
  rw [hc, hp]
  simp only []
  rw [run_query_only env base (clean_tail q) hop]
  refine ⟨_, rfl, ?_⟩
  by_cases hf : base.type = scheme_type.FILE
  · obtain ⟨h1, h2, h3⟩ := hfile hf
    simp [hf, initial_url, h1, h2, h3, hop, url.get_scheme, url.is_special]
  · simp [hf, hv, url.get_scheme]

theorem query_only_reference_witness :
    (valid_base sample_base ∧ '#' ∉ ['x', '=', '1']) ∧
      ∃ u, parse_url sample_env ('?' :: ['x', '=', '1']) (some sample_base) = some u ∧
        u.is_valid = true ∧ u.type = sample_base.type ∧
        u.get_scheme = sample_base.get_scheme ∧
        u.username = sample_base.username ∧ u.password = sample_base.password ∧
        u.host = sample_base.host ∧ u.port = sample_base.port ∧ u.path = sample_base.path ∧
        u.has_opaque_path = sample_base.has_opaque_path ∧
        u.query = some (percent_encode (clean_tail ['x', '=', '1'])
          (if sample_base.is_special then sample_env.sets.SPECIAL_QUERY_PERCENT_ENCODE
           else sample_env.sets.QUERY_PERCENT_ENCODE)) ∧
        u.hash = none :=
  ⟨⟨⟨rfl, by decide⟩, by decide⟩,
    query_only_reference sample_env sample_base ['x', '=', '1'] ⟨rfl, by decide⟩ rfl
      (by decide) (by decide)⟩

/-- C9, as stated, fails on the cleaning of the input: for the input `?`
followed by a space the query of the result is empty, not the percent-encoding
`%20` of the space. -/
theorem query_only_not_raw :
    '#' ∉ [' '] ∧
    ∃ u, parse_url sample_env ('?' :: [' ']) (some sample_base) = some u ∧
      u.query = some [] ∧
      u.query ≠ some (percent_encode [' '] sample_env.sets.SPECIAL_QUERY_PERCENT_ENCODE) := by
  refine ⟨by decide, _, rfl, by decide, by decide⟩

/-! ## C10: path-absolute references -/

theorem find_some_takeWhile (B : List Char) (c : Char) (i : Nat) (h : find B c = some i) :
    B.takeWhile (fun x => x != c) = B.take i ∧
      (B.dropWhile (fun x => x != c)).drop 1 = B.drop (i + 1) ∧ c ∈ B := by
  induction B generalizing i with
  | nil => simp [find] at h
  | cons x r ih =>
    rw [find_cons] at h
    by_cases hx : x = c
    · subst hx
      simp at h
      subst h
      simp
    · simp only [beq_iff_eq, hx, if_false, Option.map_eq_some'] at h
      obtain ⟨j, hj, rfl⟩ := h
      obtain ⟨h1, h2, h3⟩ := ih j hj
      have hx2 : (x != c) = true := by simpa using hx
      rw [List.takeWhile_cons, List.dropWhile_cons, hx2]
      simp only [if_true, List.take_succ_cons, List.drop_succ_cons, h1, h2, List.mem_cons,
        h3, or_true, and_self]

theorem find_none_takeWhile (B : List Char) (c : Char) (h : find B c = none) :
    B.takeWhile (fun x => x != c) = B ∧ c ∉ B := by
  have hno := (find_eq_none_iff B c).1 h
  refine ⟨?_, hno⟩
  rw [List.takeWhile_eq_self_iff]
  intro x hx
  have : x ≠ c := fun e => hno (e ▸ hx)
  simpa using this

/-- The path state and what follows it: the path is prepared from the text up
to the first `?`, the query is the text after it. -/
theorem run_PATH (c : context) (hs : c.store_values = true) (f : Nat) (u : url) (p : Nat)
    (t : List Char) (h : at_rest c p t) :
    run c (f + 2) ⟨state.PATH, u, p⟩ =
      some (attach_fragment c
        { u with
            path := parse_prepared_path c.env.sets (t.takeWhile (fun x => x != '?')) u.type
              u.path,
            query := if '?' ∈ t then
                some (percent_encode ((t.dropWhile (fun x => x != '?')).drop 1)
                  (if u.is_special then c.env.sets.SPECIAL_QUERY_PERCENT_ENCODE
                   else c.env.sets.QUERY_PERCENT_ENCODE))
              else u.query }) := by
  rw [run_succ, if_pos h.1]
  simp only [step, state_PATH, h.2, hs, if_true]
  cases hf : find t '?' with
  | none =>
    obtain ⟨h1, h2⟩ := find_none_takeWhile t '?' hf
    simp only [h1, h2, if_false]
    rw [run_succ, if_neg (by simp), store_fragment, if_pos hs]
  | some loc =>
    obtain ⟨h1, h2, h3⟩ := find_some_takeWhile t '?' loc hf
    obtain ⟨hsplit, _, hlt⟩ := find_some_split t '?' loc hf
    simp only [h1, h2, h3, if_true]
    have hr : at_rest c (p + (loc + 1)) (t.drop (loc + 1)) := by
      have : at_rest c (p + (t.take loc ++ ['?']).length) (t.drop (loc + 1)) :=
        at_rest_advance (by
          have e : t.take loc ++ ['?'] ++ t.drop (loc + 1) = t := by
            conv_rhs => rw [hsplit]
            simp
          rw [e]; exact h)
      have hl : (t.take loc ++ ['?']).length = loc + 1 := by
        simp; omega
      rwa [hl] at this
    rw [run_succ, if_pos hr.1]
    simp only [step, state_QUERY, hs, if_true, hr.2, url.update_base_search, url.is_special]

theorem step_RELATIVE_SLASH_path (c : context) (base : url) (hb : c.base_url = some base)
    (u : url) (p : Nat) (t : List Char) (h : at_rest c p t)
    (ht : ∀ x, t.head? = some x → x ≠ '/' ∧ (u.is_special = true → x ≠ '\\')) :
    step c ⟨state.RELATIVE_SLASH, u, p⟩ =
      outcome.next ⟨state.PATH,
        { u with username := base.username, password := base.password, host := base.host,
                 port := base.port }, p⟩ := by
  simp only [step, state_RELATIVE_SLASH, hb, at_rest_ne h, at_rest_char h]
  cases t with
  | nil => simp
  | cons y r =>
    obtain ⟨h1, h2⟩ := ht y rfl
    cases hs : u.is_special
    · simp [h1]
    · simp [h1, h2 hs]

/-- The run on a path-absolute reference `/` followed by `t`, where `t` does
not begin with `/` (nor with `\` when the base is special). -/
theorem run_path_absolute (env : environment) (base : url) (t : List Char)
    (frag : Option (List Char)) (hnf : base.type ≠ scheme_type.FILE)
    (hop : base.has_opaque_path = false)
    (ht : ∀ x, t.head? = some x → x ≠ '/' ∧ (base.is_special = true → x ≠ '\\')) :
    run ⟨env, true, some base, '/' :: t, frag⟩ loop_bound ⟨state.SCHEME_START, initial_url, 0⟩ =
      some (attach_fragment ⟨env, true, some base, '/' :: t, frag⟩
        { initial_url with
            type := base.type, non_special_scheme := base.non_special_scheme,
            username := base.username, password := base.password, host := base.host,
            port := base.port,
            path := parse_prepared_path env.sets (t.takeWhile (fun x => x != '?')) base.type [],
            query := if '?' ∈ t then
                some (percent_encode ((t.dropWhile (fun x => x != '?')).drop 1)
                  (if base.is_special then env.sets.SPECIAL_QUERY_PERCENT_ENCODE
                   else env.sets.QUERY_PERCENT_ENCODE))
              else none }) := by
  generalize hc : (⟨env, true, some base, '/' :: t, frag⟩ : context) = c
  have hd : c.url_data = '/' :: t := by rw [← hc]
  have hbase : c.base_url = some base := by rw [← hc]
  have h0 : at_rest c 0 ('/' :: t) := ⟨Nat.zero_le _, by simp [hd]⟩
  have h1 : at_rest c 1 t := by
    have : at_rest c (0 + ['/'].length) t := at_rest_advance (by simpa using h0)
    simpa using this
  have hsv : c.store_values = true := by rw [← hc]
  have henv : c.env = env := by rw [← hc]
  rw [show loop_bound = 18 + 2 + 1 + 1 + 1 + 1 from rfl,
    run_next c _ _ ⟨state.NO_SCHEME, initial_url, 0⟩ h0.1 (by
      simp [step, state_SCHEME_START, at_rest_ne h0, at_rest_char h0, is_alpha]),
    run_next c _ _ ⟨state.RELATIVE_SCHEME, initial_url, 0⟩ h0.1 (by
      simp [step, state_NO_SCHEME, hbase, hop, hnf]),
    run_next c _ _ ⟨state.RELATIVE_SLASH, initial_url.copy_scheme base, 1⟩ h0.1 (by
      simp [step, state_RELATIVE_SCHEME, hbase, at_rest_ne h0, at_rest_char h0]),
    run_next c _ _ _ h1.1 (step_RELATIVE_SLASH_path c base hbase _ 1 t h1 (by
      simpa [url.copy_scheme, url.is_special] using ht)),
    run_PATH c hsv 18 _ 1 t h1]
  simp [url.copy_scheme, initial_url, henv, url.is_special]

/-- C10, amended. Path-absolute references keep the authority of the base and
nothing else: for every valid base that is not `file` and whose path is not
opaque, and every input `/` followed by `P`, at most 2^32 - 1 bytes long, such
that what is left of `P` after cleaning does not begin with `/` (nor with `\`
when the base is special), `parse_url` succeeds; the result has the scheme,
username, password, host and port of the base; its path is prepared from the
cleaned `P` alone, up to its first `?`, starting from the empty path; and its
query is absent unless the cleaned `P`, without its fragment, contains `?`. -/
theorem path_absolute_reference (env : environment) (base : url) (P : List Char)
    (hv : base.is_valid = true) (hnf : base.type ≠ scheme_type.FILE)
    (hop : base.has_opaque_path = false) (hlen : P.length < 4294967295)
    (hP : ∀ x, (clean_tail P).head? = some x → x ≠ '/' ∧ (base.is_special = true → x ≠ '\\')) :
    ∃ u, parse_url env ('/' :: P) (some base) = some u ∧ u.is_valid = true ∧
      u.type = base.type ∧ u.get_scheme = base.get_scheme ∧
      u.username = base.username ∧ u.password = base.password ∧ u.host = base.host ∧
      u.port = base.port ∧
      u.path = parse_prepared_path env.sets
        ((prune_hash (clean_tail P)).2.takeWhile (fun x => x != '?')) base.type [] ∧
      ('?' ∉ (prune_hash (clean_tail P)).2 → u.query = none) := by
  unfold parse_url
  rw [parse_url_impl_run env true _ (some base) (by simp; omega)
    (by intro b hb2; cases hb2; exact hv)]
  have hc : clean ('/' :: P) = '/' :: clean_tail P := by
    have := clean_append_solid ['/'] P (solid_singleton '/' (by decide))
    simpa using this
  rw [hc, prune_hash_cons '/' _ (by decide)]
  simp only []
  have ht : ∀ x, (prune_hash (clean_tail P)).2.head? = some x →
      x ≠ '/' ∧ (base.is_special = true → x ≠ '\\') := by
    intro x hx
    cases hct : clean_tail P with
    | nil => rw [hct] at hx; simp [prune_hash, find] at hx
    | cons y r =>
      rw [hct] at hx hP
      by_cases hy : y = '#'
      · subst hy; rw [prune_hash_hash] at hx; simp at hx
      · rw [prune_hash_cons y r hy] at hx
        simp only [List.head?_cons, Option.some.injEq] at hx
        subst hx
        exact hP y rfl
  rw [run_path_absolute env base _ _ hnf hop ht]
  refine ⟨_, rfl, ?_⟩
  unfold attach_fragment
  split <;> simp [initial_url, url.get_scheme, url.update_unencoded_base_hash]

theorem path_absolute_reference_witness :
    (sample_base.type ≠ scheme_type.FILE ∧
      ∀ x, (clean_tail ['a', '?', 'b']).head? = some x →
        x ≠ '/' ∧ (sample_base.is_special = true → x ≠ '\\')) ∧
    ∃ u, parse_url sample_env ('/' :: ['a', '?', 'b']) (some sample_base) = some u ∧
      u.is_valid = true ∧ u.type = sample_base.type ∧
      u.get_scheme = sample_base.get_scheme ∧
      u.username = sample_base.username ∧ u.password = sample_base.password ∧
      u.host = sample_base.host ∧ u.port = sample_base.port ∧
      u.path = parse_prepared_path sample_env.sets
        ((prune_hash (clean_tail ['a', '?', 'b'])).2.takeWhile (fun x => x != '?'))
        sample_base.type [] ∧
      ('?' ∉ (prune_hash (clean_tail ['a', '?', 'b'])).2 → u.query = none) :=
  ⟨⟨by decide, by decide⟩,
    path_absolute_reference sample_env sample_base ['a', '?', 'b'] rfl (by decide) rfl
      (by decide) (by decide)⟩

/-- C10, as stated, fails on the cleaning of the input: in `/`, tab, `/x` the
text after the first `/` begins with a tab, not with `/` or `\`, yet the tab
is removed, the input is read as `//x`, and the host of the result is `x`,
not the host `h` of the base. -/
theorem path_absolute_not_raw :
    (['\t', '/', 'x'].head? ≠ some '/' ∧ ['\t', '/', 'x'].head? ≠ some '\\') ∧
    ∃ u, parse_url sample_env ('/' :: ['\t', '/', 'x']) (some sample_base) = some u ∧
      u.is_valid = true ∧ u.host = some ['x'] ∧ u.host ≠ sample_base.host := by
  refine ⟨by decide, _, rfl, by decide, by decide, by decide⟩

/-! ## C7: dot segments -/

theorem loop_cons (sets : character_sets) (type : scheme_type) (x : Char) (cs seg path : List Char) :
    parse_prepared_path_loop sets type (x :: cs) seg path =
      if is_path_separator type x then
        parse_prepared_path_loop sets type cs [] (parse_path_segment sets type path seg false)
      else parse_prepared_path_loop sets type cs (seg ++ [x]) path := rfl

/-- The segment loop reads a prefix and goes on: two inputs that the loop reads
alike from every state are read alike after a common prefix. -/
theorem loop_prefix (sets : character_sets) (type : scheme_type) (Z1 Z2 : List Char)
    (h : ∀ seg path, parse_prepared_path_loop sets type Z1 seg path =
      parse_prepared_path_loop sets type Z2 seg path) (X : List Char) :
    ∀ seg path, parse_prepared_path_loop sets type (X ++ Z1) seg path =
      parse_prepared_path_loop sets type (X ++ Z2) seg path := by
  induction X with
  | nil => exact h
  | cons x r ih =>
    intro seg path
    rw [List.cons_append, List.cons_append, loop_cons, loop_cons]
    split_ifs
    · exact ih _ _
    · exact ih _ _

/-- The segment loop on a segment without separators that a separator
follows. -/
theorem loop_segment (sets : character_sets) (type : scheme_type) (s : List Char) (x : Char)
    (Y : List Char) (hs : ∀ y ∈ s, is_path_separator type y = false)
    (hx : is_path_separator type x = true) :
    ∀ seg path, parse_prepared_path_loop sets type (s ++ x :: Y) seg path =
      parse_prepared_path_loop sets type Y []
        (parse_path_segment sets type path (seg ++ s) false) := by
  induction s with
  | nil =>
    intro seg path
    rw [List.nil_append, loop_cons, if_pos hx, List.append_nil]
  | cons y r ih =>
    intro seg path
    rw [List.cons_append, loop_cons, if_neg (by simp [hs y (by simp)]),
      ih (fun z hz => hs z (by simp [hz]))]
    simp

theorem double_dot_encoded (q : Char → Bool) :
    is_double_dot_path_segment (percent_encode ['.', '.'] q) = true := by
  cases h : q '.' <;> simp [percent_encode, h] <;> decide

theorem single_dot_encoded (q : Char → Bool) :
    is_single_dot_path_segment (percent_encode ['.'] q) = true ∧
      is_double_dot_path_segment (percent_encode ['.'] q) = false := by
  cases h : q '.' <;> simp [percent_encode, h] <;> decide

theorem percent_encode_no_slash (s : List Char) (q : Char → Bool) (h : '/' ∉ s) :
    '/' ∉ percent_encode s q := by
  induction s with
  | nil => simp [percent_encode]
  | cons x r ih =>
    have hx : x ≠ '/' := fun e => h (by simp [e])
    have hr : '/' ∉ r := fun e => h (by simp [e])
    rw [percent_encode]
    intro hm
    rcases List.mem_append.1 hm with hm | hm
    · split_ifs at hm
      · simp only [List.mem_cons, List.mem_singleton, List.not_mem_nil, or_false] at hm
        rcases hm with hm | hm | hm
        · exact absurd hm (by decide)
        · have : ∀ n, n < 16 → hex_digit n ≠ '/' := by decide
          exact this _ (Nat.mod_lt _ (by decide)) hm.symm
        · have : ∀ n, n < 16 → hex_digit n ≠ '/' := by decide
          exact this _ (Nat.mod_lt _ (by decide)) hm.symm
      · simp only [List.mem_singleton] at hm
        exact hx hm.symm
    · exact ih hr hm

theorem shorten_path_append (path e : List Char) (type : scheme_type)
    (ht : type ≠ scheme_type.FILE) (he : '/' ∉ e) :
    shorten_path (path ++ '/' :: e) type = (true, path) := by
  unfold shorten_path
  have ht2 : (type == scheme_type.FILE) = false := by simpa using ht
  simp only [ht2, Bool.false_and, Bool.false_eq_true, if_false]
  have : rfind (path ++ '/' :: e) '/' = some path.length := by
    induction path with
    | nil =>
      rw [List.nil_append, rfind_cons, (rfind_eq_none_iff e '/').2 he]
      simp
    | cons x r ih =>
      rw [List.cons_append, rfind_cons, ih]
      simp
  rw [this]
  simp

/-- An ordinary segment followed by a double-dot segment that is not the last
one leaves the path as it was. -/
theorem loop_segment_double_dot (sets : character_sets) (type : scheme_type)
    (ht : type ≠ scheme_type.FILE)
    (s Y : List Char) (hs : ∀ y ∈ s, y ≠ '/' ∧ y ≠ '\\')
    (h1 : is_single_dot_path_segment (percent_encode s sets.PATH_PERCENT_ENCODE) = false)
    (h2 : is_double_dot_path_segment (percent_encode s sets.PATH_PERCENT_ENCODE) = false)
    (path : List Char) :
    parse_prepared_path_loop sets type (s ++ '/' :: '.' :: '.' :: '/' :: Y) [] path =
      parse_prepared_path_loop sets type Y [] path := by
  have hsep : is_path_separator type '/' = true := by simp [is_path_separator]
  rw [loop_segment sets type s '/' _ (by
      intro y hy
      obtain ⟨h3, h4⟩ := hs y hy
      simp [is_path_separator, h3, h4]) hsep,
    show '.' :: '.' :: '/' :: Y = ['.', '.'] ++ '/' :: Y from rfl,
    loop_segment sets type ['.', '.'] '/' Y (by
      intro y hy
      simp only [List.mem_cons, List.mem_singleton, List.not_mem_nil, or_false, or_self] at hy
      subst hy
      simp [is_path_separator]) hsep]
  congr 1
  simp only [List.nil_append]
  have e1 : parse_path_segment sets type path s false =
      path ++ '/' :: percent_encode s sets.PATH_PERCENT_ENCODE := by
    unfold parse_path_segment
    have ht2 : (type == scheme_type.FILE) = false := by simpa using ht
    simp [h1, h2, ht2]
  rw [e1]
  unfold parse_path_segment
  simp only [double_dot_encoded, if_true, Bool.and_false, Bool.false_eq_true, if_false]
  rw [shorten_path_append path _ type ht (percent_encode_no_slash s _ (fun hm => (hs _ hm).1 rfl))]

/-- A single-dot segment that is not the last one leaves the path as it
was. -/
theorem loop_single_dot (sets : character_sets) (type : scheme_type) (Y : List Char)
    (path : List Char) :
    parse_prepared_path_loop sets type ('.' :: '/' :: Y) [] path =
      parse_prepared_path_loop sets type Y [] path := by
  have hsep : is_path_separator type '/' = true := by simp [is_path_separator]
  rw [show '.' :: '/' :: Y = ['.'] ++ '/' :: Y from rfl,
    loop_segment sets type ['.'] '/' Y (by
      intro y hy
      simp only [List.mem_singleton] at hy
      subst hy
      simp [is_path_separator]) hsep]
  congr 1
  unfold parse_path_segment
  simp [(single_dot_encoded sets.PATH_PERCENT_ENCODE).1,
    (single_dot_encoded sets.PATH_PERCENT_ENCODE).2]

theorem host_delimiter_scan_inside (sp : Bool) (inner t : List Char) (n : Nat)
    (h : ']' ∉ inner) :
    host_delimiter_scan sp (inner ++ ']' :: t) true n =
      host_delimiter_scan sp t false (n + inner.length + 1) := by
  induction inner generalizing n with
  | nil => simp [host_delimiter_scan]
  | cons y ys ih =>
    have hy : y ≠ ']' := fun e => h (by simp [e])
    rw [List.cons_append, host_delimiter_scan]
    have hy2 : (y != ']') = true := by simpa using hy
    simp only [if_true, hy2]
    rw [ih (n + 1) (fun hm => h (by simp [hm]))]
    simp only [List.length_cons]
    congr 1
    omega

theorem bracketed_host_byte (x : Char) (h : is_bracketed_host_byte x = true) :
    is_ascii_tab_or_newline x = false ∧ x ≠ '#' ∧ x ≠ '@' ∧ x ≠ ']' ∧
      ∀ sp, is_authority_end sp x = false := by
  simp only [is_bracketed_host_byte, Bool.and_eq_true, Bool.not_eq_true', bne_iff_ne,
    ne_eq] at h
  obtain ⟨⟨⟨⟨⟨⟨h1, h2⟩, h3⟩, h4⟩, h5⟩, h6⟩, h7⟩ := h
  refine ⟨h1, h2, h3, h7, ?_⟩
  intro sp
  simp [is_authority_end, h4, h5, h6]

/-- What the parser needs of a host text: it is not empty, cleaning keeps it,
it holds no `#` and no `@`, none of its bytes ends the authority, and the host
scan reads it up to a `/` that follows. -/
theorem host_text_facts (H : List Char) (h : is_host_text H) :
    H ≠ [] ∧ remove_ascii_tab_or_newline H = H ∧ '#' ∉ H ∧
      (∀ x ∈ H, x ≠ '@' ∧ ∀ sp, is_authority_end sp x = false) ∧
      ∀ sp V, host_delimiter_scan sp (H ++ '/' :: V) false 0 = (H.length, false) := by
  rcases h with ⟨hne, hp⟩ | ⟨inner, rfl, hin⟩
  · refine ⟨hne, ?_, ?_, ?_, ?_⟩
    · unfold remove_ascii_tab_or_newline
      rw [List.filter_eq_self]
      intro x hx
      simpa using tab_is_c0 x (plain_host_byte x (hp x hx)).1
    · exact fun hm => (plain_host_byte _ (hp _ hm)).2.1 rfl
    · exact fun x hx => ⟨(plain_host_byte x (hp x hx)).2.2.1,
        (plain_host_byte x (hp x hx)).2.2.2.2.2.2⟩
    · intro sp V
      have := host_delimiter_scan_plain sp H ('/' :: V) 0
        (fun x hx => ⟨(plain_host_byte x (hp x hx)).2.2.2.1,
          (plain_host_byte x (hp x hx)).2.2.2.2.1, (plain_host_byte x (hp x hx)).2.2.2.2.2.2 _⟩)
        (Or.inr ⟨_, _, rfl, Or.inr (by simp [is_authority_end])⟩)
      simpa using this
  · have hmem : ∀ x ∈ '[' :: inner ++ [']'], x = '[' ∨ x = ']' ∨ x ∈ inner := by
      intro x hx
      simp only [List.cons_append, List.mem_cons, List.mem_append, List.mem_singleton,
        List.not_mem_nil, or_false] at hx
      tauto
    refine ⟨by simp, ?_, ?_, ?_, ?_⟩
    · unfold remove_ascii_tab_or_newline
      rw [List.filter_eq_self]
      intro x hx
      rcases hmem x hx with rfl | rfl | hx
      · decide
      · decide
      · simpa using (bracketed_host_byte x (hin x hx)).1
    · intro hm
      rcases hmem _ hm with h | h | h
      · exact absurd h (by decide)
      · exact absurd h (by decide)
      · exact (bracketed_host_byte _ (hin _ h)).2.1 rfl
    · intro x hx
      rcases hmem x hx with rfl | rfl | hx
      · exact ⟨by decide, fun sp => by cases sp <;> decide⟩
      · exact ⟨by decide, fun sp => by cases sp <;> decide⟩
      · exact ⟨(bracketed_host_byte x (hin x hx)).2.2.1,
          (bracketed_host_byte x (hin x hx)).2.2.2.2⟩
    · intro sp V
      rw [List.cons_append, List.cons_append, host_delimiter_scan]
      simp only [Bool.false_eq_true, if_false, beq_self_eq_true, if_true]
      rw [List.append_assoc, List.singleton_append,
        host_delimiter_scan_inside sp inner _ _
          (fun hm => (bracketed_host_byte _ (hin _ hm)).2.2.2.1 rfl),
        host_delimiter_scan]
      simp
      omega

/-- The host state on a host that the host scan reads to its end, where
something other than `:` follows. -/
theorem step_HOST_scanned (c : context) (u : url) (p : Nat) (H t : List Char)
    (h : at_rest c p (H ++ t))
    (hscan : host_delimiter_scan u.is_special (H ++ t) false 0 = (H.length, false)) :
    step c ⟨state.HOST, u, p⟩ =
      (if H.isEmpty && u.is_special then outcome.returned { u with is_valid := false }
      else if H.isEmpty then
        outcome.next ⟨state.PATH_START, u.update_base_hostname [], p + H.length⟩
      else if !(u.parse_host c.env H).1 then outcome.returned (u.parse_host c.env H).2
      else outcome.next ⟨state.PATH_START, (u.parse_host c.env H).2, p + H.length⟩) := by
  simp only [step, state_HOST, h.2, get_host_delimiter_location, hscan]
  simp only [List.take_left', Bool.false_eq_true, if_false]

/-- The run on a special scheme other than `file`, `://`, a host text, `/`
and `V`, with no base. -/
theorem run_special_host (c : context) (hsv : c.store_values = true) (a : Char)
    (S1 H V : List Char)
    (hd : c.url_data = a :: S1 ++ ':' :: (['/', '/'] ++ (H ++ '/' :: V)))
    (ha : is_alpha a = true) (hS : ∀ x ∈ S1, is_alnum_plus x = true) (hb : c.base_url = none)
    (hty : get_scheme_type ((a :: S1).map to_lower_ascii) ≠ scheme_type.NOT_SPECIAL)
    (hfile : get_scheme_type ((a :: S1).map to_lower_ascii) ≠ scheme_type.FILE)
    (hH : is_host_text H) :
    run c loop_bound ⟨state.SCHEME_START, initial_url, 0⟩ =
      if !(((initial_url.parse_scheme (a :: S1)).2).parse_host c.env H).1 then
        some (((initial_url.parse_scheme (a :: S1)).2).parse_host c.env H).2
      else
        some (attach_fragment c
          { (((initial_url.parse_scheme (a :: S1)).2).parse_host c.env H).2 with
            path := parse_prepared_path c.env.sets (V.takeWhile (fun x => x != '?'))
              (((initial_url.parse_scheme (a :: S1)).2).parse_host c.env H).2.type
              (((initial_url.parse_scheme (a :: S1)).2).parse_host c.env H).2.path,
            query := if '?' ∈ V then
                some (percent_encode ((V.dropWhile (fun x => x != '?')).drop 1)
                  (if (((initial_url.parse_scheme (a :: S1)).2).parse_host c.env H).2.is_special
                   then c.env.sets.SPECIAL_QUERY_PERCENT_ENCODE
                   else c.env.sets.QUERY_PERCENT_ENCODE))
              else (((initial_url.parse_scheme (a :: S1)).2).parse_host c.env H).2.query }) := by
  obtain ⟨hne, _, _, hauth, hscan⟩ := host_text_facts H hH
  obtain ⟨h0, hr0⟩ := List.exists_cons_of_ne_nil hne
  obtain ⟨r0, hr0⟩ := hr0
  have hhead : ∀ x, (H ++ '/' :: V).head? = some x → is_slash x = false := by
    intro x hx
    rw [hr0] at hx
    simp only [List.cons_append, List.head?_cons, Option.some.injEq] at hx
    subst hx
    have := (hauth h0 (by simp [hr0])).2 true
    simp only [is_authority_end, Bool.true_and, Bool.or_eq_false_iff] at this
    simp [is_slash, this.1.1, this.2]
  rw [show loop_bound = (16 + 2 + 1 + 1 + 1) + 3 from rfl,
    run_special_to_authority c _ a S1 ['/', '/'] (H ++ '/' :: V) hd ha hS hb hty hfile
      (by decide) hhead]
  have hty2 := parse_scheme_type initial_url (a :: S1)
  generalize (initial_url.parse_scheme (a :: S1)).2 = ps at *
  have hsp : ps.is_special = true := by
    simp only [url.is_special, hty2]
    simpa using hty
  have hr : at_rest c ((a :: S1).length + 1 + ['/', '/'].length) (H ++ '/' :: V) := by
    have := at_rest_of_append c (a :: S1 ++ ':' :: ['/', '/']) (H ++ '/' :: V) (by simp [hd])
    simpa using this
  generalize (a :: S1).length + 1 + ['/', '/'].length = p at *
  have hend : is_authority_end ps.is_special '/' = true := by simp [is_authority_end]
  rw [run_next c _ _ _ hr.1 (step_AUTHORITY_plain c ps p H ('/' :: V) hr
      (fun x hx => ⟨(hauth x hx).1, (hauth x hx).2 _⟩) (Or.inr ⟨_, _, rfl, hend⟩)),
    run_succ, if_pos hr.1, step_HOST_scanned c ps p H ('/' :: V) hr (hscan _ V)]
  have hemp : H.isEmpty = false := by simp [hr0]
  simp only [hemp, Bool.false_and, Bool.false_eq_true, if_false]
  cases hp : (ps.parse_host c.env H).1
  · simp
  · simp only [Bool.not_true, Bool.false_eq_true, if_false]
    have hr2 : at_rest c (p + H.length) ('/' :: V) := at_rest_advance hr
    have hr3 : at_rest c (p + H.length + 1) V := at_rest_advance (a := ['/']) hr2
    have hsp2 : (ps.parse_host c.env H).2.is_special = true := by
      unfold url.parse_host
      cases c.env.host_parse (!ps.is_special) H <;> simpa [url.is_special] using hsp
    rw [run_next c _ _ ⟨state.PATH, (ps.parse_host c.env H).2, p + H.length + 1⟩ hr2.1 (by
        have hlen := at_rest_length hr2
        have hne2 : (p + H.length == c.input_size) = false := by
          simp only [List.length_cons] at hlen
          simp only [beq_eq_false_iff_ne, ne_eq]
          omega
        simp only [step, state_PATH_START, hsp2, hne2, at_rest_char hr2]
        simp),
      run_PATH c hsv 16 _ _ V hr3]

/-- The parse of a special scheme other than `file`, `://`, a host text, a
middle part `A` without `#`, `/` and `Y`, with no base, where what cleaning
leaves of `A`, followed by `/` and by what is left of `Y`, is `/` followed by
`V`. -/
theorem parse_url_special_host (env : environment) (a : Char) (S1 H A Y V : List Char)
    (ha : is_alpha a = true) (hS : ∀ x ∈ S1, is_alnum_plus x = true)
    (hty : get_scheme_type ((a :: S1).map to_lower_ascii) ≠ scheme_type.NOT_SPECIAL)
    (hfile : get_scheme_type ((a :: S1).map to_lower_ascii) ≠ scheme_type.FILE)
    (hH : is_host_text H) (hA : '#' ∉ A)
    (hV : remove_ascii_tab_or_newline A ++ '/' :: (prune_hash (clean_tail Y)).2 = '/' :: V)
    (hlen : (a :: S1 ++ ':' :: '/' :: '/' :: (H ++ (A ++ '/' :: Y))).length ≤ 4294967295) :
    parse_url env (a :: S1 ++ ':' :: '/' :: '/' :: (H ++ (A ++ '/' :: Y))) none =
      if !(((initial_url.parse_scheme (a :: S1)).2).parse_host env H).1 then
        some (((initial_url.parse_scheme (a :: S1)).2).parse_host env H).2
      else
        some (attach_fragment ⟨env, true, none, [], (prune_hash (clean_tail Y)).1⟩
          { (((initial_url.parse_scheme (a :: S1)).2).parse_host env H).2 with
            path := parse_prepared_path env.sets (V.takeWhile (fun x => x != '?'))
              (((initial_url.parse_scheme (a :: S1)).2).parse_host env H).2.type
              (((initial_url.parse_scheme (a :: S1)).2).parse_host env H).2.path,
            query := if '?' ∈ V then
                some (percent_encode ((V.dropWhile (fun x => x != '?')).drop 1)
                  (if (((initial_url.parse_scheme (a :: S1)).2).parse_host env H).2.is_special
                   then env.sets.SPECIAL_QUERY_PERCENT_ENCODE
                   else env.sets.QUERY_PERCENT_ENCODE))
              else (((initial_url.parse_scheme (a :: S1)).2).parse_host env H).2.query }) := by
  obtain ⟨_, hrem, hhash, _, _⟩ := host_text_facts H hH
  unfold parse_url
  rw [parse_url_impl_run env true _ none hlen (by simp)]
  have hc : clean (a :: S1 ++ ':' :: '/' :: '/' :: (H ++ (A ++ '/' :: Y))) =
      (a :: S1 ++ ':' :: ['/', '/']) ++ (H ++ (remove_ascii_tab_or_newline A ++
        '/' :: clean_tail Y)) := by
    have := clean_append_solid _ (H ++ (A ++ '/' :: Y))
      (solid_scheme_slashes a S1 ['/', '/'] ha hS (by decide))
    rw [← List.append_assoc H, clean_tail_append_cons (H ++ A) '/' Y (by decide),
      remove_append, hrem, List.append_assoc] at this
    simpa using this
  have hchars := scheme_slashes_chars a S1 ['/', '/'] ha hS (by decide)
  rw [hc, prune_hash_append _ _ (fun hm => (hchars _ hm).2 rfl),
    prune_hash_append _ _ hhash, prune_hash_append _ _ (fun hm => hA (mem_remove _ _ hm)),
    prune_hash_cons _ _ (by decide)]
  simp only []
  rw [hV]
  exact run_special_host _ rfl a S1 H V (by simp) ha hS rfl hty hfile hH

theorem parse_host_type (u : url) (env : environment) (H : List Char) :
    (u.parse_host env H).2.type = u.type := by
  unfold url.parse_host
  cases env.host_parse (!u.is_special) H <;> rfl

/-- Two inputs with the same special scheme, the same host text and the same
end, whose path texts are prepared to the same path and whose query texts are
the same, are parsed alike. -/
theorem special_host_agree (env : environment) (a : Char) (S1 H A1 A2 Y V1 V2 : List Char)
    (ha : is_alpha a = true) (hS : ∀ x ∈ S1, is_alnum_plus x = true)
    (hty : get_scheme_type ((a :: S1).map to_lower_ascii) ≠ scheme_type.NOT_SPECIAL)
    (hfile : get_scheme_type ((a :: S1).map to_lower_ascii) ≠ scheme_type.FILE)
    (hH : is_host_text H) (hA1 : '#' ∉ A1) (hA2 : '#' ∉ A2)
    (hV1 : remove_ascii_tab_or_newline A1 ++ '/' :: (prune_hash (clean_tail Y)).2 = '/' :: V1)
    (hV2 : remove_ascii_tab_or_newline A2 ++ '/' :: (prune_hash (clean_tail Y)).2 = '/' :: V2)
    (hlen1 : (a :: S1 ++ ':' :: '/' :: '/' :: (H ++ (A1 ++ '/' :: Y))).length ≤ 4294967295)
    (hlen2 : (a :: S1 ++ ':' :: '/' :: '/' :: (H ++ (A2 ++ '/' :: Y))).length ≤ 4294967295)
    (hpath : ∀ type path, type ≠ scheme_type.NOT_SPECIAL → type ≠ scheme_type.FILE →
      parse_prepared_path env.sets (V1.takeWhile (fun x => x != '?')) type path =
        parse_prepared_path env.sets (V2.takeWhile (fun x => x != '?')) type path)
    (hq : '?' ∈ V1 ↔ '?' ∈ V2)
    (hq2 : V1.dropWhile (fun x => x != '?') = V2.dropWhile (fun x => x != '?')) :
    parse_url env (a :: S1 ++ ':' :: '/' :: '/' :: (H ++ (A1 ++ '/' :: Y))) none =
      parse_url env (a :: S1 ++ ':' :: '/' :: '/' :: (H ++ (A2 ++ '/' :: Y))) none := by
  rw [parse_url_special_host env a S1 H A1 Y V1 ha hS hty hfile hH hA1 hV1 hlen1,
    parse_url_special_host env a S1 H A2 Y V2 ha hS hty hfile hH hA2 hV2 hlen2]
  have hty2 := parse_scheme_type initial_url (a :: S1)
  have hty3 := parse_host_type (initial_url.parse_scheme (a :: S1)).2 env H
  rw [hpath _ _ (by rw [hty3, hty2]; exact hty) (by rw [hty3, hty2]; exact hfile), hq2]
  simp only [hq]

theorem loop_boundary (sets : character_sets) (type : scheme_type) (X Z1 Z2 : List Char)
    (hX : X = [] ∨ ∃ X0, X = X0 ++ ['/'])
    (h : ∀ path, parse_prepared_path_loop sets type Z1 [] path =
      parse_prepared_path_loop sets type Z2 [] path) (path : List Char) :
    parse_prepared_path_loop sets type (X ++ Z1) [] path =
      parse_prepared_path_loop sets type (X ++ Z2) [] path := by
  rcases hX with rfl | ⟨X0, rfl⟩
  · exact h path
  · rw [List.append_assoc, List.append_assoc]
    apply loop_prefix
    intro seg p
    simp only [List.singleton_append]
    rw [loop_cons, loop_cons, if_pos (by simp [is_path_separator]),
      if_pos (by simp [is_path_separator]), h]

theorem takeWhile_append_all (p : Char → Bool) (X R : List Char) (h : ∀ x ∈ X, p x = true) :
    (X ++ R).takeWhile p = X ++ R.takeWhile p ∧ (X ++ R).dropWhile p = R.dropWhile p := by
  induction X with
  | nil => simp
  | cons y ys ih =>
    obtain ⟨h1, h2⟩ := ih (fun x hx => h x (by simp [hx]))
    simp [List.takeWhile_cons, List.dropWhile_cons, h y (by simp), h1, h2]

/-- What cleaning leaves of a path prefix, followed by `/`, is `/` followed by
a text that is empty or ends with `/`. -/
theorem path_prefix_split (P : List Char) (hP : P = [] ∨ ∃ r, P = '/' :: r) :
    ∃ X, (X = [] ∨ ∃ X0, X = X0 ++ ['/']) ∧
      (∀ x ∈ X, x = '/' ∨ x ∈ P) ∧
      ∀ R, remove_ascii_tab_or_newline P ++ '/' :: R = '/' :: (X ++ R) := by
  rcases hP with rfl | ⟨r, rfl⟩
  · exact ⟨[], Or.inl rfl, by simp, fun R => by simp [remove_ascii_tab_or_newline]⟩
  · refine ⟨remove_ascii_tab_or_newline r ++ ['/'], Or.inr ⟨_, rfl⟩, ?_, ?_⟩
    · intro x hx
      rcases List.mem_append.1 hx with hx | hx
      · exact Or.inr (List.mem_cons_of_mem _ (mem_remove _ _ hx))
      · exact Or.inl (by simpa using hx)
    · intro R
      have : remove_ascii_tab_or_newline ('/' :: r) = '/' :: remove_ascii_tab_or_newline r := by
        simp [remove_ascii_tab_or_newline, is_ascii_tab_or_newline]
      rw [this]
      simp

/-- C7, amended. Dot-segment normalisation: for every special scheme `S` other
than `file`, every host text `h` (a host written without credentials and
port), every path prefix `P` that is empty or begins with `/` and holds no `?`
and no `#`, every segment `s` that holds none of `/`, `\`, `?`, `#` and that,
once its tabs and newlines are removed and it is percent-encoded with the path
set, is neither a single-dot nor a double-dot segment, and every suffix `Q`
that begins with `/`, if `S://h P /s/.. Q` is at most 2^32 - 1 bytes long then
`parse_url` gives the same result on it and on `S://h P Q`, and inserting a
`/.` segment before `Q` changes nothing either. -/
theorem dot_segment_normalisation (env : environment) (S h P s Q : List Char)
    (hS : valid_scheme S)
    (hty : get_scheme_type (S.map to_lower_ascii) ≠ scheme_type.NOT_SPECIAL)
    (hfile : get_scheme_type (S.map to_lower_ascii) ≠ scheme_type.FILE)
    (hh : is_host_text h)
    (hP : P = [] ∨ ∃ r, P = '/' :: r) (hP2 : ∀ x ∈ P, x ≠ '?' ∧ x ≠ '#')
    (hs : ∀ x ∈ s, x ≠ '/' ∧ x ≠ '\\' ∧ x ≠ '?' ∧ x ≠ '#')
    (hs1 : is_single_dot_path_segment
      (percent_encode (remove_ascii_tab_or_newline s) env.sets.PATH_PERCENT_ENCODE) = false)
    (hs2 : is_double_dot_path_segment
      (percent_encode (remove_ascii_tab_or_newline s) env.sets.PATH_PERCENT_ENCODE) = false)
    (hlen : (S ++ ':' :: '/' :: '/' :: (h ++ ((P ++ '/' :: s ++ ['/', '.', '.']) ++ '/' :: Q))).length
      ≤ 4294967295) :
    parse_url env
        (S ++ ':' :: '/' :: '/' :: (h ++ ((P ++ '/' :: s ++ ['/', '.', '.']) ++ '/' :: Q))) none =
      parse_url env (S ++ ':' :: '/' :: '/' :: (h ++ (P ++ '/' :: Q))) none ∧
    parse_url env (S ++ ':' :: '/' :: '/' :: (h ++ ((P ++ ['/', '.']) ++ '/' :: Q))) none =
      parse_url env (S ++ ':' :: '/' :: '/' :: (h ++ (P ++ '/' :: Q))) none := by
  obtain ⟨a, S1, rfl, ha, hS1⟩ := hS
  obtain ⟨X, hX, hXmem, hXsplit⟩ := path_prefix_split P hP
  have hXq : ∀ x ∈ X, (x != '?') = true := by
    intro x hx
    rcases hXmem x hx with rfl | hx
    · decide
    · simpa using (hP2 x hx).1
  have hsq : ∀ x ∈ remove_ascii_tab_or_newline s, (x != '?') = true := by
    intro x hx
    simpa using (hs x (mem_remove _ _ hx)).2.2.1
  have hsep : ∀ x ∈ remove_ascii_tab_or_newline s, x ≠ '/' ∧ x ≠ '\\' :=
    fun x hx => ⟨(hs x (mem_remove _ _ hx)).1, (hs x (mem_remove _ _ hx)).2.1⟩
  have hPh : '#' ∉ P := fun hm => (hP2 _ hm).2 rfl
  have hlen2 : (a :: S1 ++ ':' :: '/' :: '/' :: (h ++ (P ++ '/' :: Q))).length ≤ 4294967295 := by
    simp only [List.length_append, List.length_cons, List.length_nil] at hlen ⊢
    omega
  have hlen3 : (a :: S1 ++ ':' :: '/' :: '/' :: (h ++ ((P ++ ['/', '.']) ++ '/' :: Q))).length
      ≤ 4294967295 := by
    simp only [List.length_append, List.length_cons, List.length_nil] at hlen ⊢
    omega
  generalize hYp : (prune_hash (clean_tail Q)).2 = Yp
  have hV2 : remove_ascii_tab_or_newline P ++ '/' :: (prune_hash (clean_tail Q)).2 =
      '/' :: (X ++ Yp) := by rw [hYp]; exact hXsplit Yp
  refine ⟨?_, ?_⟩
  · have hV1 : remove_ascii_tab_or_newline (P ++ '/' :: s ++ ['/', '.', '.']) ++
        '/' :: (prune_hash (clean_tail Q)).2 =
        '/' :: (X ++ (remove_ascii_tab_or_newline s ++ '/' :: '.' :: '.' :: '/' :: Yp)) := by
      rw [hYp, ← hXsplit]
      simp [remove_ascii_tab_or_newline, is_ascii_tab_or_newline]
    have hin := takeWhile_append_all (fun x => x != '?') (remove_ascii_tab_or_newline s)
      ('/' :: '.' :: '.' :: '/' :: Yp) hsq
    have hlit : ('/' :: '.' :: '.' :: '/' :: Yp).takeWhile (fun x => x != '?') =
          '/' :: '.' :: '.' :: '/' :: Yp.takeWhile (fun x => x != '?') ∧
        ('/' :: '.' :: '.' :: '/' :: Yp).dropWhile (fun x => x != '?') =
          Yp.dropWhile (fun x => x != '?') := by
      simp [List.takeWhile_cons, List.dropWhile_cons]
    refine special_host_agree env a S1 h _ P Q _ _ ha hS1 hty hfile hh ?_ hPh hV1 hV2 hlen hlen2
      ?_ ?_ ?_
    · intro hm
      simp only [List.mem_append, List.mem_cons, List.mem_singleton, List.not_mem_nil,
        or_false] at hm
      rcases hm with (hm | hm | hm) | hm
      · exact hPh hm
      · exact absurd hm (by decide)
      · exact (hs _ hm).2.2.2 rfl
      · rcases hm with hm | hm | hm <;> exact absurd hm (by decide)
    · intro type path _ ht2
      rw [(takeWhile_append_all _ X _ hXq).1, (takeWhile_append_all _ X _ hXq).1, hin.1, hlit.1]
      unfold parse_prepared_path
      exact loop_boundary env.sets type X _ _ hX
        (loop_segment_double_dot env.sets type ht2 _ _ hsep hs1 hs2) path
    · have h1 : '?' ∉ X := fun hm => by simpa using hXq _ hm
      have h2 : '?' ∉ remove_ascii_tab_or_newline s := fun hm => by simpa using hsq _ hm
      simp [h1, h2]
    · rw [(takeWhile_append_all _ X _ hXq).2, (takeWhile_append_all _ X _ hXq).2, hin.2, hlit.2]
  · have hV3 : remove_ascii_tab_or_newline (P ++ ['/', '.']) ++
        '/' :: (prune_hash (clean_tail Q)).2 = '/' :: (X ++ '.' :: '/' :: Yp) := by
      rw [hYp, ← hXsplit]
      simp [remove_ascii_tab_or_newline, is_ascii_tab_or_newline]
    have hlit : ('.' :: '/' :: Yp).takeWhile (fun x => x != '?') =
          '.' :: '/' :: Yp.takeWhile (fun x => x != '?') ∧
        ('.' :: '/' :: Yp).dropWhile (fun x => x != '?') = Yp.dropWhile (fun x => x != '?') := by
      simp [List.takeWhile_cons, List.dropWhile_cons]
    refine special_host_agree env a S1 h _ P Q _ _ ha hS1 hty hfile hh ?_ hPh hV3 hV2 hlen3 hlen2
      ?_ ?_ ?_
    · intro hm
      simp only [List.mem_append, List.mem_cons, List.mem_singleton, List.not_mem_nil,
        or_false] at hm
      rcases hm with hm | hm | hm
      · exact hPh hm
      · exact absurd hm (by decide)
      · exact absurd hm (by decide)
    · intro type path _ _
      rw [(takeWhile_append_all _ X _ hXq).1, (takeWhile_append_all _ X _ hXq).1, hlit.1]
      unfold parse_prepared_path
      exact loop_boundary env.sets type X _ _ hX (loop_single_dot env.sets type _) path
    · have h1 : '?' ∉ X := fun hm => by simpa using hXq _ hm
      simp [h1]
    · rw [(takeWhile_append_all _ X _ hXq).2, (takeWhile_append_all _ X _ hXq).2, hlit.2]

theorem dot_segment_normalisation_witness :
    (valid_scheme ['h', 't', 't', 'p'] ∧ is_host_text ['h']) ∧
    (parse_url sample_env (['h', 't', 't', 'p'] ++ ':' :: '/' :: '/' ::
        (['h'] ++ ((['/', 'a'] ++ '/' :: ['b'] ++ ['/', '.', '.']) ++ '/' :: ['c']))) none =
      parse_url sample_env (['h', 't', 't', 'p'] ++ ':' :: '/' :: '/' ::
        (['h'] ++ (['/', 'a'] ++ '/' :: ['c']))) none ∧
    parse_url sample_env (['h', 't', 't', 'p'] ++ ':' :: '/' :: '/' ::
        (['h'] ++ ((['/', 'a'] ++ ['/', '.']) ++ '/' :: ['c']))) none =
      parse_url sample_env (['h', 't', 't', 'p'] ++ ':' :: '/' :: '/' ::
        (['h'] ++ (['/', 'a'] ++ '/' :: ['c']))) none) :=
  ⟨⟨⟨'h', ['t', 't', 'p'], rfl, by decide, by decide⟩, Or.inl ⟨by decide, by decide⟩⟩,
    dot_segment_normalisation sample_env ['h', 't', 't', 'p'] ['h'] ['/', 'a'] ['b'] ['c']
      ⟨'h', ['t', 't', 'p'], rfl, by decide, by decide⟩ (by decide) (by decide)
      (Or.inl ⟨by decide, by decide⟩) (Or.inr ⟨_, rfl⟩) (by decide) (by decide) (by decide)
      (by decide) (by decide)⟩

/-- C7, as stated, fails on the cleaning of the input: the segment made of `.`
and a tab is not empty, is neither a single-dot nor a double-dot segment and
holds none of `/`, `\`, `?`, `#`, yet the tab is removed before the path is
read, `/.` tab `/..` is read as `/./..`, and the double-dot pops the segment
`a` of the prefix: the path of `http://h/a/.` tab `/../c` is `/c`, that of
`http://h/a/c` is `/a/c`. -/
theorem dot_segment_not_raw :
    (['.', '\t'] ≠ [] ∧ is_single_dot_path_segment ['.', '\t'] = false ∧
      is_double_dot_path_segment ['.', '\t'] = false ∧
      ∀ x ∈ ['.', '\t'], x ≠ '/' ∧ x ≠ '\\' ∧ x ≠ '?' ∧ x ≠ '#') ∧
    (∃ u, parse_url sample_env (['h', 't', 't', 'p'] ++ ':' :: '/' :: '/' ::
        (['h'] ++ ((['/', 'a'] ++ '/' :: ['.', '\t'] ++ ['/', '.', '.']) ++ '/' :: ['c']))) none =
        some u ∧ u.path = ['/', 'c']) ∧
    (∃ u, parse_url sample_env (['h', 't', 't', 'p'] ++ ':' :: '/' :: '/' ::
        (['h'] ++ (['/', 'a'] ++ '/' :: ['c']))) none = some u ∧ u.path = ['/', 'a', '/', 'c']) ∧
    parse_url sample_env (['h', 't', 't', 'p'] ++ ':' :: '/' :: '/' ::
        (['h'] ++ ((['/', 'a'] ++ '/' :: ['.', '\t'] ++ ['/', '.', '.']) ++ '/' :: ['c']))) none ≠
      parse_url sample_env (['h', 't', 't', 'p'] ++ ':' :: '/' :: '/' ::
        (['h'] ++ (['/', 'a'] ++ '/' :: ['c']))) none := by
  refine ⟨by decide, ⟨_, rfl, by decide⟩, ⟨_, rfl, by decide⟩, by decide⟩

/-! ## C11: relative references without a base -/

/-- On a text that does not begin with a scheme and its colon, the machine
comes to the no-scheme state with the cursor at the start. -/
theorem run_no_scheme (c : context) (h : begins_with_scheme c.url_data = false) :
    run c loop_bound ⟨state.SCHEME_START, initial_url, 0⟩ =
      run c loop_bound ⟨state.NO_SCHEME, initial_url, 0⟩ := by
  have h0 : at_rest c 0 c.url_data := at_rest_zero c
  cases hd : c.url_data with
  | nil =>
    rw [hd] at h0
    conv_lhs => rw [show loop_bound = 23 + 1 from rfl]
    rw [run_next c 23 _ ⟨state.NO_SCHEME, initial_url, 0⟩ h0.1 (by
      simp [step, state_SCHEME_START, at_rest_ne h0])]
    exact run_loop_bound c 23 _ (by simp [state.rank])
  | cons a r =>
    rw [hd] at h0 h
    by_cases ha : is_alpha a = true
    · have hcolon : (r.dropWhile is_alnum_plus).head? ≠ some ':' := by
        simpa [begins_with_scheme, ha] using h
      have h1 : at_rest c 1 (r.takeWhile is_alnum_plus ++ r.dropWhile is_alnum_plus) := by
        rw [List.takeWhile_append_dropWhile]
        exact at_rest_advance (a := [a]) h0
      have h2 : at_rest c (1 + (r.takeWhile is_alnum_plus).length) (r.dropWhile is_alnum_plus) :=
        at_rest_advance h1
      have hsk : skip_while is_alnum_plus c.url_data 1 = 1 + (r.takeWhile is_alnum_plus).length := by
        unfold skip_while
        rw [hd]
        rfl
      conv_lhs => rw [show loop_bound = 22 + 1 + 1 from rfl]
      rw [run_next c _ _ _ h0.1 (step_SCHEME_START_alpha c initial_url 0 a r h0 ha),
        run_next c 22 _ ⟨state.NO_SCHEME, initial_url, 0⟩ (by
          have := at_rest_length h1
          simp only [List.length_append] at this
          show 0 + 1 ≤ c.input_size
          omega) (by
          simp only [step, state_SCHEME, Nat.zero_add, hsk, at_rest_ne h2, at_rest_char h2]
          cases hdw : r.dropWhile is_alnum_plus with
          | nil => simp
          | cons y t =>
            rw [hdw] at hcolon
            have : y ≠ ':' := fun e => hcolon (by simp [e])
            simp [this])]
      exact run_loop_bound c 22 _ (by simp [state.rank])
    · conv_lhs => rw [show loop_bound = 23 + 1 from rfl]
      rw [run_next c 23 _ ⟨state.NO_SCHEME, initial_url, 0⟩ h0.1 (by
        simp [step, state_SCHEME_START, at_rest_char h0, ha])]
      exact run_loop_bound c 23 _ (by simp [state.rank])

/-- C11. A relative reference without a base fails: for every input whose
cleaned text, with the fragment split off, does not begin with an ASCII letter
followed by zero or more alphanumeric, `+`, `-` or `.` bytes and then `:`,
`parse_url` with no base returns a record with `is_valid = false`. -/
theorem relative_reference_without_base (env : environment) (input : List Char)
    (h : begins_with_scheme (prune_hash (clean input)).2 = false) :
    ∃ u, parse_url env input none = some u ∧ u.is_valid = false := by
  unfold parse_url
  by_cases hlen : input.length ≤ 4294967295
  · rw [parse_url_impl_run env true input none hlen (by simp), run_no_scheme _ h,
      show loop_bound = 23 + 1 from rfl, run_succ, if_pos (Nat.zero_le _)]
    exact ⟨_, rfl, rfl⟩
  · rw [parse_url_impl_oversized env true input none (by omega)]
    exact ⟨_, rfl, rfl⟩

theorem relative_reference_without_base_witness :
    begins_with_scheme (prune_hash (clean ['/', 'p', 'a', 't', 'h', '#', 'f'])).2 = false ∧
      ∃ u, parse_url sample_env ['/', 'p', 'a', 't', 'h', '#', 'f'] none = some u ∧
        u.is_valid = false :=
  ⟨by decide, relative_reference_without_base sample_env ['/', 'p', 'a', 't', 'h', '#', 'f']
    (by decide)⟩

/-! ## C12: bases with an opaque path -/

theorem sample_base_opaque_parsed :
    parse_url sample_env ['m', 'a', 'i', 'l', 't', 'o', ':', 'a'] none =
      some sample_base_opaque := by
  decide

/-- C12, at the failing input. Against the base `mailto:a`, whose path is
opaque, the input `x#f` has no scheme and its first byte is not `#`, yet
`parse_url` does not fail: the no-scheme state rejects only an input without a
fragment, so the parse goes on as a relative reference and returns a valid
record with the scheme of the base, the path `a/x` and the fragment `f`. -/
theorem opaque_base_accepts_relative_reference :
    sample_base_opaque.is_valid = true ∧ sample_base_opaque.has_opaque_path = true ∧
    begins_with_scheme (prune_hash (clean ['x', '#', 'f'])).2 = false ∧
    (clean ['x', '#', 'f']).head? ≠ some '#' ∧
    ∃ u, parse_url sample_env ['x', '#', 'f'] (some sample_base_opaque) = some u ∧
      u.is_valid = true ∧ u.get_scheme = ['m', 'a', 'i', 'l', 't', 'o'] ∧
      u.path = ['a', '/', 'x'] ∧ u.hash = some ['f'] := by
  refine ⟨rfl, rfl, by decide, by decide, _, rfl, by decide, by decide, by decide, by decide⟩

/-! ## C13: leading slashes -/

/-- With no base, or with a base of another scheme type, a special scheme
other than `file` followed by a colon and a run of slashes brings the machine
to the authority state right after the slashes. -/
theorem run_special_to_authority_foreign (c : context) (f : Nat) (a : Char)
    (S1 sl t : List Char)
    (hd : c.url_data = a :: S1 ++ ':' :: (sl ++ t)) (ha : is_alpha a = true)
    (hS : ∀ x ∈ S1, is_alnum_plus x = true)
    (hb : ∀ b, c.base_url = some b → b.type ≠ get_scheme_type ((a :: S1).map to_lower_ascii))
    (hty : get_scheme_type ((a :: S1).map to_lower_ascii) ≠ scheme_type.NOT_SPECIAL)
    (hfile : get_scheme_type ((a :: S1).map to_lower_ascii) ≠ scheme_type.FILE)
    (hsl : ∀ x ∈ sl, is_slash x = true) (ht : ∀ x, t.head? = some x → is_slash x = false) :
    run c (f + 3) ⟨state.SCHEME_START, initial_url, 0⟩ =
      run c f ⟨state.AUTHORITY, (initial_url.parse_scheme (a :: S1)).2,
        (a :: S1).length + 1 + sl.length⟩ := by
  rw [run_next c (f + 2) _ _ (Nat.zero_le _)
    (step_SCHEME_START_scheme c initial_url a S1 (sl ++ t) hd ha)]
  have h1 : (1 : Nat) ≤ c.input_size := by simp [context.input_size, hd]
  have hst := step_SCHEME_colon c initial_url a S1 (sl ++ t) hd hS
  have hty2 := parse_scheme_type initial_url (a :: S1)
  have hbase : (c.base_url.map (fun b => b.type) ==
      some (get_scheme_type ((a :: S1).map to_lower_ascii))) = false := by
    cases hbu : c.base_url with
    | none => rfl
    | some b =>
      have := hb b hbu
      simpa using this
  simp only [url.is_special, hty2, hbase] at hst
  simp only [beq_iff_eq, hfile, if_false, Bool.and_false,
    Bool.false_eq_true, bne_iff_ne, ne_eq, hty, not_false_eq_true, if_true] at hst
  rw [run_next c (f + 1) _ _ h1 hst]
  have h2 : at_rest c ((a :: S1).length + 1) (sl ++ t) := by
    have := at_rest_of_append c (a :: S1 ++ [':']) (sl ++ t) (by simp [hd])
    simpa using this
  rw [run_next c f _ _ h2.1
    (step_SPECIAL_AUTHORITY_SLASHES c _ _ sl t h2 hsl ht)]

/-- The run on a special scheme other than `file`, a colon, a run of slashes
and a text, with no base or a base of another scheme type, is the run from the
authority state on what follows the slashes of the text. -/
theorem run_special_slashes (env : environment) (base : Option url) (a : Char)
    (S1 r T : List Char) (frag : Option (List Char))
    (ha : is_alpha a = true) (hS : ∀ x ∈ S1, is_alnum_plus x = true)
    (hb : ∀ b, base = some b → b.type ≠ get_scheme_type ((a :: S1).map to_lower_ascii))
    (hty : get_scheme_type ((a :: S1).map to_lower_ascii) ≠ scheme_type.NOT_SPECIAL)
    (hfile : get_scheme_type ((a :: S1).map to_lower_ascii) ≠ scheme_type.FILE)
    (hr : ∀ x ∈ r, is_slash x = true) :
    run ⟨env, true, base, (a :: S1 ++ ':' :: r) ++ T, frag⟩ loop_bound
        ⟨state.SCHEME_START, initial_url, 0⟩ =
      run ⟨env, true, none, T.dropWhile is_slash, frag⟩ 21
        ⟨state.AUTHORITY, (initial_url.parse_scheme (a :: S1)).2, 0⟩ := by
  have hsplit : (a :: S1 ++ ':' :: r) ++ T =
      a :: S1 ++ ':' :: ((r ++ T.takeWhile is_slash) ++ T.dropWhile is_slash) := by
    rw [List.append_assoc r, List.takeWhile_append_dropWhile]
    simp
  rw [show loop_bound = 21 + 3 from rfl,
    run_special_to_authority_foreign _ 21 a S1 (r ++ T.takeWhile is_slash)
      (T.dropWhile is_slash) hsplit ha hS hb hty hfile
      (by
        intro x hx
        rcases List.mem_append.1 hx with hx | hx
        · exact hr x hx
        · exact List.mem_takeWhile_imp hx)
      (by
        intro x hx
        cases hdw : T.dropWhile is_slash with
        | nil => rw [hdw] at hx; simp at hx
        | cons y t =>
          rw [hdw] at hx
          simp only [List.head?_cons, Option.some.injEq] at hx
          subst hx
          by_contra hc
          have h2 := List.head_dropWhile_not is_slash T (by rw [hdw]; simp)
          simp only [hdw, List.head_cons] at h2
          exact hc (by simpa using h2))]
  have hsuf : context.suffix_of ⟨env, true, none, T.dropWhile is_slash, frag⟩
      ⟨env, true, base, (a :: S1 ++ ':' :: r) ++ T, frag⟩
      (a :: S1 ++ ':' :: (r ++ T.takeWhile is_slash)) := by
    refine ⟨?_, rfl, rfl, rfl⟩
    show (a :: S1 ++ ':' :: r) ++ T = _
    rw [hsplit]
    simp
  have hl : (a :: S1).length + 1 + (r ++ T.takeWhile is_slash).length =
      0 + (a :: S1 ++ ':' :: (r ++ T.takeWhile is_slash)).length := by
    simp only [List.length_append, List.length_cons]
    omega
  rw [hl, run_shift hsuf 21 state.AUTHORITY _ 0 rfl (Or.inl rfl)]

/-- C13, amended. Leading slashes after a special scheme are insignificant
below the size limit: for every special scheme `S` other than `file`, with no
base or with a valid base whose scheme type differs from that of `S`, for all
runs `r1` and `r2`, each possibly empty, made only of `/` and `\`, and every
`rest`, if `S:r1 rest` and `S:r2 rest` are both at most 2^32 - 1 bytes long
then `parse_url` gives the same result on both. -/
theorem leading_slashes_insignificant (env : environment) (base : Option url)
    (S r1 r2 rest : List Char) (hS : valid_scheme S)
    (hty : get_scheme_type (S.map to_lower_ascii) ≠ scheme_type.NOT_SPECIAL)
    (hfile : get_scheme_type (S.map to_lower_ascii) ≠ scheme_type.FILE)
    (hb : ∀ b, base = some b →
      b.is_valid = true ∧ b.type ≠ get_scheme_type (S.map to_lower_ascii))
    (hr1 : ∀ x ∈ r1, is_slash x = true) (hr2 : ∀ x ∈ r2, is_slash x = true)
    (hlen1 : (S ++ ':' :: (r1 ++ rest)).length ≤ 4294967295)
    (hlen2 : (S ++ ':' :: (r2 ++ rest)).length ≤ 4294967295) :
    parse_url env (S ++ ':' :: (r1 ++ rest)) base =
      parse_url env (S ++ ':' :: (r2 ++ rest)) base := by
  obtain ⟨a, S1, rfl, ha, hS1⟩ := hS
  have key : ∀ r : List Char, (∀ x ∈ r, is_slash x = true) →
      (a :: S1 ++ ':' :: (r ++ rest)).length ≤ 4294967295 →
      parse_url env (a :: S1 ++ ':' :: (r ++ rest)) base =
        run ⟨env, true, none, ((prune_hash (clean_tail rest)).2).dropWhile is_slash,
            (prune_hash (clean_tail rest)).1⟩ 21
          ⟨state.AUTHORITY, (initial_url.parse_scheme (a :: S1)).2, 0⟩ := by
    intro r hr hlen
    unfold parse_url
    rw [parse_url_impl_run env true _ base hlen (fun b hb2 => (hb b hb2).1)]
    have hc : clean (a :: S1 ++ ':' :: (r ++ rest)) = (a :: S1 ++ ':' :: r) ++ clean_tail rest := by
      have := clean_append_solid _ rest (solid_scheme_slashes a S1 r ha hS1 hr)
      simpa using this
    have hchars := scheme_slashes_chars a S1 r ha hS1 hr
    rw [hc, prune_hash_append _ _ (fun hm => (hchars _ hm).2 rfl)]
    exact run_special_slashes env base a S1 r _ _ ha hS1 (fun b hb2 => (hb b hb2).2) hty hfile hr
  rw [key r1 hr1 hlen1, key r2 hr2 hlen2]

theorem leading_slashes_insignificant_witness :
    (valid_scheme ['h', 't', 't', 'p'] ∧ ∀ x ∈ ['\\', '\\', '/'], is_slash x = true) ∧
      parse_url sample_env (['h', 't', 't', 'p'] ++ ':' :: ([] ++ ['e', '.', 'c', 'o', 'm'])) none =
        parse_url sample_env
          (['h', 't', 't', 'p'] ++ ':' :: (['\\', '\\', '/'] ++ ['e', '.', 'c', 'o', 'm'])) none :=
  ⟨⟨⟨'h', ['t', 't', 'p'], rfl, by decide, by decide⟩, by decide⟩,
    leading_slashes_insignificant sample_env none ['h', 't', 't', 'p'] [] ['\\', '\\', '/']
      ['e', '.', 'c', 'o', 'm'] ⟨'h', ['t', 't', 'p'], rfl, by decide, by decide⟩
      (by decide) (by decide) (by simp) (by simp) (by decide) (by decide) (by decide)⟩

theorem attach_fragment_valid (c : context) (u : url) :
    (attach_fragment c u).is_valid = u.is_valid := by
  unfold attach_fragment
  cases c.fragment <;> rfl

theorem parse_scheme_valid (u : url) (S : List Char) :
    (u.parse_scheme S).2.is_valid = u.is_valid := by
  unfold url.parse_scheme
  simp only []
  split_ifs <;> rfl

/-- The parse of a special scheme other than `file`, `://`, a host text that
the host parser accepts, `/` and a text, with no base, succeeds. -/
theorem special_host_valid (env : environment) (a : Char) (S1 H Y h : List Char)
    (ha : is_alpha a = true) (hS : ∀ x ∈ S1, is_alnum_plus x = true)
    (hty : get_scheme_type ((a :: S1).map to_lower_ascii) ≠ scheme_type.NOT_SPECIAL)
    (hfile : get_scheme_type ((a :: S1).map to_lower_ascii) ≠ scheme_type.FILE)
    (hH : is_host_text H) (hhost : env.host_parse false H = some h)
    (hlen : (a :: S1 ++ ':' :: '/' :: '/' :: (H ++ ([] ++ '/' :: Y))).length ≤ 4294967295) :
    ∃ u, parse_url env (a :: S1 ++ ':' :: '/' :: '/' :: (H ++ ([] ++ '/' :: Y))) none = some u ∧
      u.is_valid = true := by
  rw [parse_url_special_host env a S1 H [] Y (prune_hash (clean_tail Y)).2 ha hS hty hfile hH
    (by simp) (by simp [remove_ascii_tab_or_newline]) hlen]
  have hty2 := parse_scheme_type initial_url (a :: S1)
  have hv := parse_scheme_valid initial_url (a :: S1)
  generalize (initial_url.parse_scheme (a :: S1)).2 = ps at *
  have hsp : ps.is_special = true := by
    simp only [url.is_special, hty2]
    simpa using hty
  have hph : ps.parse_host env H = (true, { ps with host := some h }) := by
    unfold url.parse_host
    rw [hsp]
    simp only [Bool.not_true, hhost]
  rw [hph]
  simp only [Bool.not_true, Bool.false_eq_true, if_false]
  refine ⟨_, rfl, ?_⟩
  rw [attach_fragment_valid]
  exact hv

theorem slashes_input_length (sl R : List Char) :
    (['h', 't', 't', 'p'] ++ ':' :: (sl ++ 'h' :: '/' :: R)).length = R.length + sl.length + 7 := by
  simp only [List.length_append, List.length_cons, List.length_nil]
  omega

theorem oversized_slashes_input_length :
    (['h', 't', 't', 'p'] ++ ':' :: (['/', '/'] ++ 'h' :: '/' :: List.replicate 4294967286 'a')).length
        ≤ 4294967295 ∧
      4294967295 < (['h', 't', 't', 'p'] ++ ':' ::
        (['/', '/', '/'] ++ 'h' :: '/' :: List.replicate 4294967286 'a')).length := by
  constructor
  · rw [slashes_input_length, List.length_replicate]
    decide
  · rw [slashes_input_length, List.length_replicate]
    decide

/-- C13, as stated, fails at the size limit: `http://h/` followed by
4294967286 bytes `a` is 2^32 - 1 bytes long and parses to a valid record,
while the same input with the run `///` in place of `//` exceeds the limit and
is rejected. -/
theorem leading_slashes_not_oversized :
    (∀ x ∈ ['/', '/'], is_slash x = true) ∧ (∀ x ∈ ['/', '/', '/'], is_slash x = true) ∧
    is_slash 'h' = false ∧
    parse_url sample_env (['h', 't', 't', 'p'] ++ ':' ::
        (['/', '/'] ++ 'h' :: '/' :: List.replicate 4294967286 'a')) none ≠
      parse_url sample_env (['h', 't', 't', 'p'] ++ ':' ::
        (['/', '/', '/'] ++ 'h' :: '/' :: List.replicate 4294967286 'a')) none := by
  refine ⟨by decide, by decide, by decide, ?_⟩
  obtain ⟨u, h1, h2⟩ := special_host_valid sample_env 'h' ['t', 't', 'p'] ['h']
    (List.replicate 4294967286 'a') ['h'] (by decide) (by decide) (by decide) (by decide)
    (Or.inl ⟨by decide, by decide⟩) rfl oversized_slashes_input_length.1
  have h3 : parse_url sample_env (['h', 't', 't', 'p'] ++ ':' ::
      (['/', '/', '/'] ++ 'h' :: '/' :: List.replicate 4294967286 'a')) none =
      some { initial_url with is_valid := false } :=
    parse_url_impl_oversized sample_env true _ none oversized_slashes_input_length.2
  have h4 : parse_url sample_env (['h', 't', 't', 'p'] ++ ':' ::
      (['/', '/'] ++ 'h' :: '/' :: List.replicate 4294967286 'a')) none = some u := h1
  rw [h4, h3]
  intro heq
  have := congrArg url.is_valid (Option.some.inj heq)
  rw [h2] at this
  exact absurd this (by decide)

/-! ## C14: a special scheme equal to that of the base -/

/-- With a base of the same special scheme, other than `file`, the run on the
scheme, a colon and a text without a scheme of its own is the run on the text
alone. -/
theorem run_same_scheme (env : environment) (base : url) (a : Char) (S1 T : List Char)
    (frag : Option (List Char)) (ha : is_alpha a = true)
    (hS : ∀ x ∈ S1, is_alnum_plus x = true)
    (hty : get_scheme_type ((a :: S1).map to_lower_ascii) = base.type)
    (hsp : base.type ≠ scheme_type.NOT_SPECIAL) (hf : base.type ≠ scheme_type.FILE)
    (hns : base.non_special_scheme = []) (hop : base.has_opaque_path = false)
    (hT : begins_with_scheme T = false) :
    run ⟨env, true, some base, (a :: S1 ++ [':']) ++ T, frag⟩ loop_bound
        ⟨state.SCHEME_START, initial_url, 0⟩ =
      run ⟨env, true, some base, T, frag⟩ loop_bound ⟨state.SCHEME_START, initial_url, 0⟩ := by
  generalize hc1 : (⟨env, true, some base, (a :: S1 ++ [':']) ++ T, frag⟩ : context) = c1
  generalize hc2 : (⟨env, true, some base, T, frag⟩ : context) = c2
  have hd1 : c1.url_data = a :: S1 ++ ':' :: T := by rw [← hc1]; simp
  have hb1 : c1.base_url = some base := by rw [← hc1]
  have hd2 : c2.url_data = T := by rw [← hc2]
  have hb2 : c2.base_url = some base := by rw [← hc2]
  have hsuf : context.suffix_of c2 c1 (a :: S1 ++ [':']) := by
    rw [← hc1, ← hc2]; exact ⟨rfl, rfl, rfl, rfl⟩
  have hps : (initial_url.parse_scheme (a :: S1)).2 = initial_url.copy_scheme base := by
    unfold url.parse_scheme
    simp only [hty]
    rw [if_pos (by simpa using hsp)]
    simp [url.copy_scheme, hns, initial_url]
  -- the run on the text alone
  have h20 : at_rest c2 0 T := by rw [← hd2]; exact at_rest_zero c2
  have hR : run c2 loop_bound ⟨state.SCHEME_START, initial_url, 0⟩ =
      run c2 loop_bound ⟨state.RELATIVE_SCHEME, initial_url, 0⟩ := by
    rw [run_no_scheme c2 (by rw [hd2]; exact hT)]
    conv_lhs => rw [show loop_bound = 23 + 1 from rfl]
    rw [run_next c2 23 _ ⟨state.RELATIVE_SCHEME, initial_url, 0⟩ (Nat.zero_le _) (by
      simp [step, state_NO_SCHEME, hb2, hop, hf])]
    exact run_loop_bound c2 23 _ (by simp [state.rank])
  -- the run on the scheme, the colon and the text
  have h1 : (1 : Nat) ≤ c1.input_size := by simp [context.input_size, hd1]
  have hst := step_SCHEME_colon c1 initial_url a S1 T hd1 hS
  have hty2 := parse_scheme_type initial_url (a :: S1)
  rw [hps] at hst hty2
  have hsp2 : (initial_url.copy_scheme base).is_special = true := by
    simpa [url.is_special, url.copy_scheme] using hsp
  have hf2 : ((initial_url.copy_scheme base).type == scheme_type.FILE) = false := by
    simpa [url.copy_scheme] using hf
  have hsame : (Option.map (fun b => b.type) (some base) ==
      some (initial_url.copy_scheme base).type) = true := by
    simp [url.copy_scheme]
  simp only [hsp2, hf2, hb1, hsame, Option.isSome_some, Bool.and_self, if_true,
    Bool.false_eq_true, if_false] at hst
  have hr : at_rest c1 ((a :: S1).length + 1) T := by
    have := at_rest_of_append c1 (a :: S1 ++ [':']) T (by rw [hd1]; simp)
    simpa using this
  have hL : run c1 loop_bound ⟨state.SCHEME_START, initial_url, 0⟩ =
      run c1 22 ⟨state.SPECIAL_RELATIVE_OR_AUTHORITY, initial_url.copy_scheme base,
        (a :: S1).length + 1⟩ := by
    rw [show loop_bound = 22 + 1 + 1 from rfl,
      run_next c1 _ _ _ (Nat.zero_le _) (step_SCHEME_START_scheme c1 initial_url a S1 T hd1 ha),
      run_next c1 22 _ _ h1 hst]
  rw [hL, hR]
  have hlen : (a :: S1).length + 1 = 0 + (a :: S1 ++ [':']).length := by simp
  by_cases h2 : T.take 2 = ['/', '/']
  · obtain ⟨T2, rfl⟩ : ∃ T2, T = '/' :: '/' :: T2 := by
      match T, h2 with
      | x :: y :: T2, h2 =>
        simp only [List.take_succ_cons, List.take_zero, List.cons.injEq, and_true] at h2
        exact ⟨T2, by rw [h2.1, h2.2]⟩
    have h21 : at_rest c2 1 ('/' :: T2) := at_rest_advance (a := ['/']) h20
    rw [show (22 : Nat) = 21 + 1 from rfl,
      run_next c1 21 _ _ hr.1 (step_SPECIAL_RELATIVE_OR_AUTHORITY_slashes c1 _ _ T2 hr),
      show loop_bound = 22 + 1 + 1 from rfl,
      run_next c2 _ _ ⟨state.RELATIVE_SLASH, initial_url.copy_scheme base, 1⟩ h20.1 (by
        simp [step, state_RELATIVE_SCHEME, hb2, at_rest_ne h20, at_rest_char h20]),
      run_next c2 _ _ ⟨state.SPECIAL_AUTHORITY_IGNORE_SLASHES, initial_url.copy_scheme base, 2⟩
        h21.1 (by
        simp [step, state_RELATIVE_SLASH, hb2, at_rest_ne h21, at_rest_char h21, hsp2]),
      show (a :: S1).length + 1 + 2 = 2 + (a :: S1 ++ [':']).length by simp; omega,
      run_shift hsuf 21 state.SPECIAL_AUTHORITY_IGNORE_SLASHES _ 2 rfl (Or.inl rfl)]
    exact run_fuel_irrelevant c2 21 22 _ (by simp [state.rank]) (by simp [state.rank])
  · have hstep : step c1 ⟨state.SPECIAL_RELATIVE_OR_AUTHORITY, initial_url.copy_scheme base,
        (a :: S1).length + 1⟩ =
        outcome.next ⟨state.RELATIVE_SCHEME, initial_url.copy_scheme base,
          (a :: S1).length + 1⟩ := by
      simp only [step, state_SPECIAL_RELATIVE_OR_AUTHORITY, hr.2]
      rw [if_neg (by simpa using h2)]
    rw [show (22 : Nat) = 21 + 1 from rfl, run_next c1 21 _ _ hr.1 hstep, hlen,
      run_shift hsuf 21 state.RELATIVE_SCHEME _ 0 rfl (Or.inr (by rw [hb1, hb2])),
      run_loop_bound c2 21 _ (by simp [state.rank]),
      show loop_bound = 23 + 1 from rfl, run_succ, run_succ]
    have : step c2 ⟨state.RELATIVE_SCHEME, initial_url.copy_scheme base, 0⟩ =
        step c2 ⟨state.RELATIVE_SCHEME, initial_url, 0⟩ := by
      simp only [step, state_RELATIVE_SCHEME]
      rfl
    rw [this, if_pos (Nat.zero_le _), if_pos (Nat.zero_le _)]

theorem prune_hash_initial (x : List Char) : (prune_hash x).2 <+: x := by
  unfold prune_hash
  cases find x '#' with
  | none => exact List.prefix_refl x
  | some i => exact List.take_prefix i x

theorem begins_with_scheme_mono (A B : List Char) (h : A <+: B)
    (hA : begins_with_scheme A = true) : begins_with_scheme B = true := by
  obtain ⟨t, rfl⟩ := h
  cases A with
  | nil => simp [begins_with_scheme] at hA
  | cons a r =>
    simp only [begins_with_scheme, Bool.and_eq_true, beq_iff_eq, List.cons_append] at hA ⊢
    refine ⟨hA.1, ?_⟩
    rw [List.dropWhile_append]
    cases hd : r.dropWhile is_alnum_plus with
    | nil => rw [hd] at hA; simp at hA
    | cons y ys =>
      rw [hd] at hA
      simpa using hA.2

/-- C14, amended. A special scheme equal to the scheme of the base is resolved
as a relative reference: for every valid base with a special scheme other than
`file` (its path is not opaque and its scheme is kept in the discriminant),
every spelling `S` of that scheme and every `rest` that has no leading
C0-control or space byte, no tab and no newline, and does not begin with a
scheme and a colon, if `S:rest` is at most 2^32 - 1 bytes long then parsing it
against the base gives the same result as parsing `rest` against the base. -/
theorem same_scheme_reference (env : environment) (base : url) (S rest : List Char)
    (hv : base.is_valid = true) (hwf : scheme_well_formed base)
    (hop : base.has_opaque_path = false) (hS : valid_scheme S)
    (hty : get_scheme_type (S.map to_lower_ascii) = base.type)
    (hsp : base.type ≠ scheme_type.NOT_SPECIAL) (hf : base.type ≠ scheme_type.FILE)
    (hlead : ∀ x, rest.head? = some x → is_c0_control_or_space x = false)
    (htab : has_tabs_or_newline rest = false) (hno : begins_with_scheme rest = false)
    (hlen : (S ++ ':' :: rest).length ≤ 4294967295) :
    parse_url env (S ++ ':' :: rest) (some base) = parse_url env rest (some base) := by
  obtain ⟨a, S1, rfl, ha, hS1⟩ := hS
  unfold parse_url
  rw [parse_url_impl_run env true _ (some base) hlen (by intro b hb2; cases hb2; exact hv),
    parse_url_impl_run env true rest (some base)
      (by simp only [List.length_append, List.length_cons] at hlen; omega)
      (by intro b hb2; cases hb2; exact hv)]
  have hc1 : clean (a :: S1 ++ ':' :: rest) = (a :: S1 ++ [':']) ++ clean_tail rest := by
    have := clean_append_solid _ rest (solid_scheme_slashes a S1 [] ha hS1 (by simp))
    simpa using this
  have hc2 : clean rest = clean_tail rest := by
    rw [clean_eq]
    unfold clean_tail
    rw [remove_of_not_has rest htab]
    congr 1
    cases rest with
    | nil => rfl
    | cons x r => rw [List.dropWhile_cons_of_neg (by simp [hlead x rfl])]
  have hchars := scheme_slashes_chars a S1 [] ha hS1 (by simp)
  rw [hc1, hc2, prune_hash_append _ _ (fun hm => (hchars _ hm).2 rfl)]
  have hT : begins_with_scheme (prune_hash (clean_tail rest)).2 = false := by
    by_contra hc
    have hpre : clean_tail rest <+: rest := by
      unfold clean_tail
      rw [remove_of_not_has rest htab]
      exact List.rdropWhile_prefix _ _
    have h1 := begins_with_scheme_mono _ rest
      ((prune_hash_initial _).trans hpre) (by simpa using hc)
    rw [hno] at h1
    exact absurd h1 (by decide)
  exact run_same_scheme env base a S1 _ _ ha hS1 hty hsp hf (hwf.1 hsp) hop hT

theorem same_scheme_reference_witness :
    (scheme_well_formed sample_base ∧ valid_scheme ['h', 't', 't', 'p'] ∧
      begins_with_scheme ['x', '/', 'y', '#', 'f'] = false) ∧
      parse_url sample_env (['h', 't', 't', 'p'] ++ ':' :: ['x', '/', 'y', '#', 'f'])
          (some sample_base) =
        parse_url sample_env ['x', '/', 'y', '#', 'f'] (some sample_base) :=
  ⟨⟨⟨fun _ => rfl, fun h => absurd h (by decide)⟩,
      ⟨'h', ['t', 't', 'p'], rfl, by decide, by decide⟩, by decide⟩,
    same_scheme_reference sample_env sample_base ['h', 't', 't', 'p'] ['x', '/', 'y', '#', 'f']
      rfl ⟨fun _ => rfl, fun h => absurd h (by decide)⟩ rfl
      ⟨'h', ['t', 't', 'p'], rfl, by decide, by decide⟩ (by decide) (by decide) (by decide)
      (by decide) (by decide) (by decide) (by decide)⟩

/-- The parse of a query-only reference without a fragment, against a valid
base whose path is not opaque, succeeds. -/
theorem query_only_valid (env : environment) (base : url) (q : List Char)
    (hv : base.is_valid = true) (hop : base.has_opaque_path = false)
    (hf : base.type ≠ scheme_type.FILE) (hq : '#' ∉ q)
    (hlen : ('?' :: q).length ≤ 4294967295) :
    ∃ u, parse_url env ('?' :: q) (some base) = some u ∧ u.is_valid = true := by
  unfold parse_url
  rw [parse_url_impl_run env true _ (some base) hlen (by intro b hb2; cases hb2; exact hv)]
  have hc : clean ('?' :: q) = '?' :: clean_tail q := by
    have := clean_append_solid ['?'] q (solid_singleton '?' (by decide))
    simpa using this
  have hp : prune_hash ('?' :: clean_tail q) = (none, '?' :: clean_tail q) :=
    prune_hash_of_not_mem _ (by
      simp only [List.mem_cons, not_or]
      exact ⟨by decide, fun h => hq (mem_clean_tail q _ h)⟩)
  rw [hc, hp]
  simp only []
  rw [run_query_only env base (clean_tail q) hop, if_neg hf]
  exact ⟨_, rfl, rfl⟩

theorem question_rest_facts (R : List Char) (hR : ∀ x ∈ R, x = 'a') :
    has_tabs_or_newline ('?' :: R) = false ∧ begins_with_scheme ('?' :: R) = false ∧
      '#' ∉ R := by
  refine ⟨?_, ?_, ?_⟩
  · simp only [has_tabs_or_newline, List.any_eq_false]
    intro x hx
    rcases List.mem_cons.1 hx with rfl | hx
    · decide
    · rw [hR x hx]; decide
  · have : is_alpha '?' = false := by decide
    simp [begins_with_scheme, this]
  · intro hm
    exact absurd (hR _ hm) (by decide)

theorem question_input_length (pre R : List Char) :
    (pre ++ '?' :: R).length = R.length + pre.length + 1 := by
  simp only [List.length_append, List.length_cons]
  omega

theorem oversized_same_scheme_input_length :
    ([] ++ '?' :: List.replicate 4294967294 'a').length ≤ 4294967295 ∧
      4294967295 < (['h', 't', 't', 'p', ':'] ++ '?' :: List.replicate 4294967294 'a').length := by
  constructor
  · rw [question_input_length, List.length_replicate]
    decide
  · rw [question_input_length, List.length_replicate]
    decide

/-- C14, as stated, fails at the size limit: `?` followed by 4294967294 bytes
`a` is 2^32 - 1 bytes long and parses against the base `http://h/p?y=2#z` to a
valid record, while `http:` followed by the same bytes exceeds the limit and
is rejected. -/
theorem same_scheme_not_oversized :
    (is_c0_control_or_space '?' = false ∧
      has_tabs_or_newline ('?' :: List.replicate 4294967294 'a') = false ∧
      begins_with_scheme ('?' :: List.replicate 4294967294 'a') = false) ∧
    parse_url sample_env (['h', 't', 't', 'p'] ++ ':' :: '?' :: List.replicate 4294967294 'a')
        (some sample_base) ≠
      parse_url sample_env ('?' :: List.replicate 4294967294 'a') (some sample_base) := by
  have hR : ∀ x ∈ List.replicate 4294967294 'a', x = 'a' :=
    fun x hx => List.eq_of_mem_replicate hx
  obtain ⟨f1, f2, f3⟩ := question_rest_facts _ hR
  refine ⟨⟨by decide, f1, f2⟩, ?_⟩
  obtain ⟨u, h1, h2⟩ := query_only_valid sample_env sample_base
    (List.replicate 4294967294 'a') rfl rfl (by decide) f3 oversized_same_scheme_input_length.1
  have h3 : parse_url sample_env
      (['h', 't', 't', 'p'] ++ ':' :: '?' :: List.replicate 4294967294 'a') (some sample_base) =
      some { initial_url with is_valid := false } :=
    parse_url_impl_oversized sample_env true _ _ oversized_same_scheme_input_length.2
  rw [h1, h3]
  intro heq
  have := congrArg url.is_valid (Option.some.inj heq)
  rw [h2] at this
  exact absurd this (by decide)

/-! ## C15: opaque paths -/

/-- The opaque-path state and what follows it: the path is the percent-encoding
of the text up to the first `?`, the query is the text after it. -/
theorem run_OPAQUE_PATH (c : context) (hs : c.store_values = true) (f : Nat) (u : url) (p : Nat)
    (t : List Char) (h : at_rest c p t) :
    run c (f + 2) ⟨state.OPAQUE_PATH, u, p⟩ =
      some (attach_fragment c
        { u with
            has_opaque_path := true,
            path := percent_encode (t.takeWhile (fun x => x != '?'))
              c.env.sets.C0_CONTROL_PERCENT_ENCODE,
            query := if '?' ∈ t then
                some (percent_encode ((t.dropWhile (fun x => x != '?')).drop 1)
                  (if u.is_special then c.env.sets.SPECIAL_QUERY_PERCENT_ENCODE
                   else c.env.sets.QUERY_PERCENT_ENCODE))
              else u.query }) := by
  rw [run_succ, if_pos h.1]
  simp only [step, state_OPAQUE_PATH, h.2]
  cases hf : find t '?' with
  | none =>
    obtain ⟨h1, h2⟩ := find_none_takeWhile t '?' hf
    simp only [h1, h2, if_false]
    rw [run_succ, if_neg (by simp), store_fragment, if_pos hs]
    rfl
  | some loc =>
    obtain ⟨h1, h2, h3⟩ := find_some_takeWhile t '?' loc hf
    obtain ⟨hsplit, _, hlt⟩ := find_some_split t '?' loc hf
    simp only [h1, h2, h3, if_true]
    have hr : at_rest c (p + (loc + 1)) (t.drop (loc + 1)) := by
      have : at_rest c (p + (t.take loc ++ ['?']).length) (t.drop (loc + 1)) :=
        at_rest_advance (by
          have e : t.take loc ++ ['?'] ++ t.drop (loc + 1) = t := by
            conv_rhs => rw [hsplit]
            simp
          rw [e]; exact h)
      have hl : (t.take loc ++ ['?']).length = loc + 1 := by
        simp; omega
      rwa [hl] at this
    rw [run_succ, if_pos hr.1]
    simp only [step, state_QUERY, hs, if_true, hr.2, url.update_base_search, url.is_special,
      url.update_base_pathname]

/-- C15, amended. A scheme that is not special and is not followed by `/`
yields an opaque path: for every input `S:rest` of at most 2^32 - 1 bytes,
where `S` is a scheme that is not special, with no base or a valid one, let
`T` be `rest` cleaned (tabs and newlines removed, trailing C0 controls and
spaces trimmed) and with its fragment split off; if `T` does not begin with
`/` then `parse_url` succeeds with `has_opaque_path = true`, no host, empty
username and password, no port, the path equal to the percent-encoding with
the C0-control set of `T` up to its first `?` or its end, and the query equal
to the percent-encoding with the query set of the text after that `?` if there
is one, and absent otherwise. -/
theorem opaque_path_reference (env : environment) (base : Option url) (S rest : List Char)
    (hS : valid_scheme S)
    (hty : get_scheme_type (S.map to_lower_ascii) = scheme_type.NOT_SPECIAL)
    (hb : ∀ b, base = some b → b.is_valid = true)
    (hlen : (S ++ ':' :: rest).length ≤ 4294967295)
    (hT : (prune_hash (clean_tail rest)).2.head? ≠ some '/') :
    ∃ u, parse_url env (S ++ ':' :: rest) base = some u ∧ u.is_valid = true ∧
      u.has_opaque_path = true ∧ u.host = none ∧ u.username = [] ∧ u.password = [] ∧
      u.port = none ∧
      u.path = percent_encode ((prune_hash (clean_tail rest)).2.takeWhile (fun x => x != '?'))
        env.sets.C0_CONTROL_PERCENT_ENCODE ∧
      u.query = if '?' ∈ (prune_hash (clean_tail rest)).2 then
          some (percent_encode
            (((prune_hash (clean_tail rest)).2.dropWhile (fun x => x != '?')).drop 1)
            env.sets.QUERY_PERCENT_ENCODE)
        else none := by
  obtain ⟨a, S1, rfl, ha, hS1⟩ := hS
  unfold parse_url
  rw [parse_url_impl_run env true _ base hlen hb]
  have hc1 : clean (a :: S1 ++ ':' :: rest) = (a :: S1 ++ [':']) ++ clean_tail rest := by
    have := clean_append_solid _ rest (solid_scheme_slashes a S1 [] ha hS1 (by simp))
    simpa using this
  have hchars := scheme_slashes_chars a S1 [] ha hS1 (by simp)
  rw [hc1, prune_hash_append _ _ (fun hm => (hchars _ hm).2 rfl)]
  simp only []
  generalize (prune_hash (clean_tail rest)).2 = T at hT ⊢
  generalize (prune_hash (clean_tail rest)).1 = frag
  generalize hc : (⟨env, true, base, (a :: S1 ++ [':']) ++ T, frag⟩ : context) = c
  have hd : c.url_data = a :: S1 ++ ':' :: T := by rw [← hc]; simp
  have hsv : c.store_values = true := by rw [← hc]
  have henv : c.env = env := by rw [← hc]
  have h1 : (1 : Nat) ≤ c.input_size := by simp [context.input_size, hd]
  have hst := step_SCHEME_colon c initial_url a S1 T hd hS1
  have hty2 := parse_scheme_type initial_url (a :: S1)
  rw [hty] at hty2
  have hval := parse_scheme_valid initial_url (a :: S1)
  have hfields : (initial_url.parse_scheme (a :: S1)).2.host = none ∧
      (initial_url.parse_scheme (a :: S1)).2.username = [] ∧
      (initial_url.parse_scheme (a :: S1)).2.password = [] ∧
      (initial_url.parse_scheme (a :: S1)).2.port = none ∧
      (initial_url.parse_scheme (a :: S1)).2.query = none := by
    unfold url.parse_scheme
    simp only []
    split_ifs <;> exact ⟨rfl, rfl, rfl, rfl, rfl⟩
  generalize (initial_url.parse_scheme (a :: S1)).2 = ps at *
  have hnsp : ps.is_special = false := by simp [url.is_special, hty2]
  simp only [hty2, hnsp, Bool.false_and, Bool.false_eq_true, if_false, hT,
    show (scheme_type.NOT_SPECIAL == scheme_type.FILE) = false from rfl] at hst
  have hr : at_rest c ((a :: S1).length + 1) T := by
    have := at_rest_of_append c (a :: S1 ++ [':']) T (by rw [hd]; simp)
    simpa using this
  rw [show loop_bound = 20 + 2 + 1 + 1 from rfl,
    run_next c _ _ _ (Nat.zero_le _) (step_SCHEME_START_scheme c initial_url a S1 T hd ha),
    run_next c _ _ _ h1 hst, run_OPAQUE_PATH c hsv 20 ps _ T hr]
  refine ⟨_, rfl, ?_⟩
  obtain ⟨f1, f2, f3, f4, f5⟩ := hfields
  unfold attach_fragment
  cases c.fragment <;>
    simp [url.update_unencoded_base_hash, hval, initial_url, f1, f2, f3, f4, f5, hnsp, henv]

theorem opaque_path_reference_witness :
    (valid_scheme ['m', 'a', 'i', 'l', 't', 'o'] ∧
      (prune_hash (clean_tail ['a', '@', 'b', '?', 's', '#', 'f'])).2.head? ≠ some '/') ∧
    ∃ u, parse_url sample_env
        (['m', 'a', 'i', 'l', 't', 'o'] ++ ':' :: ['a', '@', 'b', '?', 's', '#', 'f']) none =
        some u ∧ u.is_valid = true ∧
      u.has_opaque_path = true ∧ u.host = none ∧ u.username = [] ∧ u.password = [] ∧
      u.port = none ∧
      u.path = percent_encode
        ((prune_hash (clean_tail ['a', '@', 'b', '?', 's', '#', 'f'])).2.takeWhile
          (fun x => x != '?'))
        sample_env.sets.C0_CONTROL_PERCENT_ENCODE ∧
      u.query = if '?' ∈ (prune_hash (clean_tail ['a', '@', 'b', '?', 's', '#', 'f'])).2 then
          some (percent_encode
            (((prune_hash (clean_tail ['a', '@', 'b', '?', 's', '#', 'f'])).2.dropWhile
              (fun x => x != '?')).drop 1)
            sample_env.sets.QUERY_PERCENT_ENCODE)
        else none :=
  ⟨⟨⟨'m', ['a', 'i', 'l', 't', 'o'], rfl, by decide, by decide⟩, by decide⟩,
    opaque_path_reference sample_env none ['m', 'a', 'i', 'l', 't', 'o']
      ['a', '@', 'b', '?', 's', '#', 'f'] ⟨'m', ['a', 'i', 'l', 't', 'o'], rfl, by decide, by decide⟩
      (by decide) (by simp) (by decide) (by decide)⟩

/-- C15, as stated, fails on the preprocessing of the input. In `a:b#c` the
rest `b#c` does not begin with `/`, yet the path of the result is `b`, not the
percent-encoding of `b#c`: the fragment is split off before the state machine
runs. In `a:` tab `/x` the rest begins with a tab, not with `/`, yet the tab
is removed, the input is read as `a:/x`, and the path of the result is not
opaque. -/
theorem opaque_path_not_raw :
    (['b', '#', 'c'].head? ≠ some '/' ∧
      ∃ u, parse_url sample_env (['a'] ++ ':' :: ['b', '#', 'c']) none = some u ∧
        u.path = ['b'] ∧
        u.path ≠ percent_encode (['b', '#', 'c'].takeWhile (fun x => x != '?'))
          sample_env.sets.C0_CONTROL_PERCENT_ENCODE) ∧
    (['\t', '/', 'x'].head? ≠ some '/' ∧
      ∃ u, parse_url sample_env (['a'] ++ ':' :: ['\t', '/', 'x']) none = some u ∧
        u.has_opaque_path = false) := by
  refine ⟨⟨by decide, _, rfl, by decide, by decide⟩, ⟨by decide, _, rfl, by decide⟩⟩

/-! ## C16: file URLs with an empty authority -/

/-- The run on `file:///` followed by `T`, with no base. -/
theorem run_file_empty_host (c : context) (hsv : c.store_values = true) (T : List Char)
    (hd : c.url_data = 'f' :: ['i', 'l', 'e'] ++ ':' :: '/' :: '/' :: ('/' :: T))
    (hb : c.base_url = none) :
    run c loop_bound ⟨state.SCHEME_START, initial_url, 0⟩ =
      some (attach_fragment c
        { initial_url with
            type := scheme_type.FILE, host := some [],
            path := parse_prepared_path c.env.sets (T.takeWhile (fun x => x != '?'))
              scheme_type.FILE [],
            query := if '?' ∈ T then
                some (percent_encode ((T.dropWhile (fun x => x != '?')).drop 1)
                  c.env.sets.SPECIAL_QUERY_PERCENT_ENCODE)
              else none }) := by
  have hps : (initial_url.parse_scheme ('f' :: ['i', 'l', 'e'])).2 =
      { initial_url with type := scheme_type.FILE } := by decide
  rw [run_scheme_absolute c 'f' ['i', 'l', 'e'] ('/' :: T) hd (by decide) (by decide) hb, hps,
    if_pos rfl]
  change run c loop_bound ⟨state.FILE_HOST,
    { initial_url with type := scheme_type.FILE, host := some [] }, 7⟩ = _
  have hr : at_rest c 7 ('/' :: T) := by
    have := at_rest_of_append c ('f' :: ['i', 'l', 'e'] ++ ':' :: ['/', '/']) ('/' :: T)
      (by simp [hd])
    simpa using this
  have hr2 : at_rest c 8 T := at_rest_advance (a := ['/']) hr
  have hne : ((7 == c.input_size) = false) := by
    have := at_rest_length hr
    simp only [List.length_cons] at this
    simp only [beq_eq_false_iff_ne, ne_eq]
    omega
  rw [show loop_bound = 20 + 2 + 1 + 1 from rfl,
    run_next c _ _ ⟨state.PATH_START,
      { initial_url with type := scheme_type.FILE, host := some [] }, 7⟩ hr.1 (by
      simp only [step, state_FILE_HOST, hr.2, find_first]
      simp [is_windows_drive_letter]),
    run_next c _ _ ⟨state.PATH, { initial_url with type := scheme_type.FILE, host := some [] },
      8⟩ hr.1 (by
      simp only [step, state_PATH_START, hne, at_rest_char hr]
      simp [url.is_special]),
    run_PATH c hsv 20 _ _ T hr2]
  simp [url.is_special, initial_url]

/-- C16, amended. File URLs with an empty authority: for every input
`file:///` followed by `P`, at most 2^32 - 1 bytes long, with no base, where
`P` contains no `?` and no `#`, `parse_url` succeeds with the scheme `file`,
the host present and empty, empty username and password, no port,
`has_opaque_path = false`, and the path prepared from `P` cleaned (tabs and
newlines removed, trailing C0 controls and spaces trimmed), starting from the
empty path. -/
theorem file_empty_authority (env : environment) (P : List Char)
    (hq : '?' ∉ P) (hh : '#' ∉ P)
    (hlen : (['f', 'i', 'l', 'e', ':', '/', '/', '/'] ++ P).length ≤ 4294967295) :
    ∃ u, parse_url env (['f', 'i', 'l', 'e', ':', '/', '/', '/'] ++ P) none = some u ∧
      u.is_valid = true ∧ u.get_scheme = ['f', 'i', 'l', 'e'] ∧ u.host = some [] ∧
      u.username = [] ∧ u.password = [] ∧ u.port = none ∧ u.has_opaque_path = false ∧
      u.path = parse_prepared_path env.sets (clean_tail P) scheme_type.FILE [] := by
  unfold parse_url
  rw [parse_url_impl_run env true _ none hlen (by simp)]
  have hc : clean (['f', 'i', 'l', 'e', ':', '/', '/', '/'] ++ P) =
      ['f', 'i', 'l', 'e', ':', '/', '/', '/'] ++ clean_tail P :=
    clean_append_solid _ P (solid_of_all _ (by simp) (by decide))
  have hq2 : '?' ∉ clean_tail P := fun hm => hq (mem_clean_tail P _ hm)
  have hh2 : '#' ∉ clean_tail P := fun hm => hh (mem_clean_tail P _ hm)
  rw [hc, prune_hash_of_not_mem _ (by
    intro hm
    rcases List.mem_append.1 hm with hm | hm
    · exact absurd hm (by decide)
    · exact hh2 hm)]
  simp only []
  rw [run_file_empty_host _ rfl (clean_tail P) (by simp) rfl]
  refine ⟨_, rfl, ?_⟩
  have htw : (clean_tail P).takeWhile (fun x => x != '?') = clean_tail P := by
    rw [List.takeWhile_eq_self_iff]
    intro x hx
    have : x ≠ '?' := fun e => hq2 (e ▸ hx)
    simpa using this
  simp [attach_fragment, initial_url, url.get_scheme, htw, hq2]

theorem file_empty_authority_witness :
    ('?' ∉ ['C', ':', '/', 'w'] ∧ '#' ∉ ['C', ':', '/', 'w']) ∧
    ∃ u, parse_url sample_env (['f', 'i', 'l', 'e', ':', '/', '/', '/'] ++ ['C', ':', '/', 'w'])
        none = some u ∧
      u.is_valid = true ∧ u.get_scheme = ['f', 'i', 'l', 'e'] ∧ u.host = some [] ∧
      u.username = [] ∧ u.password = [] ∧ u.port = none ∧ u.has_opaque_path = false ∧
      u.path = parse_prepared_path sample_env.sets (clean_tail ['C', ':', '/', 'w'])
        scheme_type.FILE [] :=
  ⟨⟨by decide, by decide⟩,
    file_empty_authority sample_env ['C', ':', '/', 'w'] (by decide) (by decide) (by decide)⟩

/-- C16, as stated, fails on the cleaning of the input: in `file:///a`
followed by a space, the space holds no `?` and no `#`, yet it is trimmed
before the path is read; the path of the result is `/a`, while the path
prepared from `a` and the space is `/a%20`. -/
theorem file_empty_authority_not_raw :
    ('?' ∉ ['a', ' '] ∧ '#' ∉ ['a', ' ']) ∧
    parse_prepared_path sample_env.sets ['a', ' '] scheme_type.FILE [] =
      ['/', 'a', '%', '2', '0'] ∧
    ∃ u, parse_url sample_env (['f', 'i', 'l', 'e', ':', '/', '/', '/'] ++ ['a', ' ']) none =
        some u ∧ u.path = ['/', 'a'] ∧
      u.path ≠ parse_prepared_path sample_env.sets ['a', ' '] scheme_type.FILE [] := by
  refine ⟨⟨by decide, by decide⟩, by decide, _, rfl, by decide, by decide⟩

/-! ## C17: the file host localhost -/

/-- The run on `file://` followed by a text, with no base, is the run from the
file host state on the text. -/
theorem run_file_host (env : environment) (t : List Char) (frag : Option (List Char)) :
    run ⟨env, true, none, ['f', 'i', 'l', 'e', ':', '/', '/'] ++ t, frag⟩ loop_bound
        ⟨state.SCHEME_START, initial_url, 0⟩ =
      run ⟨env, true, none, t, frag⟩ loop_bound ⟨state.FILE_HOST, file_host_entry, 0⟩ := by
  have hps : (initial_url.parse_scheme ('f' :: ['i', 'l', 'e'])).2 =
      { initial_url with type := scheme_type.FILE } := by decide
  rw [run_scheme_absolute _ 'f' ['i', 'l', 'e'] t (by simp) (by decide) (by decide) rfl, hps,
    if_pos rfl]
  have hsuf : context.suffix_of ⟨env, true, none, t, frag⟩
      ⟨env, true, none, ['f', 'i', 'l', 'e', ':', '/', '/'] ++ t, frag⟩
      ['f', 'i', 'l', 'e', ':', '/', '/'] := ⟨rfl, rfl, rfl, rfl⟩
  exact run_shift hsuf loop_bound state.FILE_HOST _ 0 rfl (Or.inl rfl)

/-- The file host state on `localhost` followed by the end of the input, `/`,
`\` or `?`, when the host parser reads `localhost` as `localhost`: the host is
set to the empty string. -/
theorem step_FILE_HOST_localhost (c : context) (u : url) (p : Nat) (T : List Char)
    (h : at_rest c p (['l', 'o', 'c', 'a', 'l', 'h', 'o', 's', 't'] ++ T))
    (hT : T = [] ∨ ∃ x r, T = x :: r ∧ is_authority_end true x = true)
    (hhost : c.env.host_parse (!u.is_special) ['l', 'o', 'c', 'a', 'l', 'h', 'o', 's', 't'] =
      some ['l', 'o', 'c', 'a', 'l', 'h', 'o', 's', 't']) :
    step c ⟨state.FILE_HOST, u, p⟩ =
      outcome.next ⟨state.PATH_START, { u with host := some [] }, p + 9⟩ := by
  have hloc : find_first (fun ch => ch == '/' || ch == '\\' || ch == '?')
      (['l', 'o', 'c', 'a', 'l', 'h', 'o', 's', 't'] ++ T) =
      ['l', 'o', 'c', 'a', 'l', 'h', 'o', 's', 't'].length :=
    find_first_append _ _ T (by decide) (by
      rcases hT with rfl | ⟨x, r, rfl, hx⟩
      · exact Or.inl rfl
      · refine Or.inr ⟨x, r, rfl, ?_⟩
        simp only [is_authority_end, Bool.true_and, Bool.or_eq_true, beq_iff_eq] at hx ⊢
        tauto)
  simp only [step, state_FILE_HOST, h.2, hloc, List.take_left', url.parse_host, hhost]
  rw [if_neg (by decide), if_neg (by decide)]
  simp

/-- The file host state on an empty host. -/
theorem step_FILE_HOST_empty (c : context) (u : url) (p : Nat) (T : List Char)
    (h : at_rest c p T)
    (hT : T = [] ∨ ∃ x r, T = x :: r ∧ is_authority_end true x = true) :
    step c ⟨state.FILE_HOST, u, p⟩ =
      outcome.next ⟨state.PATH_START, { u with host := some [] }, p⟩ := by
  have hloc : find_first (fun ch => ch == '/' || ch == '\\' || ch == '?') ([] ++ T) =
      ([] : List Char).length :=
    find_first_append _ _ T (by simp) (by
      rcases hT with rfl | ⟨x, r, rfl, hx⟩
      · exact Or.inl rfl
      · refine Or.inr ⟨x, r, rfl, ?_⟩
        simp only [is_authority_end, Bool.true_and, Bool.or_eq_true, beq_iff_eq] at hx ⊢
        tauto)
  simp only [List.nil_append, List.length_nil] at hloc
  simp only [step, state_FILE_HOST, h.2, hloc, List.take_zero]
  rw [if_neg (by decide)]
  rfl

/-- C17, amended. The file host `localhost` is normalised to the empty host:
for every `rest` that is empty or begins with `/`, `\` or `?`, if
`file://localhost` followed by `rest` is at most 2^32 - 1 bytes long, then
`parse_url` with no base gives the same result on it and on `file://` followed
by `rest`, given that host parsing of `localhost` yields `localhost`. -/
theorem localhost_normalised (env : environment) (rest : List Char)
    (hrest : rest = [] ∨ ∃ x r, rest = x :: r ∧ (x = '/' ∨ x = '\\' ∨ x = '?'))
    (hhost : env.host_parse false ['l', 'o', 'c', 'a', 'l', 'h', 'o', 's', 't'] =
      some ['l', 'o', 'c', 'a', 'l', 'h', 'o', 's', 't'])
    (hlen : (['f', 'i', 'l', 'e', ':', '/', '/'] ++
      (['l', 'o', 'c', 'a', 'l', 'h', 'o', 's', 't'] ++ rest)).length ≤ 4294967295) :
    parse_url env (['f', 'i', 'l', 'e', ':', '/', '/'] ++
        (['l', 'o', 'c', 'a', 'l', 'h', 'o', 's', 't'] ++ rest)) none =
      parse_url env (['f', 'i', 'l', 'e', ':', '/', '/'] ++ rest) none := by
  have hend : rest = [] ∨ ∃ x r, rest = x :: r ∧ is_authority_end true x = true := by
    rcases hrest with rfl | ⟨x, r, rfl, hx⟩
    · exact Or.inl rfl
    · refine Or.inr ⟨x, r, rfl, ?_⟩
      simp only [is_authority_end, Bool.true_and, Bool.or_eq_true, beq_iff_eq]
      tauto
  have hT := pruned_tail_end true rest hend
  unfold parse_url
  rw [parse_url_impl_run env true _ none hlen (by simp),
    parse_url_impl_run env true _ none
      (by simp only [List.length_append, List.length_cons, List.length_nil] at hlen ⊢; omega)
      (by simp)]
  have hc1 : clean (['f', 'i', 'l', 'e', ':', '/', '/'] ++
      (['l', 'o', 'c', 'a', 'l', 'h', 'o', 's', 't'] ++ rest)) =
      ['f', 'i', 'l', 'e', ':', '/', '/'] ++
        (['l', 'o', 'c', 'a', 'l', 'h', 'o', 's', 't'] ++ clean_tail rest) := by
    have := clean_append_solid
      (['f', 'i', 'l', 'e', ':', '/', '/'] ++ ['l', 'o', 'c', 'a', 'l', 'h', 'o', 's', 't']) rest
      (solid_of_all _ (by simp) (by decide))
    simpa using this
  have hc2 : clean (['f', 'i', 'l', 'e', ':', '/', '/'] ++ rest) =
      ['f', 'i', 'l', 'e', ':', '/', '/'] ++ clean_tail rest :=
    clean_append_solid _ rest (solid_of_all _ (by simp) (by decide))
  rw [hc1, hc2, prune_hash_append _ _ (by decide), prune_hash_append _ _ (by decide),
    prune_hash_append _ _ (by decide)]
  simp only []
  generalize (prune_hash (clean_tail rest)).2 = T at hT ⊢
  generalize (prune_hash (clean_tail rest)).1 = frag
  rw [run_file_host, run_file_host]
  have h1 : at_rest ⟨env, true, none, ['l', 'o', 'c', 'a', 'l', 'h', 'o', 's', 't'] ++ T, frag⟩ 0
      (['l', 'o', 'c', 'a', 'l', 'h', 'o', 's', 't'] ++ T) := at_rest_zero _
  have h2 : at_rest ⟨env, true, none, T, frag⟩ 0 T := at_rest_zero _
  have hsuf : context.suffix_of ⟨env, true, none, T, frag⟩
      ⟨env, true, none, ['l', 'o', 'c', 'a', 'l', 'h', 'o', 's', 't'] ++ T, frag⟩
      ['l', 'o', 'c', 'a', 'l', 'h', 'o', 's', 't'] := ⟨rfl, rfl, rfl, rfl⟩
  rw [show loop_bound = 23 + 1 from rfl,
    run_next _ 23 _ _ h1.1 (step_FILE_HOST_localhost _ file_host_entry 0 T h1 hT hhost),
    run_next _ 23 _ _ h2.1 (step_FILE_HOST_empty _ file_host_entry 0 T h2 hT)]
  exact run_shift hsuf 23 state.PATH_START _ 0 rfl (Or.inl rfl)

theorem localhost_normalised_witness :
    (sample_env.host_parse false ['l', 'o', 'c', 'a', 'l', 'h', 'o', 's', 't'] =
      some ['l', 'o', 'c', 'a', 'l', 'h', 'o', 's', 't']) ∧
    parse_url sample_env (['f', 'i', 'l', 'e', ':', '/', '/'] ++
        (['l', 'o', 'c', 'a', 'l', 'h', 'o', 's', 't'] ++ ['/', 'x'])) none =
      parse_url sample_env (['f', 'i', 'l', 'e', ':', '/', '/'] ++ ['/', 'x']) none :=
  ⟨by decide, localhost_normalised sample_env ['/', 'x'] (Or.inr ⟨'/', ['x'], rfl, Or.inl rfl⟩)
    (by decide) (by decide)⟩

/-- The parse of `file:///` followed by a text, with no base, succeeds. -/
theorem file_empty_host_valid (env : environment) (P : List Char)
    (hlen : (['f', 'i', 'l', 'e', ':', '/', '/'] ++ '/' :: P).length ≤ 4294967295) :
    ∃ u, parse_url env (['f', 'i', 'l', 'e', ':', '/', '/'] ++ '/' :: P) none = some u ∧
      u.is_valid = true := by
  unfold parse_url
  rw [parse_url_impl_run env true _ none hlen (by simp)]
  have hc : clean (['f', 'i', 'l', 'e', ':', '/', '/'] ++ '/' :: P) =
      ['f', 'i', 'l', 'e', ':', '/', '/', '/'] ++ clean_tail P := by
    have := clean_append_solid ['f', 'i', 'l', 'e', ':', '/', '/', '/'] P
      (solid_of_all _ (by simp) (by decide))
    simpa using this
  rw [hc, prune_hash_append _ _ (by decide)]
  simp only []
  rw [run_file_empty_host _ rfl (prune_hash (clean_tail P)).2 (by simp) rfl]
  refine ⟨_, rfl, ?_⟩
  rw [attach_fragment_valid]
  rfl

theorem file_input_length (pre R : List Char) :
    (['f', 'i', 'l', 'e', ':', '/', '/'] ++ (pre ++ '/' :: R)).length =
      R.length + pre.length + 8 := by
  simp only [List.length_append, List.length_cons, List.length_nil]
  omega

theorem oversized_localhost_input_length :
    (['f', 'i', 'l', 'e', ':', '/', '/'] ++ ([] ++ '/' :: List.replicate 4294967287 'a')).length
        ≤ 4294967295 ∧
      4294967295 < (['f', 'i', 'l', 'e', ':', '/', '/'] ++
        (['l', 'o', 'c', 'a', 'l', 'h', 'o', 's', 't'] ++
          '/' :: List.replicate 4294967287 'a')).length := by
  constructor
  · rw [file_input_length, List.length_replicate]
    decide
  · rw [file_input_length, List.length_replicate]
    decide

/-- C17, as stated, fails at the size limit: `file:///` followed by 4294967287
bytes `a` is 2^32 - 1 bytes long and parses to a valid record, while
`file://localhost/` followed by the same bytes exceeds the limit and is
rejected. -/
theorem localhost_not_oversized :
    (sample_env.host_parse false ['l', 'o', 'c', 'a', 'l', 'h', 'o', 's', 't'] =
      some ['l', 'o', 'c', 'a', 'l', 'h', 'o', 's', 't']) ∧
    parse_url sample_env (['f', 'i', 'l', 'e', ':', '/', '/'] ++
        (['l', 'o', 'c', 'a', 'l', 'h', 'o', 's', 't'] ++
          '/' :: List.replicate 4294967287 'a')) none ≠
      parse_url sample_env
        (['f', 'i', 'l', 'e', ':', '/', '/'] ++ '/' :: List.replicate 4294967287 'a') none := by
  refine ⟨by decide, ?_⟩
  obtain ⟨u, h1, h2⟩ := file_empty_host_valid sample_env (List.replicate 4294967287 'a')
    oversized_localhost_input_length.1
  have h3 : parse_url sample_env (['f', 'i', 'l', 'e', ':', '/', '/'] ++
      (['l', 'o', 'c', 'a', 'l', 'h', 'o', 's', 't'] ++
        '/' :: List.replicate 4294967287 'a')) none =
      some { initial_url with is_valid := false } :=
    parse_url_impl_oversized sample_env true _ _ oversized_localhost_input_length.2
  rw [h1, h3]
  intro heq
  have := congrArg url.is_valid (Option.some.inj heq)
  rw [h2] at this
  exact absurd this (by decide)

/-! ## C18: special schemes have a host -/

theorem skip_while_le (p : Char → Bool) (data : List Char) (pos : Nat) (h : pos ≤ data.length) :
    skip_while p data pos ≤ data.length := by
  unfold skip_while
  have h1 : ((data.drop pos).takeWhile p).length ≤ (data.drop pos).length :=
    (List.takeWhile_prefix p).length_le
  rw [List.length_drop] at h1
  omega

theorem host_ok_of_eq (u u1 : url) (h : host_ok u) (ht : u1.type = u.type)
    (hh : u1.host = u.host) : host_ok u1 := by
  unfold host_ok at *
  rw [ht, hh]
  exact h

theorem host_ok_not_special (u : url) (h : u.type = scheme_type.NOT_SPECIAL) : host_ok u :=
  fun hn => absurd h hn

theorem host_ok_file (u : url) (h : u.type = scheme_type.FILE) (hh : u.host ≠ none) :
    host_ok u :=
  fun _ => ⟨hh, fun hn => absurd h hn⟩

theorem attach_fragment_host (c : context) (u : url) :
    (attach_fragment c u).type = u.type ∧ (attach_fragment c u).host = u.host := by
  unfold attach_fragment
  cases c.fragment <;> exact ⟨rfl, rfl⟩

theorem store_fragment_host (c : context) (u : url) :
    (store_fragment c u).type = u.type ∧ (store_fragment c u).host = u.host := by
  unfold store_fragment
  split_ifs
  · exact attach_fragment_host c u
  · exact ⟨rfl, rfl⟩

theorem parse_port_host (u : url) (v : List Char) (t : Bool) :
    (u.parse_port v t).2.type = u.type ∧ (u.parse_port v t).2.host = u.host := by
  unfold url.parse_port
  simp only []
  split_ifs <;> exact ⟨rfl, rfl⟩

theorem parse_host_ok (env : environment) (henv : host_parse_nonempty env) (u : url)
    (v : List Char) (h : (u.parse_host env v).1 = true) :
    (u.parse_host env v).2.type = u.type ∧ (∃ x, (u.parse_host env v).2.host = some x ∧ x ≠ []) := by
  unfold url.parse_host at *
  cases hp : env.host_parse (!u.is_special) v with
  | none => rw [hp] at h; simp at h
  | some x => exact ⟨rfl, x, rfl, henv _ _ _ hp⟩

theorem authority_prepend_at_host (u : url) (a b : Bool) :
    (authority_prepend_at u a b).type = u.type ∧ (authority_prepend_at u a b).host = u.host := by
  unfold authority_prepend_at
  split_ifs <;> exact ⟨rfl, rfl⟩

theorem authority_append_view_host (c : context) (u : url) (v : List Char) (b : Bool) :
    (authority_append_view c u v b).type = u.type ∧
      (authority_append_view c u v b).host = u.host := by
  unfold authority_append_view
  split_ifs
  · split <;> exact ⟨rfl, rfl⟩
  · exact ⟨rfl, rfl⟩
  · exact ⟨rfl, rfl⟩
  · exact ⟨rfl, rfl⟩

/-- The loop of the authority state hands over to the host state with the
cursor inside the input, and returns no valid record. -/
theorem authority_loop_position (c : context) (fuel : Nat) :
    ∀ (u : url) (p : Nat) (a b : Bool), p ≤ c.input_size →
      (∀ m1, authority_loop c fuel u p a b = outcome.next m1 →
        m1.state = state.HOST ∧ m1.input_position ≤ c.input_size) ∧
      (∀ u1, authority_loop c fuel u p a b = outcome.returned u1 → u1.is_valid = false) := by
  induction fuel with
  | zero => intro u p a b _; simp [authority_loop]
  | succ n ih =>
    intro u p a b hp
    rw [authority_loop]
    simp only []
    have hle : p + (List.take (authority_delimiter u.is_special (List.drop p c.url_data))
        (List.drop p c.url_data)).length ≤ c.input_size := by
      have : (List.take (authority_delimiter u.is_special (List.drop p c.url_data))
          (List.drop p c.url_data)).length ≤ (List.drop p c.url_data).length :=
        (List.take_prefix _ _).length_le
      rw [List.length_drop] at this
      unfold context.input_size at *
      omega
    generalize (List.take (authority_delimiter u.is_special (List.drop p c.url_data))
        (List.drop p c.url_data)).length = L at hle ⊢
    split_ifs <;> first
      | (refine ih _ _ _ _ ?_
         simp_all
         omega)
      | (refine ⟨fun m1 h => ?_, fun u1 h => ?_⟩ <;> cases h <;> first
          | exact ⟨rfl, hp⟩
          | rfl
          | (exfalso; simp_all; done))

theorem succ_le_of_bne {p n : Nat} (h : (p != n) = true) (hp : p ≤ n) : p + 1 ≤ n := by
  simp only [bne_iff_ne, ne_eq] at h
  omega

theorem host_step_early (c : context) (m m1 : machine)
    (hI : host_invariant c m) (hp : m.input_position ≤ c.input_size)
    (hst : m.state = state.SCHEME_START ∨ m.state = state.SCHEME ∨ m.state = state.NO_SCHEME ∨
      m.state = state.SPECIAL_RELATIVE_OR_AUTHORITY ∨ m.state = state.PATH_OR_AUTHORITY ∨
      m.state = state.SPECIAL_AUTHORITY_SLASHES ∨
      m.state = state.SPECIAL_AUTHORITY_IGNORE_SLASHES)
    (h : step c m = outcome.next m1) : host_invariant c m1 := by
  obtain ⟨st, u, p⟩ := m
  simp only at hp hst
  rcases hst with rfl | rfl | rfl | rfl | rfl | rfl | rfl <;> simp only [step] at h <;>
    simp only [host_invariant] at hI
  · -- SCHEME_START
    unfold state_SCHEME_START at h
    split_ifs at h with hc <;> cases h <;> simp only [host_invariant]
    · simp only [Bool.and_eq_true] at hc
      exact succ_le_of_bne hc.1 hp
    · exact hp
  · -- SCHEME
    unfold state_SCHEME at h
    simp only [parse_scheme_ok, Bool.not_true, Bool.false_eq_true, if_false] at h
    have hsk := skip_while_le is_alnum_plus c.url_data p hp
    have hty := parse_scheme_type u
      (List.take (skip_while is_alnum_plus c.url_data p) c.url_data)
    split_ifs at h with h1 h2 h3 h4 h5 <;> cases h <;> simp only [host_invariant]
    · simp only [Bool.and_eq_true] at h1
      exact Or.inl (succ_le_of_bne h1.1 hsk)
    · simp only [Bool.and_eq_true] at h1
      exact succ_le_of_bne h1.1 hsk
    · simp only [Bool.and_eq_true] at h1
      exact succ_le_of_bne h1.1 hsk
    · simp only [Bool.and_eq_true, decide_eq_true_eq] at h5
      refine ⟨by unfold context.input_size at *; omega, ?_⟩
      simpa [url.is_special] using h4
    · exact host_ok_not_special _ (by simpa [url.is_special] using h4)
    · exact Nat.zero_le _
  · -- NO_SCHEME
    unfold state_NO_SCHEME at h
    repeat' split at h
    all_goals cases h
    · exact Or.inl hp
    · exact Or.inl hp
  · -- SPECIAL_RELATIVE_OR_AUTHORITY
    unfold state_SPECIAL_RELATIVE_OR_AUTHORITY at h
    split_ifs at h with h1 <;> cases h <;> simp only [host_invariant]
    · have : (List.take 2 (List.drop p c.url_data)).length = 2 := by
        simp only [beq_iff_eq] at h1
        rw [h1]; rfl
      simp only [List.length_take, List.length_drop] at this
      unfold context.input_size at *
      omega
    · exact Or.inl hp
  · -- PATH_OR_AUTHORITY
    unfold state_PATH_OR_AUTHORITY at h
    split_ifs at h with h1 <;> cases h <;> simp only [host_invariant]
    · simp only [Bool.and_eq_true] at h1
      exact succ_le_of_bne h1.1 hp
    · exact host_ok_not_special _ hI.2
  · -- SPECIAL_AUTHORITY_SLASHES
    unfold state_SPECIAL_AUTHORITY_SLASHES state_SPECIAL_AUTHORITY_IGNORE_SLASHES at h
    simp only [] at h
    cases h
    simp only [host_invariant]
    apply skip_while_le
    split_ifs with h1
    · have : (List.take 2 (List.drop p c.url_data)).length = 2 := by
        simp only [beq_iff_eq] at h1
        rw [h1]; rfl
      simp only [List.length_take, List.length_drop] at this
      unfold context.input_size at *
      omega
    · exact hp
  · -- SPECIAL_AUTHORITY_IGNORE_SLASHES
    unfold state_SPECIAL_AUTHORITY_IGNORE_SLASHES at h
    simp only [] at h
    cases h
    simp only [host_invariant]
    exact skip_while_le _ _ _ hp

theorem host_step_relative (c : context) (m m1 : machine)
    (hbase : base_host_ok c.base_url)
    (hI : host_invariant c m) (hp : m.input_position ≤ c.input_size)
    (hst : m.state = state.RELATIVE_SCHEME ∨ m.state = state.RELATIVE_SLASH)
    (h : step c m = outcome.next m1) : host_invariant c m1 := by
  obtain ⟨st, u, p⟩ := m
  simp only at hp hst
  rcases hst with rfl | rfl <;> simp only [step] at h <;> simp only [host_invariant] at hI
  · -- RELATIVE_SCHEME
    unfold state_RELATIVE_SCHEME at h
    cases hb : c.base_url with
    | none => rw [hb] at h; cases h
    | some b =>
      rw [hb] at h
      simp only [] at h
      have hbok := (hbase b hb).1
      split_ifs at h with h1 h2 h3 h4 <;> cases h <;> simp only [host_invariant]
      · simp only [Bool.and_eq_true] at h1
        exact ⟨succ_le_of_bne h1.1 hp, b, hb, rfl⟩
      · simp only [Bool.and_eq_true] at h2
        exact ⟨succ_le_of_bne h2.1.2 hp, b, hb, rfl⟩
      · exact host_ok_of_eq b _ hbok rfl rfl
      · exact host_ok_of_eq b _ hbok rfl rfl
      · exact Or.inr (host_ok_of_eq b _ hbok rfl rfl)
  · -- RELATIVE_SLASH
    unfold state_RELATIVE_SLASH at h
    obtain ⟨_, b, hb, hty⟩ := hI
    rw [hb] at h
    simp only [] at h
    split_ifs at h with h1 h2 <;> cases h <;> simp only [host_invariant]
    · simp only [Bool.and_eq_true] at h1
      exact succ_le_of_bne h1.1.2 hp
    · simp only [Bool.and_eq_true] at h2
      exact succ_le_of_bne h2.1 hp
    · exact host_ok_of_eq b _ (hbase b hb).1 hty rfl

theorem host_step_file (c : context) (m m1 : machine)
    (henv : host_parse_nonempty c.env) (hbase : base_host_ok c.base_url)
    (hI : host_invariant c m) (hp : m.input_position ≤ c.input_size)
    (hst : m.state = state.FILE ∨ m.state = state.FILE_SLASH ∨ m.state = state.FILE_HOST)
    (h : step c m = outcome.next m1) : host_invariant c m1 := by
  obtain ⟨st, u, p⟩ := m
  simp only at hp hst
  rcases hst with rfl | rfl | rfl <;> simp only [step] at h <;> simp only [host_invariant] at hI
  · -- FILE
    unfold state_FILE at h
    simp only [] at h
    cases hb : c.base_url with
    | none =>
      rw [hb] at h
      simp only [] at h
      split_ifs at h <;> cases h <;> simp only [host_invariant]
      · exact ⟨rfl, Option.some_ne_none _⟩
      · exact host_ok_file _ rfl (Option.some_ne_none _)
    | some b =>
      rw [hb] at h
      simp only [] at h
      by_cases h2 : b.type = scheme_type.FILE
      · have hbh : b.host ≠ none := ((hbase b hb).1 (by rw [h2]; decide)).1
        split_ifs at h <;> cases h <;> simp only [host_invariant]
        all_goals first
          | exact ⟨rfl, Option.some_ne_none _⟩
          | exact host_ok_file _ rfl hbh
          | exact Or.inr (host_ok_file _ rfl hbh)
          | exact absurd h2 (by assumption)
          | (exfalso; simp_all; done)
      · split_ifs at h <;> cases h <;> simp only [host_invariant]
        all_goals first
          | exact ⟨rfl, Option.some_ne_none _⟩
          | exact host_ok_file _ rfl (Option.some_ne_none _)
          | (exfalso; simp_all; done)
  · -- FILE_SLASH
    unfold state_FILE_SLASH at h
    cases hb : c.base_url with
    | none =>
      rw [hb] at h
      simp only [] at h
      split_ifs at h <;> cases h <;> simp only [host_invariant]
      · exact hI
      · exact host_ok_file _ hI.1 hI.2
    | some b =>
      rw [hb] at h
      simp only [] at h
      by_cases h2 : b.type = scheme_type.FILE
      · have hbh : b.host ≠ none := ((hbase b hb).1 (by rw [h2]; decide)).1
        split_ifs at h <;> cases h <;> simp only [host_invariant]
        all_goals first
          | exact hI
          | exact host_ok_file _ hI.1 hbh
          | exact host_ok_file _ hI.1 hI.2
          | (exfalso; simp_all; done)
      · split_ifs at h <;> cases h <;> simp only [host_invariant]
        all_goals first
          | exact hI
          | exact host_ok_file _ hI.1 hI.2
          | (exfalso; simp_all; done)
  · -- FILE_HOST
    unfold state_FILE_HOST at h
    simp only [] at h
    split_ifs at h with h1 h2 h3 h4 <;> cases h <;> simp only [host_invariant]
    · exact host_ok_file _ hI.1 hI.2
    · exact host_ok_file _ hI.1 (Option.some_ne_none _)
    · obtain ⟨ht, x, hx, _⟩ := parse_host_ok c.env henv u _ (by simpa using h3)
      exact host_ok_file _ (ht.trans hI.1) (Option.some_ne_none _)
    · obtain ⟨ht, x, hx, _⟩ := parse_host_ok c.env henv u _ (by simpa using h3)
      exact host_ok_file _ (ht.trans hI.1) (by rw [hx]; exact Option.some_ne_none _)

theorem host_step_late (c : context) (m m1 : machine)
    (henv : host_parse_nonempty c.env)
    (hI : host_invariant c m) (hp : m.input_position ≤ c.input_size)
    (hst : m.state = state.AUTHORITY ∨ m.state = state.HOST ∨ m.state = state.PORT ∨
      m.state = state.PATH_START ∨ m.state = state.PATH ∨ m.state = state.OPAQUE_PATH ∨
      m.state = state.QUERY)
    (h : step c m = outcome.next m1) : host_invariant c m1 := by
  obtain ⟨st, u, p⟩ := m
  simp only at hp hst
  rcases hst with rfl | rfl | rfl | rfl | rfl | rfl | rfl <;> simp only [step] at h <;>
    simp only [host_invariant] at hI
  · -- AUTHORITY
    unfold state_AUTHORITY at h
    split_ifs at h
    · cases h
      exact hp
    · obtain ⟨h1, h2⟩ := (authority_loop_position c _ u p false false hp).1 m1 h
      obtain ⟨st1, u1, p1⟩ := m1
      simp only at h1 h2
      subst h1
      exact h2
  · -- HOST
    unfold state_HOST at h
    simp only [] at h
    split_ifs at h with h1 h2 h3 h4 h5 <;> cases h <;> simp only [host_invariant]
    · obtain ⟨ht, x, hx, hne⟩ := parse_host_ok c.env henv u _ (by simpa using h2)
      exact fun _ => ⟨by rw [hx]; exact Option.some_ne_none _,
        fun _ => by rw [hx]; simpa using hne⟩
    · refine host_ok_not_special _ ?_
      simp only [Bool.and_eq_true, not_and, Bool.not_eq_true] at h3
      have := h3 h4
      simpa [url.is_special, url.update_base_hostname] using this
    · obtain ⟨ht, x, hx, hne⟩ := parse_host_ok c.env henv u _ (by simpa using h5)
      exact fun _ => ⟨by rw [hx]; exact Option.some_ne_none _,
        fun _ => by rw [hx]; simpa using hne⟩
  · -- PORT
    unfold state_PORT state_PATH_START at h
    simp only [] at h
    have := parse_port_host u (List.drop p c.url_data) true
    split_ifs at h <;> cases h <;> simp only [host_invariant] <;>
      exact host_ok_of_eq u _ hI this.1 this.2
  · -- PATH_START
    unfold state_PATH_START at h
    split_ifs at h <;> cases h <;> simp only [host_invariant] <;> exact hI
  · -- PATH
    unfold state_PATH at h
    simp only [] at h
    repeat' split at h
    all_goals cases h
    all_goals simp only [host_invariant]
    all_goals first
      | exact hI
      | exact host_ok_of_eq u _ hI rfl rfl
  · -- OPAQUE_PATH
    unfold state_OPAQUE_PATH at h
    simp only [] at h
    split at h <;> cases h <;> simp only [host_invariant] <;>
      exact host_ok_of_eq u _ hI rfl rfl
  · -- QUERY
    unfold state_QUERY at h
    split_ifs at h <;> cases h

theorem host_step_next (c : context) (henv : host_parse_nonempty c.env)
    (hbase : base_host_ok c.base_url) (m m1 : machine)
    (hI : host_invariant c m) (hp : m.input_position ≤ c.input_size)
    (h : step c m = outcome.next m1) : host_invariant c m1 := by
  cases hst : m.state
  case RELATIVE_SCHEME => exact host_step_relative c m m1 hbase hI hp (Or.inl hst) h
  case RELATIVE_SLASH => exact host_step_relative c m m1 hbase hI hp (Or.inr hst) h
  case FILE => exact host_step_file c m m1 henv hbase hI hp (Or.inl hst) h
  case FILE_SLASH => exact host_step_file c m m1 henv hbase hI hp (Or.inr (Or.inl hst)) h
  case FILE_HOST => exact host_step_file c m m1 henv hbase hI hp (Or.inr (Or.inr hst)) h
  case AUTHORITY => exact host_step_late c m m1 henv hI hp (by simp [hst]) h
  case HOST => exact host_step_late c m m1 henv hI hp (by simp [hst]) h
  case PORT => exact host_step_late c m m1 henv hI hp (by simp [hst]) h
  case PATH_START => exact host_step_late c m m1 henv hI hp (by simp [hst]) h
  case PATH => exact host_step_late c m m1 henv hI hp (by simp [hst]) h
  case OPAQUE_PATH => exact host_step_late c m m1 henv hI hp (by simp [hst]) h
  case QUERY => exact host_step_late c m m1 henv hI hp (by simp [hst]) h
  all_goals exact host_step_early c m m1 hI hp (by simp [hst]) h

theorem host_step_returned (c : context) (hbase : base_host_ok c.base_url) (m : machine)
    (u1 : url) (hI : host_invariant c m) (hp : m.input_position ≤ c.input_size)
    (h : step c m = outcome.returned u1) (hv : u1.is_valid = true) : host_ok u1 := by
  obtain ⟨st, u, p⟩ := m
  simp only at hp
  cases st <;> simp only [step] at h <;> simp only [host_invariant] at hI
  case AUTHORITY =>
    unfold state_AUTHORITY at h
    split_ifs at h
    have := (authority_loop_position c _ u p false false hp).2 u1 h
    rw [hv] at this
    cases this
  case PORT =>
    unfold state_PORT state_PATH_START at h
    simp only [] at h
    have := parse_port_host u (List.drop p c.url_data) true
    split_ifs at h <;> cases h
    · simp_all
    · exact host_ok_of_eq u _ hI ((attach_fragment_host c _).1.trans this.1)
        ((attach_fragment_host c _).2.trans this.2)
    · exact host_ok_of_eq u _ hI this.1 this.2
  case HOST =>
    unfold state_HOST at h
    simp only [] at h
    have := parse_host_fail u c.env
      (List.take (get_host_delimiter_location u.is_special (List.drop p c.url_data)).1
        (List.drop p c.url_data))
    split_ifs at h <;> cases h <;> simp_all
  case SCHEME =>
    unfold state_SCHEME at h
    simp only [parse_scheme_ok, Bool.not_true, Bool.false_eq_true, if_false] at h
    split_ifs at h <;> cases h
  case FILE_HOST =>
    unfold state_FILE_HOST at h
    simp only [] at h
    have := parse_host_fail u c.env (List.take (find_first
      (fun ch => ch == '/' || ch == '\\' || ch == '?') (List.drop p c.url_data))
      (List.drop p c.url_data))
    split_ifs at h <;> cases h <;> simp_all
  case NO_SCHEME =>
    unfold state_NO_SCHEME at h
    cases hb : c.base_url with
    | none => rw [hb] at h; cases h; simp at hv
    | some b =>
      rw [hb] at h
      simp only [] at h
      split_ifs at h with h1 h2 <;> cases h
      · simp at hv
      · refine host_ok_not_special _ ?_
        rw [(attach_fragment_host c _).1]
        simp only [Bool.and_eq_true] at h2
        have hop := h2.1.1
        by_contra hn
        have := (hbase b hb).2 hn
        rw [hop] at this
        cases this
  case QUERY =>
    unfold state_QUERY at h
    simp only [] at h
    split_ifs at h <;> cases h <;> first
      | exact hI
      | exact host_ok_of_eq u _ hI (attach_fragment_host c _).1 (attach_fragment_host c _).2
  case PATH_START =>
    unfold state_PATH_START at h
    split_ifs at h <;> cases h
    · exact host_ok_of_eq u _ hI (attach_fragment_host c _).1 (attach_fragment_host c _).2
    · exact hI
  all_goals
    simp only [state_SCHEME_START, state_SPECIAL_RELATIVE_OR_AUTHORITY,
      state_PATH_OR_AUTHORITY, state_RELATIVE_SCHEME, state_RELATIVE_SLASH,
      state_SPECIAL_AUTHORITY_SLASHES, state_SPECIAL_AUTHORITY_IGNORE_SLASHES,
      state_OPAQUE_PATH, state_PATH, state_FILE_SLASH, state_FILE] at h
    repeat' split at h
    all_goals cases h

theorem host_exit (c : context) (m : machine) (hI : host_invariant c m)
    (hp : c.input_size < m.input_position) : host_ok (store_fragment c m.url) := by
  have key : host_ok m.url := by
    obtain ⟨st, u, p⟩ := m
    simp only at hp
    cases st <;> simp only [host_invariant] at hI
    case FILE_SLASH => exact host_ok_file _ hI.1 hI.2
    case FILE_HOST => exact host_ok_file _ hI.1 hI.2
    case RELATIVE_SCHEME => exact hI.resolve_left (by omega)
    case FILE => exact hI.resolve_left (by omega)
    case PATH_OR_AUTHORITY => exact absurd hI.1 (by omega)
    case RELATIVE_SLASH => exact absurd hI.1 (by omega)
    case PORT => exact hI
    case PATH_START => exact hI
    case PATH => exact hI
    case QUERY => exact hI
    case OPAQUE_PATH => exact hI
    all_goals exact absurd hI (by omega)
  exact host_ok_of_eq _ _ key (store_fragment_host c _).1 (store_fragment_host c _).2

theorem sample_host_parse_nonempty : host_parse_nonempty sample_env := by
  intro b v h hp
  simp only [sample_env, sample_parse_host] at hp
  split_ifs at hp with h1 h2
  · cases hp
    simpa using h1
  · cases hp
    simpa using h1

theorem base_host_ok_none : base_host_ok none := by
  intro b hb
  cases hb

/-- Invariant 2 of the data model away from the drive-letter branch of the
file state: for every input and every base that is absent, or that satisfies
invariant 2 and has no opaque path when its scheme is special, if `parse_url`
succeeds and the scheme of the result is special, then the host of the result
is present, and it is not the empty string unless the scheme is `file` (given
that the host parser stores no empty host).  A special base with an opaque
path is what that branch alone produces. -/
theorem special_scheme_has_host (env : environment) (input : List Char) (base : Option url)
    (henv : host_parse_nonempty env) (hbase : base_host_ok base) (u : url)
    (h : parse_url env input base = some u) (hv : u.is_valid = true) :
    u.type ≠ scheme_type.NOT_SPECIAL →
      u.host ≠ none ∧ (u.type ≠ scheme_type.FILE → u.host ≠ some []) := by
  unfold parse_url at h
  by_cases hlen : input.length ≤ 4294967295
  · rw [parse_url_impl_small env true input base hlen] at h
    split_ifs at h
    · exact run_invariant (parse_context env true input base) (host_invariant _)
        (fun u => u.is_valid = true → host_ok u)
        (fun m m1 hI hp hs => host_step_next _ henv hbase m m1 hI hp hs)
        (fun m u1 hI hp hs hv1 => host_step_returned _ hbase m u1 hI hp hs hv1)
        (fun m hI hp _ => host_exit _ m hI hp)
        loop_bound ⟨state.SCHEME_START, initial_url, 0⟩ u (Nat.zero_le _) h hv
    · cases h
      cases hv
  · rw [parse_url_impl_oversized env true input base (by omega)] at h
    cases h
    cases hv

theorem special_scheme_has_host_witness :
    (host_parse_nonempty sample_env ∧ base_host_ok (some sample_base) ∧
      parse_url sample_env ['/', 'x'] (some sample_base) =
        some ⟨true, false, scheme_type.HTTP, [], [], [], some ['h'], none, ['/', 'x'], none,
          none⟩) ∧
    (scheme_type.HTTP ≠ scheme_type.NOT_SPECIAL →
      some ['h'] ≠ none ∧ (scheme_type.HTTP ≠ scheme_type.FILE → some ['h'] ≠ some [])) :=
  ⟨⟨sample_host_parse_nonempty,
      fun b hb => by cases hb; exact ⟨fun _ => ⟨by decide, fun _ => by decide⟩, fun _ => rfl⟩,
      by decide⟩,
    special_scheme_has_host sample_env ['/', 'x'] (some sample_base) sample_host_parse_nonempty
      (fun b hb => by cases hb; exact ⟨fun _ => ⟨by decide, fun _ => by decide⟩, fun _ => rfl⟩)
      ⟨true, false, scheme_type.HTTP, [], [], [], some ['h'], none, ['/', 'x'], none, none⟩
      (by decide) rfl⟩

/-- C18, at the failing input. Special schemes always have a host, yet `#f`
parsed against the record of `C|/x` against `file:///` gives a valid `file`
record without a host.  The base is what the parser returns for `C|/x`
against `file:///`: a valid `file` record with an empty host, which satisfies
the property, and with `has_opaque_path` set by the drive-letter branch of
the file state; for a base with that flag the no-scheme state copies the
scheme, the path and the query of the base and not its host. -/
theorem file_fragment_reference_without_host :
    parse_url sample_env ['f', 'i', 'l', 'e', ':', '/', '/', '/'] none = some sample_base_file ∧
    parse_url sample_env ['C', '|', '/', 'x'] (some sample_base_file) = some sample_base_drive ∧
    host_parse_nonempty sample_env ∧
    sample_base_drive.is_valid = true ∧ host_ok sample_base_drive ∧
    ∃ u, parse_url sample_env ['#', 'f'] (some sample_base_drive) = some u ∧
      u.is_valid = true ∧ u.type = scheme_type.FILE ∧ u.host = none ∧ ¬ host_ok u := by
  refine ⟨by decide, by decide, sample_host_parse_nonempty, rfl,
    fun _ => ⟨by decide, fun h => absurd rfl h⟩, _, rfl, by decide, by decide, by decide, ?_⟩
  intro h
  exact (h (by decide)).1 (by decide)

/-! ## C19: file URLs have no credentials and no port -/

theorem parse_scheme_frame (u : url) (v : List Char) :
    (u.parse_scheme v).2.username = u.username ∧ (u.parse_scheme v).2.password = u.password ∧
      (u.parse_scheme v).2.port = u.port := by
  unfold url.parse_scheme
  simp only []
  split_ifs <;> exact ⟨rfl, rfl, rfl⟩

theorem parse_host_frame (u : url) (env : environment) (v : List Char) :
    (u.parse_host env v).2.type = u.type ∧ (u.parse_host env v).2.username = u.username ∧
      (u.parse_host env v).2.password = u.password ∧ (u.parse_host env v).2.port = u.port := by
  unfold url.parse_host
  split <;> exact ⟨rfl, rfl, rfl, rfl⟩

theorem attach_fragment_frame (c : context) (u : url) :
    (attach_fragment c u).type = u.type ∧ (attach_fragment c u).username = u.username ∧
      (attach_fragment c u).password = u.password ∧ (attach_fragment c u).port = u.port := by
  unfold attach_fragment
  split <;> exact ⟨rfl, rfl, rfl, rfl⟩

theorem store_fragment_frame (c : context) (u : url) :
    (store_fragment c u).type = u.type ∧ (store_fragment c u).username = u.username ∧
      (store_fragment c u).password = u.password ∧ (store_fragment c u).port = u.port := by
  unfold store_fragment
  split_ifs
  · exact attach_fragment_frame c u
  · exact ⟨rfl, rfl, rfl, rfl⟩

/-- The loop of the authority state leaves the scheme type alone. -/
theorem authority_loop_type (c : context) (fuel : Nat) :
    ∀ (u : url) (p : Nat) (a b : Bool),
      (∀ m1, authority_loop c fuel u p a b = outcome.next m1 → m1.url.type = u.type) ∧
      (∀ u1, authority_loop c fuel u p a b = outcome.returned u1 → u1.type = u.type) := by
  induction fuel with
  | zero => intro u p a b; simp [authority_loop]
  | succ n ih =>
    intro u p a b
    rw [authority_loop]
    simp only []
    have e : ∀ v b2, (authority_append_view c (authority_prepend_at u a b) v b2).type = u.type :=
      fun v b2 => (authority_append_view_host c _ v b2).1.trans (authority_prepend_at_host u a b).1
    split_ifs <;> first
      | (obtain ⟨h1, h2⟩ := ih (authority_append_view c (authority_prepend_at u a b) _ b) _ true _
         exact ⟨fun m1 h => (h1 m1 h).trans (e _ _), fun u1 h => (h2 u1 h).trans (e _ _)⟩)
      | exact ih _ _ _ _
      | (refine ⟨fun m1 h => ?_, fun u1 h => ?_⟩ <;> cases h <;> first
          | rfl
          | exact (store_fragment_frame c _).1
          | exact (store_fragment_frame c _).1.trans (e _ _))

theorem file_step_next (c : context) (m m1 : machine) (hI : file_invariant c m)
    (h : step c m = outcome.next m1) : file_invariant c m1 := by
  obtain ⟨st, u, p⟩ := m
  cases st <;> simp only [step] at h <;> simp only [file_invariant] at hI
  case AUTHORITY =>
    unfold state_AUTHORITY at h
    split_ifs at h
    · cases h; exact hI
    · have h1 := authority_loop_continue c _ _ _ _ _ _ h
      have h2 := (authority_loop_type c _ u p false false).1 m1 h
      obtain ⟨st1, u1, p1⟩ := m1
      simp only at h1 h2
      subst h1
      simp only [file_invariant]
      rw [h2]; exact hI
  case PORT =>
    unfold state_PORT state_PATH_START at h
    simp only [] at h
    have := (parse_port_host u (List.drop p c.url_data) true).1
    split_ifs at h <;> cases h <;> simp only [file_invariant] <;>
      exact fun hf => absurd (this.symm.trans hf) hI
  case HOST =>
    unfold state_HOST at h
    simp only [] at h
    have := (parse_host_frame u c.env
      (List.take (get_host_delimiter_location u.is_special (List.drop p c.url_data)).1
        (List.drop p c.url_data))).1
    split_ifs at h <;> cases h <;> simp only [file_invariant] <;> first
      | (rw [this]; exact hI)
      | exact fun hf => absurd (this.symm.trans hf) hI
      | exact fun hf => absurd hf hI
  case SCHEME =>
    unfold state_SCHEME at h
    simp only [parse_scheme_ok, Bool.not_true, Bool.false_eq_true, if_false] at h
    have hfr := parse_scheme_frame u
      (List.take (skip_while is_alnum_plus c.url_data p) c.url_data)
    split_ifs at h with h1 h2 h3 h4 h5 <;> cases h <;> simp only [file_invariant]
    · exact ⟨hfr.1.trans hI.1.1, hfr.2.1.trans hI.1.2.1, hfr.2.2.trans hI.1.2.2⟩
    · refine ⟨by simpa using h2, fun b hb => ?_⟩
      simp only [Bool.and_eq_true, beq_iff_eq] at h3
      rw [hb] at h3
      simp only [Option.map_some', Option.some.injEq] at h3
      rw [h3.2]
      simpa using h2
    · simpa using h2
    · simpa using h2
    · exact fun hf => absurd hf (by simpa using h2)
    · exact hI
  case FILE_HOST =>
    unfold state_FILE_HOST at h
    simp only [] at h
    have hfr := parse_host_frame u c.env (List.take (find_first
      (fun ch => ch == '/' || ch == '\\' || ch == '?') (List.drop p c.url_data))
      (List.drop p c.url_data))
    split_ifs at h <;> cases h <;> simp only [file_invariant] <;> first
      | exact fun _ => hI
      | exact fun _ => ⟨hfr.2.1.trans hI.1, hfr.2.2.1.trans hI.2.1, hfr.2.2.2.trans hI.2.2⟩
  case NO_SCHEME =>
    unfold state_NO_SCHEME at h
    cases hb : c.base_url with
    | none => rw [hb] at h; cases h
    | some b =>
      rw [hb] at h
      simp only [] at h
      split_ifs at h with h1 h2 h3 <;> cases h <;> simp only [file_invariant]
      · exact ⟨hI.2, fun b2 hb2 => by rw [hb] at hb2; cases hb2; simpa using h3⟩
      · exact hI.1
  case RELATIVE_SCHEME =>
    unfold state_RELATIVE_SCHEME at h
    cases hb : c.base_url with
    | none => rw [hb] at h; cases h
    | some b =>
      rw [hb] at h
      simp only [] at h
      have hbt := hI.2 b hb
      split_ifs at h <;> cases h <;> simp only [file_invariant] <;> first
        | exact hbt
        | exact fun hf => absurd hf hbt
        | exact ⟨hbt, hI.2⟩
  case RELATIVE_SLASH =>
    unfold state_RELATIVE_SLASH at h
    cases hb : c.base_url with
    | none => rw [hb] at h; cases h
    | some b =>
      rw [hb] at h
      simp only [] at h
      split_ifs at h <;> cases h <;> simp only [file_invariant] <;> first
        | exact hI
        | exact fun hf => absurd hf hI
  case FILE =>
    unfold state_FILE at h
    simp only [] at h
    cases hb : c.base_url with
    | none =>
      rw [hb] at h
      simp only [] at h
      split_ifs at h <;> cases h <;> simp only [file_invariant] <;> first
        | exact hI
        | exact fun _ => hI
    | some b =>
      rw [hb] at h
      simp only [] at h
      split_ifs at h <;> cases h <;> simp only [file_invariant] <;> first
        | exact hI
        | exact fun _ => hI
  case FILE_SLASH =>
    unfold state_FILE_SLASH at h
    cases hb : c.base_url with
    | none =>
      rw [hb] at h
      simp only [] at h
      split_ifs at h <;> cases h <;> simp only [file_invariant] <;> first
        | exact hI
        | exact fun _ => hI
    | some b =>
      rw [hb] at h
      simp only [] at h
      split_ifs at h <;> cases h <;> simp only [file_invariant] <;> first
        | exact hI
        | exact fun _ => hI
  all_goals
    simp only [state_SCHEME_START, state_SPECIAL_RELATIVE_OR_AUTHORITY,
      state_PATH_OR_AUTHORITY, state_SPECIAL_AUTHORITY_SLASHES,
      state_SPECIAL_AUTHORITY_IGNORE_SLASHES, state_QUERY,
      state_OPAQUE_PATH, state_PATH_START, state_PATH] at h
    repeat' split at h
    all_goals cases h
    all_goals simp only [file_invariant]
    all_goals first
      | exact hI
      | exact hI.1
      | exact fun hf => absurd hf hI
      | exact fun hf => hI hf

theorem credentials_absent_of_eq (u u1 : url) (h : credentials_absent u)
    (h1 : u1.username = u.username) (h2 : u1.password = u.password) (h3 : u1.port = u.port) :
    credentials_absent u1 :=
  ⟨h1.trans h.1, h2.trans h.2.1, h3.trans h.2.2⟩

theorem file_frame_keeps (u u1 : url) (hI : u.type = scheme_type.FILE → credentials_absent u)
    (ht : u1.type = u.type) (h1 : u1.username = u.username) (h2 : u1.password = u.password)
    (h3 : u1.port = u.port) : u1.type = scheme_type.FILE → credentials_absent u1 :=
  fun hf => credentials_absent_of_eq u u1 (hI (ht.symm.trans hf)) h1 h2 h3

theorem file_step_returned (c : context) (m : machine) (u1 : url) (hI : file_invariant c m)
    (h : step c m = outcome.returned u1) :
    u1.type = scheme_type.FILE → credentials_absent u1 := by
  obtain ⟨st, u, p⟩ := m
  cases st <;> simp only [step] at h <;> simp only [file_invariant] at hI
  case AUTHORITY =>
    unfold state_AUTHORITY at h
    split_ifs at h
    have := (authority_loop_type c _ u p false false).2 u1 h
    exact fun hf => absurd (this.symm.trans hf) hI
  case PORT =>
    unfold state_PORT state_PATH_START at h
    simp only [] at h
    have := (parse_port_host u (List.drop p c.url_data) true).1
    split_ifs at h <;> cases h <;> first
      | exact fun hf => absurd (this.symm.trans hf) hI
      | exact fun hf => absurd (((attach_fragment_frame c _).1.symm.trans hf).symm.trans this).symm hI
  case HOST =>
    unfold state_HOST at h
    simp only [] at h
    have := (parse_host_frame u c.env
      (List.take (get_host_delimiter_location u.is_special (List.drop p c.url_data)).1
        (List.drop p c.url_data))).1
    split_ifs at h <;> cases h <;> first
      | exact fun hf => absurd (this.symm.trans hf) hI
      | exact fun hf => absurd hf hI
  case SCHEME =>
    unfold state_SCHEME at h
    simp only [parse_scheme_ok, Bool.not_true, Bool.false_eq_true, if_false] at h
    split_ifs at h <;> cases h
  case FILE_HOST =>
    unfold state_FILE_HOST at h
    simp only [] at h
    have hfr := parse_host_frame u c.env (List.take (find_first
      (fun ch => ch == '/' || ch == '\\' || ch == '?') (List.drop p c.url_data))
      (List.drop p c.url_data))
    split_ifs at h <;> cases h
    exact fun _ => credentials_absent_of_eq u _ hI hfr.2.1 hfr.2.2.1 hfr.2.2.2
  case NO_SCHEME =>
    unfold state_NO_SCHEME at h
    cases hb : c.base_url with
    | none => rw [hb] at h; cases h; exact fun _ => hI.1
    | some b =>
      rw [hb] at h
      simp only [] at h
      split_ifs at h <;> cases h
      · exact fun _ => hI.1
      · exact fun _ => credentials_absent_of_eq u _ hI.1 (attach_fragment_frame c _).2.1
          (attach_fragment_frame c _).2.2.1 (attach_fragment_frame c _).2.2.2
  case QUERY =>
    unfold state_QUERY at h
    simp only [] at h
    split_ifs at h <;> cases h <;> first
      | exact hI
      | exact file_frame_keeps u _ hI ((attach_fragment_frame c _).1.trans rfl)
          ((attach_fragment_frame c _).2.1.trans rfl)
          ((attach_fragment_frame c _).2.2.1.trans rfl)
          ((attach_fragment_frame c _).2.2.2.trans rfl)
  case PATH_START =>
    unfold state_PATH_START at h
    split_ifs at h <;> cases h <;> first
      | exact hI
      | exact file_frame_keeps u _ hI ((attach_fragment_frame c _).1.trans rfl)
          ((attach_fragment_frame c _).2.1.trans rfl)
          ((attach_fragment_frame c _).2.2.1.trans rfl)
          ((attach_fragment_frame c _).2.2.2.trans rfl)
  all_goals
    simp only [state_SCHEME_START, state_SPECIAL_RELATIVE_OR_AUTHORITY,
      state_PATH_OR_AUTHORITY, state_RELATIVE_SCHEME, state_RELATIVE_SLASH,
      state_SPECIAL_AUTHORITY_SLASHES, state_SPECIAL_AUTHORITY_IGNORE_SLASHES,
      state_OPAQUE_PATH, state_PATH, state_FILE_SLASH, state_FILE] at h
    repeat' split at h
    all_goals cases h

theorem file_exit (c : context) (m : machine) (hI : file_invariant c m) :
    (store_fragment c m.url).type = scheme_type.FILE →
      credentials_absent (store_fragment c m.url) := by
  intro hf
  have hty : m.url.type = scheme_type.FILE := (store_fragment_frame c _).1.symm.trans hf
  have key : credentials_absent m.url := by
    obtain ⟨st, u, p⟩ := m
    simp only at hty
    cases st <;> simp only [file_invariant] at hI <;> first
      | exact hI
      | exact hI.1
      | exact hI hty
      | exact absurd hty hI
      | exact absurd hty hI.1
  exact credentials_absent_of_eq _ _ key (store_fragment_frame c _).2.1
    (store_fragment_frame c _).2.2.1 (store_fragment_frame c _).2.2.2

/-- C19. File URLs never carry credentials or a port: for every input and
every base, whatever it holds, if `parse_url` returns a record with the scheme
`file` then its username and its password are empty and its port is absent:
the states of the authority, the port and the relative references, the only
ones that write or copy credentials or a port, are never entered with the
scheme `file`. -/
theorem file_without_credentials (env : environment) (input : List Char) (base : Option url)
    (u : url) (h : parse_url env input base = some u) (hf : u.type = scheme_type.FILE) :
    u.username = [] ∧ u.password = [] ∧ u.port = none := by
  unfold parse_url at h
  by_cases hlen : input.length ≤ 4294967295
  · rw [parse_url_impl_small env true input base hlen] at h
    split_ifs at h
    · exact run_invariant (parse_context env true input base) (file_invariant _)
        (fun u => u.type = scheme_type.FILE → credentials_absent u)
        (fun m m1 hI _ hs => file_step_next _ m m1 hI hs)
        (fun m u1 hI _ hs => file_step_returned _ m u1 hI hs)
        (fun m hI _ => file_exit _ m hI)
        loop_bound ⟨state.SCHEME_START, initial_url, 0⟩ u
        ⟨⟨rfl, rfl, rfl⟩, by decide⟩ h hf
    · cases h
      cases hf
  · rw [parse_url_impl_oversized env true input base (by omega)] at h
    cases h
    cases hf

theorem file_without_credentials_witness :
    (parse_url sample_env ['f', 'i', 'l', 'e', ':', '/', '/', '/', 'C', ':', '/', 'w'] none =
        some ⟨true, false, scheme_type.FILE, [], [], [], some [], none,
          ['/', 'C', ':', '/', 'w'], none, none⟩) ∧
      (([] : List Char) = [] ∧ ([] : List Char) = [] ∧ (none : Option Nat) = none) :=
  ⟨by decide,
    file_without_credentials sample_env ['f', 'i', 'l', 'e', ':', '/', '/', '/', 'C', ':', '/', 'w']
      none
      ⟨true, false, scheme_type.FILE, [], [], [], some [], none, ['/', 'C', ':', '/', 'w'], none,
        none⟩ (by decide) rfl⟩

/-! ## C20: serialization round trip -/

theorem parse_scheme_opaque_flag (u : url) (v : List Char) :
    (u.parse_scheme v).2.has_opaque_path = u.has_opaque_path := by
  unfold url.parse_scheme
  simp only []
  split_ifs <;> rfl

theorem parse_host_opaque_flag (u : url) (env : environment) (v : List Char) :
    (u.parse_host env v).2.has_opaque_path = u.has_opaque_path := by
  unfold url.parse_host
  split <;> rfl

theorem parse_port_opaque_flag (u : url) (v : List Char) (t : Bool) :
    (u.parse_port v t).2.has_opaque_path = u.has_opaque_path := by
  unfold url.parse_port
  simp only []
  split_ifs <;> rfl

theorem attach_fragment_opaque_flag (c : context) (u : url) :
    (attach_fragment c u).has_opaque_path = u.has_opaque_path ∧
      (attach_fragment c u).type = u.type := by
  unfold attach_fragment
  split <;> exact ⟨rfl, rfl⟩

theorem store_fragment_opaque_flag (c : context) (u : url) :
    (store_fragment c u).has_opaque_path = u.has_opaque_path ∧
      (store_fragment c u).type = u.type := by
  unfold store_fragment
  split_ifs
  · exact attach_fragment_opaque_flag c u
  · exact ⟨rfl, rfl⟩

theorem authority_prepend_at_opaque_flag (u : url) (a b : Bool) :
    (authority_prepend_at u a b).has_opaque_path = u.has_opaque_path := by
  unfold authority_prepend_at
  split_ifs <;> rfl

theorem authority_append_view_opaque_flag (c : context) (u : url) (v : List Char) (b : Bool) :
    (authority_append_view c u v b).has_opaque_path = u.has_opaque_path := by
  unfold authority_append_view
  split_ifs
  · split <;> rfl
  · rfl
  · rfl
  · rfl

/-- The loop of the authority state leaves the opaque-path flag alone. -/
theorem authority_loop_opaque_flag (c : context) (fuel : Nat) :
    ∀ (u : url) (p : Nat) (a b : Bool), u.has_opaque_path = false →
      (∀ m1, authority_loop c fuel u p a b = outcome.next m1 →
        m1.url.has_opaque_path = false) ∧
      (∀ u1, authority_loop c fuel u p a b = outcome.returned u1 →
        u1.has_opaque_path = false) := by
  induction fuel with
  | zero => intro u p a b _; simp [authority_loop]
  | succ n ih =>
    intro u p a b hu
    rw [authority_loop]
    simp only []
    have e : ∀ v b2, (authority_append_view c (authority_prepend_at u a b) v b2).has_opaque_path
        = false :=
      fun v b2 => (authority_append_view_opaque_flag c _ v b2).trans
        ((authority_prepend_at_opaque_flag u a b).trans hu)
    split_ifs <;> first
      | exact ih _ _ _ _ (e _ _)
      | exact ih _ _ _ _ hu
      | (refine ⟨fun m1 h => ?_, fun u1 h => ?_⟩ <;> cases h <;> first
          | exact hu
          | exact (store_fragment_opaque_flag c _).1.trans hu
          | exact (store_fragment_opaque_flag c _).1.trans (e _ _))

theorem opaque_step_next (c : context) (hb : c.base_url = none) (m m1 : machine)
    (hI : opaque_invariant m) (h : step c m = outcome.next m1) : opaque_invariant m1 := by
  obtain ⟨st, u, p⟩ := m
  cases st <;> simp only [step] at h <;> simp only [opaque_invariant] at hI
  case AUTHORITY =>
    unfold state_AUTHORITY at h
    split_ifs at h
    · cases h; exact hI
    · have h1 := authority_loop_continue c _ _ _ _ _ _ h
      have h2 := (authority_loop_opaque_flag c _ u p false false hI).1 m1 h
      obtain ⟨st1, u1, p1⟩ := m1
      simp only at h1 h2
      subst h1
      exact h2
  case PORT =>
    unfold state_PORT state_PATH_START at h
    simp only [] at h
    have := (parse_port_opaque_flag u (List.drop p c.url_data) true).trans hI
    split_ifs at h <;> cases h <;> simp only [opaque_invariant] <;> first
      | exact this
      | exact fun _ => this
  case HOST =>
    unfold state_HOST at h
    simp only [] at h
    have := (parse_host_opaque_flag u c.env
      (List.take (get_host_delimiter_location u.is_special (List.drop p c.url_data)).1
        (List.drop p c.url_data))).trans hI
    split_ifs at h <;> cases h <;> simp only [opaque_invariant] <;> first
      | exact this
      | exact hI
  case SCHEME =>
    unfold state_SCHEME at h
    simp only [parse_scheme_ok, Bool.not_true, Bool.false_eq_true, if_false] at h
    have := (parse_scheme_opaque_flag u
      (List.take (skip_while is_alnum_plus c.url_data p) c.url_data)).trans hI
    split_ifs at h with h1 h2 h3 h4 h5 <;> cases h <;> simp only [opaque_invariant] <;> first
      | exact this
      | exact hI
      | (simpa [url.is_special] using h4)
  case FILE_HOST =>
    unfold state_FILE_HOST at h
    simp only [] at h
    have := (parse_host_opaque_flag u c.env (List.take (find_first
      (fun ch => ch == '/' || ch == '\\' || ch == '?') (List.drop p c.url_data))
      (List.drop p c.url_data))).trans hI
    split_ifs at h <;> cases h <;> simp only [opaque_invariant] <;> first
      | exact this
      | exact hI
  case OPAQUE_PATH =>
    unfold state_OPAQUE_PATH at h
    simp only [] at h
    split at h <;> cases h <;> simp only [opaque_invariant]
    · intro hf
      rw [show (url.update_base_pathname { u with has_opaque_path := true } _).type = u.type
        from rfl, hI] at hf
      cases hf
    · exact hI
  all_goals
    simp only [state_SCHEME_START, state_NO_SCHEME, state_SPECIAL_RELATIVE_OR_AUTHORITY,
      state_PATH_OR_AUTHORITY, state_RELATIVE_SCHEME, state_RELATIVE_SLASH,
      state_SPECIAL_AUTHORITY_SLASHES, state_SPECIAL_AUTHORITY_IGNORE_SLASHES, state_QUERY,
      state_PATH_START, state_PATH, state_FILE_SLASH, state_FILE, hb] at h
    repeat' split at h
    all_goals cases h
    all_goals simp only [opaque_invariant]
    all_goals first
      | exact hI
      | exact fun _ => hI

theorem opaque_frame_keeps (u u1 : url)
    (hI : u.type = scheme_type.FILE → u.has_opaque_path = false)
    (ht : u1.type = u.type) (ho : u1.has_opaque_path = u.has_opaque_path) :
    u1.type = scheme_type.FILE → u1.has_opaque_path = false :=
  fun hf => ho.trans (hI (ht.symm.trans hf))

theorem opaque_step_returned (c : context) (hb : c.base_url = none) (m : machine) (u1 : url)
    (hI : opaque_invariant m) (h : step c m = outcome.returned u1) :
    u1.type = scheme_type.FILE → u1.has_opaque_path = false := by
  obtain ⟨st, u, p⟩ := m
  cases st <;> simp only [step] at h <;> simp only [opaque_invariant] at hI
  case AUTHORITY =>
    unfold state_AUTHORITY at h
    split_ifs at h
    exact fun _ => (authority_loop_opaque_flag c _ u p false false hI).2 u1 h
  case PORT =>
    unfold state_PORT state_PATH_START at h
    simp only [] at h
    have := (parse_port_opaque_flag u (List.drop p c.url_data) true).trans hI
    split_ifs at h <;> cases h <;> first
      | exact fun _ => this
      | exact fun _ => (attach_fragment_opaque_flag c _).1.trans this
  case HOST =>
    unfold state_HOST at h
    simp only [] at h
    have := (parse_host_opaque_flag u c.env
      (List.take (get_host_delimiter_location u.is_special (List.drop p c.url_data)).1
        (List.drop p c.url_data))).trans hI
    split_ifs at h <;> cases h <;> first
      | exact fun _ => this
      | exact fun _ => hI
  case SCHEME =>
    unfold state_SCHEME at h
    simp only [parse_scheme_ok, Bool.not_true, Bool.false_eq_true, if_false] at h
    split_ifs at h <;> cases h
  case FILE_HOST =>
    unfold state_FILE_HOST at h
    simp only [] at h
    have := (parse_host_opaque_flag u c.env (List.take (find_first
      (fun ch => ch == '/' || ch == '\\' || ch == '?') (List.drop p c.url_data))
      (List.drop p c.url_data))).trans hI
    split_ifs at h <;> cases h
    exact fun _ => this
  case NO_SCHEME =>
    unfold state_NO_SCHEME at h
    rw [hb] at h
    cases h
    exact fun _ => hI
  case QUERY =>
    unfold state_QUERY at h
    simp only [] at h
    split_ifs at h <;> cases h <;> first
      | exact hI
      | exact opaque_frame_keeps u _ hI ((attach_fragment_opaque_flag c _).2.trans rfl)
          ((attach_fragment_opaque_flag c _).1.trans rfl)
  case PATH_START =>
    unfold state_PATH_START at h
    split_ifs at h <;> cases h <;> first
      | exact fun _ => hI
      | exact fun _ => (attach_fragment_opaque_flag c _).1.trans hI
  all_goals
    simp only [state_SCHEME_START, state_SPECIAL_RELATIVE_OR_AUTHORITY,
      state_PATH_OR_AUTHORITY, state_RELATIVE_SCHEME, state_RELATIVE_SLASH,
      state_SPECIAL_AUTHORITY_SLASHES, state_SPECIAL_AUTHORITY_IGNORE_SLASHES,
      state_OPAQUE_PATH, state_PATH, state_FILE_SLASH, state_FILE, hb] at h
    repeat' split at h
    all_goals cases h

theorem opaque_exit (c : context) (m : machine) (hI : opaque_invariant m) :
    (store_fragment c m.url).type = scheme_type.FILE →
      (store_fragment c m.url).has_opaque_path = false := by
  intro hf
  have hty : m.url.type = scheme_type.FILE := (store_fragment_opaque_flag c _).2.symm.trans hf
  rw [(store_fragment_opaque_flag c _).1]
  obtain ⟨st, u, p⟩ := m
  simp only at hty
  cases st <;> simp only [opaque_invariant] at hI <;> first
    | exact hI
    | exact hI hty
    | (rw [hI] at hty; cases hty)

/-- With no base, a `file` record that the parser returns has no opaque
path. -/
theorem file_not_opaque_without_base (env : environment) (input : List Char) (u : url)
    (h : parse_url env input none = some u) (hf : u.type = scheme_type.FILE) :
    u.has_opaque_path = false := by
  unfold parse_url at h
  by_cases hlen : input.length ≤ 4294967295
  · rw [parse_url_impl_run env true input none hlen (by simp)] at h
    exact run_invariant _ opaque_invariant
      (fun u => u.type = scheme_type.FILE → u.has_opaque_path = false)
      (fun m m1 hI _ hs => opaque_step_next _ rfl m m1 hI hs)
      (fun m u1 hI _ hs => opaque_step_returned _ rfl m u1 hI hs)
      (fun m hI _ => opaque_exit _ m hI)
      loop_bound ⟨state.SCHEME_START, initial_url, 0⟩ u rfl h hf
  · rw [parse_url_impl_oversized env true input none (by omega)] at h
    cases h
    cases hf

/-- C20, at the failing input. The record that `C|/x` parses to against the
base `file:///` is valid, has the scheme `file` and `has_opaque_path` set; its
serialization is `file:///C:/x`, which parses with no base to a record with
`has_opaque_path = false`; and no input whatever parses with no base to that
record, since with no base a `file` record never has an opaque path. -/
theorem round_trip_fails_on_drive_letter_reference :
    parse_url sample_env ['f', 'i', 'l', 'e', ':', '/', '/', '/'] none = some sample_base_file ∧
    parse_url sample_env ['C', '|', '/', 'x'] (some sample_base_file) = some sample_base_drive ∧
    sample_base_drive.is_valid = true ∧
    href sample_base_drive = ['f', 'i', 'l', 'e', ':', '/', '/', '/', 'C', ':', '/', 'x'] ∧
    parse_url sample_env (href sample_base_drive) none =
      some { sample_base_drive with has_opaque_path := false } ∧
    parse_url sample_env (href sample_base_drive) none ≠ some sample_base_drive ∧
    ∀ (env : environment) (s : List Char), parse_url env s none ≠ some sample_base_drive := by
  refine ⟨by decide, by decide, rfl, by decide, by decide, by decide, ?_⟩
  intro env s h
  have := file_not_opaque_without_base env s sample_base_drive h rfl
  exact absurd this (by decide)

/-! ## C21: percent-encoding round trip -/

theorem hex_digit_is_hex (n : Nat) (h : n < 16) : is_ascii_hex_digit (hex_digit n) = true := by
  interval_cases n <;> decide

theorem hex_digit_value (n : Nat) (h : n < 16) : convert_hex_to_binary (hex_digit n) = n := by
  interval_cases n <;> decide

theorem byte_of_nibbles (c : Char) (h : c.toNat < 256) :
    Char.ofNat (c.toNat / 16 % 16 * 16 + c.toNat % 16) = c := by
  have h1 : c.toNat / 16 % 16 * 16 + c.toNat % 16 = c.toNat := by omega
  rw [h1]
  exact Char.ofNat_toNat c

theorem percent_decode_from_encode (b : List Char) (hb : ∀ c ∈ b, c.toNat < 256) :
    percent_decode_from (percent_encode b set_all) = b := by
  induction b with
  | nil => rfl
  | cons c cs ih =>
    have hc := hb c (List.mem_cons_self _ _)
    have ih1 := ih (fun x hx => hb x (List.mem_cons_of_mem _ hx))
    have e : percent_encode (c :: cs) set_all =
        '%' :: hex_digit (c.toNat / 16 % 16) :: hex_digit (c.toNat % 16) ::
          percent_encode cs set_all := rfl
    rw [e]
    unfold percent_decode_from
    simp only [if_true]
    rw [hex_digit_is_hex _ (Nat.mod_lt _ (by decide)), hex_digit_is_hex _ (Nat.mod_lt _ (by decide)),
      hex_digit_value _ (Nat.mod_lt _ (by decide)), hex_digit_value _ (Nat.mod_lt _ (by decide)),
      byte_of_nibbles c hc, ih1]
    rfl

theorem find_percent_encode (b : List Char) :
    find (percent_encode b set_all) '%' = if b = [] then none else some 0 := by
  cases b with
  | nil => rfl
  | cons c cs => rfl

theorem percent_decode_copies (input : List Char) (first_percent : Nat) :
    (percent_decode input (some first_percent)).take (min first_percent input.length) =
      input.take first_percent := by
  unfold percent_decode
  simp only
  rw [List.take_append_eq_append_take]
  simp [List.length_take]

/-- C21. Percent-encoding round trip (`percent_decode` modelled from the
specification): for every byte string `b`, decoding the encoding of `b` under
the character set that marks every byte, from the index of the first `%` of
the encoded string, gives `b` back.  More generally, `percent_decode` copies
the bytes before `first_percent`, and from there turns a `%` followed by two
hex digits into the byte they denote, keeps any other `%`, and copies any
other byte. -/
theorem percent_round_trip (b : List Char) (hb : ∀ c ∈ b, c.toNat < 256) :
    percent_decode (percent_encode b set_all) (find (percent_encode b set_all) '%') = b ∧
    (∀ (input : List Char) (first_percent : Nat),
      percent_decode input (some first_percent) =
        input.take first_percent ++ percent_decode_from (input.drop first_percent)) ∧
    (∀ (x y : Char) (rest : List Char),
      is_ascii_hex_digit x = true → is_ascii_hex_digit y = true →
      percent_decode_from ('%' :: x :: y :: rest) =
        Char.ofNat (convert_hex_to_binary x * 16 + convert_hex_to_binary y) ::
          percent_decode_from rest) ∧
    (∀ (rest : List Char),
      (∀ (x y : Char) (tail : List Char), rest = x :: y :: tail →
        (is_ascii_hex_digit x && is_ascii_hex_digit y) = false) →
      percent_decode_from ('%' :: rest) = '%' :: percent_decode_from rest) ∧
    (∀ (x : Char) (rest : List Char), x ≠ '%' →
      percent_decode_from (x :: rest) = x :: percent_decode_from rest) := by
  refine ⟨?_, fun _ _ => rfl, ?_, ?_, ?_⟩
  · rw [find_percent_encode]
    cases b with
    | nil => rfl
    | cons c cs =>
      simp only [percent_decode, List.take_zero, List.drop_zero, List.nil_append,
        if_neg (List.cons_ne_nil c cs)]
      exact percent_decode_from_encode _ hb
  · intro x y rest hx hy
    rw [percent_decode_from]
    simp [hx, hy]
  · intro rest h
    match rest, h with
    | [], _ => rfl
    | [_], _ => rfl
    | x :: y :: tail, h =>
      have h1 := h x y tail rfl
      rw [percent_decode_from]
      simp only [Bool.and_assoc, h1, Bool.and_false, Bool.false_eq_true, if_false]
  · intro x rest hx
    match rest with
    | [] => rfl
    | [_] => rfl
    | a :: b :: tail =>
      rw [percent_decode_from]
      simp [hx]

theorem percent_round_trip_witness :
    (∀ c ∈ ['a', '%', ' '], c.toNat < 256) ∧
    percent_encode ['a', '%', ' '] set_all =
      ['%', '6', '1', '%', '2', '5', '%', '2', '0'] ∧
    percent_decode (percent_encode ['a', '%', ' '] set_all)
      (find (percent_encode ['a', '%', ' '] set_all) '%') = ['a', '%', ' '] :=
  ⟨by decide, by decide, (percent_round_trip ['a', '%', ' '] (by decide)).1⟩

/-! ## C22: an invalid base -/

/-- C22. An invalid base makes every parse fail: for every environment,
every input and every base with `is_valid = false`, `parse_url` returns the
record it started from with `is_valid` cleared.  The result is the untouched
default record, the same for all inputs and all host parsers: the main loop
is not entered and no state is executed. -/
theorem invalid_base_fails (env : environment) (input : List Char) (b : url)
    (hb : b.is_valid = false) :
    parse_url env input (some b) = some { initial_url with is_valid := false } ∧
    (∀ u, parse_url env input (some b) = some u → u.is_valid = false) := by
  have h : parse_url env input (some b) = some { initial_url with is_valid := false } := by
    unfold parse_url parse_url_impl
    simp only [hb, Bool.and_false]
    by_cases hl : input.length > 4294967295
    · simp [hl, initial_url]
    · simp [hl, initial_url]
  refine ⟨h, ?_⟩
  intro u hu
  rw [h] at hu
  cases hu
  rfl

theorem invalid_base_fails_witness :
    ({ sample_base_file with is_valid := false } : url).is_valid = false ∧
    parse_url sample_env ['h', 't', 't', 'p', ':', '/', '/', 'a']
      (some { sample_base_file with is_valid := false }) =
      some { initial_url with is_valid := false } :=
  ⟨rfl, (invalid_base_fails sample_env ['h', 't', 't', 'p', ':', '/', '/', 'a']
    { sample_base_file with is_valid := false } rfl).1⟩

/-! ## C23: oversized input -/

/-- C23. Oversized input is rejected: for every environment, input and base,
when the input is longer than `2^32 - 1` bytes `parse_url` returns the default
record with `is_valid` cleared, whatever the base; and when it is not, the
length check has no effect: the result is the failure record only if the base
is invalid, and otherwise it is what the main loop computes from the cleaned
input. -/
theorem oversized_input_rejected (env : environment) (input : List Char) (base : Option url) :
    parse_url env input base =
      if 4294967295 < input.length then some { initial_url with is_valid := false }
      else if (match base with
          | some b => b.is_valid
          | none => true) = true then
        run (parse_context env true input base) loop_bound ⟨state.SCHEME_START, initial_url, 0⟩
      else some { initial_url with is_valid := false } := by
  by_cases hl : 4294967295 < input.length
  · rw [if_pos hl]
    exact parse_url_impl_oversized env true input base hl
  · rw [if_neg hl]
    exact parse_url_impl_small env true input base (by omega)

/-! ## The URL pattern constructor -/

theorem wildcard_defaults_eq (p : url_pattern_init) :
    wildcard_defaults p =
      ⟨some (pattern_source p.protocol), some (pattern_source p.username),
        some (pattern_source p.password), some (pattern_source p.hostname),
        some (pattern_source p.port), some (pattern_source p.pathname),
        some (pattern_source p.search), some (pattern_source p.hash), p.base_url⟩ := by
  have h : ∀ o : Option (List Char),
      (if o.isNone = true then some ['*'] else o) = some (pattern_source o) := by
    intro o
    cases o <;> rfl
  simp only [wildcard_defaults, h]

theorem clear_default_port_eq {component : Type} (env : pattern_environment component)
    (p : url_pattern_init) :
    clear_default_port env (wildcard_defaults p) =
      { wildcard_defaults p with port := some (port_source env p) } := by
  rw [wildcard_defaults_eq]
  unfold clear_default_port port_source
  simp only [value, Option.getD_some]
  by_cases h1 : env.is_special (pattern_source p.protocol) = true
  · by_cases h2 : to_string (env.get_special_port (pattern_source p.protocol)) =
        trim_c0_whitespace (pattern_source p.port)
    · simp [h1, h2]
    · simp [h1, h2]
  · simp [h1]

theorem compile_components_ok {component : Type} (env : pattern_environment component)
    (q : url_pattern_init) (options : Option url_pattern_options) (p : url_pattern component) :
    compile_components env q options = Except.ok p ↔
      env.compile (value q.protocol) canonicalizer.canonicalize_protocol env.DEFAULT =
        Except.ok p.protocol_component ∧
      env.compile (value q.username) canonicalizer.canonicalize_username env.DEFAULT =
        Except.ok p.username_component ∧
      env.compile (value q.password) canonicalizer.canonicalize_password env.DEFAULT =
        Except.ok p.password_component ∧
      (if env.is_ipv6_address (value q.hostname) then
        env.compile (value q.hostname) canonicalizer.canonicalize_ipv6_hostname env.DEFAULT
      else env.compile (value q.hostname) canonicalizer.canonicalize_hostname env.HOSTNAME) =
        Except.ok p.hostname_component ∧
      env.compile (value q.port) canonicalizer.canonicalize_port env.DEFAULT =
        Except.ok p.port_component ∧
      (if env.protocol_component_matches_special_scheme p.protocol_component then
        env.compile (value q.pathname) canonicalizer.canonicalize_pathname
          (copy_ignore_case env.PATHNAME options)
      else env.compile (value q.pathname) canonicalizer.canonicalize_opaque_pathname
          (copy_ignore_case env.DEFAULT options)) = Except.ok p.pathname_component ∧
      env.compile (value q.search) canonicalizer.canonicalize_search
        (copy_ignore_case env.DEFAULT options) = Except.ok p.search_component ∧
      env.compile (value q.hash) canonicalizer.canonicalize_hash
        (copy_ignore_case env.DEFAULT options) = Except.ok p.hash_component := by
  obtain ⟨p1, p2, p3, p4, p5, p6, p7, p8⟩ := p
  unfold compile_components
  cases h1 : env.compile (value q.protocol) canonicalizer.canonicalize_protocol env.DEFAULT with
  | error e => simp
  | ok c1 =>
  cases h2 : env.compile (value q.username) canonicalizer.canonicalize_username env.DEFAULT with
  | error e => simp
  | ok c2 =>
  cases h3 : env.compile (value q.password) canonicalizer.canonicalize_password env.DEFAULT with
  | error e => simp
  | ok c3 =>
  cases h4 : (if env.is_ipv6_address (value q.hostname) then
        env.compile (value q.hostname) canonicalizer.canonicalize_ipv6_hostname env.DEFAULT
      else env.compile (value q.hostname) canonicalizer.canonicalize_hostname env.HOSTNAME) with
  | error e => simp
  | ok c4 =>
  cases h5 : env.compile (value q.port) canonicalizer.canonicalize_port env.DEFAULT with
  | error e => simp
  | ok c5 =>
  simp only [Except.ok.injEq]
  by_cases hc : c1 = p1
  swap
  · have : ¬ (Except.ok c1 : Except errors component) = Except.ok p1 := by
      intro h
      exact hc (Except.ok.inj h)
    constructor
    · intro h
      exfalso
      revert h
      split
      · simp
      · split
        · simp
        · split
          · simp
          · intro h
            simp only [Except.ok.injEq, url_pattern.mk.injEq] at h
            exact hc h.1
    · intro h
      exact absurd h.1 hc
  subst hc
  cases h6 : (if env.protocol_component_matches_special_scheme c1 then
        env.compile (value q.pathname) canonicalizer.canonicalize_pathname
          (copy_ignore_case env.PATHNAME options)
      else env.compile (value q.pathname) canonicalizer.canonicalize_opaque_pathname
          (copy_ignore_case env.DEFAULT options)) with
  | error e => simp
  | ok c6 =>
  cases h7 : env.compile (value q.search) canonicalizer.canonicalize_search
        (copy_ignore_case env.DEFAULT options) with
  | error e => simp
  | ok c7 =>
  cases h8 : env.compile (value q.hash) canonicalizer.canonicalize_hash
        (copy_ignore_case env.DEFAULT options) with
  | error e => simp
  | ok c8 =>
  simp only [Except.ok.injEq, url_pattern.mk.injEq, true_and]

theorem digitChar_not_space (d : Nat) (h : d < 10) :
    is_c0_control_or_space (Nat.digitChar d) = false := by
  interval_cases d <;> decide

theorem toDigitsCore_not_space (fuel n : Nat) (ds : List Char)
    (h : ∀ c ∈ ds, is_c0_control_or_space c = false) :
    ∀ c ∈ Nat.toDigitsCore 10 fuel n ds, is_c0_control_or_space c = false := by
  induction fuel generalizing n ds with
  | zero => exact h
  | succ fuel ih =>
    have hd : ∀ c ∈ Nat.digitChar (n % 10) :: ds, is_c0_control_or_space c = false := by
      intro c hc
      rcases List.mem_cons.1 hc with rfl | hc
      · exact digitChar_not_space _ (Nat.mod_lt _ (by decide))
      · exact h c hc
    unfold Nat.toDigitsCore
    simp only
    split
    · exact hd
    · exact ih _ _ hd

theorem to_string_not_space (n : Nat) :
    ∀ c ∈ to_string n, is_c0_control_or_space c = false := by
  intro c hc
  have e : to_string n = Nat.toDigitsCore 10 (n + 1) n [] := rfl
  rw [e] at hc
  exact toDigitsCore_not_space _ _ [] (fun _ hx => absurd hx (List.not_mem_nil _)) c hc

theorem dropWhile_none {p : Char → Bool} (l : List Char) (h : ∀ c ∈ l, p c = false) :
    l.dropWhile p = l := by
  cases l with
  | nil => rfl
  | cons x xs => simp [List.dropWhile_cons, h x (List.mem_cons_self _ _)]

theorem trim_c0_whitespace_none (l : List Char)
    (h : ∀ c ∈ l, is_c0_control_or_space c = false) : trim_c0_whitespace l = l := by
  unfold trim_c0_whitespace
  rw [dropWhile_none l h, dropWhile_none l.reverse (fun c hc => h c (List.mem_reverse.1 hc)),
    List.reverse_reverse]

theorem trim_to_string (n : Nat) : trim_c0_whitespace (to_string n) = to_string n :=
  trim_c0_whitespace_none _ (to_string_not_space n)

/-- Whatever number `scheme::get_special_port` gives for a special protocol,
the port pattern that is its decimal text is replaced by the empty string. -/
theorem special_port_text_elided {component : Type} (env : pattern_environment component)
    (processed_init : url_pattern_init)
    (hs : env.is_special (pattern_source processed_init.protocol) = true)
    (hp : processed_init.port =
      some (to_string (env.get_special_port (pattern_source processed_init.protocol)))) :
    port_source env processed_init = [] := by
  unfold port_source
  rw [hp]
  have e : ∀ v : List Char, pattern_source (some v) = v := fun _ => rfl
  rw [e, trim_to_string]
  simp [hs]

theorem parse_url_pattern_impl_ok {component : Type}
    (env : pattern_environment component) (input : pattern_input)
    (base_url : Option (List Char)) (options : Option url_pattern_options)
    (init processed_init : url_pattern_init) (p : url_pattern component)
    (hi : pattern_init env input base_url = Except.ok init)
    (hp : env.process init = Except.ok processed_init) :
    parse_url_pattern_impl env input base_url options = Except.ok p ↔
      env.compile (pattern_source processed_init.protocol) canonicalizer.canonicalize_protocol
        env.DEFAULT = Except.ok p.protocol_component ∧
      env.compile (pattern_source processed_init.username) canonicalizer.canonicalize_username
        env.DEFAULT = Except.ok p.username_component ∧
      env.compile (pattern_source processed_init.password) canonicalizer.canonicalize_password
        env.DEFAULT = Except.ok p.password_component ∧
      (if env.is_ipv6_address (pattern_source processed_init.hostname) then
        env.compile (pattern_source processed_init.hostname)
          canonicalizer.canonicalize_ipv6_hostname env.DEFAULT
      else env.compile (pattern_source processed_init.hostname)
          canonicalizer.canonicalize_hostname env.HOSTNAME) =
        Except.ok p.hostname_component ∧
      env.compile (port_source env processed_init) canonicalizer.canonicalize_port
        env.DEFAULT = Except.ok p.port_component ∧
      (if env.protocol_component_matches_special_scheme p.protocol_component then
        env.compile (pattern_source processed_init.pathname) canonicalizer.canonicalize_pathname
          (copy_ignore_case env.PATHNAME options)
      else env.compile (pattern_source processed_init.pathname)
          canonicalizer.canonicalize_opaque_pathname
          (copy_ignore_case env.DEFAULT options)) = Except.ok p.pathname_component ∧
      env.compile (pattern_source processed_init.search) canonicalizer.canonicalize_search
        (copy_ignore_case env.DEFAULT options) = Except.ok p.search_component ∧
      env.compile (pattern_source processed_init.hash) canonicalizer.canonicalize_hash
        (copy_ignore_case env.DEFAULT options) = Except.ok p.hash_component := by
  unfold parse_url_pattern_impl
  rw [hi]
  simp only
  rw [hp]
  simp only
  rw [clear_default_port_eq, wildcard_defaults_eq, compile_components_ok]
  simp only [value, Option.getD_some]

/-! ## C24: a pattern string needs a protocol or a base -/

/-- C24. A pattern from a string needs a protocol or a base: for every
environment, string and options, an error of the constructor-string parser is
returned unchanged, whatever the base; and when the constructor-string parser
succeeds with an init that has no protocol and `base_url` is null,
`parse_url_pattern_impl` returns `errors::type_error`. -/
theorem pattern_string_needs_protocol_or_base {component : Type}
    (env : pattern_environment component) (s : List Char)
    (options : Option url_pattern_options) :
    (∀ (e : errors) (base_url : Option (List Char)),
      env.constructor_string_parse s = Except.error e →
      parse_url_pattern_impl env (pattern_input.string s) base_url options = Except.error e) ∧
    (∀ init : url_pattern_init,
      env.constructor_string_parse s = Except.ok init → init.protocol = none →
      parse_url_pattern_impl env (pattern_input.string s) none options =
        Except.error errors.type_error) := by
  constructor
  · intro e base_url h
    simp only [parse_url_pattern_impl, pattern_init, h]
  · intro init h hp
    simp only [parse_url_pattern_impl, pattern_init, h, hp, Option.isNone_none, Bool.and_self,
      if_true]

theorem pattern_string_needs_protocol_or_base_witness :
    (sample_pattern_env.constructor_string_parse [] = Except.error errors.type_error ∧
      parse_url_pattern_impl sample_pattern_env (pattern_input.string [])
        (some ['h', 't', 't', 'p', ':', '/', '/', 'a']) none =
        Except.error errors.type_error) ∧
    (sample_pattern_env.constructor_string_parse ['/', 'x'] =
        Except.ok { pathname := some ['/', 'x'] } ∧
      ({ pathname := some ['/', 'x'] } : url_pattern_init).protocol = none ∧
      parse_url_pattern_impl sample_pattern_env (pattern_input.string ['/', 'x']) none none =
        Except.error errors.type_error) :=
  ⟨⟨rfl, (pattern_string_needs_protocol_or_base sample_pattern_env [] none).1 _ _ rfl⟩,
    ⟨rfl, rfl, (pattern_string_needs_protocol_or_base sample_pattern_env ['/', 'x'] none).2 _
      rfl rfl⟩⟩

/-! ## C25: an init record rejects a base -/

/-- C25. A pattern from an init record rejects a base URL: for every
environment, every init record, every non-null `base_url` and all options,
`parse_url_pattern_impl` returns `errors::type_error`.  The error is that of
the first part of the function, before the init is processed and before any
component is compiled: it is the same whatever the processing and the
component compiler of the environment do. -/
theorem pattern_init_rejects_base {component : Type} (env : pattern_environment component)
    (i : url_pattern_init) (base_url : List Char) (options : Option url_pattern_options) :
    pattern_init env (pattern_input.init i) (some base_url) = Except.error errors.type_error ∧
    parse_url_pattern_impl env (pattern_input.init i) (some base_url) options =
      Except.error errors.type_error := by
  constructor
  · rfl
  · rfl

/-! ## C26: default port elision -/

/-- C26, at the failing input. With the protocol `file`, which is special and
for which `scheme::get_special_port` gives `0`, and the port pattern `0`,
`parse_url_pattern_impl` compiles the port component from the empty string and
not from `0`; and the same happens for the decimal text of whatever number the
lookup gives for `file`.  With the protocol `http` the port `80` is elided and
the port `0` is not. -/
theorem file_port_zero_elided :
    sample_pattern_env.is_special ['f', 'i', 'l', 'e'] = true ∧
    sample_pattern_env.get_special_port ['f', 'i', 'l', 'e'] = 0 ∧
    parse_url_pattern_impl sample_pattern_env
      (pattern_input.init { protocol := some ['f', 'i', 'l', 'e'], port := some ['0'] })
      none none =
      Except.ok
        ⟨⟨['f', 'i', 'l', 'e'], canonicalizer.canonicalize_protocol, {}⟩,
          ⟨['*'], canonicalizer.canonicalize_username, {}⟩,
          ⟨['*'], canonicalizer.canonicalize_password, {}⟩,
          ⟨['*'], canonicalizer.canonicalize_hostname, { delimiter_code_point := some '.' }⟩,
          ⟨[], canonicalizer.canonicalize_port, {}⟩,
          ⟨['*'], canonicalizer.canonicalize_pathname,
            { delimiter_code_point := some '/', prefix_code_point := some '/' }⟩,
          ⟨['*'], canonicalizer.canonicalize_search, {}⟩,
          ⟨['*'], canonicalizer.canonicalize_hash, {}⟩⟩ ∧
    (∀ n : Nat,
      parse_url_pattern_impl { sample_pattern_env with get_special_port := fun _ => n }
        (pattern_input.init
          { protocol := some ['f', 'i', 'l', 'e'], port := some (to_string n) })
        none none =
        Except.ok
          ⟨⟨['f', 'i', 'l', 'e'], canonicalizer.canonicalize_protocol, {}⟩,
            ⟨['*'], canonicalizer.canonicalize_username, {}⟩,
            ⟨['*'], canonicalizer.canonicalize_password, {}⟩,
            ⟨['*'], canonicalizer.canonicalize_hostname, { delimiter_code_point := some '.' }⟩,
            ⟨[], canonicalizer.canonicalize_port, {}⟩,
            ⟨['*'], canonicalizer.canonicalize_pathname,
              { delimiter_code_point := some '/', prefix_code_point := some '/' }⟩,
            ⟨['*'], canonicalizer.canonicalize_search, {}⟩,
            ⟨['*'], canonicalizer.canonicalize_hash, {}⟩⟩) ∧
    (parse_url_pattern_impl sample_pattern_env
      (pattern_input.init { protocol := some ['h', 't', 't', 'p'], port := some ['8', '0'] })
      none none).toOption.map (fun p => p.port_component.pattern) = some [] ∧
    (parse_url_pattern_impl sample_pattern_env
      (pattern_input.init { protocol := some ['h', 't', 't', 'p'], port := some ['0'] })
      none none).toOption.map (fun p => p.port_component.pattern) = some ['0'] := by
  refine ⟨rfl, rfl, rfl, ?_, by decide, by decide⟩
  intro n
  refine (parse_url_pattern_impl_ok
    { sample_pattern_env with get_special_port := fun _ => n }
    (pattern_input.init { protocol := some ['f', 'i', 'l', 'e'], port := some (to_string n) })
    none none
    { protocol := some ['f', 'i', 'l', 'e'], port := some (to_string n) }
    { protocol := some ['f', 'i', 'l', 'e'], port := some (to_string n) } _ rfl rfl).2
    ⟨rfl, rfl, rfl, rfl, ?_, rfl, rfl, rfl⟩
  rw [special_port_text_elided _ _ rfl rfl]
  rfl

/-! ## C27: missing components are wildcards -/

/-- C27. Missing pattern components are full wildcards: when the input gives
the init record `init` and processing it gives `processed_init`,
`parse_url_pattern_impl` returns the pattern `p` exactly when each of the
eight components of `p` is the result of compiling the pattern string of its
member of `processed_init`: `*` when the member has no value and the value
(the empty string included) when it has one, and for the port the string that
the default port rule makes of it. -/
theorem missing_components_are_wildcards {component : Type}
    (env : pattern_environment component) (input : pattern_input)
    (base_url : Option (List Char)) (options : Option url_pattern_options)
    (init processed_init : url_pattern_init) (p : url_pattern component)
    (hi : pattern_init env input base_url = Except.ok init)
    (hp : env.process init = Except.ok processed_init) :
    parse_url_pattern_impl env input base_url options = Except.ok p ↔
      env.compile (pattern_source processed_init.protocol) canonicalizer.canonicalize_protocol
        env.DEFAULT = Except.ok p.protocol_component ∧
      env.compile (pattern_source processed_init.username) canonicalizer.canonicalize_username
        env.DEFAULT = Except.ok p.username_component ∧
      env.compile (pattern_source processed_init.password) canonicalizer.canonicalize_password
        env.DEFAULT = Except.ok p.password_component ∧
      (if env.is_ipv6_address (pattern_source processed_init.hostname) then
        env.compile (pattern_source processed_init.hostname)
          canonicalizer.canonicalize_ipv6_hostname env.DEFAULT
      else env.compile (pattern_source processed_init.hostname)
          canonicalizer.canonicalize_hostname env.HOSTNAME) =
        Except.ok p.hostname_component ∧
      env.compile (port_source env processed_init) canonicalizer.canonicalize_port
        env.DEFAULT = Except.ok p.port_component ∧
      (if env.protocol_component_matches_special_scheme p.protocol_component then
        env.compile (pattern_source processed_init.pathname) canonicalizer.canonicalize_pathname
          (copy_ignore_case env.PATHNAME options)
      else env.compile (pattern_source processed_init.pathname)
          canonicalizer.canonicalize_opaque_pathname
          (copy_ignore_case env.DEFAULT options)) = Except.ok p.pathname_component ∧
      env.compile (pattern_source processed_init.search) canonicalizer.canonicalize_search
        (copy_ignore_case env.DEFAULT options) = Except.ok p.search_component ∧
      env.compile (pattern_source processed_init.hash) canonicalizer.canonicalize_hash
        (copy_ignore_case env.DEFAULT options) = Except.ok p.hash_component :=
  parse_url_pattern_impl_ok env input base_url options init processed_init p hi hp

theorem missing_components_are_wildcards_witness :
    pattern_init sample_pattern_env
      (pattern_input.init { protocol := some ['d', 'a', 't', 'a'], hostname := some [] })
      none = Except.ok { protocol := some ['d', 'a', 't', 'a'], hostname := some [] } ∧
    sample_pattern_env.process { protocol := some ['d', 'a', 't', 'a'], hostname := some [] } =
      Except.ok { protocol := some ['d', 'a', 't', 'a'], hostname := some [] } ∧
    parse_url_pattern_impl sample_pattern_env
      (pattern_input.init { protocol := some ['d', 'a', 't', 'a'], hostname := some [] })
      none (some ⟨true⟩) =
      Except.ok
        ⟨⟨['d', 'a', 't', 'a'], canonicalizer.canonicalize_protocol, {}⟩,
          ⟨['*'], canonicalizer.canonicalize_username, {}⟩,
          ⟨['*'], canonicalizer.canonicalize_password, {}⟩,
          ⟨[], canonicalizer.canonicalize_hostname, { delimiter_code_point := some '.' }⟩,
          ⟨['*'], canonicalizer.canonicalize_port, {}⟩,
          ⟨['*'], canonicalizer.canonicalize_opaque_pathname, { ignore_case := true }⟩,
          ⟨['*'], canonicalizer.canonicalize_search, { ignore_case := true }⟩,
          ⟨['*'], canonicalizer.canonicalize_hash, { ignore_case := true }⟩⟩ :=
  ⟨rfl, rfl,
    (missing_components_are_wildcards sample_pattern_env
      (pattern_input.init { protocol := some ['d', 'a', 't', 'a'], hostname := some [] })
      none (some ⟨true⟩) _ _ _ rfl rfl).2 ⟨rfl, rfl, rfl, rfl, rfl, rfl, rfl, rfl⟩⟩

/-! ## C28: the cursor -/

theorem authority_loop_cursor (c : context) (fuel : Nat) (u : url) (p : Nat) (a b : Bool)
    (m1 : machine) (h : authority_loop c fuel u p a b = outcome.next m1) :
    p ≤ m1.input_position := by
  induction fuel generalizing u p a b with
  | zero => simp [authority_loop] at h
  | succ n ih =>
    unfold authority_loop at h
    simp only [] at h
    split_ifs at h <;> first
      | exact Nat.le_trans (by omega) (ih _ _ _ _ h)
      | (cases h; exact Nat.le_refl _)

theorem step_cursor (c : context) (m m1 : machine) (hp : m.input_position ≤ c.input_size)
    (h : step c m = outcome.next m1) :
    m.input_position ≤ m1.input_position ∨
      (m.state = state.SCHEME ∧ m1.state = state.NO_SCHEME ∧ m1.input_position = 0) := by
  obtain ⟨st, u, p⟩ := m
  cases st <;> simp only [step] at h
  case AUTHORITY =>
    unfold state_AUTHORITY at h
    split_ifs at h
    · cases h; simp
    · exact Or.inl (authority_loop_cursor c _ _ _ _ _ _ h)
  case PORT =>
    unfold state_PORT state_PATH_START at h
    simp only [] at h
    split_ifs at h <;> cases h <;> simp at hp ⊢ <;> omega
  all_goals
    simp only [state_SCHEME_START, state_SCHEME, state_NO_SCHEME, state_SPECIAL_RELATIVE_OR_AUTHORITY,
      state_PATH_OR_AUTHORITY, state_RELATIVE_SCHEME, state_RELATIVE_SLASH,
      state_SPECIAL_AUTHORITY_SLASHES, state_SPECIAL_AUTHORITY_IGNORE_SLASHES, state_QUERY,
      state_HOST, state_OPAQUE_PATH, state_PATH_START, state_PATH, state_FILE_SLASH,
      state_FILE_HOST, state_FILE] at h
    repeat' split at h
    all_goals cases h
    all_goals simp
    all_goals simp only [] at hp
    all_goals first | done | omega | (unfold skip_while; omega)

theorem advance_one (c : context) (m m1 : machine) (h : advance c 1 m = some m1) :
    m.input_position ≤ c.input_size ∧ step c m = outcome.next m1 := by
  unfold advance at h
  split_ifs at h with hp
  refine ⟨hp, ?_⟩
  cases hs : step c m with
  | returned u => rw [hs] at h; cases h
  | undefined => rw [hs] at h; cases h
  | next m2 =>
    rw [hs] at h
    simp only [advance, Option.some.injEq] at h
    rw [h]

theorem advance_cursor (c : context) (k : Nat) :
    ∀ (m m2 : machine), m.state.rank ≤ 10 → advance c k m = some m2 →
      m.input_position ≤ m2.input_position := by
  induction k with
  | zero =>
    intro m m2 _ h
    simp only [advance, Option.some.injEq] at h
    subst h
    exact Nat.le_refl _
  | succ k ih =>
    intro m m2 hr h
    unfold advance at h
    split_ifs at h with hp
    cases hs : step c m with
    | returned u => rw [hs] at h; cases h
    | undefined => rw [hs] at h; cases h
    | next m1 =>
      rw [hs] at h
      simp only at h
      have h1 : m.input_position ≤ m1.input_position := by
        rcases step_cursor c m m1 hp hs with h1 | ⟨h1, _⟩
        · exact h1
        · rw [h1] at hr
          simp [state.rank] at hr
      have h2 : m1.state.rank ≤ 10 := by
        rcases step_rank c m m1 hs with h2 | ⟨h2, _⟩
        · omega
        · rw [h2]
          exact hr
      exact Nat.le_trans h1 (ih m1 m2 h2 h)

/-- C28, amended. From one pass of the main loop to the next the cursor
`input_position` does not decrease, except in the pass of the state `SCHEME`
that finds no `:` after the scheme characters: it hands over to `NO_SCHEME`
and starts over with `input_position = 0`.  From a state other than
`SCHEME_START` and `SCHEME` the cursor is never lower after any number of
passes. -/
theorem cursor_monotone_except_start_over (c : context) (m m1 : machine)
    (h : advance c 1 m = some m1) :
    (m.input_position ≤ m1.input_position ∨
      (m.state = state.SCHEME ∧ m1.state = state.NO_SCHEME ∧ m1.input_position = 0)) ∧
    (∀ (k : Nat) (m2 : machine), m1.state ≠ state.SCHEME_START → m1.state ≠ state.SCHEME →
      advance c k m1 = some m2 → m1.input_position ≤ m2.input_position) := by
  obtain ⟨hp, hs⟩ := advance_one c m m1 h
  refine ⟨step_cursor c m m1 hp hs, ?_⟩
  intro k m2 h1 h2 hk
  refine advance_cursor c k m1 m2 ?_ hk
  revert h1 h2
  cases m1.state <;> simp [state.rank]

theorem cursor_monotone_except_start_over_witness :
    advance (parse_context sample_env true ['a', 'b'] (some sample_base_file)) 1
      ⟨state.SCHEME, initial_url, 1⟩ = some ⟨state.NO_SCHEME, initial_url, 0⟩ ∧
    ((1 ≤ 0 ∨ (state.SCHEME = state.SCHEME ∧ state.NO_SCHEME = state.NO_SCHEME ∧ 0 = 0)) ∧
      ∀ (k : Nat) (m2 : machine), state.NO_SCHEME ≠ state.SCHEME_START →
        state.NO_SCHEME ≠ state.SCHEME →
        advance (parse_context sample_env true ['a', 'b'] (some sample_base_file)) k
          ⟨state.NO_SCHEME, initial_url, 0⟩ = some m2 → 0 ≤ m2.input_position) :=
  ⟨by decide,
    cursor_monotone_except_start_over
      (parse_context sample_env true ['a', 'b'] (some sample_base_file))
      ⟨state.SCHEME, initial_url, 1⟩ ⟨state.NO_SCHEME, initial_url, 0⟩ (by decide)⟩

/-- C28, counterexample. On the input `ab` with the base `file:///`, the
first pass of the main loop (state `SCHEME_START`) moves `input_position` from
`0` to `1`, and the second pass (state `SCHEME`) finds no `:` and sets it back
to `0`: the cursor decreases during a run, which goes on to return a valid
record. -/
theorem cursor_decreases_on_start_over :
    advance (parse_context sample_env true ['a', 'b'] (some sample_base_file)) 1
      ⟨state.SCHEME_START, initial_url, 0⟩ = some ⟨state.SCHEME, initial_url, 1⟩ ∧
    advance (parse_context sample_env true ['a', 'b'] (some sample_base_file)) 2
      ⟨state.SCHEME_START, initial_url, 0⟩ = some ⟨state.NO_SCHEME, initial_url, 0⟩ ∧
    (⟨state.NO_SCHEME, initial_url, 0⟩ : machine).input_position <
      (⟨state.SCHEME, initial_url, 1⟩ : machine).input_position ∧
    parse_url sample_env ['a', 'b'] (some sample_base_file) =
      some ⟨true, false, scheme_type.FILE, [], [], [], some [], none, ['/', 'a', 'b'],
        none, none⟩ := by
  refine ⟨by decide, by decide, by decide, by decide⟩

/-! ## C29: the end of the authority scan -/

/-- C29, amended. In the loop of the AUTHORITY state, take an iteration whose
scan stops on a delimiter other than `@`: what is left to read is `A ++ t`,
the scanned view `A` has no `@` and no delimiter, and `t` is empty or begins
with `/`, `?`, or `\` for a special scheme.  If an `@` has been seen before
(`at_sign_seen`) and `A` is empty, the iteration returns the record with
`is_valid` cleared, and so does the main loop; in every other case the machine
moves to the state HOST with the cursor at the start of `A`. -/
theorem authority_failure_needs_at_sign (c : context) (fuel : Nat) (u : url) (p : Nat)
    (at_sign_seen password_token_seen : Bool) (A t : List Char) (h : at_rest c p (A ++ t))
    (hA : ∀ x ∈ A, x ≠ '@' ∧ is_authority_end u.is_special x = false)
    (ht : t = [] ∨ ∃ x r, t = x :: r ∧ is_authority_end u.is_special x = true) :
    authority_loop c (fuel + 1) u p at_sign_seen password_token_seen =
      (if at_sign_seen && A.isEmpty then outcome.returned { u with is_valid := false }
      else outcome.next ⟨state.HOST, u, p⟩) ∧
    ∀ (f : Nat) (m : machine), m.input_position ≤ c.input_size →
      step c m = authority_loop c (fuel + 1) u p at_sign_seen password_token_seen →
      run c (f + 1) m =
        if at_sign_seen && A.isEmpty then some { u with is_valid := false }
        else run c f ⟨state.HOST, u, p⟩ := by
  have key := authority_loop_last c fuel u p at_sign_seen password_token_seen A t h hA ht
  refine ⟨key, ?_⟩
  intro f m hp hs
  rw [run_succ, if_pos hp, hs, key]
  split_ifs <;> rfl

theorem authority_failure_needs_at_sign_witness :
    at_rest (parse_context sample_env true ['h', 't', 't', 'p', ':', '/', '/', 'u', '@', '/', 'x']
      none) 9 ([] ++ ['/', 'x']) ∧
    authority_loop (parse_context sample_env true
        ['h', 't', 't', 'p', ':', '/', '/', 'u', '@', '/', 'x'] none) (2 + 1)
      { type := scheme_type.HTTP, username := ['u'] } 9 true false =
      (if true && ([] : List Char).isEmpty then
        outcome.returned
          { ({ type := scheme_type.HTTP, username := ['u'] } : url) with is_valid := false }
      else outcome.next ⟨state.HOST, { type := scheme_type.HTTP, username := ['u'] }, 9⟩) :=
  ⟨⟨by decide, by decide⟩,
    (authority_failure_needs_at_sign
      (parse_context sample_env true ['h', 't', 't', 'p', ':', '/', '/', 'u', '@', '/', 'x'] none)
      2 { type := scheme_type.HTTP, username := ['u'] } 9 true false [] ['/', 'x']
      ⟨by decide, by decide⟩ (by simp) (Or.inr ⟨'/', ['x'], rfl, by decide⟩)).1⟩

/-- C29, counterexample. On the input `a:///x@y` the AUTHORITY state is
entered at position 4 and, as an `@` follows, runs its loop; the first scan
stops at once on the `/` at position 4, no `@` has been seen and the scanned
view is empty: the machine moves to HOST and `parse_url` returns a valid
record.  On the input `http://u@/x` the scan after the `@` stops on the `/`
with an empty view and an `@` seen before: `parse_url` returns failure. -/
theorem authority_empty_view_without_at_sign :
    advance (parse_context sample_env true ['a', ':', '/', '/', '/', 'x', '@', 'y'] none) 3
      ⟨state.SCHEME_START, initial_url, 0⟩ =
      some ⟨state.AUTHORITY, { non_special_scheme := ['a'] }, 4⟩ ∧
    (find (['a', ':', '/', '/', '/', 'x', '@', 'y'].drop 4) '@').isSome = true ∧
    authority_delimiter false (['a', ':', '/', '/', '/', 'x', '@', 'y'].drop 4) = 0 ∧
    step (parse_context sample_env true ['a', ':', '/', '/', '/', 'x', '@', 'y'] none)
      ⟨state.AUTHORITY, { non_special_scheme := ['a'] }, 4⟩ =
      outcome.next ⟨state.HOST, { non_special_scheme := ['a'] }, 4⟩ ∧
    parse_url sample_env ['a', ':', '/', '/', '/', 'x', '@', 'y'] none =
      some ⟨true, false, scheme_type.NOT_SPECIAL, ['a'], [], [], some [], none,
        ['/', 'x', '@', 'y'], none, none⟩ ∧
    authority_loop (parse_context sample_env true
        ['h', 't', 't', 'p', ':', '/', '/', 'u', '@', '/', 'x'] none) 3
      { type := scheme_type.HTTP, username := ['u'] } 9 true false =
      outcome.returned { type := scheme_type.HTTP, username := ['u'], is_valid := false } ∧
    parse_url sample_env ['h', 't', 't', 'p', ':', '/', '/', 'u', '@', '/', 'x'] none =
      some ⟨false, false, scheme_type.HTTP, [], ['u'], [], none, none, [], none, none⟩ := by
  refine ⟨by decide, by decide, by decide, by decide, by decide, by decide, by decide⟩

/-! ## C30: hostname options -/

/-- C30, at the failing input. With the hostname pattern `[::1]`, an IPv6
address, `parse_url_pattern_impl` compiles the hostname component with
`canonicalize_ipv6_hostname` and the constant `DEFAULT` of the compile
options, whatever the three constants are, and not with `HOSTNAME`; with the
hostname pattern `a.b` it compiles it with `canonicalize_hostname` and the
constant `HOSTNAME`.  In the sample environment the two constants differ. -/
theorem ipv6_hostname_compiled_with_default_options :
    (∀ d h pa : url_pattern_compile_component_options,
      (parse_url_pattern_impl
        { sample_pattern_env with DEFAULT := d, HOSTNAME := h, PATHNAME := pa }
        (pattern_input.init { hostname := some ['[', ':', ':', '1', ']'] })
        none none).toOption.map (fun p => p.hostname_component) =
        some ⟨['[', ':', ':', '1', ']'], canonicalizer.canonicalize_ipv6_hostname, d⟩) ∧
    (∀ d h pa : url_pattern_compile_component_options,
      (parse_url_pattern_impl
        { sample_pattern_env with DEFAULT := d, HOSTNAME := h, PATHNAME := pa }
        (pattern_input.init { hostname := some ['a', '.', 'b'] })
        none none).toOption.map (fun p => p.hostname_component) =
        some ⟨['a', '.', 'b'], canonicalizer.canonicalize_hostname, h⟩) ∧
    sample_pattern_env.DEFAULT ≠ sample_pattern_env.HOSTNAME :=
  ⟨fun _ _ _ => rfl, fun _ _ _ => rfl, by decide⟩

/-! ## C31: the pathname component -/

/-- C31. Pathname compilation depends on the protocol component: when the
input gives the init record `init`, processing it gives `processed_init` and
`parse_url_pattern_impl` returns the pattern `p`, the pathname component of
`p` is the result of compiling the pathname pattern with
`canonicalize_pathname` and a copy of the constant `PATHNAME` if the protocol
component of `p` matches a special scheme, and with
`canonicalize_opaque_pathname` and a copy of the constant `DEFAULT` otherwise;
the copy has `ignore_case` set to that of the caller's options, or is the
constant itself when `options` is null. -/
theorem pathname_depends_on_protocol {component : Type}
    (env : pattern_environment component) (input : pattern_input)
    (base_url : Option (List Char)) (options : Option url_pattern_options)
    (init processed_init : url_pattern_init) (p : url_pattern component)
    (hi : pattern_init env input base_url = Except.ok init)
    (hp : env.process init = Except.ok processed_init)
    (h : parse_url_pattern_impl env input base_url options = Except.ok p) :
    env.compile (pattern_source processed_init.protocol) canonicalizer.canonicalize_protocol
      env.DEFAULT = Except.ok p.protocol_component ∧
    (env.protocol_component_matches_special_scheme p.protocol_component = true →
      env.compile (pattern_source processed_init.pathname) canonicalizer.canonicalize_pathname
        (copy_ignore_case env.PATHNAME options) = Except.ok p.pathname_component) ∧
    (env.protocol_component_matches_special_scheme p.protocol_component = false →
      env.compile (pattern_source processed_init.pathname)
        canonicalizer.canonicalize_opaque_pathname
        (copy_ignore_case env.DEFAULT options) = Except.ok p.pathname_component) ∧
    (∀ (base : url_pattern_compile_component_options) (o : url_pattern_options),
      copy_ignore_case base (some o) =
        ⟨base.delimiter_code_point, base.prefix_code_point, o.ignore_case⟩) ∧
    (∀ base : url_pattern_compile_component_options, copy_ignore_case base none = base) := by
  have key := (parse_url_pattern_impl_ok env input base_url options init processed_init p
    hi hp).1 h
  obtain ⟨k1, _, _, _, _, k6, _, _⟩ := key
  refine ⟨k1, ?_, ?_, fun _ _ => rfl, fun _ => rfl⟩
  · intro hm
    rw [hm] at k6
    simpa using k6
  · intro hm
    rw [hm] at k6
    simpa using k6

theorem pathname_depends_on_protocol_witness :
    (parse_url_pattern_impl sample_pattern_env
      (pattern_input.init { protocol := some ['h', 't', 't', 'p'], pathname := some ['/', 'a'] })
      none (some ⟨true⟩)).toOption.map (fun p => p.pathname_component) =
      some ⟨['/', 'a'], canonicalizer.canonicalize_pathname,
        ⟨some '/', some '/', true⟩⟩ ∧
    sample_pattern_env.compile
      (pattern_source
        ({ protocol := some ['d', 'a', 't', 'a'], pathname := some ['/', 'a'] } :
          url_pattern_init).pathname)
      canonicalizer.canonicalize_opaque_pathname
      (copy_ignore_case sample_pattern_env.DEFAULT none) =
      Except.ok ⟨['/', 'a'], canonicalizer.canonicalize_opaque_pathname, {}⟩ :=
  ⟨by decide,
    (pathname_depends_on_protocol sample_pattern_env
      (pattern_input.init { protocol := some ['d', 'a', 't', 'a'], pathname := some ['/', 'a'] })
      none none
      { protocol := some ['d', 'a', 't', 'a'], pathname := some ['/', 'a'] }
      { protocol := some ['d', 'a', 't', 'a'], pathname := some ['/', 'a'] }
      ⟨⟨['d', 'a', 't', 'a'], canonicalizer.canonicalize_protocol, {}⟩,
        ⟨['*'], canonicalizer.canonicalize_username, {}⟩,
        ⟨['*'], canonicalizer.canonicalize_password, {}⟩,
        ⟨['*'], canonicalizer.canonicalize_hostname, { delimiter_code_point := some '.' }⟩,
        ⟨['*'], canonicalizer.canonicalize_port, {}⟩,
        ⟨['/', 'a'], canonicalizer.canonicalize_opaque_pathname, {}⟩,
        ⟨['*'], canonicalizer.canonicalize_search, {}⟩,
        ⟨['*'], canonicalizer.canonicalize_hash, {}⟩⟩
      rfl rfl rfl).2.2.1 rfl⟩

/-! ## C32: drive letter inheritance -/

theorem step_FILE_SLASH_path (c : context) (base : url) (hb : c.base_url = some base)
    (hf : base.type = scheme_type.FILE) (u : url) (p : Nat) (t : List Char)
    (h : at_rest c p t) (ht : ∀ x, t.head? = some x → x ≠ '/' ∧ x ≠ '\\') :
    step c ⟨state.FILE_SLASH, u, p⟩ =
      outcome.next ⟨state.PATH,
        { u with host := base.host, path := u.path ++ inherited_drive base.path t }, p⟩ := by
  have hcond : (p != c.input_size &&
      (char_at c.url_data p == '/' || char_at c.url_data p == '\\')) = false := by
    rw [at_rest_ne h, at_rest_char h]
    cases t with
    | nil => rfl
    | cons y r =>
      obtain ⟨h1, h2⟩ := ht y rfl
      simp [h1, h2]
  cases hfind : find (base.path.drop 1) '/' with
  | none =>
    have e : first_path_segment base.path = base.path.drop 1 :=
      (find_none_takeWhile _ '/' hfind).1
    simp only [step, state_FILE_SLASH, hcond, Bool.false_eq_true, if_false, hb, hf,
      beq_self_eq_true, if_true, h.2, url.get_pathname, inherited_drive, e, hfind]
    by_cases hp : base.path = []
    · have hn : is_normalized_windows_drive_letter (first_path_segment base.path) = false := by
        rw [hp]; rfl
      rw [e] at hn
      have hn0 : is_normalized_windows_drive_letter [] = false := rfl
      simp [hp, hn0]
    · have hp2 : base.path.isEmpty = false := by
        cases hbp : base.path with
        | nil => exact absurd hbp hp
        | cons _ _ => rfl
      simp only [hp2, Bool.not_false, if_true]
      cases hw : is_windows_drive_letter t
      · cases hn : is_normalized_windows_drive_letter (base.path.drop 1)
        · simp
        · simp
      · simp
  | some loc =>
    have e : first_path_segment base.path = (base.path.drop 1).take loc :=
      (find_some_takeWhile _ '/' loc hfind).1
    simp only [step, state_FILE_SLASH, hcond, Bool.false_eq_true, if_false, hb, hf,
      beq_self_eq_true, if_true, h.2, url.get_pathname, inherited_drive, e, hfind]
    by_cases hp : base.path = []
    · have hn : is_normalized_windows_drive_letter (first_path_segment base.path) = false := by
        rw [hp]; rfl
      rw [e] at hn
      have hn0 : is_normalized_windows_drive_letter [] = false := rfl
      simp [hp, hn0]
    · have hp2 : base.path.isEmpty = false := by
        cases hbp : base.path with
        | nil => exact absurd hbp hp
        | cons _ _ => rfl
      simp only [hp2, Bool.not_false, if_true]
      cases hw : is_windows_drive_letter t
      · cases hn : is_normalized_windows_drive_letter ((base.path.drop 1).take loc)
        · simp
        · simp
      · simp

/-- The run on `/` followed by `t` against a `file` base whose path is not
opaque, where `t` does not begin with `/` or `\`. -/
theorem run_file_slash (env : environment) (base : url) (t : List Char)
    (frag : Option (List Char)) (hf : base.type = scheme_type.FILE)
    (hop : base.has_opaque_path = false)
    (ht : ∀ x, t.head? = some x → x ≠ '/' ∧ x ≠ '\\') :
    run ⟨env, true, some base, '/' :: t, frag⟩ loop_bound ⟨state.SCHEME_START, initial_url, 0⟩ =
      some (attach_fragment ⟨env, true, some base, '/' :: t, frag⟩
        { initial_url with
            type := scheme_type.FILE, host := base.host,
            path := parse_prepared_path env.sets (t.takeWhile (fun x => x != '?'))
              scheme_type.FILE (inherited_drive base.path t),
            query := if '?' ∈ t then
                some (percent_encode ((t.dropWhile (fun x => x != '?')).drop 1)
                  env.sets.SPECIAL_QUERY_PERCENT_ENCODE)
              else none }) := by
  generalize hc : (⟨env, true, some base, '/' :: t, frag⟩ : context) = c
  have hd : c.url_data = '/' :: t := by rw [← hc]
  have hbase : c.base_url = some base := by rw [← hc]
  have h0 : at_rest c 0 ('/' :: t) := ⟨Nat.zero_le _, by simp [hd]⟩
  have h1 : at_rest c 1 t := by
    have : at_rest c (0 + ['/'].length) t := at_rest_advance (by simpa using h0)
    simpa using this
  have hsv : c.store_values = true := by rw [← hc]
  have henv : c.env = env := by rw [← hc]
  rw [show loop_bound = 18 + 2 + 1 + 1 + 1 + 1 from rfl,
    run_next c _ _ ⟨state.NO_SCHEME, initial_url, 0⟩ h0.1 (by
      simp [step, state_SCHEME_START, at_rest_ne h0, at_rest_char h0, is_alpha]),
    run_next c _ _ ⟨state.FILE, initial_url, 0⟩ h0.1 (by
      simp [step, state_NO_SCHEME, hbase, hop, hf]),
    run_next c _ _ ⟨state.FILE_SLASH,
        { initial_url.set_protocol_as_file with host := some [] }, 1⟩ h0.1 (by
      simp [step, state_FILE, at_rest_ne h0, at_rest_char h0]),
    run_next c _ _ _ h1.1 (step_FILE_SLASH_path c base hbase hf _ 1 t h1 ht),
    run_PATH c hsv 18 _ 1 t h1]
  simp [url.set_protocol_as_file, initial_url, henv, url.is_special]

/-- C32, amended. Drive letter inheritance for file references: for every
valid `file` base whose path is not opaque and every input `/` followed by
`P`, at most 2^32 - 1 bytes long, let `T` be what is left of `P` after
cleaning, without its fragment; if `T` does not begin with `/` or `\`,
`parse_url` succeeds, the result has the scheme `file` and the host of the
base, and its path is prepared from `T`, up to its first `?`, starting from
`/` and the first path segment `D` of the base if `T` does not start with a
Windows drive letter and `D` is a normalized Windows drive letter, and
starting from the empty path otherwise: then nothing of the path of the base
is prepended. -/
theorem drive_letter_inheritance (env : environment) (base : url) (P : List Char)
    (hv : base.is_valid = true) (hf : base.type = scheme_type.FILE)
    (hop : base.has_opaque_path = false) (hlen : P.length < 4294967295)
    (hP : ∀ x, (clean_tail P).head? = some x → x ≠ '/' ∧ x ≠ '\\') :
    ∃ u, parse_url env ('/' :: P) (some base) = some u ∧ u.is_valid = true ∧
      u.type = scheme_type.FILE ∧ u.host = base.host ∧
      u.path = parse_prepared_path env.sets
        ((prune_hash (clean_tail P)).2.takeWhile (fun x => x != '?')) scheme_type.FILE
        (if is_windows_drive_letter (prune_hash (clean_tail P)).2 = false ∧
            is_normalized_windows_drive_letter (first_path_segment base.path) = true then
          '/' :: first_path_segment base.path
        else []) := by
  unfold parse_url
  rw [parse_url_impl_run env true _ (some base) (by simp; omega)
    (by intro b hb2; cases hb2; exact hv)]
  have hc : clean ('/' :: P) = '/' :: clean_tail P := by
    have := clean_append_solid ['/'] P (solid_singleton '/' (by decide))
    simpa using this
  rw [hc, prune_hash_cons '/' _ (by decide)]
  simp only []
  have ht : ∀ x, (prune_hash (clean_tail P)).2.head? = some x → x ≠ '/' ∧ x ≠ '\\' := by
    intro x hx
    cases hct : clean_tail P with
    | nil => rw [hct] at hx; simp [prune_hash, find] at hx
    | cons y r =>
      rw [hct] at hx hP
      by_cases hy : y = '#'
      · subst hy; rw [prune_hash_hash] at hx; simp at hx
      · rw [prune_hash_cons y r hy] at hx
        simp only [List.head?_cons, Option.some.injEq] at hx
        subst hx
        exact hP y rfl
  rw [run_file_slash env base _ _ hf hop ht]
  refine ⟨_, rfl, ?_⟩
  unfold attach_fragment
  split <;> simp [initial_url, url.update_unencoded_base_hash, inherited_drive]

theorem drive_letter_inheritance_witness :
    (sample_base_letter.type = scheme_type.FILE ∧
      ∀ x, (clean_tail ['.', '.', '/', 'z', '?', 'q']).head? = some x → x ≠ '/' ∧ x ≠ '\\') ∧
    parse_url sample_env ['f', 'i', 'l', 'e', ':', '/', '/', '/', 'D', ':', '/', 'b'] none =
      some sample_base_letter ∧
    parse_url sample_env ('/' :: ['.', '.', '/', 'z', '?', 'q']) (some sample_base_letter) =
      some ⟨true, false, scheme_type.FILE, [], [], [], some [], none,
        ['/', 'D', ':', '/', 'z'], some ['q'], none⟩ ∧
    ∃ u, parse_url sample_env ('/' :: ['.', '.', '/', 'z', '?', 'q']) (some sample_base_letter) =
        some u ∧ u.is_valid = true ∧
      u.type = scheme_type.FILE ∧ u.host = sample_base_letter.host ∧
      u.path = parse_prepared_path sample_env.sets
        ((prune_hash (clean_tail ['.', '.', '/', 'z', '?', 'q'])).2.takeWhile (fun x => x != '?'))
        scheme_type.FILE
        (if is_windows_drive_letter (prune_hash (clean_tail ['.', '.', '/', 'z', '?', 'q'])).2 =
              false ∧
            is_normalized_windows_drive_letter (first_path_segment sample_base_letter.path) =
              true then
          '/' :: first_path_segment sample_base_letter.path
        else []) :=
  ⟨⟨rfl, by decide⟩, by decide, by decide,
    drive_letter_inheritance sample_env sample_base_letter ['.', '.', '/', 'z', '?', 'q'] rfl rfl
      rfl (by decide) (by decide)⟩

/-- C32, as stated, fails on the cleaning of the input: against the base
`file:///D:/b`, whose first path segment `D:` is a normalized Windows drive
letter, take the input `/` followed by `P`, where `P` is `C`, a tab and `:/x`.
`P` does not begin with `/` or `\` and does not start with a Windows drive
letter, as its second byte is a tab; yet the tab is removed, the input is read
as `/C:/x`, and the path of the result is `/C:/x`: the segment `D:` of the
base is not prepended. -/
theorem drive_letter_not_raw :
    parse_url sample_env ['f', 'i', 'l', 'e', ':', '/', '/', '/', 'D', ':', '/', 'b'] none =
      some sample_base_letter ∧
    is_normalized_windows_drive_letter (first_path_segment sample_base_letter.path) = true ∧
    (['C', '\t', ':', '/', 'x'].head? ≠ some '/' ∧ ['C', '\t', ':', '/', 'x'].head? ≠ some '\\') ∧
    is_windows_drive_letter ['C', '\t', ':', '/', 'x'] = false ∧
    parse_url sample_env ('/' :: ['C', '\t', ':', '/', 'x']) (some sample_base_letter) =
      some ⟨true, false, scheme_type.FILE, [], [], [], some [], none,
        ['/', 'C', ':', '/', 'x'], none, none⟩ ∧
    parse_prepared_path sample_env.sets ['C', '\t', ':', '/', 'x'] scheme_type.FILE
        ['/', 'D', ':'] ≠ ['/', 'C', ':', '/', 'x'] := by
  refine ⟨by decide, by decide, by decide, by decide, by decide, by decide⟩

/-! ## C33: the empty reference -/

theorem clean_spaces (n : Nat) : clean (List.replicate n ' ') = [] := by
  have hr : remove_ascii_tab_or_newline (List.replicate n ' ') = List.replicate n ' ' := by
    unfold remove_ascii_tab_or_newline
    rw [List.filter_eq_self]
    intro a ha
    rw [List.eq_of_mem_replicate ha]
    decide
  have hd := dropWhile_replicate_space n []
  rw [List.append_nil] at hd
  rw [clean_eq, hr, hd]
  rfl

/-- The run on an empty input with a base whose path is not opaque: the
states `SCHEME_START` and `NO_SCHEME` hand over to `RELATIVE_SCHEME`, or to
`FILE` for a `file` base, which copies the base and leaves the loop. -/
theorem run_empty_reference (c : context) (b : url) (hd : c.url_data = [])
    (hf : c.fragment = none) (hb : c.base_url = some b) (hop : b.has_opaque_path = false) :
    run c loop_bound ⟨state.SCHEME_START, initial_url, 0⟩ =
      some (if b.type = scheme_type.FILE then
          ⟨true, false, scheme_type.FILE, [], [], [], b.host, none, b.path, b.query, none⟩
        else
          ⟨true, false, b.type, b.non_special_scheme, b.username, b.password, b.host, b.port,
            b.path, b.query, none⟩) := by
  have hsz : c.input_size = 0 := by simp [context.input_size, hd]
  have s1 : step c ⟨state.SCHEME_START, initial_url, 0⟩ =
      outcome.next ⟨state.NO_SCHEME, initial_url, 0⟩ := by
    simp [step, state_SCHEME_START, hsz]
  have e : loop_bound = 20 + 4 := rfl
  rw [e, run_next c 23 _ _ (Nat.zero_le _) s1]
  by_cases ht : b.type = scheme_type.FILE
  · have s2 : step c ⟨state.NO_SCHEME, initial_url, 0⟩ =
        outcome.next ⟨state.FILE, initial_url, 0⟩ := by
      simp [step, state_NO_SCHEME, hb, hop, ht]
    have s3 : step c ⟨state.FILE, initial_url, 0⟩ =
        outcome.next ⟨state.FILE, ⟨true, false, scheme_type.FILE, [], [], [], b.host, none,
          b.path, b.query, none⟩, 1⟩ := by
      simp [step, state_FILE, hb, hop, ht, hsz, initial_url, url.set_protocol_as_file]
    rw [run_next c 22 _ _ (Nat.zero_le _) s2, run_next c 21 _ _ (Nat.zero_le _) s3, run_succ,
      if_neg (by rw [hsz]; exact Nat.not_succ_le_zero 0), if_pos ht]
    simp [store_fragment, attach_fragment, hf]
  · have s2 : step c ⟨state.NO_SCHEME, initial_url, 0⟩ =
        outcome.next ⟨state.RELATIVE_SCHEME, initial_url, 0⟩ := by
      simp [step, state_NO_SCHEME, hb, hop, ht]
    have s3 : step c ⟨state.RELATIVE_SCHEME, initial_url, 0⟩ =
        outcome.next ⟨state.RELATIVE_SCHEME, ⟨true, false, b.type, b.non_special_scheme,
          b.username, b.password, b.host, b.port, b.path, b.query, none⟩, 1⟩ := by
      simp [step, state_RELATIVE_SCHEME, hb, hop, hsz, initial_url, url.copy_scheme]
    rw [run_next c 22 _ _ (Nat.zero_le _) s2, run_next c 21 _ _ (Nat.zero_le _) s3, run_succ,
      if_neg (by rw [hsz]; exact Nat.not_succ_le_zero 0), if_neg ht]
    simp [store_fragment, attach_fragment, hf]

/-- C33, amended. The empty reference reproduces the base without its
fragment: for every valid base with a path that is not opaque (a `file` base
having no username, password or port) and every input of at most 2^32 - 1
bytes that is empty after cleaning, `parse_url` succeeds and the result has
the scheme, username, password, host, port, path, `has_opaque_path` and query
of the base, and no fragment. -/
theorem empty_reference (env : environment) (input : List Char) (b : url)
    (hb : valid_base b) (hop : b.has_opaque_path = false) (hc : clean input = [])
    (hlen : input.length ≤ 4294967295) :
    ∃ u, parse_url env input (some b) = some u ∧ u.is_valid = true ∧ u.type = b.type ∧
      u.get_scheme = b.get_scheme ∧ u.username = b.username ∧ u.password = b.password ∧
      u.host = b.host ∧ u.port = b.port ∧ u.path = b.path ∧
      u.has_opaque_path = b.has_opaque_path ∧ u.query = b.query ∧ u.hash = none := by
  unfold parse_url
  rw [parse_url_impl_run env true input (some b) hlen
    (fun x hx => by rw [← Option.some.inj hx]; exact hb.1), hc]
  rw [run_empty_reference _ b rfl rfl rfl hop]
  refine ⟨_, rfl, ?_⟩
  by_cases ht : b.type = scheme_type.FILE
  · obtain ⟨h1, h2, h3⟩ := hb.2 ht
    rw [if_pos ht]
    simp only [h1, h2, h3, hop, ht, url.get_scheme, and_self]
  · rw [if_neg ht]
    simp only [hop, url.get_scheme, and_self]

theorem empty_reference_witness :
    valid_base sample_base ∧ sample_base.has_opaque_path = false ∧
    clean [' ', '\t', ' '] = [] ∧
    ∃ u, parse_url sample_env [' ', '\t', ' '] (some sample_base) = some u ∧
      u.is_valid = true ∧ u.type = sample_base.type ∧
      u.get_scheme = sample_base.get_scheme ∧ u.username = sample_base.username ∧
      u.password = sample_base.password ∧ u.host = sample_base.host ∧
      u.port = sample_base.port ∧ u.path = sample_base.path ∧
      u.has_opaque_path = sample_base.has_opaque_path ∧ u.query = sample_base.query ∧
      u.hash = none :=
  ⟨⟨rfl, by decide⟩, rfl, by decide,
    empty_reference sample_env [' ', '\t', ' '] sample_base ⟨rfl, by decide⟩ rfl (by decide)
      (by decide)⟩

theorem spaces_length (n : Nat) : (List.replicate n ' ').length = n :=
  List.length_replicate n ' '

/-- C33, counterexample. An input of 2^32 spaces is empty after cleaning, and
the base `http://h/p?y=2#z` is valid with a path that is not opaque; the input
is rejected for its size and `parse_url` returns a record with
`is_valid = false`. -/
theorem empty_reference_oversized :
    clean (List.replicate 4294967296 ' ') = [] ∧
    valid_base sample_base ∧ sample_base.has_opaque_path = false ∧
    parse_url sample_env (List.replicate 4294967296 ' ') (some sample_base) =
      some { initial_url with is_valid := false } := by
  refine ⟨clean_spaces _, ⟨rfl, by decide⟩, rfl, ?_⟩
  unfold parse_url
  exact parse_url_impl_oversized sample_env true _ _ (by rw [spaces_length]; decide)

/-! ## C34: special URLs and opaque paths -/

/-- C34, at the failing input. The base `file:///` is valid, special and has
`has_opaque_path = false`; the reference `C|/x` parses against it to a valid
record whose scheme is `file`, a special scheme, and whose `has_opaque_path`
is set. -/
theorem special_url_with_opaque_path :
    sample_base_file.is_valid = true ∧
    sample_base_file.is_special = true ∧
    sample_base_file.has_opaque_path = false ∧
    parse_url sample_env ['f', 'i', 'l', 'e', ':', '/', '/', '/'] none = some sample_base_file ∧
    parse_url sample_env ['C', '|', '/', 'x'] (some sample_base_file) =
      some ⟨true, true, scheme_type.FILE, [], [], [], some [], none,
        ['/', 'C', ':', '/', 'x'], none, none⟩ ∧
    (⟨true, true, scheme_type.FILE, [], [], [], some [], none,
        ['/', 'C', ':', '/', 'x'], none, none⟩ : url).is_special = true := by
  refine ⟨rfl, by decide, rfl, by decide, by decide, by decide⟩

/-! ## C35: absolute URLs and the base -/

/-- After the scheme and its colon, a scheme that is not `file` and a base
that is foreign to it bring the machine to a state that does not read the
base, the same whatever the base. -/
theorem run_scheme_base_free (c : context) (a : Char) (S1 rest : List Char)
    (hd : c.url_data = a :: S1 ++ ':' :: rest)
    (hS : ∀ x ∈ S1, is_alnum_plus x = true)
    (hfile : get_scheme_type ((a :: S1).map to_lower_ascii) ≠ scheme_type.FILE)
    (hb : base_foreign c.base_url (get_scheme_type ((a :: S1).map to_lower_ascii))) :
    ∃ st p, st.shiftable = true ∧ st.base_free = true ∧
      step c ⟨state.SCHEME, initial_url, 1⟩ =
        outcome.next ⟨st, (initial_url.parse_scheme (a :: S1)).2, p⟩ ∧
      (st, p) =
        (if get_scheme_type ((a :: S1).map to_lower_ascii) ≠ scheme_type.NOT_SPECIAL then
          (state.SPECIAL_AUTHORITY_SLASHES, (a :: S1).length + 1)
        else if rest.head? = some '/' then (state.PATH_OR_AUTHORITY, (a :: S1).length + 1 + 1)
        else (state.OPAQUE_PATH, (a :: S1).length + 1)) := by
  have hst := step_SCHEME_colon c initial_url a S1 rest hd hS
  have hty := parse_scheme_type initial_url (a :: S1)
  simp only [url.is_special, hty, beq_iff_eq, hfile, if_false] at hst
  by_cases hsp : get_scheme_type ((a :: S1).map to_lower_ascii) = scheme_type.NOT_SPECIAL
  · simp only [hsp, bne_self_eq_false, Bool.false_and, Bool.false_eq_true, if_false] at hst
    by_cases hr : rest.head? = some '/'
    · rw [if_pos hr] at hst
      exact ⟨state.PATH_OR_AUTHORITY, _, rfl, rfl, hst,
        by rw [if_neg (fun h => h hsp), if_pos hr]⟩
    · rw [if_neg hr] at hst
      exact ⟨state.OPAQUE_PATH, _, rfl, rfl, hst,
        by rw [if_neg (fun h => h hsp), if_neg hr]⟩
  · have hne : (get_scheme_type ((a :: S1).map to_lower_ascii) != scheme_type.NOT_SPECIAL)
        = true := by simpa using hsp
    have hbase : (c.base_url.isSome && (c.base_url.map (fun b => b.type)) ==
        some (get_scheme_type ((a :: S1).map to_lower_ascii))) = false := by
      rcases hb with hb | hb
      · exact absurd hb hsp
      · cases hbu : c.base_url with
        | none => rfl
        | some b =>
          have := hb b hbu
          simp only [Option.isSome_some, Option.map_some', Bool.true_and, beq_eq_false_iff_ne,
            ne_eq, Option.some.injEq]
          exact this
    simp only [hne, Bool.true_and, hbase, Bool.false_eq_true, if_false, if_true] at hst
    exact ⟨state.SPECIAL_AUTHORITY_SLASHES, _, rfl, rfl, hst, by rw [if_pos hsp]⟩

/-- C35. Absolute URLs do not depend on the base: for every environment and
every input that, after cleaning, is a valid scheme `S`, a colon and a rest,
and any two bases, each absent or valid, `parse_url` returns the same result
with the one base as with the other whenever `S` is not special, or `S` is
special, is not `file`, and neither base has the scheme type of `S`. -/
theorem absolute_url_ignores_base (env : environment) (input S rest : List Char)
    (b1 b2 : Option url) (hc : clean input = S ++ ':' :: rest) (hS : valid_scheme S)
    (hv1 : ∀ b, b1 = some b → b.is_valid = true) (hv2 : ∀ b, b2 = some b → b.is_valid = true)
    (hcase : get_scheme_type (S.map to_lower_ascii) = scheme_type.NOT_SPECIAL ∨
      (get_scheme_type (S.map to_lower_ascii) ≠ scheme_type.FILE ∧
        (∀ b, b1 = some b → b.type ≠ get_scheme_type (S.map to_lower_ascii)) ∧
        (∀ b, b2 = some b → b.type ≠ get_scheme_type (S.map to_lower_ascii)))) :
    parse_url env input b1 = parse_url env input b2 := by
  obtain ⟨a, S1, rfl, ha, hS1⟩ := hS
  unfold parse_url
  by_cases hlen : input.length ≤ 4294967295
  swap
  · rw [parse_url_impl_oversized env true input b1 (by omega),
      parse_url_impl_oversized env true input b2 (by omega)]
  rw [parse_url_impl_run env true input b1 hlen hv1, parse_url_impl_run env true input b2 hlen hv2]
  have hno : '#' ∉ a :: S1 ++ [':'] := by
    intro h
    simp only [List.mem_append, List.mem_cons, List.mem_singleton, List.not_mem_nil,
      or_false] at h
    rcases h with (h | h) | h
    · rw [← h] at ha; exact absurd ha (by decide)
    · exact alnum_plus_ne_hash _ (hS1 _ h) rfl
    · exact absurd h (by decide)
  have hd : (prune_hash (clean input)).2 = a :: S1 ++ ':' :: (prune_hash rest).2 := by
    rw [hc, show a :: S1 ++ ':' :: rest = (a :: S1 ++ [':']) ++ rest by simp,
      prune_hash_append _ _ hno]
    simp
  have hfile : get_scheme_type ((a :: S1).map to_lower_ascii) ≠ scheme_type.FILE := by
    rcases hcase with h | h
    · rw [h]; decide
    · exact h.1
  have hf1 : base_foreign b1 (get_scheme_type ((a :: S1).map to_lower_ascii)) := by
    rcases hcase with h | h
    · exact Or.inl h
    · exact Or.inr h.2.1
  have hf2 : base_foreign b2 (get_scheme_type ((a :: S1).map to_lower_ascii)) := by
    rcases hcase with h | h
    · exact Or.inl h
    · exact Or.inr h.2.2
  generalize hfr : (prune_hash (clean input)).1 = fr
  generalize hdata : (prune_hash (clean input)).2 = data at hd
  obtain ⟨st1, p1, hs1, hbf1, hstep1, he1⟩ :=
    run_scheme_base_free ⟨env, true, b1, data, fr⟩ a S1 _ hd hS1 hfile hf1
  obtain ⟨st2, p2, _, _, hstep2, he2⟩ :=
    run_scheme_base_free ⟨env, true, b2, data, fr⟩ a S1 _ hd hS1 hfile hf2
  have he : (st2, p2) = (st1, p1) := he2.trans he1.symm
  obtain ⟨rfl, rfl⟩ := Prod.mk.inj he
  have h1 : (1 : Nat) ≤ data.length := by rw [hd]; simp
  have e1 : loop_bound = 22 + 2 := rfl
  rw [e1, run_next _ 23 _ _ (Nat.zero_le _)
      (step_SCHEME_START_scheme ⟨env, true, b1, data, fr⟩ initial_url a S1 _ hd ha),
    run_next _ 22 _ _ h1 hstep1,
    run_next _ 23 _ _ (Nat.zero_le _)
      (step_SCHEME_START_scheme ⟨env, true, b2, data, fr⟩ initial_url a S1 _ hd ha),
    run_next _ 22 _ _ h1 hstep2]
  have hsuf : context.suffix_of ⟨env, true, b2, data, fr⟩ ⟨env, true, b1, data, fr⟩ [] :=
    ⟨rfl, rfl, rfl, rfl⟩
  exact run_shift hsuf 22 _ _ _ hs1 (Or.inl hbf1)

theorem absolute_url_ignores_base_witness :
    clean ['h', 't', 't', 'p', ':', '/', '/', 'h', '/', 'x'] =
      ['h', 't', 't', 'p'] ++ ':' :: ['/', '/', 'h', '/', 'x'] ∧
    parse_url sample_env ['h', 't', 't', 'p', ':', '/', '/', 'h', '/', 'x'] none =
      parse_url sample_env ['h', 't', 't', 'p', ':', '/', '/', 'h', '/', 'x']
        (some sample_base_file) :=
  ⟨by decide,
    absolute_url_ignores_base sample_env ['h', 't', 't', 'p', ':', '/', '/', 'h', '/', 'x']
      ['h', 't', 't', 'p'] ['/', '/', 'h', '/', 'x'] none (some sample_base_file) (by decide)
      ⟨'h', ['t', 't', 'p'], rfl, by decide, by decide⟩
      (by intro b h; cases h) (by intro b h; cases h; rfl)
      (Or.inr (And.intro (by decide) (And.intro (by intro b h; cases h)
        (by intro b h; cases h; decide))))⟩

/-! ## C36: termination -/

theorem authority_loop_defined (c : context) (fuel : Nat) :
    ∀ (u : url) (p : Nat) (a b : Bool), p ≤ c.input_size → c.input_size - p < fuel →
      authority_loop c fuel u p a b ≠ outcome.undefined := by
  induction fuel with
  | zero => intro u p a b _ h; omega
  | succ n ih =>
    intro u p a b hp hf
    rw [authority_loop]
    simp only []
    have hle : p + (List.take (authority_delimiter u.is_special (List.drop p c.url_data))
        (List.drop p c.url_data)).length ≤ c.input_size := by
      have : (List.take (authority_delimiter u.is_special (List.drop p c.url_data))
          (List.drop p c.url_data)).length ≤ (List.drop p c.url_data).length :=
        (List.take_prefix _ _).length_le
      simp only [List.length_drop, context.input_size] at this hp ⊢
      omega
    have hge : p ≤ p + (List.take (authority_delimiter u.is_special (List.drop p c.url_data))
        (List.drop p c.url_data)).length := Nat.le_add_right _ _
    generalize p + (List.take (authority_delimiter u.is_special (List.drop p c.url_data))
        (List.drop p c.url_data)).length = e at hle hge
    split_ifs with h3 h4 h5 h6 h7 h8 <;> first
      | exact fun h => outcome.noConfusion h
      | (have hne : e ≠ c.input_size := by
           first
             | (simpa using h4)
             | (simpa using h8)
         apply ih
         · omega
         · omega)

theorem step_defined (c : context) (m : machine) (hp : m.input_position ≤ c.input_size)
    (hb : base_present c m.state) :
    step c m ≠ outcome.undefined ∧ ∀ m1, step c m = outcome.next m1 → base_present c m1.state := by
  obtain ⟨st, u, p⟩ := m
  simp only at hp hb
  cases st
  case AUTHORITY =>
    simp only [step, state_AUTHORITY]
    split_ifs
    · exact ⟨fun h => outcome.noConfusion h, fun m1 h => by cases h; exact fun _ => by simp⟩
    · refine ⟨authority_loop_defined c _ u p false false hp (by omega), fun m1 h => ?_⟩
      rw [authority_loop_continue c _ _ _ _ _ _ h]
      exact fun _ => by simp
  case PORT =>
    simp only [step, state_PORT, state_PATH_START]
    constructor
    · split_ifs <;> exact fun h => outcome.noConfusion h
    · intro m1 h
      split_ifs at h <;> cases h <;> exact fun _ => by simp
  case RELATIVE_SCHEME =>
    cases hbase : c.base_url with
    | none => exact absurd rfl (hb hbase).1
    | some b =>
      simp only [step, state_RELATIVE_SCHEME, hbase]
      constructor
      · split_ifs <;> exact fun h => outcome.noConfusion h
      · intro m1 h
        intro hn
        rw [hbase] at hn
        cases hn
  case RELATIVE_SLASH =>
    cases hbase : c.base_url with
    | none => exact absurd rfl (hb hbase).2.1
    | some b =>
      simp only [step, state_RELATIVE_SLASH, hbase]
      constructor
      · split_ifs <;> exact fun h => outcome.noConfusion h
      · intro m1 h
        intro hn
        rw [hbase] at hn
        cases hn
  case SPECIAL_RELATIVE_OR_AUTHORITY =>
    cases hbase : c.base_url with
    | none => exact absurd rfl (hb hbase).2.2
    | some b =>
      simp only [step, state_SPECIAL_RELATIVE_OR_AUTHORITY]
      constructor
      · split_ifs <;> exact fun h => outcome.noConfusion h
      · intro m1 h
        intro hn
        rw [hbase] at hn
        cases hn
  case NO_SCHEME =>
    cases hbase : c.base_url with
    | none =>
      simp only [step, state_NO_SCHEME, hbase]
      exact ⟨fun h => outcome.noConfusion h, fun m1 h => by cases h⟩
    | some b =>
      simp only [step, state_NO_SCHEME, hbase]
      constructor
      · split_ifs <;> exact fun h => outcome.noConfusion h
      · intro m1 h
        intro hn
        rw [hbase] at hn
        cases hn
  case SCHEME =>
    simp only [step, state_SCHEME]
    constructor
    · split_ifs <;> exact fun h => outcome.noConfusion h
    · intro m1 h
      split_ifs at h with h1 h2 h3 h4 <;> cases h
      all_goals first
        | (intro hn
           rw [hn] at h4
           simp at h4
           done)
        | (intro _
           simp)
  all_goals
    simp only [step, state_SCHEME_START, state_PATH_OR_AUTHORITY,
      state_SPECIAL_AUTHORITY_SLASHES, state_SPECIAL_AUTHORITY_IGNORE_SLASHES, state_QUERY,
      state_HOST, state_OPAQUE_PATH, state_PATH_START, state_PATH, state_FILE_SLASH,
      state_FILE_HOST, state_FILE]
    constructor
    · repeat' split
      all_goals exact fun h => outcome.noConfusion h
    · intro m1 h
      repeat' split at h
      all_goals cases h
      all_goals exact fun _ => by simp

theorem state_rank_pos (s : state) : 1 ≤ s.rank := by
  cases s <;> simp [state.rank]

/-- The main loop returns: from a state that has the base it needs, a run
with more fuel than the rank of the state has a result. -/
theorem run_total (c : context) (f : Nat) :
    ∀ m : machine, m.state.rank < f → base_present c m.state → ∃ u, run c f m = some u := by
  induction f with
  | zero => intro m h _; omega
  | succ n ih =>
    intro m hr hb
    rw [run_succ]
    split_ifs with hp
    · obtain ⟨hd, hn⟩ := step_defined c m hp hb
      cases hs : step c m with
      | returned u => exact ⟨u, rfl⟩
      | undefined => exact absurd hs hd
      | next m1 =>
        simp only []
        rcases step_rank c m m1 hs with h1 | ⟨h1, h2⟩
        · exact ih m1 (by omega) (hn m1 hs)
        · have hpos := state_rank_pos m.state
          obtain ⟨k, rfl⟩ : ∃ k, n = k + 1 := ⟨n - 1, by omega⟩
          rw [run_succ, if_neg (by omega)]
          exact ⟨_, rfl⟩
    · exact ⟨_, rfl⟩

theorem parse_url_impl_total (env : environment) (sv : Bool) (input : List Char)
    (base : Option url) : ∃ u, parse_url_impl env sv input base = some u := by
  by_cases hl : input.length ≤ 4294967295
  · rw [parse_url_impl_small env sv input base hl]
    split_ifs
    · exact run_total _ loop_bound _ (by decide) (fun _ => by simp)
    · exact ⟨_, rfl⟩
  · rw [parse_url_impl_oversized env sv input base (by omega)]
    exact ⟨_, rfl⟩

/-- Every pass of the main loop that goes on lowers the rank of the state,
except a last one that moves the cursor past the end. -/
theorem advance_rank (c : context) (n : Nat) :
    ∀ (m0 m : machine), advance c n m0 = some m →
      n + m.state.rank ≤ m0.state.rank ∨
        (n + m.state.rank ≤ m0.state.rank + 1 ∧ c.input_size < m.input_position) := by
  induction n with
  | zero =>
    intro m0 m h
    simp only [advance, Option.some.injEq] at h
    subst h
    exact Or.inl (by omega)
  | succ n ih =>
    intro m0 m h
    unfold advance at h
    split_ifs at h with hp
    cases hs : step c m0 with
    | returned u => rw [hs] at h; cases h
    | undefined => rw [hs] at h; cases h
    | next m1 =>
      rw [hs] at h
      simp only at h
      rcases step_rank c m0 m1 hs with h1 | ⟨h1, h2⟩
      · rcases ih m1 m h with h3 | ⟨h3, h4⟩
        · exact Or.inl (by omega)
        · exact Or.inr ⟨by omega, h4⟩
      · cases n with
        | zero =>
          simp only [advance, Option.some.injEq] at h
          subst h
          exact Or.inr ⟨by rw [h1]; omega, h2⟩
        | succ k =>
          unfold advance at h
          rw [if_neg (by omega)] at h
          cases h

/-- C36. `parse_url_impl` terminates on every input and base: the function
returns a record; a run makes at most 12 passes through the main loop, fewer
than there are states and whatever the length of the input; a state whose case
body is executed is not executed again later in the run; the loop of the
AUTHORITY state ends within `input_size + 1` iterations from any cursor inside
the input; and the scans of the SCHEME state and of the slash skipping move
the cursor forward and stop at `input_size` at the latest. -/
theorem parse_url_impl_terminates (env : environment) (sv : Bool) (input : List Char)
    (base : Option url) :
    (∃ u, parse_url_impl env sv input base = some u) ∧
    (∀ (n : Nat) (m : machine),
      advance (parse_context env sv input base) n ⟨state.SCHEME_START, initial_url, 0⟩ = some m →
      n ≤ 12) ∧
    (∀ (i k : Nat) (mi mj : machine),
      advance (parse_context env sv input base) i ⟨state.SCHEME_START, initial_url, 0⟩ =
        some mi →
      advance (parse_context env sv input base) (k + 1) mi = some mj →
      mj.input_position ≤ (parse_context env sv input base).input_size →
      mj.state ≠ mi.state) ∧
    (∀ (u : url) (p : Nat) (a b : Bool), p ≤ (parse_context env sv input base).input_size →
      authority_loop (parse_context env sv input base)
        ((parse_context env sv input base).input_size + 1) u p a b ≠ outcome.undefined) ∧
    (∀ (pred : Char → Bool) (p : Nat), p ≤ (parse_context env sv input base).input_size →
      p ≤ skip_while pred (parse_context env sv input base).url_data p ∧
      skip_while pred (parse_context env sv input base).url_data p ≤
        (parse_context env sv input base).input_size) := by
  refine ⟨parse_url_impl_total env sv input base, ?_, ?_, ?_, ?_⟩
  · intro n m h
    have hpos := state_rank_pos m.state
    rcases advance_rank _ n _ m h with h1 | ⟨h1, _⟩
    · change n + m.state.rank ≤ 12 at h1
      omega
    · change n + m.state.rank ≤ 12 + 1 at h1
      omega
  · intro i k mi mj _ h2 hp he
    rcases advance_rank _ (k + 1) mi mj h2 with h1 | ⟨_, h1⟩
    · rw [he] at h1
      omega
    · omega
  · intro u p a b hp
    exact authority_loop_defined _ _ u p a b hp (by omega)
  · intro pred p hp
    exact ⟨by unfold skip_while; omega, skip_while_le pred _ p hp⟩

theorem parse_url_impl_terminates_witness :
    (∃ u, parse_url_impl sample_env true ['h', 't', 't', 'p', ':', '/', '/', 'u', '@', 'h', '/', 'x']
      none = some u) ∧
    advance (parse_context sample_env true
        ['h', 't', 't', 'p', ':', '/', '/', 'u', '@', 'h', '/', 'x'] none) 6
      ⟨state.SCHEME_START, initial_url, 0⟩ =
      some ⟨state.PATH, ⟨true, false, scheme_type.HTTP, [], ['u'], [], some ['h'], none, [],
        none, none⟩, 11⟩ ∧
    6 ≤ 12 :=
  ⟨(parse_url_impl_terminates sample_env true
      ['h', 't', 't', 'p', ':', '/', '/', 'u', '@', 'h', '/', 'x'] none).1,
    by decide,
    (parse_url_impl_terminates sample_env true
      ['h', 't', 't', 'p', ':', '/', '/', 'u', '@', 'h', '/', 'x'] none).2.1 6
      ⟨state.PATH, ⟨true, false, scheme_type.HTTP, [], ['u'], [], some ['h'], none, [],
        none, none⟩, 11⟩ (by decide)⟩

/-! ## C37: no out-of-bounds read -/

theorem guarded_read_in_bounds (c : context) (p : Nat) (hp : p ≤ c.input_size) :
    ∀ a ∈ guarded_read c p, a.in_bounds c.input_size = true := by
  intro a ha
  unfold guarded_read at ha
  split_ifs at ha with h
  · simp only [List.mem_singleton] at ha
    subst ha
    have : p ≠ c.input_size := by simpa using h
    simp only [access.in_bounds, decide_eq_true_eq]
    omega
  · cases ha

theorem scan_accesses_in_bounds (c : context) (pred : Char → Bool) (p : Nat)
    (hp : p ≤ c.input_size) :
    ∀ a ∈ scan_accesses c pred p, a.in_bounds c.input_size = true := by
  intro a ha
  have hle : skip_while pred c.url_data p ≤ c.input_size := skip_while_le pred _ p hp
  unfold scan_accesses at ha
  simp only [List.mem_append, List.mem_map, List.mem_range'_1] at ha
  rcases ha with ⟨q, ⟨h1, h2⟩, rfl⟩ | ha
  · simp only [access.in_bounds, decide_eq_true_eq]
    omega
  · exact guarded_read_in_bounds c _ hle a ha

theorem parse_port_consumed (u : url) (view : List Char) (t : Bool) :
    (u.parse_port view t).1 ≤ view.length := by
  have h : (view.takeWhile is_digit).length ≤ view.length :=
    (List.takeWhile_prefix is_digit).length_le
  unfold url.parse_port
  simp only []
  split_ifs <;> first
    | exact Nat.zero_le _
    | exact h

theorem authority_accesses_in_bounds (c : context) (fuel : Nat) (sp : Bool) :
    ∀ p : Nat, p ≤ c.input_size →
      ∀ a ∈ authority_accesses c fuel sp p, a.in_bounds c.input_size = true := by
  induction fuel with
  | zero => intro p _ a ha; cases ha
  | succ n ih =>
    intro p hp a ha
    have hle : p + (List.take (authority_delimiter sp (List.drop p c.url_data))
        (List.drop p c.url_data)).length ≤ c.input_size := by
      have : (List.take (authority_delimiter sp (List.drop p c.url_data))
          (List.drop p c.url_data)).length ≤ (List.drop p c.url_data).length :=
        (List.take_prefix _ _).length_le
      simp only [List.length_drop, context.input_size] at this hp ⊢
      omega
    rw [authority_accesses] at ha
    generalize p + (List.take (authority_delimiter sp (List.drop p c.url_data))
        (List.drop p c.url_data)).length = e at hle ha
    have hnext : e ≠ c.input_size → e + 1 ≤ c.input_size := fun hne => by omega
    rcases List.mem_cons.1 ha with rfl | ha
    · simpa [access.in_bounds] using hp
    rcases List.mem_append.1 ha with ha | ha
    · exact guarded_read_in_bounds c e hle a ha
    split_ifs at ha with h1 h2 h3 h4
    all_goals first
      | cases ha
      | exact ih (e + 1) (hnext (by simpa using h2)) a ha
      | (rcases List.mem_append.1 ha with ha | ha
         · exact guarded_read_in_bounds c e hle a ha
         · first
           | cases ha
           | exact ih (e + 1) (hnext (by simpa using h4)) a ha)

/-- C37. No out-of-bounds read of the input: in every pass of the main loop,
which runs with `input_position <= input_size`, every indexed access
`url_data[k]` that the pass makes has `k < input_size` and every
`url_data.substr(p)` or `url_data.substr(p, n)` has `p <= input_size`.  In
particular `PATH_START`, also when `PORT` falls through to it after
`parse_port`, reads `url_data[input_position]` only with
`input_position < input_size`, and so does the delimiter test of every
iteration of the AUTHORITY loop with `url_data[end_of_authority]`. -/
theorem no_out_of_bounds_read (c : context) (m : machine)
    (hp : m.input_position ≤ c.input_size) :
    (∀ a ∈ accesses c m, a.in_bounds c.input_size = true) ∧
    (∀ k, access.index k ∈ accesses_PATH_START c m → k < c.input_size) ∧
    (∀ k, access.index k ∈ accesses_PORT c m → k < c.input_size) ∧
    (∀ k, access.index k ∈ accesses_AUTHORITY c m → k < c.input_size) := by
  have hport : ∀ a ∈ accesses_PORT c m, a.in_bounds c.input_size = true := by
    intro a ha
    unfold accesses_PORT at ha
    simp only [] at ha
    rcases List.mem_cons.1 ha with rfl | ha
    · simpa [access.in_bounds] using hp
    split_ifs at ha
    · cases ha
    · refine guarded_read_in_bounds c _ ?_ a ha
      have := parse_port_consumed m.url (c.url_data.drop m.input_position) true
      simp only [List.length_drop, context.input_size] at this hp ⊢
      omega
  have hauth : ∀ a ∈ accesses_AUTHORITY c m, a.in_bounds c.input_size = true := by
    intro a ha
    unfold accesses_AUTHORITY at ha
    split_ifs at ha
    · cases ha
    · exact authority_accesses_in_bounds c _ _ _ hp a ha
  have hsub : (access.substr m.input_position).in_bounds c.input_size = true := by
    simpa [access.in_bounds] using hp
  have hidx : ∀ (l : List access), (∀ a ∈ l, a.in_bounds c.input_size = true) →
      ∀ k, access.index k ∈ l → k < c.input_size := by
    intro l hl k hk
    simpa [access.in_bounds] using hl _ hk
  refine ⟨?_, hidx _ (guarded_read_in_bounds c _ hp), hidx _ hport, hidx _ hauth⟩
  intro a ha
  obtain ⟨st, u, p⟩ := m
  simp only at hp hsub
  cases st <;> simp only [accesses] at ha
  case SCHEME_START => exact guarded_read_in_bounds c _ hp a ha
  case SCHEME =>
    unfold accesses_SCHEME at ha
    simp only [] at ha
    have hle := skip_while_le is_alnum_plus c.url_data p hp
    rcases List.mem_append.1 ha with ha | ha
    · rcases List.mem_append.1 ha with ha | ha
      · exact scan_accesses_in_bounds c _ p hp a ha
      · exact guarded_read_in_bounds c _ hle a ha
    · split_ifs at ha
      all_goals first
        | (cases ha
           done)
        | (rcases List.mem_cons.1 ha with h0 | ha2
           · rw [h0]
             simp [access.in_bounds]
           · first
             | (cases ha2
                done)
             | (rw [List.mem_singleton.1 ha2]
                simp only [access.in_bounds, decide_eq_true_eq]
                assumption))
  case NO_SCHEME => cases ha
  case AUTHORITY => exact hauth a ha
  case SPECIAL_RELATIVE_OR_AUTHORITY =>
    simp only [List.mem_singleton] at ha
    subst ha
    exact hsub
  case PATH_OR_AUTHORITY => exact guarded_read_in_bounds c _ hp a ha
  case RELATIVE_SCHEME => exact guarded_read_in_bounds c _ hp a ha
  case RELATIVE_SLASH => exact guarded_read_in_bounds c _ hp a ha
  case SPECIAL_AUTHORITY_SLASHES =>
    unfold accesses_SPECIAL_AUTHORITY_SLASHES accesses_SPECIAL_AUTHORITY_IGNORE_SLASHES at ha
    simp only [] at ha
    rcases List.mem_cons.1 ha with rfl | ha
    · exact hsub
    · refine scan_accesses_in_bounds c _ _ ?_ a ha
      split_ifs with h2
      · have h3 : (List.take 2 (List.drop p c.url_data)).length = 2 := by
          rw [beq_iff_eq.1 h2]
          rfl
        simp only [List.length_take, List.length_drop, context.input_size] at h3 hp ⊢
        omega
      · exact hp
  case SPECIAL_AUTHORITY_IGNORE_SLASHES =>
    exact scan_accesses_in_bounds c _ p hp a ha
  case QUERY =>
    split_ifs at ha
    · simp only [List.mem_singleton] at ha
      subst ha
      exact hsub
    · cases ha
  case HOST =>
    simp only [List.mem_singleton] at ha
    subst ha
    exact hsub
  case OPAQUE_PATH =>
    simp only [List.mem_singleton] at ha
    subst ha
    exact hsub
  case PORT => exact hport a ha
  case PATH_START => exact guarded_read_in_bounds c _ hp a ha
  case PATH =>
    simp only [List.mem_singleton] at ha
    subst ha
    exact hsub
  case FILE_SLASH =>
    unfold accesses_FILE_SLASH at ha
    rcases List.mem_append.1 ha with ha | ha
    · exact guarded_read_in_bounds c _ hp a ha
    · split_ifs at ha
      · cases ha
      · cases hb : c.base_url with
        | none => rw [hb] at ha; cases ha
        | some b =>
          rw [hb] at ha
          simp only [] at ha
          split_ifs at ha
          all_goals first
            | (cases ha
               done)
            | (rw [List.mem_singleton.1 ha]
               exact hsub)
  case FILE_HOST =>
    simp only [List.mem_singleton] at ha
    subst ha
    exact hsub
  case FILE =>
    rcases List.mem_cons.1 ha with rfl | ha
    · exact hsub
    · exact guarded_read_in_bounds c _ hp a ha

theorem no_out_of_bounds_read_witness :
    (9 ≤ (parse_context sample_env true
      ['h', 't', 't', 'p', ':', '/', '/', 'h', ':', '8', '0'] none).input_size) ∧
    accesses (parse_context sample_env true
        ['h', 't', 't', 'p', ':', '/', '/', 'h', ':', '8', '0'] none)
      ⟨state.PORT, ⟨true, false, scheme_type.HTTP, [], [], [], some ['h'], none, [], none,
        none⟩, 9⟩ = [access.substr 9] ∧
    accesses (parse_context sample_env true
        ['h', 't', 't', 'p', ':', '/', '/', 'h', ':', '8', '0', '/', 'x'] none)
      ⟨state.PORT, ⟨true, false, scheme_type.HTTP, [], [], [], some ['h'], none, [], none,
        none⟩, 9⟩ = [access.substr 9, access.index 11] ∧
    ∀ a ∈ accesses (parse_context sample_env true
        ['h', 't', 't', 'p', ':', '/', '/', 'h', ':', '8', '0'] none)
      ⟨state.PORT, ⟨true, false, scheme_type.HTTP, [], [], [], some ['h'], none, [], none,
        none⟩, 9⟩,
      a.in_bounds (parse_context sample_env true
        ['h', 't', 't', 'p', ':', '/', '/', 'h', ':', '8', '0'] none).input_size = true :=
  ⟨by decide, by decide, by decide,
    (no_out_of_bounds_read (parse_context sample_env true
        ['h', 't', 't', 'p', ':', '/', '/', 'h', ':', '8', '0'] none)
      ⟨state.PORT, ⟨true, false, scheme_type.HTTP, [], [], [], some ['h'], none, [], none,
        none⟩, 9⟩ (by decide)).1⟩

/-! ## C38: validation-only mode -/

theorem same_control_mk (v : Bool) (t : scheme_type) (o1 o2 : Bool) (n1 n2 a1 a2 b1 b2 : List Char)
    (h1 h2 : Option (List Char)) (p1 p2 : Option Nat) (q1 q2 : List Char)
    (r1 r2 s1 s2 : Option (List Char)) :
    same_control ⟨v, o1, t, n1, a1, b1, h1, p1, q1, r1, s1⟩
      ⟨v, o2, t, n2, a2, b2, h2, p2, q2, r2, s2⟩ := ⟨rfl, rfl⟩

theorem same_control_cases (u1 u2 : url) (h : same_control u1 u2) :
    ∃ v t o1 o2 n1 n2 a1 a2 b1 b2 h1 h2 p1 p2 q1 q2 r1 r2 s1 s2,
      u1 = ⟨v, o1, t, n1, a1, b1, h1, p1, q1, r1, s1⟩ ∧
      u2 = ⟨v, o2, t, n2, a2, b2, h2, p2, q2, r2, s2⟩ := by
  obtain ⟨v1, o1, t1, n1, a1, b1, h1, p1, q1, r1, s1⟩ := u1
  obtain ⟨v2, o2, t2, n2, a2, b2, h2, p2, q2, r2, s2⟩ := u2
  obtain ⟨e1, e2⟩ := h
  simp only at e1 e2
  subst e1 e2
  exact ⟨_, _, _, _, _, _, _, _, _, _, _, _, _, _, _, _, _, _, _, _, rfl, rfl⟩

theorem attach_fragment_control (c : context) (u : url) :
    same_control (attach_fragment c u) u := by
  unfold attach_fragment
  cases c.fragment <;> exact ⟨rfl, rfl⟩

theorem store_fragment_control (c : context) (u : url) :
    same_control (store_fragment c u) u := by
  unfold store_fragment
  split_ifs
  · exact attach_fragment_control c u
  · exact ⟨rfl, rfl⟩

theorem same_control_trans {u1 u2 u3 : url} (h1 : same_control u1 u2) (h2 : same_control u2 u3) :
    same_control u1 u3 := ⟨h1.1.trans h2.1, h1.2.trans h2.2⟩

theorem same_control_symm {u1 u2 : url} (h : same_control u1 u2) : same_control u2 u1 :=
  ⟨h.1.symm, h.2.symm⟩

theorem authority_prepend_at_control (u : url) (a b : Bool) :
    same_control (authority_prepend_at u a b) u := by
  unfold authority_prepend_at
  split_ifs <;> exact ⟨rfl, rfl⟩

theorem authority_append_view_control (c : context) (u : url) (v : List Char) (b : Bool) :
    same_control (authority_append_view c u v b) u := by
  unfold authority_append_view
  split_ifs
  · cases find v ':' <;> exact ⟨rfl, rfl⟩
  all_goals exact ⟨rfl, rfl⟩

theorem authority_loop_agrees (c1 c2 : context) (hc : c1.same_input c2) (fuel : Nat) :
    ∀ (u1 u2 : url) (p : Nat) (a b : Bool), same_control u1 u2 →
      (authority_loop c1 fuel u1 p a b).agrees (authority_loop c2 fuel u2 p a b) := by
  obtain ⟨he, hb, hd, hf⟩ := hc
  have hsz : c1.input_size = c2.input_size := by simp [context.input_size, hd]
  induction fuel with
  | zero => intro u1 u2 p a b _; simp [authority_loop, outcome.agrees]
  | succ n ih =>
    intro u1 u2 p a b h
    have hsp : u1.is_special = u2.is_special := by simp [url.is_special, h.2]
    rw [authority_loop, authority_loop]
    simp only [hd, hsz, hsp]
    have hA : ∀ v, same_control (authority_append_view c1 (authority_prepend_at u1 a b) v b)
        (authority_append_view c2 (authority_prepend_at u2 a b) v b) := fun v =>
      same_control_trans (same_control_trans (authority_append_view_control _ _ _ _)
          (same_control_trans (authority_prepend_at_control _ _ _) h))
          (same_control_symm (same_control_trans (authority_append_view_control _ _ _ _)
              (authority_prepend_at_control _ _ _)))
    have hF : ∀ v1 v2, same_control v1 v2 →
        same_control (store_fragment c1 v1) (store_fragment c2 v2) := fun v1 v2 hv =>
      same_control_trans (store_fragment_control _ _)
        (same_control_trans hv (same_control_symm (store_fragment_control _ _)))
    split_ifs
    all_goals first
      | exact hF _ _ (hA _)
      | exact ih _ _ _ _ _ (hA _)
      | exact ⟨rfl, h.2⟩
      | exact ⟨rfl, rfl, h⟩
      | exact hF _ _ h
      | exact ih _ _ _ _ _ h

theorem parse_host_control (env : environment) (u1 u2 : url) (v : List Char)
    (h : same_control u1 u2) :
    (u1.parse_host env v).1 = (u2.parse_host env v).1 ∧
      same_control (u1.parse_host env v).2 (u2.parse_host env v).2 := by
  have hsp : u1.is_special = u2.is_special := by simp [url.is_special, h.2]
  unfold url.parse_host
  rw [hsp]
  cases env.host_parse (!u2.is_special) v with
  | none => exact ⟨rfl, rfl, h.2⟩
  | some x => exact ⟨rfl, h.1, h.2⟩

theorem parse_port_control (u1 u2 : url) (v : List Char) (t : Bool) (h : same_control u1 u2) :
    (u1.parse_port v t).1 = (u2.parse_port v t).1 ∧
      same_control (u1.parse_port v t).2 (u2.parse_port v t).2 := by
  obtain ⟨vv, ty, o1, o2, n1, n2, a1, a2, b1, b2, h1, h2, p1, p2, q1, q2, r1, r2, s1, s2,
    rfl, rfl⟩ := same_control_cases u1 u2 h
  unfold url.parse_port
  simp only [url.is_special, url.scheme_default_port]
  split_ifs <;> exact ⟨rfl, rfl, rfl⟩

set_option maxHeartbeats 1000000 in
theorem step_agrees (c1 c2 : context) (hc : c1.same_input c2) (st : state) (u1 u2 : url)
    (p : Nat) (h : same_control u1 u2) :
    (step c1 ⟨st, u1, p⟩).agrees (step c2 ⟨st, u2, p⟩) := by
  have hloop := authority_loop_agrees c1 c2 hc
  obtain ⟨env1, sv1, base1, data1, fr1⟩ := c1
  obtain ⟨env2, sv2, base2, data2, fr2⟩ := c2
  obtain ⟨he, hb, hd, hf⟩ := hc
  simp only at he hb hd hf
  subst he hb hd hf
  have hhost := fun v => parse_host_control env1 u1 u2 v h
  have hport := fun v t => parse_port_control u1 u2 v t h
  have hsp : u1.is_special = u2.is_special := by simp [url.is_special, h.2]
  cases st
  case AUTHORITY =>
    simp only [step, state_AUTHORITY, context.input_size]
    split_ifs
    · exact ⟨rfl, rfl, h⟩
    · exact hloop _ _ _ _ _ _ h
  case HOST =>
    simp only [step, state_HOST, context.input_size, hsp]
    have h1 := hhost (List.take (get_host_delimiter_location u2.is_special (List.drop p data1)).1
      (List.drop p data1))
    rw [h1.1]
    split_ifs
    all_goals first
      | exact h1.2
      | exact ⟨rfl, rfl, h1.2⟩
      | exact ⟨rfl, h.2⟩
      | exact ⟨rfl, rfl, h.1, h.2⟩
  case FILE_HOST =>
    simp only [step, state_FILE_HOST, context.input_size]
    have h1 := hhost (List.take (find_first (fun ch => ch == '/' || ch == '\\' || ch == '?')
      (List.drop p data1)) (List.drop p data1))
    rw [h1.1]
    split_ifs
    all_goals first
      | exact h1.2
      | exact ⟨rfl, rfl, h1.2⟩
      | exact ⟨rfl, rfl, h1.2.1, h1.2.2⟩
      | exact ⟨rfl, rfl, h⟩
  case PORT =>
    simp only [step, state_PORT, state_PATH_START, context.input_size]
    have h1 := hport (List.drop p data1) true
    have hsp2 : (u1.parse_port (List.drop p data1) true).2.is_special =
        (u2.parse_port (List.drop p data1) true).2.is_special := by
      simp [url.is_special, h1.2.2]
    rw [h1.1, h1.2.1, hsp2]
    have hu : ∀ x, same_control ((u1.parse_port (List.drop p data1) true).2.update_base_pathname x)
        ((u2.parse_port (List.drop p data1) true).2.update_base_pathname x) :=
      fun x => ⟨h1.2.1, h1.2.2⟩
    split_ifs
    all_goals first
      | exact h1.2
      | exact ⟨rfl, rfl, h1.2⟩
      | exact same_control_trans (attach_fragment_control _ _)
          (same_control_trans (hu _) (same_control_symm (attach_fragment_control _ _)))
      | exact same_control_trans (attach_fragment_control _ _) (hu _)
      | exact same_control_trans (hu _) (same_control_symm (attach_fragment_control _ _))
      | exact same_control_trans (attach_fragment_control _ _) ⟨h1.2.1, h1.2.2⟩
      | exact same_control_trans ⟨h1.2.1, h1.2.2⟩ (same_control_symm (attach_fragment_control _ _))
  case SCHEME_START =>
    obtain ⟨vv, ty, o1, o2, n1, n2, a1, a2, b1, b2, h1, h2, p1, p2, q1, q2, r1, r2, s1, s2,
      rfl, rfl⟩ := same_control_cases u1 u2 h
    simp only [step, state_SCHEME_START, context.input_size, url.is_special, url.copy_scheme,
      url.set_protocol_as_file, url.update_base_pathname, url.update_base_search,
      url.clear_search, url.clear_pathname, url.parse_scheme, url.get_pathname]
    repeat' split
    all_goals first
      | exact ⟨rfl, rfl⟩
      | exact ⟨rfl, rfl, rfl, rfl⟩
      | trivial
      | exact same_control_trans (attach_fragment_control _ _)
          (same_control_trans ⟨rfl, rfl⟩ (same_control_symm (attach_fragment_control _ _)))
      | exact same_control_trans (attach_fragment_control _ _) ⟨rfl, rfl⟩
      | exact same_control_trans ⟨rfl, rfl⟩ (same_control_symm (attach_fragment_control _ _))
      | skip
  case SCHEME =>
    obtain ⟨vv, ty, o1, o2, n1, n2, a1, a2, b1, b2, h1, h2, p1, p2, q1, q2, r1, r2, s1, s2,
      rfl, rfl⟩ := same_control_cases u1 u2 h
    simp only [step, state_SCHEME, context.input_size, url.is_special, url.copy_scheme,
      url.set_protocol_as_file, url.update_base_pathname, url.update_base_search,
      url.clear_search, url.clear_pathname, url.parse_scheme, url.get_pathname]
    repeat' split
    all_goals first
      | exact ⟨rfl, rfl⟩
      | exact ⟨rfl, rfl, rfl, rfl⟩
      | trivial
      | exact same_control_trans (attach_fragment_control _ _)
          (same_control_trans ⟨rfl, rfl⟩ (same_control_symm (attach_fragment_control _ _)))
      | exact same_control_trans (attach_fragment_control _ _) ⟨rfl, rfl⟩
      | exact same_control_trans ⟨rfl, rfl⟩ (same_control_symm (attach_fragment_control _ _))
      | skip
  case NO_SCHEME =>
    obtain ⟨vv, ty, o1, o2, n1, n2, a1, a2, b1, b2, h1, h2, p1, p2, q1, q2, r1, r2, s1, s2,
      rfl, rfl⟩ := same_control_cases u1 u2 h
    simp only [step, state_NO_SCHEME, context.input_size, url.is_special, url.copy_scheme,
      url.set_protocol_as_file, url.update_base_pathname, url.update_base_search,
      url.clear_search, url.clear_pathname, url.parse_scheme, url.get_pathname]
    repeat' split
    all_goals first
      | exact ⟨rfl, rfl⟩
      | exact ⟨rfl, rfl, rfl, rfl⟩
      | trivial
      | exact same_control_trans (attach_fragment_control _ _)
          (same_control_trans ⟨rfl, rfl⟩ (same_control_symm (attach_fragment_control _ _)))
      | exact same_control_trans (attach_fragment_control _ _) ⟨rfl, rfl⟩
      | exact same_control_trans ⟨rfl, rfl⟩ (same_control_symm (attach_fragment_control _ _))
      | skip
  case SPECIAL_RELATIVE_OR_AUTHORITY =>
    obtain ⟨vv, ty, o1, o2, n1, n2, a1, a2, b1, b2, h1, h2, p1, p2, q1, q2, r1, r2, s1, s2,
      rfl, rfl⟩ := same_control_cases u1 u2 h
    simp only [step, state_SPECIAL_RELATIVE_OR_AUTHORITY, context.input_size, url.is_special, url.copy_scheme,
      url.set_protocol_as_file, url.update_base_pathname, url.update_base_search,
      url.clear_search, url.clear_pathname, url.parse_scheme, url.get_pathname]
    repeat' split
    all_goals first
      | exact ⟨rfl, rfl⟩
      | exact ⟨rfl, rfl, rfl, rfl⟩
      | trivial
      | exact same_control_trans (attach_fragment_control _ _)
          (same_control_trans ⟨rfl, rfl⟩ (same_control_symm (attach_fragment_control _ _)))
      | exact same_control_trans (attach_fragment_control _ _) ⟨rfl, rfl⟩
      | exact same_control_trans ⟨rfl, rfl⟩ (same_control_symm (attach_fragment_control _ _))
      | skip
  case PATH_OR_AUTHORITY =>
    obtain ⟨vv, ty, o1, o2, n1, n2, a1, a2, b1, b2, h1, h2, p1, p2, q1, q2, r1, r2, s1, s2,
      rfl, rfl⟩ := same_control_cases u1 u2 h
    simp only [step, state_PATH_OR_AUTHORITY, context.input_size, url.is_special, url.copy_scheme,
      url.set_protocol_as_file, url.update_base_pathname, url.update_base_search,
      url.clear_search, url.clear_pathname, url.parse_scheme, url.get_pathname]
    repeat' split
    all_goals first
      | exact ⟨rfl, rfl⟩
      | exact ⟨rfl, rfl, rfl, rfl⟩
      | trivial
      | exact same_control_trans (attach_fragment_control _ _)
          (same_control_trans ⟨rfl, rfl⟩ (same_control_symm (attach_fragment_control _ _)))
      | exact same_control_trans (attach_fragment_control _ _) ⟨rfl, rfl⟩
      | exact same_control_trans ⟨rfl, rfl⟩ (same_control_symm (attach_fragment_control _ _))
      | skip
  case RELATIVE_SCHEME =>
    obtain ⟨vv, ty, o1, o2, n1, n2, a1, a2, b1, b2, h1, h2, p1, p2, q1, q2, r1, r2, s1, s2,
      rfl, rfl⟩ := same_control_cases u1 u2 h
    simp only [step, state_RELATIVE_SCHEME, context.input_size, url.is_special, url.copy_scheme,
      url.set_protocol_as_file, url.update_base_pathname, url.update_base_search,
      url.clear_search, url.clear_pathname, url.parse_scheme, url.get_pathname]
    repeat' split
    all_goals first
      | exact ⟨rfl, rfl⟩
      | exact ⟨rfl, rfl, rfl, rfl⟩
      | trivial
      | exact same_control_trans (attach_fragment_control _ _)
          (same_control_trans ⟨rfl, rfl⟩ (same_control_symm (attach_fragment_control _ _)))
      | exact same_control_trans (attach_fragment_control _ _) ⟨rfl, rfl⟩
      | exact same_control_trans ⟨rfl, rfl⟩ (same_control_symm (attach_fragment_control _ _))
      | skip
  case RELATIVE_SLASH =>
    obtain ⟨vv, ty, o1, o2, n1, n2, a1, a2, b1, b2, h1, h2, p1, p2, q1, q2, r1, r2, s1, s2,
      rfl, rfl⟩ := same_control_cases u1 u2 h
    simp only [step, state_RELATIVE_SLASH, context.input_size, url.is_special, url.copy_scheme,
      url.set_protocol_as_file, url.update_base_pathname, url.update_base_search,
      url.clear_search, url.clear_pathname, url.parse_scheme, url.get_pathname]
    repeat' split
    all_goals first
      | exact ⟨rfl, rfl⟩
      | exact ⟨rfl, rfl, rfl, rfl⟩
      | trivial
      | exact same_control_trans (attach_fragment_control _ _)
          (same_control_trans ⟨rfl, rfl⟩ (same_control_symm (attach_fragment_control _ _)))
      | exact same_control_trans (attach_fragment_control _ _) ⟨rfl, rfl⟩
      | exact same_control_trans ⟨rfl, rfl⟩ (same_control_symm (attach_fragment_control _ _))
      | skip
  case SPECIAL_AUTHORITY_SLASHES =>
    obtain ⟨vv, ty, o1, o2, n1, n2, a1, a2, b1, b2, h1, h2, p1, p2, q1, q2, r1, r2, s1, s2,
      rfl, rfl⟩ := same_control_cases u1 u2 h
    simp only [step, state_SPECIAL_AUTHORITY_SLASHES, state_SPECIAL_AUTHORITY_IGNORE_SLASHES, context.input_size, url.is_special, url.copy_scheme,
      url.set_protocol_as_file, url.update_base_pathname, url.update_base_search,
      url.clear_search, url.clear_pathname, url.parse_scheme, url.get_pathname]
    repeat' split
    all_goals first
      | exact ⟨rfl, rfl⟩
      | exact ⟨rfl, rfl, rfl, rfl⟩
      | trivial
      | exact same_control_trans (attach_fragment_control _ _)
          (same_control_trans ⟨rfl, rfl⟩ (same_control_symm (attach_fragment_control _ _)))
      | exact same_control_trans (attach_fragment_control _ _) ⟨rfl, rfl⟩
      | exact same_control_trans ⟨rfl, rfl⟩ (same_control_symm (attach_fragment_control _ _))
      | skip
  case SPECIAL_AUTHORITY_IGNORE_SLASHES =>
    obtain ⟨vv, ty, o1, o2, n1, n2, a1, a2, b1, b2, h1, h2, p1, p2, q1, q2, r1, r2, s1, s2,
      rfl, rfl⟩ := same_control_cases u1 u2 h
    simp only [step, state_SPECIAL_AUTHORITY_IGNORE_SLASHES, context.input_size, url.is_special, url.copy_scheme,
      url.set_protocol_as_file, url.update_base_pathname, url.update_base_search,
      url.clear_search, url.clear_pathname, url.parse_scheme, url.get_pathname]
    repeat' split
    all_goals first
      | exact ⟨rfl, rfl⟩
      | exact ⟨rfl, rfl, rfl, rfl⟩
      | trivial
      | exact same_control_trans (attach_fragment_control _ _)
          (same_control_trans ⟨rfl, rfl⟩ (same_control_symm (attach_fragment_control _ _)))
      | exact same_control_trans (attach_fragment_control _ _) ⟨rfl, rfl⟩
      | exact same_control_trans ⟨rfl, rfl⟩ (same_control_symm (attach_fragment_control _ _))
      | skip
  case QUERY =>
    obtain ⟨vv, ty, o1, o2, n1, n2, a1, a2, b1, b2, h1, h2, p1, p2, q1, q2, r1, r2, s1, s2,
      rfl, rfl⟩ := same_control_cases u1 u2 h
    simp only [step, state_QUERY, context.input_size, url.is_special, url.copy_scheme,
      url.set_protocol_as_file, url.update_base_pathname, url.update_base_search,
      url.clear_search, url.clear_pathname, url.parse_scheme, url.get_pathname]
    repeat' split
    all_goals first
      | exact ⟨rfl, rfl⟩
      | exact ⟨rfl, rfl, rfl, rfl⟩
      | trivial
      | exact same_control_trans (attach_fragment_control _ _)
          (same_control_trans ⟨rfl, rfl⟩ (same_control_symm (attach_fragment_control _ _)))
      | exact same_control_trans (attach_fragment_control _ _) ⟨rfl, rfl⟩
      | exact same_control_trans ⟨rfl, rfl⟩ (same_control_symm (attach_fragment_control _ _))
      | skip
  case OPAQUE_PATH =>
    obtain ⟨vv, ty, o1, o2, n1, n2, a1, a2, b1, b2, h1, h2, p1, p2, q1, q2, r1, r2, s1, s2,
      rfl, rfl⟩ := same_control_cases u1 u2 h
    simp only [step, state_OPAQUE_PATH, context.input_size, url.is_special, url.copy_scheme,
      url.set_protocol_as_file, url.update_base_pathname, url.update_base_search,
      url.clear_search, url.clear_pathname, url.parse_scheme, url.get_pathname]
    repeat' split
    all_goals first
      | exact ⟨rfl, rfl⟩
      | exact ⟨rfl, rfl, rfl, rfl⟩
      | trivial
      | exact same_control_trans (attach_fragment_control _ _)
          (same_control_trans ⟨rfl, rfl⟩ (same_control_symm (attach_fragment_control _ _)))
      | exact same_control_trans (attach_fragment_control _ _) ⟨rfl, rfl⟩
      | exact same_control_trans ⟨rfl, rfl⟩ (same_control_symm (attach_fragment_control _ _))
      | skip
  case PATH_START =>
    obtain ⟨vv, ty, o1, o2, n1, n2, a1, a2, b1, b2, h1, h2, p1, p2, q1, q2, r1, r2, s1, s2,
      rfl, rfl⟩ := same_control_cases u1 u2 h
    simp only [step, state_PATH_START, context.input_size, url.is_special, url.copy_scheme,
      url.set_protocol_as_file, url.update_base_pathname, url.update_base_search,
      url.clear_search, url.clear_pathname, url.parse_scheme, url.get_pathname]
    repeat' split
    all_goals first
      | exact ⟨rfl, rfl⟩
      | exact ⟨rfl, rfl, rfl, rfl⟩
      | trivial
      | exact same_control_trans (attach_fragment_control _ _)
          (same_control_trans ⟨rfl, rfl⟩ (same_control_symm (attach_fragment_control _ _)))
      | exact same_control_trans (attach_fragment_control _ _) ⟨rfl, rfl⟩
      | exact same_control_trans ⟨rfl, rfl⟩ (same_control_symm (attach_fragment_control _ _))
      | skip
  case PATH =>
    obtain ⟨vv, ty, o1, o2, n1, n2, a1, a2, b1, b2, h1, h2, p1, p2, q1, q2, r1, r2, s1, s2,
      rfl, rfl⟩ := same_control_cases u1 u2 h
    simp only [step, state_PATH, context.input_size, url.is_special, url.copy_scheme,
      url.set_protocol_as_file, url.update_base_pathname, url.update_base_search,
      url.clear_search, url.clear_pathname, url.parse_scheme, url.get_pathname]
    repeat' split
    all_goals first
      | exact ⟨rfl, rfl⟩
      | exact ⟨rfl, rfl, rfl, rfl⟩
      | trivial
      | exact same_control_trans (attach_fragment_control _ _)
          (same_control_trans ⟨rfl, rfl⟩ (same_control_symm (attach_fragment_control _ _)))
      | exact same_control_trans (attach_fragment_control _ _) ⟨rfl, rfl⟩
      | exact same_control_trans ⟨rfl, rfl⟩ (same_control_symm (attach_fragment_control _ _))
      | skip
  case FILE_SLASH =>
    obtain ⟨vv, ty, o1, o2, n1, n2, a1, a2, b1, b2, h1, h2, p1, p2, q1, q2, r1, r2, s1, s2,
      rfl, rfl⟩ := same_control_cases u1 u2 h
    simp only [step, state_FILE_SLASH, context.input_size, url.is_special, url.copy_scheme,
      url.set_protocol_as_file, url.update_base_pathname, url.update_base_search,
      url.clear_search, url.clear_pathname, url.parse_scheme, url.get_pathname]
    repeat' split
    all_goals first
      | exact ⟨rfl, rfl⟩
      | exact ⟨rfl, rfl, rfl, rfl⟩
      | trivial
      | exact same_control_trans (attach_fragment_control _ _)
          (same_control_trans ⟨rfl, rfl⟩ (same_control_symm (attach_fragment_control _ _)))
      | exact same_control_trans (attach_fragment_control _ _) ⟨rfl, rfl⟩
      | exact same_control_trans ⟨rfl, rfl⟩ (same_control_symm (attach_fragment_control _ _))
      | skip
  case FILE =>
    obtain ⟨vv, ty, o1, o2, n1, n2, a1, a2, b1, b2, h1, h2, p1, p2, q1, q2, r1, r2, s1, s2,
      rfl, rfl⟩ := same_control_cases u1 u2 h
    simp only [step, state_FILE, context.input_size, url.is_special, url.copy_scheme,
      url.set_protocol_as_file, url.update_base_pathname, url.update_base_search,
      url.clear_search, url.clear_pathname, url.parse_scheme, url.get_pathname]
    repeat' split
    all_goals first
      | exact ⟨rfl, rfl⟩
      | exact ⟨rfl, rfl, rfl, rfl⟩
      | trivial
      | exact same_control_trans (attach_fragment_control _ _)
          (same_control_trans ⟨rfl, rfl⟩ (same_control_symm (attach_fragment_control _ _)))
      | exact same_control_trans (attach_fragment_control _ _) ⟨rfl, rfl⟩
      | exact same_control_trans ⟨rfl, rfl⟩ (same_control_symm (attach_fragment_control _ _))
      | skip

theorem run_agrees (c1 c2 : context) (hc : c1.same_input c2) (f : Nat) :
    ∀ (st : state) (u1 u2 : url) (p : Nat), same_control u1 u2 →
      (run c1 f ⟨st, u1, p⟩).map (fun u => u.is_valid) =
        (run c2 f ⟨st, u2, p⟩).map (fun u => u.is_valid) := by
  have hsz : c1.input_size = c2.input_size := by simp [context.input_size, hc.2.2.1]
  induction f with
  | zero => intro st u1 u2 p _; rfl
  | succ n ih =>
    intro st u1 u2 p h
    rw [run_succ, run_succ]
    simp only [hsz]
    split_ifs with hp
    · have hs := step_agrees c1 c2 hc st u1 u2 p h
      cases h1 : step c1 ⟨st, u1, p⟩ with
      | returned v1 =>
        cases h2 : step c2 ⟨st, u2, p⟩ with
        | returned v2 =>
          rw [h1, h2] at hs
          simp only [Option.map_some', Option.some.injEq]
          exact hs.1
        | next m2 => rw [h1, h2] at hs; exact absurd hs (by simp [outcome.agrees])
        | undefined => rw [h1, h2] at hs; exact absurd hs (by simp [outcome.agrees])
      | next m1 =>
        cases h2 : step c2 ⟨st, u2, p⟩ with
        | returned v2 => rw [h1, h2] at hs; exact absurd hs (by simp [outcome.agrees])
        | next m2 =>
          rw [h1, h2] at hs
          obtain ⟨s1, w1, q1⟩ := m1
          obtain ⟨s2, w2, q2⟩ := m2
          obtain ⟨e1, e2, e3⟩ := hs
          simp only at e1 e2 e3
          subst e1 e2
          exact ih _ _ _ _ e3
        | undefined => rw [h1, h2] at hs; exact absurd hs (by simp [outcome.agrees])
      | undefined =>
        cases h2 : step c2 ⟨st, u2, p⟩ with
        | returned v2 => rw [h1, h2] at hs; exact absurd hs (by simp [outcome.agrees])
        | next m2 => rw [h1, h2] at hs; exact absurd hs (by simp [outcome.agrees])
        | undefined => rfl
    · simp only [Option.map_some', Option.some.injEq]
      exact (same_control_trans (store_fragment_control _ _)
        (same_control_trans h (same_control_symm (store_fragment_control _ _)))).1

/-- C38. Validation-only mode agrees with full parsing: for every
environment, input and base, `parse_url_impl` with `store_values = false` and
with `store_values = true` both return a record, and the two records have the
same `is_valid`. -/
theorem validation_mode_agrees (env : environment) (input : List Char) (base : Option url) :
    ∃ u1 u2, parse_url_impl env false input base = some u1 ∧
      parse_url_impl env true input base = some u2 ∧ u1.is_valid = u2.is_valid := by
  obtain ⟨u1, h1⟩ := parse_url_impl_total env false input base
  obtain ⟨u2, h2⟩ := parse_url_impl_total env true input base
  refine ⟨u1, u2, h1, h2, ?_⟩
  by_cases hl : input.length ≤ 4294967295
  · rw [parse_url_impl_small env false input base hl] at h1
    rw [parse_url_impl_small env true input base hl] at h2
    split_ifs at h1 h2
    · have key := run_agrees (parse_context env false input base)
        (parse_context env true input base) ⟨rfl, rfl, rfl, rfl⟩ loop_bound state.SCHEME_START
        initial_url initial_url 0 ⟨rfl, rfl⟩
      rw [h1, h2] at key
      simpa using key
    · cases h1
      cases h2
      rfl
  · rw [parse_url_impl_oversized env false input base (by omega)] at h1
    rw [parse_url_impl_oversized env true input base (by omega)] at h2
    cases h1
    cases h2
    rfl

end ada
